import Mathlib

/-!
Converge: versioning engine.

A shallow embedding of the converge versioning engine (blob store, snapshotter,
metadata database, cell pipeline, branch manager, restore engine) and the
properties established about it.

Conventions of the embedding.

* Go `string` values that name things (ids, branch names, paths, messages) are
  Lean `String`s; file contents are byte lists.
* The file system is a finite map from cleaned paths, relative to the project
  directory, to file nodes.  Directories are implicit: a path is a directory
  when some file lies strictly below it.  Permission bits are recorded, never
  enforced, and the umask is 0.  Every path names its own file (no hard
  links), and symbolic links are nodes that no operation follows: a read or a
  write that would go through one is outside the model and shows as an error.
* The SQLite database is a record of tables (lists of rows); every statement
  checks the primary-key, unique and foreign-key constraints of the schema in
  `db.go`, and a transaction that fails leaves the database as it was.
  SQL `INTEGER` and Go `int` are integers without bound, except where a value
  is computed past the largest 64-bit integer: the sequence counter
  (`AllocateSequence`) and the context of a diff.
* `time.Now()` and the SHA-256 digest are inputs of the operations that use
  them.
-/

set_option autoImplicit false

namespace Converge

/-! ## Bytes, hex encoding, Go string helpers -/

abbrev Bytes := List UInt8

/-- A SHA-256 digest: `[32]byte`. -/
abbrev Digest := { d : List UInt8 // d.length = 32 }

/-- The table of `encoding/hex`. -/
def hextable : List Char :=
  ['0', '1', '2', '3', '4', '5', '6', '7', '8', '9', 'a', 'b', 'c', 'd', 'e', 'f']

def hexDigit (n : Nat) : Char := hextable.getD n '0'

/-- Go `hex.EncodeToString`: two digits per byte, high nibble first. -/
def EncodeToString (src : Bytes) : String :=
  String.mk (src.flatMap fun b => [hexDigit (b.toNat / 16), hexDigit (b.toNat % 16)])

/-- Go `unicode.IsSpace`. -/
def isSpace (c : Char) : Bool :=
  let n := c.toNat
  (9 ≤ n && n ≤ 13) || n = 32 || n = 133 || n = 160 || n = 5760 ||
  (8192 ≤ n && n ≤ 8202) || n = 8232 || n = 8233 || n = 8239 || n = 8287 || n = 12288

def trimLeft (cs : List Char) : List Char := cs.dropWhile isSpace

def trimRight (cs : List Char) : List Char := (trimLeft cs.reverse).reverse

/-- Go `strings.TrimSpace`. -/
def TrimSpace (s : String) : String := String.mk (trimRight (trimLeft s.data))

/-! ## String order

Go compares strings byte by byte (as SQLite does under `ORDER BY` with the
binary collation); on UTF-8 text that is the order of the lists of code points.
The two instances decide `<` and `≤` on strings through those lists, so that
comparisons evaluate by unfolding. -/

instance stringDecLt : @DecidableRel String (· < ·) :=
  fun a b => decidable_of_iff (a.toList < b.toList) String.lt_iff_toList_lt.symm

instance stringDecLe : @DecidableRel String (· ≤ ·) :=
  fun a b => decidable_of_iff (¬ b.toList < a.toList) (not_congr String.lt_iff_toList_lt.symm)

/-! ## Paths -/

/-- A cleaned path relative to the project directory, as its components. -/
abbrev Path := List String

/-- Splits a list of characters at every `/`. -/
def splitSlash : List Char → List (List Char)
  | [] => [[]]
  | c :: cs =>
    if c = '/' then [] :: splitSlash cs
    else
      match splitSlash cs with
      | [] => [[c]]
      | w :: ws => (c :: w) :: ws

/-- One step of Go `filepath.Clean` on a relative path, the components seen so
far kept in reverse: empty and `.` components vanish, `..` removes the
component before it when there is one that is not itself `..`. -/
def cleanStep (acc : List String) (c : String) : List String :=
  if c = "" ∨ c = "." then acc
  else if c = ".." then
    match acc with
    | [] => [".."]
    | top :: rest => if top = ".." then ".." :: acc else rest
  else c :: acc

def cleanComponents (cs : List String) : Path := (cs.foldl cleanStep []).reverse

def components (s : String) : List String := (splitSlash s.data).map String.mk

/-- Go `filepath.Join` of the project directory with `elems`, read relative to
the project directory. -/
def Join (elems : List String) : Path := cleanComponents (elems.flatMap components)

/-! ## File system -/

structure FileNode where
  data : Bytes
  mode : Nat
  symlink : Bool
deriving DecidableEq, Repr, Inhabited

abbrev FS := List (Path × FileNode)

inductive FsError where
  | notExist
  | other
deriving DecidableEq, Repr, Inhabited

def FS.lookup (fs : FS) (p : Path) : Option FileNode :=
  (fs.find? fun e => e.1 = p).map Prod.snd

/-- The path is a directory: the project root, or some file lies strictly below it. -/
def FS.isDir (fs : FS) (p : Path) : Bool :=
  p = [] || fs.any fun e => p.isPrefixOf e.1 && decide (e.1 ≠ p)

/-- Go `os.Stat(path)` returns no error. -/
def FS.exist (fs : FS) (p : Path) : Bool := (fs.lookup p).isSome || fs.isDir p

/-- Some strict ancestor of the path is a file. -/
def FS.blocked (fs : FS) (p : Path) : Bool :=
  fs.any fun e => e.1.isPrefixOf p && decide (e.1 ≠ p)

def FS.erase (fs : FS) (p : Path) : FS := fs.filter fun e => decide (e.1 ≠ p)

def FS.set (fs : FS) (p : Path) (node : FileNode) : FS := (p, node) :: fs.erase p

/-- Go `os.MkdirAll(dir)`: fails when the directory or one of its ancestors is a file. -/
def MkdirAll (fs : FS) (dir : Path) : Except FsError FS :=
  if (fs.lookup dir).isSome || fs.blocked dir then .error .other else .ok fs

/-- Go `os.WriteFile(path, data, perm)`: an existing file keeps its mode, a new
file gets `perm` (the umask is 0). Links are not followed: a write through a
symbolic link is outside the model and is reported as an error. -/
def WriteFile (fs : FS) (p : Path) (data : Bytes) (perm : Nat) : Except FsError FS :=
  if fs.isDir p || fs.blocked p then .error .other
  else
    match fs.lookup p with
    | some old =>
      if old.symlink then .error .other
      else .ok (fs.set p { data := data, mode := old.mode, symlink := false })
    | none => .ok (fs.set p { data := data, mode := perm, symlink := false })

/-- Go `os.ReadFile(path)`. -/
def ReadFile (fs : FS) (p : Path) : Except FsError Bytes :=
  match fs.lookup p with
  | some node => if node.symlink then .error .other else .ok node.data
  | none => if fs.isDir p then .error .other else .error .notExist

/-- Go `os.Remove(path)`: removes a file; a directory that still has entries is an error. -/
def Remove (fs : FS) (p : Path) : Except FsError FS :=
  match fs.lookup p with
  | some _ => .ok (fs.erase p)
  | none => if fs.isDir p then .error .other else .error .notExist

/-! ## Blob store (`internal/store/store.go`) -/

structure Store where
  root : String
deriving DecidableEq, Repr, Inhabited

def Store.blobPath (s : Store) (hash : String) : Path :=
  if hash.length < 2 then Join [s.root, hash]
  else Join [s.root, String.mk (hash.data.take 2), hash]

def Store.Has (s : Store) (fs : FS) (hash : String) : Bool := fs.exist (s.blobPath hash)

/-- `Store.Write`; the file system is returned on success and on failure. -/
def Store.Write (sum256 : Bytes → Digest) (s : Store) (fs : FS) (data : Bytes) :
    Except String String × FS :=
  let digest := sum256 data
  let hash := EncodeToString digest.val
  if s.Has fs hash then (.ok hash, fs)
  else
    let path := s.blobPath hash
    match MkdirAll fs path.dropLast with
    | .error _ => (.error "create object dir", fs)
    | .ok fs1 =>
      match WriteFile fs1 path data 0o444 with
      | .error _ => (.error ("write object " ++ hash), fs1)
      | .ok fs2 => (.ok hash, fs2)

def Store.Read (s : Store) (fs : FS) (hash : String) : Except String Bytes :=
  match ReadFile fs (s.blobPath hash) with
  | .error _ => .error ("read object " ++ hash)
  | .ok data => .ok data

/-! ## Metadata database (`internal/db`) -/

structure Cell where
  ID : String
  Sequence : Int
  ParentID : Option String
  Timestamp : String
  Message : String
  Source : String
  Agent : Option String
  Tags : Option String
  Branch : String
  FilesAdded : Int
  FilesModified : Int
  FilesRemoved : Int
  LinesAdded : Int
  LinesRemoved : Int
  TotalLOC : Int
  LOCDelta : Int
  TotalFiles : Int
  EvalRequested : Bool
  EvalRan : Bool
  TestsPassed : Option Int
  TestsFailed : Option Int
  LintErrors : Option Int
  TypeErrors : Option Int
  EvalSkipped : Option String
  EvalError : Option String
deriving DecidableEq, Repr, Inhabited

structure Branch where
  Name : String
  HeadCellID : Option String
  CreatedAt : String
deriving DecidableEq, Repr, Inhabited

structure ManifestEntry where
  CellID : String
  Path : String
  Hash : String
  Mode : Int
  Size : Int
deriving DecidableEq, Repr, Inhabited

structure AgentRun where
  RunID : String
  Agent : String
  Message : String
  Tags : Option String
  Source : String
  Status : String
  Branch : Option String
  CellID : Option String
  Error : Option String
  CreatedAt : String
  UpdatedAt : String
deriving DecidableEq, Repr, Inhabited

/-- The tables of `converge.db`. `lastSequence` is the `last_sequence` of the row
named `default` of `cell_sequences`, the only row the code reads or writes;
`none` when the row is absent. -/
structure DB where
  cells : List Cell
  manifestEntries : List ManifestEntry
  branches : List Branch
  meta : List (String × String)
  lastSequence : Option Int
  agentRuns : List AgentRun
deriving DecidableEq, Repr, Inhabited

inductive DbError where
  | notFound
  | failed (msg : String)
deriving DecidableEq, Repr, Inhabited

/-- Go `err.Error()`. -/
def DbError.text : DbError → String
  | .notFound => "not found"
  | .failed msg => msg

def defaultBranchName : String := "main"

def DB.cellIDs (d : DB) : List String := d.cells.map Cell.ID

/-- A nullable `REFERENCES cells(id)` column holds NULL or the id of a stored cell. -/
def DB.refOK (d : DB) (ref : Option String) : Bool :=
  match ref with
  | none => true
  | some id => decide (id ∈ d.cellIDs)

/-- `insertCell`: `id` is the primary key, `sequence` is unique, `parent_id`
references `cells(id)` (the new row itself included). -/
def insertCell (d : DB) (cell : Cell) : Except DbError DB :=
  if cell.ID ∈ d.cellIDs then .error (.failed "insert cell")
  else if cell.Sequence ∈ d.cells.map Cell.Sequence then .error (.failed "insert cell")
  else
    let d1 := { d with cells := d.cells ++ [cell] }
    if d1.refOK cell.ParentID then .ok d1 else .error (.failed "insert cell")

def syncSequenceAllocatorTx (d : DB) (sequence : Int) : DB :=
  let last := d.lastSequence.getD 0
  { d with lastSequence := some (if last < sequence then sequence else last) }

/-- One `INSERT INTO manifest_entries`: `(cell_id, path)` is the primary key and
`cell_id` references `cells(id)`. -/
def insertManifestEntry (d : DB) (e : ManifestEntry) : Except DbError DB :=
  if d.manifestEntries.any (fun x => x.CellID = e.CellID ∧ x.Path = e.Path) then
    .error (.failed ("insert manifest entry " ++ e.Path))
  else if e.CellID ∈ d.cellIDs then
    .ok { d with manifestEntries := d.manifestEntries ++ [e] }
  else .error (.failed ("insert manifest entry " ++ e.Path))

def insertManifest (d : DB) : List ManifestEntry → Except DbError DB
  | [] => .ok d
  | e :: es =>
    match insertManifestEntry d e with
    | .error err => .error err
    | .ok d1 => insertManifest d1 es

/-- The statement `INSERT INTO branches ... ON CONFLICT(name) DO UPDATE SET head_cell_id`. -/
def upsertBranchHeadTx (d : DB) (branch headCellID createdAt : String) : Except DbError DB :=
  if headCellID ∈ d.cellIDs then
    if d.branches.any (fun b => b.Name = branch) then
      .ok { d with branches := d.branches.map fun b =>
              if b.Name = branch then { b with HeadCellID := some headCellID } else b }
    else
      .ok { d with branches := d.branches ++
              [{ Name := branch, HeadCellID := some headCellID, CreatedAt := createdAt }] }
  else .error (.failed ("upsert branch head " ++ branch))

/-- The statement `INSERT OR REPLACE INTO meta`. -/
def setMetaTx (d : DB) (key value : String) : DB :=
  { d with meta := (d.meta.filter fun kv => decide (kv.1 ≠ key)) ++ [(key, value)] }

/-- `DB.InsertCellWithManifestAndAdvanceBranch`; `now` is the reading of the clock.
An error leaves the database as it was (the transaction is rolled back). -/
def DB.InsertCellWithManifestAndAdvanceBranch (now : String) (d : DB) (cell : Cell)
    (entries : List ManifestEntry) : Except DbError DB :=
  let branch := TrimSpace cell.Branch
  let branch := if branch = "" then defaultBranchName else branch
  let cell := { cell with Branch := branch }
  let cell := if TrimSpace cell.Timestamp = "" then { cell with Timestamp := now } else cell
  match insertCell d cell with
  | .error err => .error err
  | .ok d1 =>
    let d2 := syncSequenceAllocatorTx d1 cell.Sequence
    match insertManifest d2 entries with
    | .error err => .error err
    | .ok d3 =>
      match upsertBranchHeadTx d3 branch cell.ID cell.Timestamp with
      | .error err => .error err
      | .ok d4 => .ok (setMetaTx d4 "head_cell" cell.ID)

/-- The largest value of a Go `int` on a 64-bit platform, and of an SQLite integer. -/
def maxInt64 : Int := 2 ^ 63 - 1

/-- `DB.AllocateSequence`: a transaction that runs `UPDATE ... SET last_sequence =
last_sequence + 1 ... RETURNING last_sequence` and scans the value into an `int`.
When the counter holds the largest 64-bit integer the sum is no integer any more,
the scan fails and the transaction is rolled back. -/
def DB.AllocateSequence (d : DB) : Except DbError (Int × DB) :=
  match d.lastSequence with
  | none => .error (.failed "allocate sequence")
  | some last =>
    if last < maxInt64 then .ok (last + 1, { d with lastSequence := some (last + 1) })
    else .error (.failed "allocate sequence")

def DB.GetCell (d : DB) (id : String) : Except DbError Cell :=
  match d.cells.find? fun c => c.ID = id with
  | some c => .ok c
  | none => .error .notFound

/-- The first row of `ORDER BY sequence DESC`. -/
def latestBySequence : List Cell → Option Cell
  | [] => none
  | c :: cs =>
    match latestBySequence cs with
    | none => some c
    | some best => if best.Sequence < c.Sequence then some c else some best

def DB.LatestCell (d : DB) : Option Cell := latestBySequence d.cells

def DB.LatestCellByBranch (d : DB) (branch : String) : Option Cell :=
  latestBySequence (d.cells.filter fun c => c.Branch = branch)

/-- Inserts into a list sorted by `path ASC`. -/
def insertByPath (e : ManifestEntry) : List ManifestEntry → List ManifestEntry
  | [] => [e]
  | x :: xs => if e.Path ≤ x.Path then e :: x :: xs else x :: insertByPath e xs

def sortByPath : List ManifestEntry → List ManifestEntry
  | [] => []
  | e :: es => insertByPath e (sortByPath es)

def DB.GetManifest (d : DB) (cellID : String) : List ManifestEntry :=
  sortByPath (d.manifestEntries.filter fun e => e.CellID = cellID)

def DB.GetMeta (d : DB) (key : String) : Except DbError String :=
  match d.meta.find? fun kv => kv.1 = key with
  | some kv => .ok kv.2
  | none => .error .notFound

def DB.SetMeta (d : DB) (key value : String) : DB := setMetaTx d key value

def DB.CreateBranch (now : String) (d : DB) (name : String) (headCellID : Option String)
    (createdAt : String) : Except DbError DB :=
  let name := TrimSpace name
  if name = "" then .error (.failed "branch name cannot be empty")
  else
    let createdAt := if TrimSpace createdAt = "" then now else createdAt
    if d.branches.any (fun b => b.Name = name) then .error (.failed ("create branch " ++ name))
    else if d.refOK headCellID then
      .ok { d with branches := d.branches ++
              [{ Name := name, HeadCellID := headCellID, CreatedAt := createdAt }] }
    else .error (.failed ("create branch " ++ name))

def DB.GetBranch (d : DB) (name : String) : Except DbError Branch :=
  match d.branches.find? fun b => b.Name = name with
  | some b => .ok b
  | none => .error .notFound

def DB.UpdateBranchHead (d : DB) (name : String) (headCellID : Option String) :
    Except DbError DB :=
  if d.branches.any (fun b => b.Name = name) then
    if d.refOK headCellID then
      .ok { d with branches := d.branches.map fun b =>
              if b.Name = name then { b with HeadCellID := headCellID } else b }
    else .error (.failed ("update branch head " ++ name))
  else .error .notFound

def DB.UpdateCellEval (d : DB) (id : String) (testsPassed testsFailed lintErrors
    typeErrors : Option Int) (skipped evalErr : Option String) : DB :=
  { d with cells := d.cells.map fun c =>
      if c.ID = id then
        { c with EvalRequested := true, EvalRan := true, TestsPassed := testsPassed,
                 TestsFailed := testsFailed, LintErrors := lintErrors,
                 TypeErrors := typeErrors, EvalSkipped := skipped, EvalError := evalErr }
      else c }

/-- The database `migrate` leaves when it runs on a new, empty file: every table
empty, then the seeds of `main`, `active_branch`, `head_cell` and the counter. -/
def DB.empty : DB :=
  { cells := [], manifestEntries := [], branches := [], meta := [],
    lastSequence := none, agentRuns := [] }

/-- SQL `TRIM(x)`: removes spaces only. -/
def sqlTrim (s : String) : String :=
  String.mk ((s.data.dropWhile (· = ' ')).reverse.dropWhile (· = ' ')).reverse

/-- `migrate` (`db.go`), on a database that has the tables of the schema (a
missing table is an empty one). -/
def migrate (now : String) (d : DB) : DB :=
  let cells := d.cells.map fun c => if sqlTrim c.Branch = "" then { c with Branch := "main" } else c
  let d := { d with cells := cells }
  let latestID := (latestBySequence d.cells).map Cell.ID
  let d :=
    if d.branches.any (fun b => b.Name = "main") then d
    else { d with branches := d.branches ++
             [{ Name := "main", HeadCellID := latestID, CreatedAt := now }] }
  let d :=
    match latestID with
    | some id =>
      { d with branches := d.branches.map fun (b : Branch) =>
          if b.Name = "main" then { b with HeadCellID := some (b.HeadCellID.getD id) } else b }
    | none => d
  let d :=
    if d.meta.any (fun kv => kv.1 = "active_branch") then d
    else { d with meta := d.meta ++ [("active_branch", "main")] }
  let d :=
    if d.meta.any (fun kv => kv.1 = "head_cell") then d
    else { d with meta := d.meta ++ [("head_cell", latestID.getD "")] }
  let maxSequence := ((latestBySequence d.cells).map Cell.Sequence).getD 0
  match d.lastSequence with
  | none => { d with lastSequence := some maxSequence }
  | some last => { d with lastSequence := some (if last < maxSequence then maxSequence else last) }

/-- `db.Open` on a path that holds no database yet. -/
def Open (now : String) : DB := migrate now DB.empty

/-! ## Go maps with string keys -/

/-- A Go `map[string]V`: an association list; `mapSet` keeps the keys distinct. -/
abbrev GoMap (V : Type) := List (String × V)

def mapGet {V : Type} (m : GoMap V) (k : String) : Option V :=
  (m.find? fun kv => kv.1 = k).map Prod.snd

def mapSet {V : Type} (m : GoMap V) (k : String) (v : V) : GoMap V :=
  (m.filter fun kv => decide (kv.1 ≠ k)) ++ [(k, v)]

/-! ## Snapshotter (`internal/snapshot/snapshot.go`, `internal/config/constants.go`) -/

def StateDirName : String := ".converge"

def ObjectsDirName : String := "objects"

def RestoreLock : String := "restore.lock"

def IgnoredDirNames : List String := [StateDirName, ".git", "node_modules", "__pycache__"]

def IgnoredFileNames : List String := [".DS_Store"]

structure FileEntry where
  Hash : String
  Mode : Nat
  Size : Int
deriving DecidableEq, Repr, Inhabited

abbrev Manifest := GoMap FileEntry

/-- The order in which `filepath.WalkDir` reaches two paths: by the first
component that differs, a directory before what it holds. -/
def pathBefore : Path → Path → Bool
  | [], _ => true
  | _ :: _, [] => false
  | a :: as, b :: bs => if a < b then true else if a = b then pathBefore as bs else false

def insertPath (p : Path) : List Path → List Path
  | [] => [p]
  | q :: qs => if pathBefore p q then p :: q :: qs else q :: insertPath p qs

def sortPaths : List Path → List Path
  | [] => []
  | p :: ps => insertPath p (sortPaths ps)

/-- The walk enters every directory below the root except those for which the
callback answers `SkipDir`: the ones whose name is in `IgnoredDirNames`. -/
def walkReaches (p : Path) : Bool :=
  p ≠ [] && p.head? ≠ some ".." && p.dropLast.all fun name => decide (name ∉ IgnoredDirNames)

/-- The files `filepath.WalkDir(projectDir, fn)` hands to the callback, in order. -/
def walkFiles (fs : FS) : List Path := sortPaths ((fs.map Prod.fst).filter walkReaches)

/-- The callback of `Capture` on an entry that is not a directory. -/
def captureFile (sum256 : Bytes → Digest) (s : Store) (m : Manifest) (fs : FS) (p : Path) :
    Except String Manifest × FS :=
  let name := p.getLastD ""
  if name ∈ IgnoredFileNames then (.ok m, fs)
  else
    match fs.lookup p with
    | none => (.ok m, fs)
    | some node =>
      if node.symlink then (.ok m, fs)
      else
        let relPath := "/".intercalate p
        match ReadFile fs p with
        | .error _ => (.error ("read " ++ relPath), fs)
        | .ok data =>
          match s.Write sum256 fs data with
          | (.error err, fs1) => (.error ("store " ++ relPath ++ ": " ++ err), fs1)
          | (.ok hash, fs1) =>
            (.ok (mapSet m relPath { Hash := hash, Mode := node.mode, Size := data.length }), fs1)

def captureWalk (sum256 : Bytes → Digest) (s : Store) :
    List Path → Manifest → FS → Except String Manifest × FS
  | [], m, fs => (.ok m, fs)
  | p :: ps, m, fs =>
    match captureFile sum256 s m fs p with
    | (.error err, fs1) => (.error err, fs1)
    | (.ok m1, fs1) => captureWalk sum256 s ps m1 fs1

/-- `Snapshot.Capture(projectDir)`. The entries to visit are those present when
the walk starts; the blobs the walk itself writes lie in the store. -/
def Capture (sum256 : Bytes → Digest) (s : Store) (fs : FS) : Except String Manifest × FS :=
  match captureWalk sum256 s (walkFiles fs) [] fs with
  | (.error err, fs1) => (.error ("walk project: " ++ err), fs1)
  | (.ok m, fs1) => (.ok m, fs1)

def EqualToEntries (m : Manifest) (entries : GoMap String) : Bool :=
  if m.length ≠ entries.length then false
  else m.all fun kv => decide ((mapGet entries kv.1).getD "" = kv.2.Hash)

def insertString (s : String) : List String → List String
  | [] => [s]
  | x :: xs => if s ≤ x then s :: x :: xs else x :: insertString s xs

/-- Go `sort.Strings`. -/
def sortStrings : List String → List String
  | [] => []
  | s :: ss => insertString s (sortStrings ss)

def SortedPaths (m : Manifest) : List String := sortStrings (m.map Prod.fst)

/-! ## LOC counter (`internal/eval/loc.go`) -/

def continuation (b : UInt8) : Bool := 0x80 ≤ b.toNat && b.toNat ≤ 0xBF

/-- Go `utf8.DecodeRune`: the rune at the start of the bytes and its width; a
byte that starts no valid sequence is the rune U+FFFD of width 1. -/
def decodeRune (data : Bytes) : Char × Nat :=
  match data with
  | [] => (Char.ofNat 0xFFFD, 0)
  | b0 :: rest =>
    let n0 := b0.toNat
    let lo := if n0 = 0xE0 then 0xA0 else if n0 = 0xF0 then 0x90 else 0x80
    let hi := if n0 = 0xED then 0x9F else if n0 = 0xF4 then 0x8F else 0xBF
    if n0 < 0x80 then (Char.ofNat n0, 1)
    else if 0xC2 ≤ n0 && n0 ≤ 0xDF then
      match rest with
      | b1 :: _ =>
        if continuation b1 then (Char.ofNat ((n0 % 32) * 64 + b1.toNat % 64), 2)
        else (Char.ofNat 0xFFFD, 1)
      | [] => (Char.ofNat 0xFFFD, 1)
    else if 0xE0 ≤ n0 && n0 ≤ 0xEF then
      match rest with
      | b1 :: b2 :: _ =>
        if lo ≤ b1.toNat && b1.toNat ≤ hi && continuation b2 then
          (Char.ofNat ((n0 % 16) * 4096 + (b1.toNat % 64) * 64 + b2.toNat % 64), 3)
        else (Char.ofNat 0xFFFD, 1)
      | _ => (Char.ofNat 0xFFFD, 1)
    else if 0xF0 ≤ n0 && n0 ≤ 0xF4 then
      match rest with
      | b1 :: b2 :: b3 :: _ =>
        if lo ≤ b1.toNat && b1.toNat ≤ hi && continuation b2 && continuation b3 then
          (Char.ofNat ((n0 % 8) * 262144 + (b1.toNat % 64) * 4096 + (b2.toNat % 64) * 64
            + b3.toNat % 64), 4)
        else (Char.ofNat 0xFFFD, 1)
      | _ => (Char.ofNat 0xFFFD, 1)
    else (Char.ofNat 0xFFFD, 1)

/-- The runes of a Go string, `fuel` bounding the number of runes. -/
def goRunesAux : Nat → Bytes → List Char
  | 0, _ => []
  | _ + 1, [] => []
  | fuel + 1, b :: rest =>
    let r := decodeRune (b :: rest)
    r.1 :: goRunesAux fuel ((b :: rest).drop r.2)

def goRunes (data : Bytes) : List Char := goRunesAux data.length data

/-- Go `string(data)`. -/
def goString (data : Bytes) : String := String.mk (goRunes data)

/-- Go `filepath.Ext`: the suffix from the last dot of the last path element. -/
def extOf : List Char → Option (List Char)
  | [] => none
  | c :: cs =>
    match extOf cs with
    | some e => some e
    | none => if c = '.' ∧ '/' ∉ cs then some (c :: cs) else none

def Ext (filename : String) : String := String.mk ((extOf filename.data).getD [])

/-- The case ranges of Go's `unicode` tables (Unicode 15.0.0) for the code points
above ASCII that have a lower case: `(lo, hi, stride, delta)` moves the code
points `lo, lo + stride, ..., hi` by `delta`. -/
def lowerRanges : List (Nat × Nat × Nat × Int) :=
  [(192, 214, 1, 32), (216, 222, 1, 32), (256, 302, 2, 1), (304, 304, 1, -199), (306, 310, 2, 1),
   (313, 327, 2, 1), (330, 374, 2, 1), (376, 376, 1, -121), (377, 381, 2, 1), (385, 385, 1, 210),
   (386, 388, 2, 1), (390, 390, 1, 206), (391, 391, 1, 1), (393, 394, 1, 205), (395, 395, 1, 1),
   (398, 398, 1, 79), (399, 399, 1, 202), (400, 400, 1, 203), (401, 401, 1, 1), (403, 403, 1, 205),
   (404, 404, 1, 207), (406, 406, 1, 211), (407, 407, 1, 209), (408, 408, 1, 1),
   (412, 412, 1, 211), (413, 413, 1, 213), (415, 415, 1, 214), (416, 420, 2, 1),
   (422, 422, 1, 218), (423, 423, 1, 1), (425, 425, 1, 218), (428, 428, 1, 1), (430, 430, 1, 218),
   (431, 431, 1, 1), (433, 434, 1, 217), (435, 437, 2, 1), (439, 439, 1, 219), (440, 440, 1, 1),
   (444, 444, 1, 1), (452, 452, 1, 2), (453, 453, 1, 1), (455, 455, 1, 2), (456, 456, 1, 1),
   (458, 458, 1, 2), (459, 475, 2, 1), (478, 494, 2, 1), (497, 497, 1, 2), (498, 500, 2, 1),
   (502, 502, 1, -97), (503, 503, 1, -56), (504, 542, 2, 1), (544, 544, 1, -130), (546, 562, 2, 1),
   (570, 570, 1, 10795), (571, 571, 1, 1), (573, 573, 1, -163), (574, 574, 1, 10792),
   (577, 577, 1, 1), (579, 579, 1, -195), (580, 580, 1, 69), (581, 581, 1, 71), (582, 590, 2, 1),
   (880, 882, 2, 1), (886, 886, 1, 1), (895, 895, 1, 116), (902, 902, 1, 38), (904, 906, 1, 37),
   (908, 908, 1, 64), (910, 911, 1, 63), (913, 929, 1, 32), (931, 939, 1, 32), (975, 975, 1, 8),
   (984, 1006, 2, 1), (1012, 1012, 1, -60), (1015, 1015, 1, 1), (1017, 1017, 1, -7),
   (1018, 1018, 1, 1), (1021, 1023, 1, -130), (1024, 1039, 1, 80), (1040, 1071, 1, 32),
   (1120, 1152, 2, 1), (1162, 1214, 2, 1), (1216, 1216, 1, 15), (1217, 1229, 2, 1),
   (1232, 1326, 2, 1), (1329, 1366, 1, 48), (4256, 4293, 1, 7264), (4295, 4295, 1, 7264),
   (4301, 4301, 1, 7264), (5024, 5103, 1, 38864), (5104, 5109, 1, 8), (7312, 7354, 1, -3008),
   (7357, 7359, 1, -3008), (7680, 7828, 2, 1), (7838, 7838, 1, -7615), (7840, 7934, 2, 1),
   (7944, 7951, 1, -8), (7960, 7965, 1, -8), (7976, 7983, 1, -8), (7992, 7999, 1, -8),
   (8008, 8013, 1, -8), (8025, 8031, 2, -8), (8040, 8047, 1, -8), (8072, 8079, 1, -8),
   (8088, 8095, 1, -8), (8104, 8111, 1, -8), (8120, 8121, 1, -8), (8122, 8123, 1, -74),
   (8124, 8124, 1, -9), (8136, 8139, 1, -86), (8140, 8140, 1, -9), (8152, 8153, 1, -8),
   (8154, 8155, 1, -100), (8168, 8169, 1, -8), (8170, 8171, 1, -112), (8172, 8172, 1, -7),
   (8184, 8185, 1, -128), (8186, 8187, 1, -126), (8188, 8188, 1, -9), (8486, 8486, 1, -7517),
   (8490, 8490, 1, -8383), (8491, 8491, 1, -8262), (8498, 8498, 1, 28), (8544, 8559, 1, 16),
   (8579, 8579, 1, 1), (9398, 9423, 1, 26), (11264, 11311, 1, 48), (11360, 11360, 1, 1),
   (11362, 11362, 1, -10743), (11363, 11363, 1, -3814), (11364, 11364, 1, -10727),
   (11367, 11371, 2, 1), (11373, 11373, 1, -10780), (11374, 11374, 1, -10749),
   (11375, 11375, 1, -10783), (11376, 11376, 1, -10782), (11378, 11378, 1, 1),
   (11381, 11381, 1, 1), (11390, 11391, 1, -10815), (11392, 11490, 2, 1), (11499, 11501, 2, 1),
   (11506, 11506, 1, 1), (42560, 42604, 2, 1), (42624, 42650, 2, 1), (42786, 42798, 2, 1),
   (42802, 42862, 2, 1), (42873, 42875, 2, 1), (42877, 42877, 1, -35332), (42878, 42886, 2, 1),
   (42891, 42891, 1, 1), (42893, 42893, 1, -42280), (42896, 42898, 2, 1), (42902, 42920, 2, 1),
   (42922, 42922, 1, -42308), (42923, 42923, 1, -42319), (42924, 42924, 1, -42315),
   (42925, 42925, 1, -42305), (42926, 42926, 1, -42308), (42928, 42928, 1, -42258),
   (42929, 42929, 1, -42282), (42930, 42930, 1, -42261), (42931, 42931, 1, 928),
   (42932, 42946, 2, 1), (42948, 42948, 1, -48), (42949, 42949, 1, -42307),
   (42950, 42950, 1, -35384), (42951, 42953, 2, 1), (42960, 42960, 1, 1), (42966, 42968, 2, 1),
   (42997, 42997, 1, 1), (65313, 65338, 1, 32), (66560, 66599, 1, 40), (66736, 66771, 1, 40),
   (66928, 66938, 1, 39), (66940, 66954, 1, 39), (66956, 66962, 1, 39), (66964, 66965, 1, 39),
   (68736, 68786, 1, 64), (71840, 71871, 1, 32), (93760, 93791, 1, 32), (125184, 125217, 1, 34)]

/-- Go `unicode.ToLower`: the letters `A` to `Z` in ASCII, the case ranges above. -/
def unicodeToLower (c : Char) : Char :=
  if c.toNat < 128 then c.toLower
  else
    match lowerRanges.find? fun r =>
        decide (r.1 ≤ c.toNat ∧ c.toNat ≤ r.2.1 ∧ (c.toNat - r.1) % r.2.2.1 = 0) with
    | some r => Char.ofNat (c.toNat + r.2.2.2).toNat
    | none => c

/-- Go `strings.ToLower`: every code point is replaced by its lower case (the
fast path for ASCII strings gives the same string). -/
def ToLower (s : String) : String := String.mk (s.data.map unicodeToLower)

/-- Go `strings.HasPrefix`. -/
def startsWith (s pre : String) : Bool := pre.data.isPrefixOf s.data

def isComment (ext line : String) : Bool :=
  if ext ∈ [".go", ".js", ".ts", ".tsx", ".jsx", ".java", ".c", ".cpp", ".rs", ".swift"] then
    startsWith line "//"
  else if ext ∈ [".py", ".rb", ".sh", ".yaml", ".yml", ".toml"] then startsWith line "#"
  else if ext ∈ [".sql", ".lua"] then startsWith line "--"
  else false

/-- Go `strings.Split(content, "\n")`. -/
def splitLines : List Char → List (List Char)
  | [] => [[]]
  | c :: cs =>
    if c = '\n' then [] :: splitLines cs
    else
      match splitLines cs with
      | [] => [[c]]
      | w :: ws => (c :: w) :: ws

def CountLOC (filename content : String) : Int :=
  if content = "" then 0
  else
    let ext := ToLower (Ext filename)
    (splitLines content.data).foldl (fun count line =>
      let trimmed := TrimSpace (String.mk line)
      if trimmed = "" then count
      else if isComment ext trimmed then count
      else count + 1) 0

/-! ## Cell pipeline helpers (`internal/core/service.go`, `internal/core/types.go`) -/

def padZeros (width : Nat) (digits : List Char) : List Char :=
  List.replicate (width - digits.length) '0' ++ digits

/-- Go `fmt.Sprintf("c_%06d", sequence)`. -/
def CellID (sequence : Int) : String :=
  if 0 ≤ sequence then String.mk ("c_".data ++ padZeros 6 (Nat.toDigits 10 sequence.toNat))
  else String.mk ("c_-".data ++ padZeros 5 (Nat.toDigits 10 sequence.natAbs))

def manifestHashesFromEntries (entries : List ManifestEntry) : GoMap String :=
  entries.foldl (fun out entry => mapSet out entry.Path entry.Hash) []

def countLines (data : Bytes) : Int :=
  if data.length = 0 then 0
  else
    let count : Int := data.foldl (fun n b => if b = 10 then n + 1 else n) 1
    if data.getLast? = some 10 then count - 1 else count

structure DiffStats where
  added : Int
  modified : Int
  removed : Int
  linesAdded : Int
  linesRemoved : Int
deriving DecidableEq, Repr, Inhabited

/-- The lines of a blob, `0` when the blob cannot be read. -/
def blobLines (s : Store) (fs : FS) (hash : String) : Int :=
  match s.Read fs hash with
  | .ok data => countLines data
  | .error _ => 0

def computeDiffStats (current : Manifest) (parentEntries : List ManifestEntry) (s : Store)
    (fs : FS) : DiffStats :=
  let parentMap := manifestHashesFromEntries parentEntries
  let st : DiffStats := current.foldl (fun st kv =>
    match mapGet parentMap kv.1 with
    | none => { st with added := st.added + 1,
                        linesAdded := st.linesAdded + blobLines s fs kv.2.Hash }
    | some oldHash =>
      if oldHash ≠ kv.2.Hash then
        let newLines := blobLines s fs kv.2.Hash
        let oldLines := blobLines s fs oldHash
        if newLines ≥ oldLines then
          { st with modified := st.modified + 1,
                    linesAdded := st.linesAdded + (newLines - oldLines) }
        else
          { st with modified := st.modified + 1,
                    linesRemoved := st.linesRemoved + (oldLines - newLines) }
      else st) { added := 0, modified := 0, removed := 0, linesAdded := 0, linesRemoved := 0 }
  parentEntries.foldl (fun st e =>
    match mapGet current e.Path with
    | some _ => st
    | none => { st with removed := st.removed + 1,
                        linesRemoved := st.linesRemoved + blobLines s fs e.Hash }) st

def computeLOC (manifest : Manifest) (s : Store) (fs : FS) : Int × Int :=
  let totalLOC : Int := (SortedPaths manifest).foldl (fun total path =>
    match mapGet manifest path with
    | none => total
    | some fe =>
      match s.Read fs fe.Hash with
      | .error _ => total
      | .ok data => total + CountLOC path (goString data)) 0
  (totalLOC, manifest.length)

/-! ## Service (`internal/core/service.go`, `internal/core/restore.go`) -/

/-- The record `eval.Result`. -/
structure EvalResult where
  TestsPassed : Int
  TestsFailed : Int
  LintErrors : Int
  TypeErrors : Int
  HasTests : Bool
  HasLint : Bool
  HasTypes : Bool
  Skipped : List String
deriving DecidableEq, Repr, Inhabited

def EvalResult.TestsPassedPtr (r : EvalResult) : Option Int :=
  if r.HasTests then some r.TestsPassed else none

def EvalResult.TestsFailedPtr (r : EvalResult) : Option Int :=
  if r.HasTests then some r.TestsFailed else none

def EvalResult.LintErrorsPtr (r : EvalResult) : Option Int :=
  if r.HasLint then some r.LintErrors else none

def EvalResult.TypeErrorsPtr (r : EvalResult) : Option Int :=
  if r.HasTypes then some r.TypeErrors else none

def EvalResult.SkippedPtr (r : EvalResult) : Option String :=
  if r.Skipped.length = 0 then none else some (",".intercalate r.Skipped)

def EvalResult.zero : EvalResult :=
  { TestsPassed := 0, TestsFailed := 0, LintErrors := 0, TypeErrors := 0,
    HasTests := false, HasLint := false, HasTypes := false, Skipped := [] }

/-- The evaluator `eval.Runner`: what the external tools report on a tree, and
the error of the run if any. The tools are taken to leave the tree as it is. -/
structure Runner where
  Run : FS → EvalResult × Option String

/-- The collaborators of `core.Service`. The database and the project directory
are the state the operations act on. -/
structure Service where
  sum256 : Bytes → Digest
  Store : Store
  Evaluator : Option Runner

structure World where
  db : DB
  fs : FS
deriving DecidableEq, Repr, Inhabited

structure SnapOptions where
  Message : String
  Tags : String
  Agent : String
  Source : String
  RunEval : Bool
deriving DecidableEq, Repr, Inhabited

def ensureBranchExists (now : String) (d : DB) (branch : String) : Except String Unit × DB :=
  match d.GetBranch branch with
  | .ok _ => (.ok (), d)
  | .error (.failed msg) => (.error ("get branch " ++ branch ++ ": " ++ msg), d)
  | .error .notFound =>
    let head := d.LatestCellByBranch branch
    match d.CreateBranch now branch (head.map Cell.ID) now with
    | .error err => (.error ("create branch " ++ branch ++ ": " ++ err.text), d)
    | .ok d1 => (.ok (), d1)

/-- The test `err == db.ErrNotFound`. -/
def isNotFound {α : Type} (r : Except DbError α) : Bool :=
  match r with
  | .error .notFound => true
  | _ => false

/-- `Service.ActiveBranch`, from the answer `r` of `GetMeta("active_branch")`. -/
def ActiveBranchFrom (r : Except DbError String) (now : String) (d : DB) :
    Except String String × DB :=
  let branch := match r with
    | .ok v => v
    | .error _ => ""
  if isNotFound r ∨ TrimSpace branch = "" then
    let d1 := d.SetMeta "active_branch" defaultBranchName
    let branch := TrimSpace defaultBranchName
    match ensureBranchExists now d1 branch with
    | (.error err, d2) => (.error err, d2)
    | (.ok _, d2) => (.ok branch, d2)
  else
    match r with
    | .error err => (.error ("get active branch: " ++ err.text), d)
    | .ok _ =>
      let branch := TrimSpace branch
      match ensureBranchExists now d branch with
      | (.error err, d2) => (.error err, d2)
      | (.ok _, d2) => (.ok branch, d2)

def ActiveBranch (now : String) (d : DB) : Except String String × DB :=
  ActiveBranchFrom (d.GetMeta "active_branch") now d

def branchHeadCell (d : DB) (branch : String) : Option Cell :=
  match d.GetBranch branch with
  | .error _ => none
  | .ok b =>
    match b.HeadCellID with
    | none => none
    | some id =>
      if TrimSpace id = "" then none
      else
        match d.GetCell id with
        | .ok cell => some cell
        | .error _ => none

def setHeadCellMeta (d : DB) (headCellID : Option String) : DB :=
  match headCellID with
  | none => d.SetMeta "head_cell" ""
  | some id => d.SetMeta "head_cell" id

/-- Go `strings.EqualFold(name, "main")`: the letters of `main` fold with their
capitals and with nothing else, so the names are compared with `A` to `Z`
lowered. -/
def equalFoldMain (name : String) : Bool :=
  String.mk (name.data.map Char.toLower) = defaultBranchName

def ForkBranch (now : String) (name : String) (switchNow : Bool) (d : DB) :
    Except String Branch × DB :=
  let name := TrimSpace name
  if name = "" then (.error "branch name cannot be empty", d)
  else if equalFoldMain name ∧ (d.GetBranch defaultBranchName).toBool then
    (.error "branch main already exists", d)
  else
    match ActiveBranch now d with
    | (.error err, d1) => (.error err, d1)
    | (.ok activeBranch, d1) =>
      let headCellID := (branchHeadCell d1 activeBranch).map Cell.ID
      match d1.CreateBranch now name headCellID now with
      | .error err => (.error err.text, d1)
      | .ok d2 =>
        let d3 := if switchNow then setHeadCellMeta (d2.SetMeta "active_branch" name) headCellID
                  else d2
        match d3.GetBranch name with
        | .error err => (.error ("load created branch: " ++ err.text), d3)
        | .ok branch => (.ok branch, d3)

/-- `Service.EvaluateCell`: the result and the error the call returns. -/
def EvaluateCell (svc : Service) (d : DB) (fs : FS) (cellID : String) :
    (EvalResult × Option String) × DB :=
  match d.GetCell cellID with
  | .error .notFound => ((EvalResult.zero, some ("cell " ++ cellID ++ " not found")), d)
  | .error (.failed msg) => ((EvalResult.zero, some msg), d)
  | .ok _ =>
    match svc.Evaluator with
    | none => ((EvalResult.zero, some "evaluator is not configured"), d)
    | some runner =>
      let out := runner.Run fs
      let result := out.1
      let d1 := d.UpdateCellEval cellID result.TestsPassedPtr result.TestsFailedPtr
        result.LintErrorsPtr result.TypeErrorsPtr result.SkippedPtr out.2
      ((result, out.2), d1)

/-- A string pointer that is nil when the trimmed option is empty. -/
def optionalText (s : String) : Option String :=
  if TrimSpace s ≠ "" then some (TrimSpace s) else none

def manifestEntriesOf (cellID : String) (manifest : Manifest) : List ManifestEntry :=
  (SortedPaths manifest).map fun path =>
    let fe := (mapGet manifest path).getD { Hash := "", Mode := 0, Size := 0 }
    { CellID := cellID, Path := path, Hash := fe.Hash, Mode := fe.Mode, Size := fe.Size }

def createCellFromManifest (svc : Service) (now : String) (d : DB) (fs : FS)
    (manifest : Manifest) (opts : SnapOptions) (knownParent : Option Cell)
    (knownParentManifest : Option (List ManifestEntry)) : Except String Cell × DB :=
  match ActiveBranch now d with
  | (.error err, d1) => (.error err, d1)
  | (.ok branch, d1) =>
    match d1.AllocateSequence with
    | .error err => (.error ("allocate sequence: " ++ err.text), d1)
    | .ok (seq, d2) =>
      let cellID := CellID seq
      let parent := match knownParent with
        | some p => some p
        | none => branchHeadCell d2 branch
      let parentEntries := match parent, knownParentManifest with
        | some p, none => some (d2.GetManifest p.ID)
        | _, known => known
      let stats := computeDiffStats manifest (parentEntries.getD []) svc.Store fs
      let loc := computeLOC manifest svc.Store fs
      let locDelta := match parent with
        | some p => loc.1 - p.TotalLOC
        | none => loc.1
      let source := if TrimSpace opts.Source = "" then "manual" else TrimSpace opts.Source
      let cell : Cell :=
        { ID := cellID, Sequence := seq, ParentID := parent.map Cell.ID, Timestamp := now,
          Message := opts.Message, Source := source, Agent := optionalText opts.Agent,
          Tags := optionalText opts.Tags, Branch := branch, FilesAdded := stats.added,
          FilesModified := stats.modified, FilesRemoved := stats.removed,
          LinesAdded := stats.linesAdded, LinesRemoved := stats.linesRemoved,
          TotalLOC := loc.1, LOCDelta := locDelta, TotalFiles := loc.2,
          EvalRequested := opts.RunEval, EvalRan := false, TestsPassed := none,
          TestsFailed := none, LintErrors := none, TypeErrors := none, EvalSkipped := none,
          EvalError := none }
      let entries := manifestEntriesOf cellID manifest
      match d2.InsertCellWithManifestAndAdvanceBranch now cell entries with
      | .error err => (.error ("insert cell: " ++ err.text), d2)
      | .ok d3 =>
        let d4 :=
          if opts.RunEval then
            match EvaluateCell svc d3 fs cellID with
            | ((_, some errText), d') =>
              d'.UpdateCellEval cellID none none none none none (some errText)
            | ((_, none), d') => d'
          else d3
        match d4.GetCell cellID with
        | .error err => (.error ("load created cell: " ++ err.text), d4)
        | .ok created => (.ok created, d4)

def CreateCell (svc : Service) (now : String) (opts : SnapOptions) (w : World) :
    Except String Cell × World :=
  match Capture svc.sum256 svc.Store w.fs with
  | (.error err, fs1) => (.error ("capture snapshot: " ++ err), { w with fs := fs1 })
  | (.ok manifest, fs1) =>
    match createCellFromManifest svc now w.db fs1 manifest opts none none with
    | (r, d1) => (r, { db := d1, fs := fs1 })

/-- `Service.CreateCellIfChanged`: the cell, when one was created, stands for
the pair `(cell, created)`. -/
def CreateCellIfChanged (svc : Service) (now : String) (opts : SnapOptions) (w : World) :
    Except String (Option Cell) × World :=
  match Capture svc.sum256 svc.Store w.fs with
  | (.error err, fs1) => (.error ("capture snapshot: " ++ err), { w with fs := fs1 })
  | (.ok manifest, fs1) =>
    match ActiveBranch now w.db with
    | (.error err, d1) => (.error err, { db := d1, fs := fs1 })
    | (.ok branch, d1) =>
      let parent := branchHeadCell d1 branch
      let parentEntries := parent.map fun p => d1.GetManifest p.ID
      if parent.isSome ∧
          EqualToEntries manifest (manifestHashesFromEntries (parentEntries.getD [])) then
        (.ok none, { db := d1, fs := fs1 })
      else
        match createCellFromManifest svc now d1 fs1 manifest opts parent parentEntries with
        | (.error err, d2) => (.error err, { db := d2, fs := fs1 })
        | (.ok cell, d2) => (.ok (some cell), { db := d2, fs := fs1 })

def stateDir : Path := Join [StateDirName]

def lockPath : Path := Join [StateDirName, RestoreLock]

/-- The bytes of the Go string `"restoring"`. -/
def restoringBytes : Bytes := [114, 101, 115, 116, 111, 114, 105, 110, 103]

def writeRestoreLock (fs : FS) : Except FsError FS :=
  match MkdirAll fs stateDir with
  | .error err => .error err
  | .ok fs1 => WriteFile fs1 lockPath restoringBytes 0o644

/-- The function `writeRestoreLock` returns: `_ = os.Remove(lockPath)`. -/
def cleanup (fs : FS) : FS :=
  match Remove fs lockPath with
  | .ok fs1 => fs1
  | .error _ => fs

/-- The first loop of `restoreTrackedFilesToCell`. -/
def writeTargets (s : Store) : FS → List ManifestEntry → Except String Unit × FS
  | fs, [] => (.ok (), fs)
  | fs, entry :: rest =>
    match s.Read fs entry.Hash with
    | .error err => (.error ("read object for " ++ entry.Path ++ ": " ++ err), fs)
    | .ok data =>
      let fullPath := Join [entry.Path]
      match MkdirAll fs fullPath.dropLast with
      | .error _ => (.error ("mkdir for " ++ entry.Path), fs)
      | .ok fs1 =>
        match WriteFile fs1 fullPath data entry.Mode.toNat with
        | .error _ => (.error ("write file " ++ entry.Path), fs1)
        | .ok fs2 => writeTargets s fs2 rest

/-- The second loop of `restoreTrackedFilesToCell`. -/
def removeStale (targetPaths : List String) : FS → List ManifestEntry → Except String Unit × FS
  | fs, [] => (.ok (), fs)
  | fs, entry :: rest =>
    if entry.Path ∈ targetPaths then removeStale targetPaths fs rest
    else
      match Remove fs (Join [entry.Path]) with
      | .ok fs1 => removeStale targetPaths fs1 rest
      | .error .notExist => removeStale targetPaths fs rest
      | .error .other => (.error ("remove stale tracked file " ++ entry.Path), fs)

def restoreTrackedFilesToCell (svc : Service) (d : DB) (fs : FS) (targetID : String)
    (currentTrackedHead : Option Cell) : Except String Unit × FS :=
  let targetManifest := d.GetManifest targetID
  let currentTrackedManifest := match currentTrackedHead with
    | some head => d.GetManifest head.ID
    | none => []
  match writeTargets svc.Store fs targetManifest with
  | (.error err, fs1) => (.error err, fs1)
  | (.ok _, fs1) => removeStale (targetManifest.map ManifestEntry.Path) fs1 currentTrackedManifest

def safetyOptions (message : String) : SnapOptions :=
  { Message := message, Tags := "", Agent := "", Source := "restore_safety", RunEval := false }

def RestoreCell (svc : Service) (now : String) (targetID : String) (w : World) :
    Except String Cell × World :=
  match w.db.GetCell targetID with
  | .error .notFound => (.error ("cell " ++ targetID ++ " not found"), w)
  | .error (.failed msg) => (.error msg, w)
  | .ok _ =>
    match ActiveBranch now w.db with
    | (.error err, d1) => (.error err, { w with db := d1 })
    | (.ok activeBranch, d1) =>
      let latestBeforeRestore := d1.LatestCellByBranch activeBranch
      match CreateCell svc now (safetyOptions ("safety snapshot before restore to " ++ targetID))
          { db := d1, fs := w.fs } with
      | (.error err, w1) => (.error ("create safety cell: " ++ err), w1)
      | (.ok safety, w1) =>
        match writeRestoreLock w1.fs with
        | .error _ => (.error "write restore lock", w1)
        | .ok fs2 =>
          match restoreTrackedFilesToCell svc w1.db fs2 targetID latestBeforeRestore with
          | (.error err, fs3) => (.error err, { w1 with fs := cleanup fs3 })
          | (.ok _, fs3) =>
            let updated : Except String DB :=
              match w1.db.UpdateBranchHead activeBranch (some targetID) with
              | .ok d2 => .ok d2
              | .error .notFound =>
                match w1.db.CreateBranch now activeBranch (some targetID) safety.Timestamp with
                | .ok d2 => .ok d2
                | .error err =>
                  .error ("create missing active branch " ++ activeBranch ++ ": " ++ err.text)
              | .error (.failed msg) => .error ("update active branch head: " ++ msg)
            match updated with
            | .error err => (.error err, { w1 with fs := cleanup fs3 })
            | .ok d2 =>
              (.ok safety, { db := setHeadCellMeta d2 (some targetID), fs := cleanup fs3 })

/-- `Service.SwitchBranch`: the safety cell (nil when the branch is already
active) and the head cell of the target branch. -/
def SwitchBranch (svc : Service) (now : String) (name : String) (w : World) :
    Except String (Option Cell × Cell) × World :=
  let name := TrimSpace name
  if name = "" then (.error "branch name cannot be empty", w)
  else
    match w.db.GetBranch name with
    | .error .notFound => (.error ("branch " ++ name ++ " not found"), w)
    | .error (.failed msg) => (.error msg, w)
    | .ok branch =>
      match branch.HeadCellID with
      | none => (.error ("branch " ++ name ++ " has no head cell to restore"), w)
      | some headID =>
        if TrimSpace headID = "" then
          (.error ("branch " ++ name ++ " has no head cell to restore"), w)
        else
          match ActiveBranch now w.db with
          | (.error err, d1) => (.error err, { w with db := d1 })
          | (.ok activeBranch, d1) =>
            if activeBranch = name then
              match d1.GetCell headID with
              | .error err =>
                (.error ("load branch head " ++ headID ++ ": " ++ err.text), { w with db := d1 })
              | .ok target => (.ok (none, target), { w with db := d1 })
            else
              let currentHead := branchHeadCell d1 activeBranch
              match CreateCell svc now (safetyOptions ("safety snapshot before switch to " ++ name))
                  { db := d1, fs := w.fs } with
              | (.error err, w1) => (.error ("create safety cell: " ++ err), w1)
              | (.ok safety, w1) =>
                match writeRestoreLock w1.fs with
                | .error _ => (.error "write restore lock", w1)
                | .ok fs2 =>
                  match restoreTrackedFilesToCell svc w1.db fs2 headID currentHead with
                  | (.error err, fs3) => (.error err, { w1 with fs := cleanup fs3 })
                  | (.ok _, fs3) =>
                    let d2 := setHeadCellMeta (w1.db.SetMeta "active_branch" name) (some headID)
                    match d2.GetCell headID with
                    | .error err =>
                      (.error ("load target branch head: " ++ err.text),
                        { db := d2, fs := cleanup fs3 })
                    | .ok target => (.ok (some safety, target), { db := d2, fs := cleanup fs3 })

/-! ## Specification vocabulary -/

/-- The store a sequence of `Write` calls leaves, started on an empty directory. -/
def storeAfter (sum256 : Bytes → Digest) (s : Store) : List Bytes → FS
  | [] => []
  | b :: bs => (s.Write sum256 (storeAfter sum256 s bs) b).2

/-- The paths of the files whose content is `b`. -/
def holders (fs : FS) (b : Bytes) : List Path :=
  (fs.filter fun e => decide (e.2.data = b)).map Prod.fst

/-- A digest function for worked examples: the first 32 bytes, padded with zeros. -/
def padDigest (b : Bytes) : Digest := ⟨(b ++ List.replicate 32 0).take 32, by simp⟩

/-- The calls `AllocateSequence` one after the other, in the order their
transactions commit: the values returned and the database left. -/
def allocateMany : Nat → DB → Except DbError (List Int × DB)
  | 0, d => .ok ([], d)
  | n + 1, d =>
    match d.AllocateSequence with
    | .error err => .error err
    | .ok (seq, d1) =>
      match allocateMany n d1 with
      | .error err => .error err
      | .ok (seqs, d2) => .ok (seq :: seqs, d2)

/-- The foreign keys of the schema hold: `cells.parent_id`,
`manifest_entries.cell_id` and `branches.head_cell_id` name stored cells. -/
def DB.ForeignKeysHold (d : DB) : Prop :=
  (∀ c ∈ d.cells, d.refOK c.ParentID = true) ∧
  (∀ e ∈ d.manifestEntries, e.CellID ∈ d.cellIDs) ∧
  (∀ b ∈ d.branches, d.refOK b.HeadCellID = true)

/-- The branch name `InsertCellWithManifestAndAdvanceBranch` stores for a cell. -/
def storedBranch (branch : String) : String :=
  if TrimSpace branch = "" then defaultBranchName else TrimSpace branch

/-- A cell record with the given identity and zero statistics, for worked examples. -/
def plainCell (id : String) (seq : Int) (branch : String) : Cell :=
  { ID := id, Sequence := seq, ParentID := none, Timestamp := "2026-02-28T00:00:00Z",
    Message := "", Source := "manual", Agent := none, Tags := none, Branch := branch,
    FilesAdded := 0, FilesModified := 0, FilesRemoved := 0, LinesAdded := 0,
    LinesRemoved := 0, TotalLOC := 0, LOCDelta := 0, TotalFiles := 0,
    EvalRequested := false, EvalRan := false, TestsPassed := none, TestsFailed := none,
    LintErrors := none, TypeErrors := none, EvalSkipped := none, EvalError := none }

/-- A database just opened into which a cell of the largest 64-bit sequence was
inserted; the database just opened when the insert fails. -/
def dbAtMaxSequence : DB :=
  match (Open "t0").InsertCellWithManifestAndAdvanceBranch "t1"
      (plainCell "c_9223372036854775807" 9223372036854775807 "main") [] with
  | .ok d => d
  | .error _ => Open "t0"

instance (d : DB) : Decidable d.ForeignKeysHold := by
  unfold DB.ForeignKeysHold
  infer_instance

/-- The database after the insert when it is accepted, the database as it was otherwise. -/
def insertOrKeep (now : String) (d : DB) (cell : Cell) (entries : List ManifestEntry) : DB :=
  match d.InsertCellWithManifestAndAdvanceBranch now cell entries with
  | .ok d1 => d1
  | .error _ => d

/-- A database just opened that received the cell `c_000001` on `main`. -/
def oneCellDB : DB := insertOrKeep "t1" (Open "t0") (plainCell "c_000001" 1 "") []

/-- Two manifest rows of the cell `c_000002`, not in path order. -/
def exampleEntries : List ManifestEntry :=
  [{ CellID := "c_000002", Path := "main.go", Hash := "abc", Mode := 420, Size := 10 },
   { CellID := "c_000002", Path := "lib.go", Hash := "def", Mode := 420, Size := 20 }]

/-- The database `oneCellDB` after the cell `c_000002`, branch `" dev "`, and its two rows. -/
def twoCellDB : DB := insertOrKeep "t2" oneCellDB (plainCell "c_000002" 2 " dev ") exampleEntries

/-- A manifest row that names the stored cell `c_000001`. -/
def foreignEntry : ManifestEntry :=
  { CellID := "c_000001", Path := "x", Hash := "abc", Mode := 420, Size := 1 }

/-- A working tree with one file, `main.go`. -/
def exampleTree : FS := [(["main.go"], { data := [112, 10], mode := 0o644, symlink := false })]

/-- The manifest `Capture` returns, empty when it fails. -/
def capturedOrEmpty (sum256 : Bytes → Digest) (s : Store) (fs : FS) : Manifest :=
  match (Capture sum256 s fs).1 with
  | .ok m => m
  | .error _ => []

/-- A path component that `filepath.Clean` keeps as it is. -/
def plainName (c : String) : Prop := '/' ∉ c.data ∧ c ≠ "" ∧ c ≠ "." ∧ c ≠ ".."

/-- The hash of a blob. -/
def hashOf (sum256 : Bytes → Digest) (b : Bytes) : String := EncodeToString (sum256 b).val

/-- The file `Write` creates for a blob. -/
def blobNode (b : Bytes) : FileNode := { data := b, mode := 0o444, symlink := false }

/-- Every file of the store holds a written blob at the place of that blob's hash. -/
def StoreInv (sum256 : Bytes → Digest) (s : Store) (bs : List Bytes) (fs : FS) : Prop :=
  (∀ e ∈ fs, ∃ x ∈ bs, e.1 = s.blobPath (hashOf sum256 x) ∧ e.2 = blobNode x) ∧
  (fs.map Prod.fst).Nodup

/-- The cell row `InsertCellWithManifestAndAdvanceBranch` stores. -/
def storedCell (now : String) (cell : Cell) : Cell :=
  { cell with Branch := storedBranch cell.Branch,
              Timestamp := if TrimSpace cell.Timestamp = "" then now else cell.Timestamp }

/-- The branch table after `upsertBranchHeadTx`. -/
def upsertedBranches (branches : List Branch) (branch headCellID createdAt : String) :
    List Branch :=
  if branches.any (fun b => b.Name = branch) then
    branches.map fun b => if b.Name = branch then { b with HeadCellID := some headCellID } else b
  else branches ++ [{ Name := branch, HeadCellID := some headCellID, CreatedAt := createdAt }]

/-- The reading of hash-equality: the same paths, and on every path the same hash. -/
def SameHashes (m : Manifest) (e : GoMap String) : Prop :=
  (∀ p, (mapGet m p).isSome ↔ (mapGet e p).isSome) ∧
  ∀ p fe, mapGet m p = some fe → mapGet e p = some fe.Hash

/-- A manifest as `Capture` builds it: distinct paths, every hash the hex digest of some bytes. -/
def Captured (sum256 : Bytes → Digest) (m : Manifest) : Prop :=
  (m.map Prod.fst).Nodup ∧ ∀ kv ∈ m, ∃ data, kv.2.Hash = hashOf sum256 data

/-- The calls of the claims about histories. -/
inductive Op where
  | createCell (opts : SnapOptions)
  | createCellIfChanged (opts : SnapOptions)
  | forkBranch (name : String) (switchNow : Bool)
  | switchBranch (name : String)
  | restoreCell (targetID : String)
deriving DecidableEq, Repr

/-- The state a call leaves when it returns no error; `none` when it returns one. -/
def Op.run (svc : Service) (now : String) (op : Op) (w : World) : Option World :=
  match op with
  | .createCell opts =>
    match CreateCell svc now opts w with
    | (.ok _, w1) => some w1
    | (.error _, _) => none
  | .createCellIfChanged opts =>
    match CreateCellIfChanged svc now opts w with
    | (.ok _, w1) => some w1
    | (.error _, _) => none
  | .forkBranch name switchNow =>
    match ForkBranch now name switchNow w.db with
    | (.ok _, d1) => some { w with db := d1 }
    | (.error _, _) => none
  | .switchBranch name =>
    match SwitchBranch svc now name w with
    | (.ok _, w1) => some w1
    | (.error _, _) => none
  | .restoreCell targetID =>
    match RestoreCell svc now targetID w with
    | (.ok _, w1) => some w1
    | (.error _, _) => none

/-- The states reached from a repository whose database was just created, by
successful calls, the working tree being edited at will between the calls. -/
inductive Reachable (svc : Service) : World → Prop where
  | opened (now : String) (fs : FS) : Reachable svc { db := Open now, fs := fs }
  | call {w w1 : World} (now : String) (op : Op) :
      Reachable svc w → op.run svc now w = some w1 → Reachable svc w1
  | edit {w : World} (fs : FS) : Reachable svc w → Reachable svc { w with fs := fs }

/-- The `head_cell_id` of the branch row of the given name, `none` for a null
head and for a missing row. -/
def DB.headOf (d : DB) (name : String) : Option String :=
  match d.GetBranch name with
  | .ok b => b.HeadCellID
  | .error _ => none

/-- What the histories keep true of the database: a stored, trimmed, non-empty
active branch with a branch row, `head_cell` mirroring that row, branch heads
that name stored cells, cell ids that are not blank, and one manifest row per
cell and path. -/
structure DB.Inv (d : DB) (active : String) : Prop where
  activeMeta : d.GetMeta "active_branch" = .ok active
  trimmed : TrimSpace active = active
  nonEmpty : active ≠ ""
  hasRow : ∃ b, d.GetBranch active = .ok b
  mirror : d.GetMeta "head_cell" = .ok ((d.headOf active).getD "")
  heads : ∀ b ∈ d.branches, d.refOK b.HeadCellID = true
  ids : ∀ c ∈ d.cells, TrimSpace c.ID ≠ ""
  rows : d.manifestEntries.Pairwise fun x y => ¬ (x.CellID = y.CellID ∧ x.Path = y.Path)
  owners : ∀ e ∈ d.manifestEntries, e.CellID ∈ d.cellIDs

/-- The cell with its eval slot cleared: what is fixed once the cell is inserted. -/
def Cell.core (c : Cell) : Cell :=
  { c with EvalRequested := false, EvalRan := false, TestsPassed := none, TestsFailed := none,
           LintErrors := none, TypeErrors := none, EvalSkipped := none, EvalError := none }

/-- A service for worked examples: objects under `.converge/objects`, no evaluator. -/
def exampleService : Service :=
  { sum256 := padDigest, Store := { root := ".converge/objects" }, Evaluator := none }

/-- Snapshot options with a message and nothing else. -/
def messageOnly (message : String) : SnapOptions :=
  { Message := message, Tags := "", Agent := "", Source := "", RunEval := false }

/-- The example tree in a repository just created. -/
def world0 : World := { db := Open "t0", fs := exampleTree }

/-- The state after a first `CreateCell`: the cell `c_000001` holds `main.go`. -/
def world1 : World := (CreateCell exampleService "t1" (messageOnly "v1") world0).2

/-- The cell a call returned, a blank cell when it returned an error. -/
def cellOf (r : Except String Cell × World) : Cell :=
  match r.1 with
  | .ok c => c
  | .error _ => plainCell "" 0 ""

/-- The call `RestoreCell("c_000001")` in the state `world1`. -/
def restored1 : Except String Cell × World := RestoreCell exampleService "t2" "c_000001" world1

/-- A change of eval slots: the cells table mapped by a function that keeps every core. -/
def evalOnly (d d1 : DB) : Prop :=
  ∃ f : Cell → Cell, (∀ c, (f c).core = c.core) ∧ d1 = { d with cells := d.cells.map f }

/-- What a created cell and the database after it satisfy, given the database before. -/
def Created (d d1 : DB) (active : String) (opts : SnapOptions) (cell : Cell) : Prop :=
  d1.Inv active ∧ d1.headOf active = some cell.ID ∧ cell.Branch = active ∧
  cell.ParentID = d.headOf active ∧ cell.ID ∉ d.cellIDs ∧ d1.GetCell cell.ID = .ok cell ∧
  cell.Message = opts.Message ∧
  cell.Source = (if TrimSpace opts.Source = "" then "manual" else TrimSpace opts.Source) ∧
  (∀ n, n ≠ active → d1.GetBranch n = d.GetBranch n) ∧
  d1.cellIDs = d.cellIDs ++ [cell.ID] ∧
  (∀ id, id ≠ cell.ID → d1.GetManifest id = d.GetManifest id)

/-- The manifest of the cell named, empty when no cell is named. -/
def DB.manifestOf (d : DB) (id : Option String) : List ManifestEntry :=
  match id with
  | some id => d.GetManifest id
  | none => []

/-- The paths of a stored manifest. -/
def DB.pathsOf (d : DB) (id : String) : List String :=
  (d.GetManifest id).map ManifestEntry.Path

/-- A file node of mode `0644`. -/
def plainFile (data : Bytes) : FileNode := { data := data, mode := 0o644, symlink := false }

/-- The state `world1` with a second file `helper.go` in the working tree. -/
def world1Edited : World := { world1 with fs := world1.fs.set ["helper.go"] (plainFile [113, 10]) }

/-- The state after a second `CreateCell`: the cell `c_000002` holds `main.go`
and `helper.go`, and is the head of `main`. -/
def world2 : World := (CreateCell exampleService "t2" (messageOnly "v2") world1Edited).2

/-- The state after `ForkBranch("feature-a", true)`: the active branch is
`feature-a`, its head is `c_000002`, and no cell carries its name yet. -/
def world3 : World := { world2 with db := (ForkBranch "t3" "feature-a" true world2.db).2 }

/-- The call `RestoreCell("c_000001")` in the state `world3`. -/
def restored3 : Except String Cell × World := RestoreCell exampleService "t4" "c_000001" world3

/-- The state `world1` with a file `notes.tmp` that no cell tracks. -/
def worldNotes : World := { world1 with fs := world1.fs.set ["notes.tmp"] (plainFile [110, 10]) }

/-- The call `RestoreCell("c_000001")` in the state `worldNotes`. -/
def restoredNotes : Except String Cell × World :=
  RestoreCell exampleService "t2" "c_000001" worldNotes

/-- The state `world1` with a lock file left behind by an interrupted restore. -/
def worldStale : World := { world1 with fs := world1.fs.set lockPath (plainFile restoringBytes) }

/-- The call `RestoreCell("c_000001")` in the state `worldStale`. -/
def restoredStale : Except String Cell × World :=
  RestoreCell exampleService "t2" "c_000001" worldStale

/-- The error `EvaluateCell` returns for a stored cell: the evaluator is not
configured, or its run on the tree reports an error; `none` when the run reports
no error. -/
def evalFailure (svc : Service) (fs : FS) : Option String :=
  match svc.Evaluator with
  | none => some "evaluator is not configured"
  | some runner => (runner.Run fs).2

/-- An evaluator whose run finds nothing to report and returns no error. -/
def quietRunner : Runner := { Run := fun _ => (EvalResult.zero, none) }

/-- The service with its evaluator replaced. -/
def Service.withEvaluator (svc : Service) (runner : Runner) : Service :=
  { svc with Evaluator := some runner }

/-- The cell with the eval slot that a failed evaluation leaves: requested, ran,
no counts, the failure text. -/
def Cell.evalFailed (c : Cell) (errText : String) : Cell :=
  { c with EvalRequested := true, EvalRan := true, TestsPassed := none, TestsFailed := none,
           LintErrors := none, TypeErrors := none, EvalSkipped := none,
           EvalError := some errText }

/-- Snapshot options with a message and `RunEval` set. -/
def evalOptions (message : String) : SnapOptions :=
  { Message := message, Tags := "", Agent := "", Source := "", RunEval := true }

/-- An evaluator whose run reports one failed test and the error `exit status 1`. -/
def failingRunner : Runner :=
  { Run := fun _ => ({ EvalResult.zero with TestsFailed := 1, HasTests := true },
      some "exit status 1") }

/-! ## Manifest diff (`internal/diff/diff.go`) -/

structure Result where
  Added : List String
  Modified : List String
  Removed : List String
deriving DecidableEq, Repr, Inhabited

/-- The first loop of `CompareManifests`, over the entries of `to` in the order
the map hands them out: the paths appended to `Added` and to `Modified`. -/
def compareTo (fromMap : GoMap String) (toMap : GoMap String) : List String × List String :=
  toMap.foldl (fun acc kv =>
    match mapGet fromMap kv.1 with
    | none => (acc.1 ++ [kv.1], acc.2)
    | some fromHash => if fromHash ≠ kv.2 then (acc.1, acc.2 ++ [kv.1]) else acc) ([], [])

/-- The second loop of `CompareManifests`, over the entries of `from`. -/
def compareFrom (fromMap : GoMap String) (toMap : GoMap String) : List String :=
  fromMap.foldl (fun acc kv =>
    match mapGet toMap kv.1 with
    | none => acc ++ [kv.1]
    | some _ => acc) []

/-- `diff.CompareManifests(from, to)`; `sort.Strings` is `sortStrings`. -/
def CompareManifests (fromMap toMap : GoMap String) : Result :=
  let r := compareTo fromMap toMap
  { Added := sortStrings r.1, Modified := sortStrings r.2,
    Removed := sortStrings (compareFrom fromMap toMap) }

/-- Two maps of paths to hashes for worked examples. -/
def exampleFrom : GoMap String := [("b.go", "h2"), ("a.go", "h1"), ("gone.go", "h3")]

def exampleTo : GoMap String := [("new.go", "h5"), ("b.go", "h4"), ("a.go", "h1")]

/-! ## Expanded unified diff (`internal/diff/diff.go`) -/

/-- The struct `change`: line ranges `[oldStart, oldEnd)` and `[newStart, newEnd)`. -/
structure change where
  oldStart : Nat
  oldEnd : Nat
  newStart : Nat
  newEnd : Nat
deriving DecidableEq, Repr, Inhabited

/-- The value of a Go `int` expression on a 64-bit platform: the exact result
reduced into `[-2^63, 2^63)`. -/
def wrap64 (x : Int) : Int := (x + 2 ^ 63) % 2 ^ 64 - 2 ^ 63

/-- The helper `max` of `diff.go`. -/
def maxInt (a b : Int) : Int := if a > b then a else b

/-- The helper `min` of `diff.go`. -/
def minInt (a b : Int) : Int := if a < b then a else b

/-- Go `fmt.Sprintf("%d", n)`. -/
def formatInt (n : Int) : String :=
  if n < 0 then String.mk ('-' :: Nat.toDigits 10 n.natAbs) else String.mk (Nat.toDigits 10 n.toNat)

/-- Go `strings.Split(content, "\n")` on a string. -/
def Split (content : String) : List String := (splitLines content.data).map String.mk

/-- The loop `for dj := 0; dj < 50 && oj+dj < len(newLines); dj++` of
`computeChanges`: the first `dj` with `oldLine == newLines[oj+dj]`. -/
def searchNew (oldLine : String) (newLines : List String) (oj : Nat) : Option Nat :=
  (List.range 50).find? fun dj =>
    decide (oj + dj < newLines.length) && decide (oldLine = newLines.getD (oj + dj) "")

/-- The loop `for di := 0; di < 50 && oi+di < len(oldLines); di++` of
`computeChanges`: the first pair `(di, dj)` on which the lines agree. -/
def searchOld (oldLines newLines : List String) (oi oj : Nat) : Option (Nat × Nat) :=
  (List.range 50).findSome? fun di =>
    if oi + di < oldLines.length then
      (searchNew (oldLines.getD (oi + di) "") newLines oj).map fun dj => (di, dj)
    else none

/-- The main loop of `computeChanges` from the positions `i` and `j`, with the
changes found so far; `fuel` bounds the number of iterations. -/
def computeChangesAux (oldLines newLines : List String) :
    Nat → Nat → Nat → List change → List change
  | 0, _, _, changes => changes
  | fuel + 1, i, j, changes =>
    if i < oldLines.length ∧ j < newLines.length then
      if oldLines.getD i "" = newLines.getD j "" then
        computeChangesAux oldLines newLines fuel (i + 1) (j + 1) changes
      else
        match searchOld oldLines newLines i j with
        | some (di, dj) =>
          computeChangesAux oldLines newLines fuel (i + di) (j + dj)
            (changes ++ [{ oldStart := i, oldEnd := i + di, newStart := j, newEnd := j + dj }])
        | none =>
          changes ++ [{ oldStart := i, oldEnd := oldLines.length, newStart := j,
                        newEnd := newLines.length }]
    else if i < oldLines.length ∨ j < newLines.length then
      changes ++ [{ oldStart := i, oldEnd := oldLines.length, newStart := j,
                    newEnd := newLines.length }]
    else changes

/-- `computeChanges`: every iteration moves `i` or `j` forward, so
`len(oldLines) + len(newLines) + 1` iterations are enough. -/
def computeChanges (oldLines newLines : List String) : List change :=
  computeChangesAux oldLines newLines (oldLines.length + newLines.length + 1) 0 0 []

/-- The loop `for k := a; k < b; k++ { fmt.Fprintf(&hunk, "<mark>%s\n", lines[k]) }`. -/
def hunkLines (mark : String) (lines : List String) (a b : Int) : String :=
  String.join ((List.range (b - a).toNat).map fun k =>
    mark ++ lines.getD (a.toNat + k) "" ++ "\n")

/-- The header `fmt.Fprintf(&hunk, "@@ -%d,%d +%d,%d @@\n", ...)`. -/
def hunkHeader (oldFrom oldTo newFrom newTo : Int) : String :=
  "@@ -" ++ formatInt (wrap64 (oldFrom + 1)) ++ "," ++ formatInt (wrap64 (oldTo - oldFrom)) ++
    " +" ++ formatInt (wrap64 (newFrom + 1)) ++ "," ++ formatInt (wrap64 (newTo - newFrom)) ++
    " @@\n"

/-- One iteration of the loop of `groupHunks`. -/
def hunkOf (oldLines newLines : List String) (contextLines : Int) (c : change) : String :=
  let oldFrom := maxInt 0 (wrap64 (c.oldStart - contextLines))
  let oldTo := minInt oldLines.length (wrap64 (c.oldEnd + contextLines))
  let newFrom := maxInt 0 (wrap64 (c.newStart - contextLines))
  let newTo := minInt newLines.length (wrap64 (c.newEnd + contextLines))
  hunkHeader oldFrom oldTo newFrom newTo ++
    hunkLines " " oldLines oldFrom c.oldStart ++
    hunkLines "-" oldLines c.oldStart c.oldEnd ++
    hunkLines "+" newLines c.newStart c.newEnd ++
    hunkLines " " oldLines c.oldEnd oldTo

def groupHunks (changes : List change) (oldLines newLines : List String) (contextLines : Int) :
    List String :=
  changes.map (hunkOf oldLines newLines contextLines)

/-- `diff.ExpandedUnifiedDiff`. -/
def ExpandedUnifiedDiff (filename oldContent newContent : String) (contextLines : Int) :
    String :=
  if oldContent = newContent then ""
  else
    let contextLines := if contextLines < 0 then 0 else contextLines
    let oldLines := Split oldContent
    let newLines := Split newContent
    let changes := computeChanges oldLines newLines
    if changes.length = 0 then ""
    else
      "--- a/" ++ filename ++ "\n" ++ "+++ b/" ++ filename ++ "\n" ++
        String.join (groupHunks changes oldLines newLines contextLines)

/-- The hunk header in the words of the specification, with exact integers. -/
def specHeader (c : change) (lenOld lenNew : Nat) (context : Int) : String :=
  "@@ -" ++ formatInt (max 0 (c.oldStart - context) + 1) ++ "," ++
    formatInt (min (lenOld : Int) (c.oldEnd + context) - max 0 (c.oldStart - context)) ++
    " +" ++ formatInt (max 0 (c.newStart - context) + 1) ++ "," ++
    formatInt (min (lenNew : Int) (c.newEnd + context) - max 0 (c.newStart - context)) ++
    " @@\n"

/-- The hunk of a change in the words of the specification: the header, the
context before, the lines removed, the lines added, the context after. -/
def specHunk (oldLines newLines : List String) (context : Int) (c : change) : String :=
  specHeader c oldLines.length newLines.length context ++
    hunkLines " " oldLines (max 0 (c.oldStart - context)) c.oldStart ++
    hunkLines "-" oldLines c.oldStart c.oldEnd ++
    hunkLines "+" newLines c.newStart c.newEnd ++
    hunkLines " " oldLines c.oldEnd (min (oldLines.length : Int) (c.oldEnd + context))

/-- Joins lines with newlines: the inverse of `splitLines`. -/
def joinLines : List (List Char) → List Char
  | [] => []
  | [w] => w
  | w :: w1 :: ws => w ++ '\n' :: joinLines (w1 :: ws)

/-- The ranges of a change lie within the two line arrays. -/
def change.Within (c : change) (lenOld lenNew : Nat) : Prop :=
  c.oldStart ≤ c.oldEnd ∧ c.oldEnd ≤ lenOld ∧ c.newStart ≤ c.newEnd ∧ c.newEnd ≤ lenNew

/-! ## Vocabulary for the snapshot -/

/-- A tree as the operating system keeps it: every path has a component, and no
component is empty, `.`, `..` or holds a slash. -/
def FS.WellFormed (fs : FS) : Prop := ∀ e ∈ fs, e.1 ≠ [] ∧ ∀ c ∈ e.1, plainName c

/-- The manifest entry of a file: the hash of its bytes, its mode, its size. -/
def entryOf (sum256 : Bytes → Digest) (node : FileNode) : FileEntry :=
  { Hash := hashOf sum256 node.data, Mode := node.mode, Size := node.data.length }

/-- The files the walk of `Capture` hands to the callback and the callback keeps. -/
def walked (fs : FS) (p : Path) (node : FileNode) : Prop :=
  fs.lookup p = some node ∧ node.symlink = false ∧ p.getLastD "" ∉ IgnoredFileNames ∧
    walkReaches p = true

/-- The files the ignore policy keeps, in the words of the specification: regular
files that are not symbolic links, are not named `.DS_Store`, and lie under no
directory named `.converge`, `.git`, `node_modules` or `__pycache__`. -/
def tracked (fs : FS) (p : Path) (node : FileNode) : Prop :=
  fs.lookup p = some node ∧ node.symlink = false ∧ p.getLastD "" ≠ ".DS_Store" ∧
    ∀ d ∈ p.dropLast, d ∉ [".converge", ".git", "node_modules", "__pycache__"]

/-- What the callback of `Capture` does to the manifest, read off the tree alone. -/
def recordFile (sum256 : Bytes → Digest) (fs : FS) (m : Manifest) (p : Path) : Manifest :=
  if p.getLastD "" ∈ IgnoredFileNames then m
  else
    match fs.lookup p with
    | none => m
    | some node =>
      if node.symlink then m else mapSet m ("/".intercalate p) (entryOf sum256 node)

def recordWalk (sum256 : Bytes → Digest) (fs : FS) (ps : List Path) (m : Manifest) : Manifest :=
  ps.foldl (recordFile sum256 fs) m

/-- The callback of `Capture` records the file `p` under `key` with the entry `fe`. -/
def records (sum256 : Bytes → Digest) (fs : FS) (p : Path) (key : String) (fe : FileEntry) :
    Prop :=
  ∃ node, fs.lookup p = some node ∧ node.symlink = false ∧
    p.getLastD "" ∉ IgnoredFileNames ∧ key = "/".intercalate p ∧ fe = entryOf sum256 node

/-- A tree with ignored directories, an ignored file and a symbolic link. -/
def policyTree : FS :=
  [(["src", "main.go"], plainFile [112, 10]),
   (["README.md"], plainFile [35, 10]),
   ([".git", "config"], plainFile [99]),
   (["src", "node_modules", "x.js"], plainFile [120]),
   (["src", ".DS_Store"], plainFile [0]),
   (["link"], { data := [], mode := 0o777, symlink := true })]

/-- The manifest of `policyTree`: the two files the policy keeps. -/
def policyManifest : Manifest :=
  [("README.md", { Hash := hashOf padDigest [35, 10], Mode := 0o644, Size := 2 }),
   ("src/main.go", { Hash := hashOf padDigest [112, 10], Mode := 0o644, Size := 2 })]

/-! ## Agent runs (`internal/db/agent_runs.go`) -/

def agentRunSourceDefault : String := "agent_complete"

def agentRunStatusRunning : String := "running"

/-- `DB.GetAgentRun`: the row whose `run_id` is the trimmed argument. -/
def DB.GetAgentRun (d : DB) (runID : String) : Except DbError AgentRun :=
  let runID := TrimSpace runID
  if runID = "" then .error (.failed "run_id cannot be empty")
  else
    match d.agentRuns.find? fun r => r.RunID = runID with
    | some run => .ok run
    | none => .error .notFound

/-- `DB.ReserveAgentRun`: `INSERT ... ON CONFLICT(run_id) DO NOTHING`; one row is
affected exactly when no row has the run id. The pair returned is `(reserved, run)`. -/
def DB.ReserveAgentRun (now : String) (d : DB) (run : AgentRun) :
    Except DbError (Bool × Option AgentRun) × DB :=
  let runID := TrimSpace run.RunID
  if runID = "" then (.error (.failed "run_id cannot be empty"), d)
  else
    let agent := TrimSpace run.Agent
    if agent = "" then (.error (.failed "agent cannot be empty"), d)
    else
      let source := if TrimSpace run.Source = "" then agentRunSourceDefault
        else TrimSpace run.Source
      let message := TrimSpace run.Message
      if d.agentRuns.any (fun r => r.RunID = runID) then
        match d.GetAgentRun runID with
        | .error err => (.error err, d)
        | .ok existing => (.ok (false, some existing), d)
      else
        let created : AgentRun :=
          { RunID := runID, Agent := agent, Message := message, Tags := run.Tags,
            Source := source, Status := agentRunStatusRunning, Branch := none, CellID := none,
            Error := none, CreatedAt := now, UpdatedAt := now }
        (.ok (true, some created), { d with agentRuns := d.agentRuns ++ [created] })

/-- The columns the `UPDATE` of `FinalizeAgentRun` sets in a row. -/
def finalizeRow (now status : String) (cellID branch : Option String) (source : String)
    (runErr : Option String) (r : AgentRun) : AgentRun :=
  { r with Status := status, CellID := cellID, Branch := branch, Source := source,
           Error := runErr, UpdatedAt := now }

/-- `DB.FinalizeAgentRun`: `UPDATE agent_runs SET ... WHERE run_id = ?`; no row
affected is `ErrNotFound`. -/
def DB.FinalizeAgentRun (now : String) (d : DB) (runID status : String)
    (cellID branch : Option String) (source : String) (runErr : Option String) :
    Except DbError DB :=
  let runID := TrimSpace runID
  if runID = "" then .error (.failed "run_id cannot be empty")
  else
    let status := TrimSpace status
    if status = "" then .error (.failed "status cannot be empty")
    else
      let source := if TrimSpace source = "" then agentRunSourceDefault else TrimSpace source
      if d.agentRuns.any (fun r => r.RunID = runID) then
        .ok { d with agentRuns := d.agentRuns.map fun r =>
                if r.RunID = runID then finalizeRow now status cellID branch source runErr r
                else r }
      else .error .notFound

/-! ## Agent completion (`internal/core/agent_completion.go`, `internal/core/types.go`) -/

def AgentCompletionStatusCreated : String := "created"

def AgentCompletionStatusNoChange : String := "no_change"

def AgentCompletionStatusDuplicate : String := "duplicate"

def AgentCompletionStatusFailed : String := "failed"

def defaultAgentCompletionSource : String := "agent_complete"

structure AgentCompletionOptions where
  RunID : String
  Agent : String
  Message : String
  Tags : String
  Source : String
  RunEval : Bool
deriving DecidableEq, Repr, Inhabited

structure AgentCompletionResult where
  Status : String
  RunID : String
  CellID : Option String
  Branch : String
  Source : String
  Error : String
deriving DecidableEq, Repr, Inhabited

/-- The Go value `AgentCompletionResult{}`. -/
def AgentCompletionResult.zero : AgentCompletionResult :=
  { Status := "", RunID := "", CellID := none, Branch := "", Source := "", Error := "" }

def resultFromDuplicate (run : Option AgentRun) : AgentCompletionResult :=
  match run with
  | none => { AgentCompletionResult.zero with Status := AgentCompletionStatusDuplicate }
  | some run =>
    { Status := AgentCompletionStatusDuplicate
      RunID := run.RunID
      Source := run.Source
      CellID :=
        match run.CellID with
        | some id => if TrimSpace id ≠ "" then some id else none
        | none => none
      Branch :=
        match run.Branch with
        | some b => TrimSpace b
        | none => ""
      Error :=
        match run.Error with
        | some e => TrimSpace e
        | none => "" }

/-- The result of a run that failed with the error text given. -/
def failedResult (runID source errText : String) : AgentCompletionResult :=
  { Status := AgentCompletionStatusFailed, RunID := runID, CellID := none, Branch := "",
    Source := source, Error := errText }

/-- `Service.HandleAgentCompletion`: the result, the error (`none` for nil) and
the state the call leaves. `CreateCellIfChanged` returns a cell exactly when it
reports `created`, so the branch for a nil cell that was created is not taken. -/
def HandleAgentCompletion (svc : Service) (now : String) (opts : AgentCompletionOptions)
    (w : World) : (AgentCompletionResult × Option String) × World :=
  let runID := TrimSpace opts.RunID
  if runID = "" then ((AgentCompletionResult.zero, some "run-id is required"), w)
  else
    let agent := TrimSpace opts.Agent
    if agent = "" then ((AgentCompletionResult.zero, some "agent is required"), w)
    else
      let message := TrimSpace opts.Message
      if message = "" then ((AgentCompletionResult.zero, some "message is required"), w)
      else
        let source := if TrimSpace opts.Source = "" then defaultAgentCompletionSource
          else TrimSpace opts.Source
        let tags := TrimSpace opts.Tags
        let tagsPtr := if tags ≠ "" then some tags else none
        match w.db.ReserveAgentRun now
            { RunID := runID, Agent := agent, Message := message, Tags := tagsPtr,
              Source := source, Status := "", Branch := none, CellID := none, Error := none,
              CreatedAt := "", UpdatedAt := "" } with
        | (.error err, d1) => ((AgentCompletionResult.zero, some err.text), { w with db := d1 })
        | (.ok (false, existingRun), d1) =>
          ((resultFromDuplicate existingRun, none), { w with db := d1 })
        | (.ok (true, _), d1) =>
          match CreateCellIfChanged svc now
              { Message := message, Tags := tags, Agent := agent, Source := source,
                RunEval := opts.RunEval } { w with db := d1 } with
          | (.error createErr, w2) =>
            match w2.db.FinalizeAgentRun now runID AgentCompletionStatusFailed none none source
                (some createErr) with
            | .error err =>
              ((AgentCompletionResult.zero, some ("finalize failed run: " ++ err.text)), w2)
            | .ok d3 => ((failedResult runID source createErr, some createErr), { w2 with db := d3 })
          | (.ok none, w2) =>
            match ActiveBranch now w2.db with
            | (.error branchErr, d3) =>
              match d3.FinalizeAgentRun now runID AgentCompletionStatusFailed none none source
                  (some branchErr) with
              | .error err =>
                ((AgentCompletionResult.zero,
                  some ("finalize failed run after branch error: " ++ err.text)),
                 { w2 with db := d3 })
              | .ok d4 =>
                ((failedResult runID source branchErr, some branchErr), { w2 with db := d4 })
            | (.ok branch, d3) =>
              match d3.FinalizeAgentRun now runID AgentCompletionStatusNoChange none (some branch)
                  source none with
              | .error err =>
                ((AgentCompletionResult.zero, some ("finalize no-change run: " ++ err.text)),
                 { w2 with db := d3 })
              | .ok d4 =>
                (({ Status := AgentCompletionStatusNoChange, RunID := runID, CellID := none,
                    Branch := branch, Source := source, Error := "" }, none),
                 { w2 with db := d4 })
          | (.ok (some cell), w2) =>
            let cellID := cell.ID
            let branch := TrimSpace cell.Branch
            match w2.db.FinalizeAgentRun now runID AgentCompletionStatusCreated (some cellID)
                (some branch) source none with
            | .error err =>
              ((AgentCompletionResult.zero, some ("finalize created run: " ++ err.text)), w2)
            | .ok d3 =>
              (({ Status := AgentCompletionStatusCreated, RunID := runID, CellID := some cellID,
                  Branch := branch, Source := source, Error := "" }, none),
               { w2 with db := d3 })

/-- The source a completion is recorded with. -/
def AgentCompletionOptions.sourceOf (opts : AgentCompletionOptions) : String :=
  if TrimSpace opts.Source = "" then defaultAgentCompletionSource else TrimSpace opts.Source

/-- The options `HandleAgentCompletion` hands to `CreateCellIfChanged`. -/
def AgentCompletionOptions.snap (opts : AgentCompletionOptions) : SnapOptions :=
  { Message := TrimSpace opts.Message, Tags := TrimSpace opts.Tags,
    Agent := TrimSpace opts.Agent, Source := opts.sourceOf, RunEval := opts.RunEval }

/-- The row a reservation inserts. -/
def reservedRow (now : String) (opts : AgentCompletionOptions) : AgentRun :=
  { RunID := TrimSpace opts.RunID, Agent := TrimSpace opts.Agent,
    Message := TrimSpace opts.Message,
    Tags := if TrimSpace opts.Tags ≠ "" then some (TrimSpace opts.Tags) else none,
    Source := opts.sourceOf, Status := agentRunStatusRunning, Branch := none, CellID := none,
    Error := none, CreatedAt := now, UpdatedAt := now }

/-- The state in which the run of the options is reserved. -/
def World.reserve (w : World) (now : String) (opts : AgentCompletionOptions) : World :=
  { w with db := { w.db with agentRuns := w.db.agentRuns ++ [reservedRow now opts] } }

/-- The rows after the run of the options has reached a terminal status. -/
def finalizedRuns (runs : List AgentRun) (now : String) (opts : AgentCompletionOptions)
    (status : String) (cellID branch : Option String) (runErr : Option String) :
    List AgentRun :=
  runs.map fun r =>
    if r.RunID = TrimSpace opts.RunID then
      finalizeRow now status cellID branch opts.sourceOf runErr r
    else r

/-- The state in which the run of the options has reached a terminal status. -/
def World.finalize (w : World) (now : String) (opts : AgentCompletionOptions) (status : String)
    (cellID branch : Option String) (runErr : Option String) : World :=
  { w with db := { w.db with
      agentRuns := finalizedRuns w.db.agentRuns now opts status cellID branch runErr } }

/-- The options pass the checks that come before the reservation. -/
def AgentCompletionOptions.valid (opts : AgentCompletionOptions) : Prop :=
  TrimSpace opts.RunID ≠ "" ∧ TrimSpace opts.Agent ≠ "" ∧ TrimSpace opts.Message ≠ ""

/-- The states of a repository whose callers also report agent completions:
those of `Reachable`, closed under the calls, under edits of the working tree
and under `HandleAgentCompletion`, whatever it returns. -/
inductive AgentReachable (svc : Service) : World → Prop where
  | plain {w : World} : Reachable svc w → AgentReachable svc w
  | call {w w1 : World} (now : String) (op : Op) :
      AgentReachable svc w → op.run svc now w = some w1 → AgentReachable svc w1
  | edit {w : World} (fs : FS) : AgentReachable svc w → AgentReachable svc { w with fs := fs }
  | completion {w : World} (now : String) (opts : AgentCompletionOptions) :
      AgentReachable svc w → AgentReachable svc (HandleAgentCompletion svc now opts w).2

/-- The calls of a list, one after the other: the results and the last state. -/
def completions (svc : Service) :
    List (String × AgentCompletionOptions) → World →
      List (AgentCompletionResult × Option String) × World
  | [], w => ([], w)
  | (now, opts) :: rest, w =>
    let r := HandleAgentCompletion svc now opts w
    let rs := completions svc rest r.2
    (r.1 :: rs.1, rs.2)

/-- The options of a completion report with a run id, an agent and a message. -/
def reportOptions (runID agent message : String) : AgentCompletionOptions :=
  { RunID := runID, Agent := agent, Message := message, Tags := "", Source := "",
    RunEval := false }

/-- The state after the agent `codex` reported the run `run-1` on the edited tree. -/
def reportedWorld : World :=
  (HandleAgentCompletion exampleService "t2" (reportOptions "run-1" "codex" "second")
    world1Edited).2

/-- Two later reports of the run `run-1`: one that passes the checks, one whose
message is blank. -/
def exampleRetries : List (String × AgentCompletionOptions) :=
  [("t3", reportOptions " run-1 " "claude" "again"), ("t4", reportOptions "run-1" "codex" "  ")]

/-! ## Vocabulary for the switch between branches -/

/-- A manifest row as `Capture` files it: the path is the slash path of a file
the walk reaches, the hash is the hash of some bytes. -/
def capturedRow (sum256 : Bytes → Digest) (e : ManifestEntry) : Prop :=
  (∃ p : Path, p ≠ [] ∧ (∀ c ∈ p, plainName c) ∧ walkReaches p = true ∧
    e.Path = "/".intercalate p) ∧
  ∃ data : Bytes, e.Hash = hashOf sum256 data

/-- The state `world1` after `ForkBranch("feature-a", false)` and the addition
of `helper.go` to the working tree. -/
def worldForked : World :=
  { db := (ForkBranch "t2" "feature-a" false world1.db).2,
    fs := world1.fs.set ["helper.go"] (plainFile [113, 10]) }

/-- The state after a `CreateCell` on `main`: `c_000002` holds `main.go` and
`helper.go`; the head of `feature-a` is still `c_000001`. -/
def worldAhead : World := (CreateCell exampleService "t3" (messageOnly "v2") worldForked).2

/-- The call `SwitchBranch("feature-a")` in the state `worldAhead`. -/
def switched : Except String (Option Cell × Cell) × World :=
  SwitchBranch exampleService "t4" "feature-a" worldAhead

/-- The cells a switch returned, blank cells when it returned an error. -/
def cellsOf (r : Except String (Option Cell × Cell) × World) : Option Cell × Cell :=
  match r.1 with
  | .ok c => c
  | .error _ => (none, plainCell "" 0 "")

/-! ## Vocabulary for the LOC rules -/

/-- The single-line comment prefix the specification gives for a lower-cased
extension; `none` for every other extension. -/
def commentPrefix (ext : String) : Option String :=
  if ext ∈ [".go", ".js", ".ts", ".tsx", ".jsx", ".java", ".c", ".cpp", ".rs", ".swift"] then
    some "//"
  else if ext ∈ [".py", ".rb", ".sh", ".yaml", ".yml", ".toml"] then some "#"
  else if ext ∈ [".sql", ".lua"] then some "--"
  else none

/-- A line counts, in the words of the specification: trimmed of surrounding
whitespace it is not empty and does not begin with the comment prefix. -/
def countsAsCode (ext : String) (line : String) : Bool :=
  decide (TrimSpace line ≠ "") &&
    match commentPrefix ext with
    | some p => !startsWith (TrimSpace line) p
    | none => true

/-! ## Working tree delta (`internal/core/service.go`, `internal/core/types.go`) -/

structure WorkingTreeDelta where
  Modified : Int
  Added : Int
  Removed : Int
deriving DecidableEq, Repr, Inhabited

/-- The two counting loops of `Service.WorkingTreeDelta`. -/
def deltaCounts (manifest : Manifest) (latestMap : GoMap String) : WorkingTreeDelta :=
  let delta : WorkingTreeDelta := manifest.foldl (fun delta kv =>
    match mapGet latestMap kv.1 with
    | none => { delta with Added := delta.Added + 1 }
    | some hash =>
      if hash ≠ kv.2.Hash then { delta with Modified := delta.Modified + 1 } else delta)
    { Modified := 0, Added := 0, Removed := 0 }
  latestMap.foldl (fun delta kv =>
    match mapGet manifest kv.1 with
    | some _ => delta
    | none => { delta with Removed := delta.Removed + 1 }) delta

/-- `Service.WorkingTreeDelta`: the head cell of the active branch (nil when
there is none) and the counts of the working tree against it. -/
def Service.WorkingTreeDelta (svc : Service) (now : String) (w : World) :
    Except String (Option Cell × Converge.WorkingTreeDelta) × World :=
  match ActiveBranch now w.db with
  | (.error err, d1) => (.error err, { w with db := d1 })
  | (.ok branch, d1) =>
    match branchHeadCell d1 branch with
    | none => (.ok (none, { Modified := 0, Added := 0, Removed := 0 }), { w with db := d1 })
    | some latest =>
      match Capture svc.sum256 svc.Store w.fs with
      | (.error err, fs1) => (.error ("capture current snapshot: " ++ err), { db := d1, fs := fs1 })
      | (.ok manifest, fs1) =>
        let latestEntries := d1.GetManifest latest.ID
        let latestMap := manifestHashesFromEntries latestEntries
        (.ok (some latest, deltaCounts manifest latestMap), { db := d1, fs := fs1 })

/-! ## Vocabulary for the statistics of a cell -/

/-- The map from path to hash of a captured manifest. -/
def currentHashes (current : Manifest) : GoMap String := current.map fun kv => (kv.1, kv.2.Hash)

/-- A file of the current manifest whose path the parent does not have. -/
def isAdded (parentMap : GoMap String) (kv : String × FileEntry) : Bool :=
  (mapGet parentMap kv.1).isNone

/-- A file of the current manifest whose path the parent has with another hash. -/
def isModified (parentMap : GoMap String) (kv : String × FileEntry) : Bool :=
  match mapGet parentMap kv.1 with
  | some oldHash => decide (oldHash ≠ kv.2.Hash)
  | none => false

/-- A row of the parent whose path the current manifest does not have. -/
def isRemoved (current : Manifest) (e : ManifestEntry) : Bool := (mapGet current e.Path).isNone

/-- The count of lines of a modified file minus the count of its old version. -/
def lineDelta (parentMap : GoMap String) (s : Store) (fs : FS) (kv : String × FileEntry) : Int :=
  blobLines s fs kv.2.Hash - blobLines s fs ((mapGet parentMap kv.1).getD "")

/-- The lines added, in the words of the specification: the lines of every added
file, and for every modified file the growth of its count of lines. -/
def specLinesAdded (current : Manifest) (parentMap : GoMap String) (s : Store) (fs : FS) : Int :=
  ((current.filter (isAdded parentMap)).map fun kv => blobLines s fs kv.2.Hash).sum +
    ((current.filter (isModified parentMap)).map fun kv =>
      if lineDelta parentMap s fs kv ≥ 0 then lineDelta parentMap s fs kv else 0).sum

/-- The lines removed, in the words of the specification: for every modified
file the shrinkage of its count of lines, and the lines of every removed file. -/
def specLinesRemoved (current : Manifest) (parentEntries : List ManifestEntry)
    (parentMap : GoMap String) (s : Store) (fs : FS) : Int :=
  ((current.filter (isModified parentMap)).map fun kv =>
      if lineDelta parentMap s fs kv ≥ 0 then 0 else - lineDelta parentMap s fs kv).sum +
    ((parentEntries.filter (isRemoved current)).map fun e => blobLines s fs e.Hash).sum

/-- A store that holds a one-line blob and a two-line blob. -/
def twoBlobs : FS :=
  (exampleService.Store.Write padDigest
    (exampleService.Store.Write padDigest [] [111, 110, 101, 10]).2
    [111, 110, 101, 10, 116, 119, 111, 10]).2

/-- A manifest of one file `a.txt` with the bytes given. -/
def oneFile (data : Bytes) : Manifest :=
  [("a.txt", { Hash := hashOf padDigest data, Mode := 0o644, Size := data.length })]

/-- The parent rows of one file `a.txt` with the bytes given. -/
def oneRow (data : Bytes) : List ManifestEntry :=
  [{ CellID := "c_000001", Path := "a.txt", Hash := hashOf padDigest data, Mode := 0o644,
     Size := data.length }]

/-- A current manifest for worked examples: `a.txt` rewritten, `new.txt` added. -/
def exampleCurrent : Manifest :=
  [("a.txt", { Hash := hashOf padDigest [111, 110, 101, 10, 116, 119, 111, 10], Mode := 0o644,
               Size := 8 }),
   ("new.txt", { Hash := hashOf padDigest [111, 110, 101, 10], Mode := 0o644, Size := 4 })]

/-- Parent rows for worked examples: `a.txt` with one line, and `gone.txt`. -/
def exampleParent : List ManifestEntry :=
  [{ CellID := "c_000001", Path := "a.txt", Hash := hashOf padDigest [111, 110, 101, 10],
     Mode := 0o644, Size := 4 },
   { CellID := "c_000001", Path := "gone.txt",
     Hash := hashOf padDigest [111, 110, 101, 10, 116, 119, 111, 10], Mode := 0o644, Size := 8 }]

/-! ## Vocabulary for the change detection -/

/-- The main loop of `computeChanges` with a bound on its iterations that is
reported: `none` when the bound is reached before the loop ends. -/
def computeChangesRun (oldLines newLines : List String) :
    Nat → Nat → Nat → List change → Option (List change)
  | 0, _, _, _ => none
  | fuel + 1, i, j, changes =>
    if i < oldLines.length ∧ j < newLines.length then
      if oldLines.getD i "" = newLines.getD j "" then
        computeChangesRun oldLines newLines fuel (i + 1) (j + 1) changes
      else
        match searchOld oldLines newLines i j with
        | some (di, dj) =>
          computeChangesRun oldLines newLines fuel (i + di) (j + dj)
            (changes ++ [{ oldStart := i, oldEnd := i + di, newStart := j, newEnd := j + dj }])
        | none =>
          some (changes ++ [{ oldStart := i, oldEnd := oldLines.length, newStart := j,
                              newEnd := newLines.length }])
    else if i < oldLines.length ∨ j < newLines.length then
      some (changes ++ [{ oldStart := i, oldEnd := oldLines.length, newStart := j,
                          newEnd := newLines.length }])
    else some changes

/-- Copies `old` from line `i` on, replacing the range `old[oldStart, oldEnd)` of
each change by `new[newStart, newEnd)`. -/
def applyChanges (old new : List String) : Nat → List change → List String
  | i, [] => old.drop i
  | i, c :: cs =>
    (old.drop i).take (c.oldStart - i) ++ (new.drop c.newStart).take (c.newEnd - c.newStart) ++
      applyChanges old new c.oldEnd cs

/-- The changes are in order from the lines `i` and `j` on: each starts where
the one before ended or later, on both sides, and lies within the arrays. -/
def orderedFrom (lenOld lenNew : Nat) : Nat → Nat → List change → Prop
  | _, _, [] => True
  | i, j, c :: cs =>
    i ≤ c.oldStart ∧ j ≤ c.newStart ∧ c.Within lenOld lenNew ∧
      orderedFrom lenOld lenNew c.oldEnd c.newEnd cs

/-! ## Vocabulary for the hunks -/

/-- The body lines of a hunk: the lines after the header, without the empty
string that follows the last newline. -/
def hunkBodyLines (hunk : String) : List String := ((Split hunk).drop 1).dropLast

/-- The number of body lines of a hunk that start with one of the marks. -/
def countMarked (marks : List Char) (hunk : String) : Nat :=
  ((hunkBodyLines hunk).filter fun line =>
    match line.data with
    | c :: _ => decide (c ∈ marks)
    | [] => false).length

/-! ## Vocabulary for cell ids and the sequence counter -/

/-- The value of a decimal digit character. -/
def digitValue (c : Char) : Nat := c.toNat - 48

/-- The number a list of decimal digits writes, leading zeros allowed. -/
def digitsValue (digits : List Char) : Nat :=
  digits.foldl (fun acc c => acc * 10 + digitValue c) 0

/-- What the histories keep true of the cells table and of the counter: the
counter row exists and holds a value that is not negative and not below any
stored sequence; every stored cell has a positive sequence, the id `CellID`
gives to its sequence, and a branch that SQL `TRIM` does not empty; the branch
row `main` exists, and no two branch rows have the same name. -/
structure DB.Settled (d : DB) : Prop where
  counter : ∃ L : Int, d.lastSequence = some L ∧ 0 ≤ L ∧ ∀ c ∈ d.cells, c.Sequence ≤ L
  format : ∀ c ∈ d.cells, 0 < c.Sequence ∧ c.ID = CellID c.Sequence
  branchSet : ∀ c ∈ d.cells, sqlTrim c.Branch ≠ ""
  mainRow : d.branches.any (fun b => b.Name = "main") = true
  names : d.branches.Pairwise fun a b => a.Name ≠ b.Name

/-- The databases reached from a database just opened by `AllocateSequence`
calls and by inserts of cells, whatever the cell and its manifest rows. -/
inductive SeqReachable : DB → Prop where
  | opened (now : String) : SeqReachable (Open now)
  | allocated {d d1 : DB} {n : Int} :
      SeqReachable d → d.AllocateSequence = .ok (n, d1) → SeqReachable d1
  | inserted {d d1 : DB} (now : String) (cell : Cell) (entries : List ManifestEntry) :
      SeqReachable d →
      d.InsertCellWithManifestAndAdvanceBranch now cell entries = .ok d1 → SeqReachable d1

/-- The stored cells are formed as the pipeline forms them: a positive sequence
and the id `CellID(sequence)`. -/
def DB.pipelineFormed (d : DB) : Prop :=
  ∀ c ∈ d.cells, 0 < c.Sequence ∧ c.ID = CellID c.Sequence

/-- The branch table after the migration, by the words of the amended claim: a
null head of `main` becomes the id of the latest cell. -/
def backfilledBranches (d : DB) : List Branch :=
  d.branches.map fun b =>
    if b.Name = "main" ∧ b.HeadCellID = none then
      { b with HeadCellID := d.LatestCell.map Cell.ID }
    else b

/-- A repository just created, forked to the branch `side` with a switch. -/
def worldSide0 : World :=
  { world0 with db := (ForkBranch "t1" "side" true world0.db).2 }

/-- The state after a `CreateCell` on `side`: the cell `c_000001` is the head of
`side`, and the head of `main` is null. -/
def worldSide : World := (CreateCell exampleService "t2" (messageOnly "v1") worldSide0).2

/-- A database just opened, after one `AllocateSequence`. -/
def seqAllocated : DB := { Open "t0" with lastSequence := some 1 }

/-- The database `seqAllocated` after the insert of the cell of sequence 1; the
database as it was when the insert fails. -/
def seqExample : DB :=
  match seqAllocated.InsertCellWithManifestAndAdvanceBranch "t1"
      (plainCell (CellID 1) 1 "main") [] with
  | .ok d2 => d2
  | .error _ => seqAllocated

/-- A database just opened after the insert of a cell of sequence 1 whose id is
`c_000002`; the database just opened when the insert fails. -/
def seqForeign : DB :=
  match (Open "t0").InsertCellWithManifestAndAdvanceBranch "t1"
      (plainCell "c_000002" 1 "main") [] with
  | .ok d2 => d2
  | .error _ => Open "t0"

/-- The database `seqForeign` after one `AllocateSequence`. -/
def seqForeignAllocated : DB := { seqForeign with lastSequence := some 2 }

/-! ## Vocabulary for the immutability of cells -/

/-- The manifest rows of the cell `id`, in the order of the table. -/
def DB.rowsOf (d : DB) (id : String) : List ManifestEntry :=
  d.manifestEntries.filter fun e => e.CellID = id

/-- Every cell of `d` is a cell of `d1`, at its place and with every field as it
was, and its manifest rows are the ones it had. -/
def keeps (d d1 : DB) : Prop :=
  (∃ extra, d1.cells = d.cells ++ extra) ∧ ∀ c ∈ d.cells, d1.rowsOf c.ID = d.rowsOf c.ID

/-- Only eval slots of the cells named `id` differ between `d` and `d1`: the
cells table is mapped by a function that leaves the cells of other ids as they
are and keeps every field outside the eval slot; the other tables are the same. -/
def evalAt (id : String) (d d1 : DB) : Prop :=
  ∃ g : Cell → Cell, (∀ c, c.ID ≠ id → g c = c) ∧ (∀ c, (g c).core = c.core) ∧
    d1 = { d with cells := d.cells.map g }

/-! ## File system lemmas -/

theorem FS.lookup_set_same (fs : FS) (p : Path) (n : FileNode) : (fs.set p n).lookup p = some n := by
  simp [FS.set, FS.lookup]

theorem FS.lookup_erase_other (fs : FS) {p q : Path} (h : q ≠ p) :
    (fs.erase p).lookup q = fs.lookup q := by
  unfold FS.erase FS.lookup
  rw [List.find?_filter]
  congr 2
  funext a
  by_cases hq : a.1 = q
  · simp [hq, h]
  · simp [hq]

theorem FS.lookup_erase_same (fs : FS) (p : Path) : (fs.erase p).lookup p = none := by
  simp [FS.erase, FS.lookup]

theorem FS.lookup_set_other (fs : FS) {p q : Path} (n : FileNode) (h : q ≠ p) :
    (fs.set p n).lookup q = fs.lookup q := by
  have h' : ¬ p = q := fun e => h e.symm
  have := FS.lookup_erase_other fs h
  simp only [FS.set, FS.lookup, List.find?_cons] at this ⊢
  simp [h', this]

theorem FS.lookup_some_mem {fs : FS} {p : Path} {n : FileNode} (h : fs.lookup p = some n) :
    (p, n) ∈ fs := by
  unfold FS.lookup at h
  cases hf : fs.find? (fun e => e.1 = p) with
  | none => simp [hf] at h
  | some e =>
    simp [hf] at h
    have h1 := List.find?_some hf
    have h2 := List.mem_of_find?_eq_some hf
    simp at h1
    rw [← h1, ← h]
    exact h2

theorem FS.mem_lookup_isSome {fs : FS} {p : Path} {n : FileNode} (h : (p, n) ∈ fs) :
    (fs.lookup p).isSome = true := by
  unfold FS.lookup
  cases hf : fs.find? (fun e => e.1 = p) with
  | none =>
    rw [List.find?_eq_none] at hf
    have := hf _ h
    simp at this
  | some e => rfl

/-! ## Hex encoding -/

theorem hexDigit_mem {n : Nat} (h : n < 16) : hexDigit n ∈ hextable := by
  interval_cases n <;> simp [hexDigit, hextable]

theorem hexDigit_inj {m n : Nat} (hm : m < 16) (hn : n < 16) (h : hexDigit m = hexDigit n) :
    m = n := by
  interval_cases m <;> interval_cases n <;> first | rfl | (exfalso; revert h; decide)

theorem EncodeToString_length (bs : Bytes) : (EncodeToString bs).data.length = 2 * bs.length := by
  unfold EncodeToString
  induction bs with
  | nil => rfl
  | cons b rest ih =>
    simp only [List.flatMap_cons, List.length_append, List.length_cons, List.length_nil] at ih ⊢
    omega

theorem EncodeToString_chars (bs : Bytes) : ∀ c ∈ (EncodeToString bs).data, c ∈ hextable := by
  intro c hc
  simp only [EncodeToString, List.mem_flatMap] at hc
  obtain ⟨b, _, hb⟩ := hc
  have h1 : b.toNat / 16 < 16 := by
    have := b.toNat_lt
    omega
  have h2 : b.toNat % 16 < 16 := Nat.mod_lt _ (by decide)
  simp only [List.mem_cons, List.mem_singleton, List.not_mem_nil, or_false] at hb
  rcases hb with h | h
  · rw [h]; exact hexDigit_mem h1
  · rw [h]; exact hexDigit_mem h2

theorem EncodeToString_inj {a b : Bytes} (h : EncodeToString a = EncodeToString b) : a = b := by
  unfold EncodeToString at h
  have h' := congrArg String.data h
  simp only at h'
  clear h
  induction a generalizing b with
  | nil =>
    cases b with
    | nil => rfl
    | cons y ys => simp at h'
  | cons x xs ih =>
    cases b with
    | nil => simp at h'
    | cons y ys =>
      simp only [List.flatMap_cons, List.cons_append, List.nil_append, List.cons.injEq] at h'
      obtain ⟨h1, h2, h3⟩ := h'
      have hx := x.toNat_lt
      have hy := y.toNat_lt
      have e1 := hexDigit_inj (by omega) (by omega) h1
      have e2 := hexDigit_inj (Nat.mod_lt _ (by decide)) (Nat.mod_lt _ (by decide)) h2
      have e : x.toNat = y.toNat := by omega
      have exy : x = y := UInt8.ext_iff.mpr e
      rw [exy, ih h3]

/-! ## Paths of blobs -/

theorem splitSlash_no_slash (cs : List Char) (h : '/' ∉ cs) : splitSlash cs = [cs] := by
  induction cs with
  | nil => rfl
  | cons c rest ih =>
    have hc : c ≠ '/' := fun e => h (e ▸ List.mem_cons_self _ _)
    have hr : '/' ∉ rest := fun m => h (List.mem_cons_of_mem _ m)
    simp [splitSlash, hc, ih hr]

theorem components_no_slash (s : String) (h : '/' ∉ s.data) : components s = [s] := by
  simp [components, splitSlash_no_slash _ h]

theorem cleanStep_plain (acc : List String) {c : String} (h : plainName c) :
    cleanStep acc c = c :: acc := by
  obtain ⟨_, h1, h2, h3⟩ := h
  simp [cleanStep, h1, h2, h3]

theorem Join_append_plain (r : String) {a h : String} (ha : plainName a) (hh : plainName h) :
    Join [r, a, h] = Join [r] ++ [a, h] := by
  simp only [Join, cleanComponents, List.flatMap_cons, List.flatMap_nil, List.append_nil,
    components_no_slash _ ha.1, components_no_slash _ hh.1, List.foldl_append, List.foldl_cons,
    List.foldl_nil, cleanStep_plain _ ha, cleanStep_plain _ hh, List.reverse_cons,
    List.append_assoc, List.singleton_append]

theorem hex_not_mem {c : Char} (hc : c ∉ hextable) (bs : Bytes) :
    c ∉ (EncodeToString bs).data := fun m => hc (EncodeToString_chars bs c m)

theorem hashOf_length (sum256 : Bytes → Digest) (b : Bytes) :
    (hashOf sum256 b).data.length = 64 := by
  rw [hashOf, EncodeToString_length, (sum256 b).property]

theorem hashOf_inj {sum256 : Bytes → Digest} {a b : Bytes}
    (h : hashOf sum256 a = hashOf sum256 b) : sum256 a = sum256 b :=
  Subtype.ext (EncodeToString_inj h)

theorem plain_of_hex {c : String} (hex : ∀ x ∈ c.data, x ∈ hextable) (hlen : 2 ≤ c.data.length) :
    plainName c := by
  have hs : '/' ∉ c.data := fun m => absurd (hex _ m) (by decide)
  have hd : '.' ∉ c.data := fun m => absurd (hex _ m) (by decide)
  refine ⟨hs, ?_, ?_, ?_⟩
  · intro e; rw [e] at hlen; simp at hlen
  · intro e; rw [e] at hlen; simp at hlen
  · intro e; rw [e] at hd; simp at hd

theorem hashOf_plain (sum256 : Bytes → Digest) (b : Bytes) : plainName (hashOf sum256 b) :=
  plain_of_hex (EncodeToString_chars _) (by rw [hashOf_length]; decide)

theorem hashOf_shard_plain (sum256 : Bytes → Digest) (b : Bytes) :
    plainName (String.mk ((hashOf sum256 b).data.take 2)) := by
  apply plain_of_hex
  · intro x hx
    exact EncodeToString_chars _ x (List.mem_of_mem_take hx)
  · have h64 := hashOf_length sum256 b
    simp only [List.length_take, h64]
    decide

/-- The place of a blob: `objects/<first two hex chars>/<hash>`. -/
theorem blobPath_hashOf (sum256 : Bytes → Digest) (s : Store) (b : Bytes) :
    s.blobPath (hashOf sum256 b) =
      Join [s.root] ++ [String.mk ((hashOf sum256 b).data.take 2), hashOf sum256 b] := by
  have hl : ¬ (hashOf sum256 b).length < 2 := by
    rw [String.length, hashOf_length]; decide
  rw [Store.blobPath, if_neg hl]
  exact Join_append_plain _ (hashOf_shard_plain _ _) (hashOf_plain _ _)

theorem blobPath_hashOf_inj {sum256 : Bytes → Digest} {s : Store} {a b : Bytes}
    (h : s.blobPath (hashOf sum256 a) = s.blobPath (hashOf sum256 b)) :
    sum256 a = sum256 b := by
  rw [blobPath_hashOf, blobPath_hashOf] at h
  have h2 := List.append_cancel_left h
  simp only [List.cons.injEq, and_true] at h2
  exact hashOf_inj h2.2

theorem blobPath_hashOf_length (sum256 : Bytes → Digest) (s : Store) (b : Bytes) :
    (s.blobPath (hashOf sum256 b)).length = (Join [s.root]).length + 2 := by
  rw [blobPath_hashOf]; simp

/-! ## The blob store -/

theorem Store.Write_hash (sum256 : Bytes → Digest) (s : Store) (fs : FS) (b : Bytes) (h : String)
    (hw : (s.Write sum256 fs b).1 = .ok h) : h = hashOf sum256 b := by
  unfold Store.Write at hw
  simp only at hw
  split at hw
  · simpa [hashOf] using hw.symm
  · split at hw
    · simp at hw
    · split at hw
      · simp at hw
      · simpa [hashOf] using hw.symm

/-- What `Write` does to the file system: nothing, or one new file at the blob's place. -/
theorem Store.Write_fs (sum256 : Bytes → Digest) (s : Store) (fs : FS) (b : Bytes) :
    (s.Write sum256 fs b).2 = fs ∨
    (fs.exist (s.blobPath (hashOf sum256 b)) = false ∧
      (s.Write sum256 fs b).1 = .ok (hashOf sum256 b) ∧
      (s.Write sum256 fs b).2 = fs.set (s.blobPath (hashOf sum256 b)) (blobNode b)) := by
  unfold Store.Write
  simp only
  by_cases hhas : s.Has fs (EncodeToString (sum256 b).val) = true
  · simp [hhas]
  · simp only [hhas]
    have hex : fs.exist (s.blobPath (hashOf sum256 b)) = false := by
      simpa [Store.Has, hashOf] using hhas
    have hl : fs.lookup (s.blobPath (hashOf sum256 b)) = none := by
      simp only [FS.exist, Bool.or_eq_false_iff] at hex
      simpa using hex.1
    cases hm : MkdirAll fs (s.blobPath (EncodeToString (sum256 b).val)).dropLast with
    | error e => simp
    | ok fs1 =>
      have e1 : fs1 = fs := by
        unfold MkdirAll at hm
        split at hm
        · simp at hm
        · simpa using hm.symm
      subst e1
      simp only
      cases hwf : WriteFile fs1 (s.blobPath (EncodeToString (sum256 b).val)) b 0o444 with
      | error e => simp
      | ok fs2 =>
        right
        refine ⟨hex, by simp [hashOf], ?_⟩
        unfold WriteFile at hwf
        split at hwf
        · simp at hwf
        · rw [show s.blobPath (EncodeToString (sum256 b).val) = s.blobPath (hashOf sum256 b) from rfl,
            hl] at hwf
          simp only [Except.ok.injEq] at hwf
          simp [← hwf, blobNode, hashOf]

/-- Files that exist stay as they are when a blob is written. -/
theorem Store.Write_preserves (sum256 : Bytes → Digest) (s : Store) (fs : FS) (b : Bytes)
    {q : Path} {n : FileNode} (h : fs.lookup q = some n) :
    (s.Write sum256 fs b).2.lookup q = some n := by
  rcases Store.Write_fs sum256 s fs b with e | ⟨hex, _, e⟩
  · rw [e]; exact h
  · rw [e]
    have hne : q ≠ s.blobPath (hashOf sum256 b) := by
      intro heq
      subst heq
      simp [FS.exist, h] at hex
    rw [FS.lookup_set_other _ _ hne]
    exact h

theorem FS.erase_sublist (fs : FS) (p : Path) : List.Sublist (fs.erase p) fs :=
  List.filter_sublist _

theorem FS.set_keys_nodup {fs : FS} (h : (fs.map Prod.fst).Nodup) (p : Path) (n : FileNode) :
    ((fs.set p n).map Prod.fst).Nodup := by
  simp only [FS.set, List.map_cons, List.nodup_cons]
  constructor
  · intro hm
    obtain ⟨e, he, hp⟩ := List.mem_map.mp hm
    have := (List.mem_filter.mp he).2
    simp [hp] at this
  · exact List.Nodup.sublist ((FS.erase_sublist fs p).map _) h

theorem StoreInv.not_dir {sum256 : Bytes → Digest} {s : Store} {bs : List Bytes} {fs : FS}
    (inv : StoreInv sum256 s bs fs) (b : Bytes) :
    fs.isDir (s.blobPath (hashOf sum256 b)) = false := by
  unfold FS.isDir
  have hne : s.blobPath (hashOf sum256 b) ≠ [] := by
    rw [blobPath_hashOf]; simp
  simp only [hne, decide_False, Bool.false_or]
  rw [Bool.eq_false_iff]
  intro hany
  rw [List.any_eq_true] at hany
  obtain ⟨e, he, hp⟩ := hany
  obtain ⟨x, _, hx, _⟩ := inv.1 e he
  simp only [Bool.and_eq_true, decide_eq_true_eq, List.isPrefixOf_iff_prefix] at hp
  have := List.IsPrefix.eq_of_length hp.1 (by
    rw [hx, blobPath_hashOf_length, blobPath_hashOf_length])
  exact hp.2 this.symm

theorem StoreInv.shard_free {sum256 : Bytes → Digest} {s : Store} {bs : List Bytes} {fs : FS}
    (inv : StoreInv sum256 s bs fs) (b : Bytes) :
    ((fs.lookup (s.blobPath (hashOf sum256 b)).dropLast).isSome ||
      fs.blocked (s.blobPath (hashOf sum256 b)).dropLast) = false := by
  have hlen : ∀ e ∈ fs, e.1.length = (Join [s.root]).length + 2 := by
    intro e he
    obtain ⟨x, _, hx, _⟩ := inv.1 e he
    rw [hx, blobPath_hashOf_length]
  have hd : (s.blobPath (hashOf sum256 b)).dropLast.length = (Join [s.root]).length + 1 := by
    rw [List.length_dropLast, blobPath_hashOf_length]; rfl
  rw [Bool.or_eq_false_iff]
  constructor
  · cases hl : fs.lookup (s.blobPath (hashOf sum256 b)).dropLast with
    | none => rfl
    | some n =>
      have := hlen _ (FS.lookup_some_mem hl)
      simp only at this
      omega
  · unfold FS.blocked
    rw [Bool.eq_false_iff]
    intro hany
    rw [List.any_eq_true] at hany
    obtain ⟨e, he, hp⟩ := hany
    simp only [Bool.and_eq_true, decide_eq_true_eq, List.isPrefixOf_iff_prefix] at hp
    have h1 := hp.1.length_le
    have h2 := hlen e he
    omega

theorem StoreInv.not_blocked {sum256 : Bytes → Digest} {s : Store} {bs : List Bytes} {fs : FS}
    (inv : StoreInv sum256 s bs fs) (b : Bytes) :
    fs.blocked (s.blobPath (hashOf sum256 b)) = false := by
  unfold FS.blocked
  rw [Bool.eq_false_iff]
  intro hany
  rw [List.any_eq_true] at hany
  obtain ⟨e, he, hp⟩ := hany
  obtain ⟨x, _, hx, _⟩ := inv.1 e he
  simp only [Bool.and_eq_true, decide_eq_true_eq, List.isPrefixOf_iff_prefix] at hp
  have := List.IsPrefix.eq_of_length hp.1 (by
    rw [hx, blobPath_hashOf_length, blobPath_hashOf_length])
  exact hp.2 this

/-- On a store that holds only blobs, `Write` succeeds: it finds the blob or adds its file. -/
theorem StoreInv.Write_ok {sum256 : Bytes → Digest} {s : Store} {bs : List Bytes} {fs : FS}
    (inv : StoreInv sum256 s bs fs) (b : Bytes) :
    ((fs.lookup (s.blobPath (hashOf sum256 b))).isSome = true ∧
      s.Write sum256 fs b = (.ok (hashOf sum256 b), fs)) ∨
    (fs.lookup (s.blobPath (hashOf sum256 b)) = none ∧
      s.Write sum256 fs b =
        (.ok (hashOf sum256 b), fs.set (s.blobPath (hashOf sum256 b)) (blobNode b))) := by
  have hdir := inv.not_dir b
  have hblk := inv.not_blocked b
  have hshard := inv.shard_free b
  cases hl : fs.lookup (s.blobPath (hashOf sum256 b)) with
  | some n =>
    left
    refine ⟨rfl, ?_⟩
    have hhas : s.Has fs (EncodeToString (sum256 b).val) = true := by
      have : fs.exist (s.blobPath (hashOf sum256 b)) = true := by simp [FS.exist, hl]
      simpa [Store.Has, hashOf] using this
    simp [Store.Write, hhas, hashOf]
  | none =>
    right
    refine ⟨rfl, ?_⟩
    have hhas : s.Has fs (EncodeToString (sum256 b).val) = false := by
      have : fs.exist (s.blobPath (hashOf sum256 b)) = false := by simp [FS.exist, hl, hdir]
      simpa [Store.Has, hashOf] using this
    have hmk : MkdirAll fs (s.blobPath (EncodeToString (sum256 b).val)).dropLast = .ok fs := by
      have := hshard
      simp only [hashOf] at this
      simp [MkdirAll, this]
    have hwf : WriteFile fs (s.blobPath (EncodeToString (sum256 b).val)) b 0o444 =
        .ok (fs.set (s.blobPath (hashOf sum256 b)) (blobNode b)) := by
      have h1 := hdir
      have h2 := hblk
      have h3 := hl
      simp only [hashOf] at h1 h2 h3
      simp [WriteFile, h1, h2, h3, blobNode, hashOf]
    simp [Store.Write, hhas, hmk, hwf, hashOf]

theorem StoreInv.Write {sum256 : Bytes → Digest} {s : Store} {bs : List Bytes} {fs : FS}
    (inv : StoreInv sum256 s bs fs) (b : Bytes) :
    StoreInv sum256 s (b :: bs) (s.Write sum256 fs b).2 := by
  rcases inv.Write_ok b with ⟨_, hw⟩ | ⟨_, hw⟩
  · rw [hw]
    refine ⟨?_, inv.2⟩
    intro e he
    obtain ⟨x, hx, h1, h2⟩ := inv.1 e he
    exact ⟨x, List.mem_cons_of_mem _ hx, h1, h2⟩
  · rw [hw]
    refine ⟨?_, FS.set_keys_nodup inv.2 _ _⟩
    intro e he
    simp only [FS.set, List.mem_cons] at he
    rcases he with he | he
    · exact ⟨b, List.mem_cons_self _ _, by rw [he], by rw [he]⟩
    · obtain ⟨x, hx, h1, h2⟩ := inv.1 e ((FS.erase_sublist fs _).subset he)
      exact ⟨x, List.mem_cons_of_mem _ hx, h1, h2⟩

theorem storeAfter_inv (sum256 : Bytes → Digest) (s : Store) (bs : List Bytes) :
    StoreInv sum256 s bs (storeAfter sum256 s bs) := by
  induction bs with
  | nil => exact ⟨by simp [storeAfter], by simp [storeAfter]⟩
  | cons b rest ih => exact ih.Write b

theorem nodup_all_eq {α : Type} {l : List α} {a : α} (hn : l.Nodup) (hall : ∀ x ∈ l, x = a)
    (hmem : a ∈ l) : l = [a] := by
  cases l with
  | nil => simp at hmem
  | cons x xs =>
    have hx : x = a := hall x (List.mem_cons_self _ _)
    subst hx
    cases xs with
    | nil => rfl
    | cons y ys =>
      have hy : y = x := hall y (List.mem_cons_of_mem _ (List.mem_cons_self _ _))
      subst hy
      simp at hn

/-- In a store without a collision against `b`, the file at the place of `b` holds `b`. -/
theorem StoreInv.lookup_blob {sum256 : Bytes → Digest} {s : Store} {bs : List Bytes} {fs : FS}
    (inv : StoreInv sum256 s bs fs) {b : Bytes}
    (hfree : ∀ x ∈ bs, sum256 x = sum256 b → x = b) {n : FileNode}
    (hl : fs.lookup (s.blobPath (hashOf sum256 b)) = some n) : n = blobNode b := by
  obtain ⟨x, hx, h1, h2⟩ := inv.1 _ (FS.lookup_some_mem hl)
  simp only at h1 h2
  have := hfree x hx (blobPath_hashOf_inj h1).symm
  rw [h2, this]

theorem storeAfter_lookup_isSome (sum256 : Bytes → Digest) (s : Store) (bs : List Bytes)
    (b : Bytes) :
    ((storeAfter sum256 s (b :: bs)).lookup (s.blobPath (hashOf sum256 b))).isSome = true := by
  rcases (storeAfter_inv sum256 s bs).Write_ok b with ⟨hsome, hw⟩ | ⟨_, hw⟩
  · simp only [storeAfter, hw]
    exact hsome
  · simp only [storeAfter, hw, FS.lookup_set_same]
    rfl

theorem storeAfter_read (sum256 : Bytes → Digest) (s : Store) (bs : List Bytes) (b : Bytes)
    (hfree : ∀ x ∈ bs, sum256 x = sum256 b → x = b) :
    s.Read (storeAfter sum256 s (b :: bs)) (hashOf sum256 b) = .ok b := by
  have inv := storeAfter_inv sum256 s bs
  have hl : (storeAfter sum256 s (b :: bs)).lookup (s.blobPath (hashOf sum256 b)) =
      some (blobNode b) := by
    rcases inv.Write_ok b with ⟨hsome, hw⟩ | ⟨_, hw⟩
    · simp only [storeAfter, hw]
      cases hl : (storeAfter sum256 s bs).lookup (s.blobPath (hashOf sum256 b)) with
      | none => simp [hl] at hsome
      | some n => rw [inv.lookup_blob hfree hl]
    · simp only [storeAfter, hw]
      exact FS.lookup_set_same _ _ _
  simp [Store.Read, ReadFile, hl, blobNode]

theorem storeAfter_rewrite (sum256 : Bytes → Digest) (s : Store) (bs : List Bytes) (b : Bytes) :
    s.Write sum256 (storeAfter sum256 s (b :: bs)) b =
      (.ok (hashOf sum256 b), storeAfter sum256 s (b :: bs)) := by
  have inv := storeAfter_inv sum256 s (b :: bs)
  rcases inv.Write_ok b with ⟨_, hw⟩ | ⟨hnone, _⟩
  · exact hw
  · exfalso
    have inv0 := storeAfter_inv sum256 s bs
    rcases inv0.Write_ok b with ⟨hsome, hw⟩ | ⟨_, hw⟩
    · simp only [storeAfter, hw] at hnone
      simp [hnone] at hsome
    · simp only [storeAfter, hw, FS.lookup_set_same] at hnone
      exact absurd hnone (by simp)

theorem storeAfter_holders (sum256 : Bytes → Digest) (s : Store) (bs : List Bytes) (b : Bytes)
    (hfree : ∀ x ∈ bs, sum256 x = sum256 b → x = b) :
    holders (storeAfter sum256 s (b :: bs)) b = [s.blobPath (hashOf sum256 b)] := by
  have inv := storeAfter_inv sum256 s (b :: bs)
  have hrd := storeAfter_read sum256 s bs b hfree
  apply nodup_all_eq
  · exact List.Nodup.sublist ((List.filter_sublist _).map _) inv.2
  · intro p hp
    obtain ⟨e, he, rfl⟩ := List.mem_map.mp hp
    obtain ⟨hmem, hdata⟩ := List.mem_filter.mp he
    obtain ⟨x, _, h1, h2⟩ := inv.1 e hmem
    simp only [decide_eq_true_eq, h2, blobNode] at hdata
    rw [h1, hdata]
  · have hl : ∃ n, (storeAfter sum256 s (b :: bs)).lookup (s.blobPath (hashOf sum256 b)) = some n
        ∧ n.data = b := by
      cases hl : (storeAfter sum256 s (b :: bs)).lookup (s.blobPath (hashOf sum256 b)) with
      | none =>
        have := storeAfter_lookup_isSome sum256 s bs b
        simp [hl] at this
      | some n =>
        refine ⟨n, rfl, ?_⟩
        by_cases hsym : n.symlink = true
        · simp [Store.Read, ReadFile, hl, hsym] at hrd
        · simpa [Store.Read, ReadFile, hl, hsym] using hrd
    obtain ⟨n, hn, hd⟩ := hl
    exact List.mem_map.mpr ⟨(_, n), List.mem_filter.mpr ⟨FS.lookup_some_mem hn, by simp [hd]⟩, rfl⟩

/-- C1: on every store reached from an empty one by `Write` calls, `Write(b)`
returns the lowercase hex digest of `b` (64 characters of `0123456789abcdef`),
a second `Write(b)` returns the same hash and leaves the store as it is,
exactly one file holds `b`, at `<root>/<first two hex chars>/<hash>`, and
`Read` of the hash returns `b`. SHA-256 is the parameter `sum256`, and `hfree`
is its collision resistance on this run: no blob written before shares the
digest of `b` unless it is `b`. -/
theorem store_content_addressing (sum256 : Bytes → Digest) (s : Store) (bs : List Bytes)
    (b : Bytes) (hfree : ∀ x ∈ bs, sum256 x = sum256 b → x = b) :
    (s.Write sum256 (storeAfter sum256 s bs) b).1 = .ok (EncodeToString (sum256 b).val) ∧
    (EncodeToString (sum256 b).val).data.length = 64 ∧
    (∀ c ∈ (EncodeToString (sum256 b).val).data, c ∈ hextable) ∧
    s.Write sum256 (s.Write sum256 (storeAfter sum256 s bs) b).2 b =
      (.ok (EncodeToString (sum256 b).val), (s.Write sum256 (storeAfter sum256 s bs) b).2) ∧
    holders (s.Write sum256 (storeAfter sum256 s bs) b).2 b =
      [Join [s.root] ++ [String.mk ((EncodeToString (sum256 b).val).data.take 2),
        EncodeToString (sum256 b).val]] ∧
    s.Read (s.Write sum256 (storeAfter sum256 s bs) b).2 (EncodeToString (sum256 b).val)
      = .ok b := by
  refine ⟨?_, hashOf_length sum256 b, EncodeToString_chars _, storeAfter_rewrite sum256 s bs b,
    ?_, storeAfter_read sum256 s bs b hfree⟩
  · rcases (storeAfter_inv sum256 s bs).Write_ok b with ⟨_, hw⟩ | ⟨_, hw⟩ <;> rw [hw] <;> rfl
  · have := storeAfter_holders sum256 s bs b hfree
    rw [blobPath_hashOf] at this
    exact this

theorem store_content_addressing_witness :
    Store.Read ⟨"objects"⟩
      (Store.Write padDigest ⟨"objects"⟩ (storeAfter padDigest ⟨"objects"⟩ [[1], [2]]) [1]).2
      (EncodeToString (padDigest [1]).val) = .ok [1] :=
  (store_content_addressing padDigest ⟨"objects"⟩ [[1], [2]] [1] (by decide)).2.2.2.2.2

/-! ## Sequence allocation -/

theorem allocateMany_spec (n : Nat) (d : DB) (L : Int) (hL : d.lastSequence = some L)
    (hb : L + n ≤ maxInt64) :
    allocateMany n d =
      .ok ((List.range n).map (fun (i : Nat) => L + 1 + (i : Int)),
        { d with lastSequence := some (L + n) }) := by
  induction n generalizing d L with
  | zero =>
    simp only [allocateMany, List.range_zero, List.map_nil, Nat.cast_zero, add_zero]
    cases d
    simp only at hL
    simp [hL]
  | succ k ih =>
    have hlt : L < maxInt64 := by
      have : ((k + 1 : Nat) : Int) = (k : Int) + 1 := by push_cast; ring
      rw [this] at hb
      omega
    have hstep : d.AllocateSequence = .ok (L + 1, { d with lastSequence := some (L + 1) }) := by
      simp [DB.AllocateSequence, hL, hlt]
    have hrec := ih { d with lastSequence := some (L + 1) } (L + 1) rfl (by
      have : ((k + 1 : Nat) : Int) = (k : Int) + 1 := by push_cast; ring
      rw [this] at hb
      omega)
    simp only [allocateMany, hstep, hrec, List.range_succ_eq_map, List.map_cons, List.map_map]
    congr 2
    · congr 1
      · simp
      · apply List.map_congr_left
        intro i _
        simp only [Function.comp, Nat.cast_succ]
        ring
    · simp only [Nat.cast_succ]
      congr 2
      ring

set_option maxRecDepth 100000 in
/-- C2 as stated fails when the counter holds the largest 64-bit integer. The
insert of a cell of sequence 9223372036854775807 into a database just opened
leaves the counter at that value; the next `AllocateSequence` returns an error
in place of 9223372036854775808, and the counter stays where it was. -/
theorem allocate_sequence_overflow :
    ((Open "t0").InsertCellWithManifestAndAdvanceBranch "t1"
      (plainCell "c_9223372036854775807" 9223372036854775807 "main") []).toOption =
      some dbAtMaxSequence ∧
    dbAtMaxSequence.lastSequence = some 9223372036854775807 ∧
    dbAtMaxSequence.AllocateSequence.toOption = none ∧
    (allocateMany 1 dbAtMaxSequence).toOption = none :=
  ⟨by decide, by decide, by decide, by decide⟩

/-- C2 (amended): when the counter row holds `L` and `L + N` is at most the
largest 64-bit integer, `N` calls of `AllocateSequence`, each an atomic
transaction, return `L+1 .. L+N` in commit order and leave the counter at
`L+N`; however the callers are matched to the transactions, the values they hold
are `L+1 .. L+N`, each once; on a database just opened the first call returns 1.
A call made when the counter holds the largest 64-bit integer returns an error. -/
theorem allocate_sequence_values (d : DB) (L : Int) (N : Nat) (hL : d.lastSequence = some L)
    (hbound : L + N ≤ maxInt64) :
    (∃ seqs d', allocateMany N d = .ok (seqs, d') ∧
      seqs = (List.range N).map (fun (i : Nat) => L + 1 + (i : Int)) ∧
      d'.lastSequence = some (L + N) ∧
      ∀ received : List Int, received.Perm seqs →
        received.Nodup ∧ received.length = N ∧
        ∀ v : Int, v ∈ received ↔ L + 1 ≤ v ∧ v ≤ L + N) ∧
    (∀ now : String, ∃ d1, (Open now).AllocateSequence = .ok (1, d1)) ∧
    ∀ d0 : DB, d0.lastSequence = some maxInt64 →
      d0.AllocateSequence = .error (.failed "allocate sequence") := by
  refine ⟨?_, ?_, ?_⟩
  · refine ⟨_, _, allocateMany_spec N d L hL hbound, rfl, rfl, ?_⟩
    intro received hperm
    refine ⟨?_, ?_, ?_⟩
    · rw [hperm.nodup_iff]
      apply List.Nodup.map _ (List.nodup_range N)
      intro i j h
      simpa using h
    · rw [hperm.length_eq]; simp
    · intro v
      rw [hperm.mem_iff, List.mem_map]
      constructor
      · rintro ⟨i, hi, rfl⟩
        rw [List.mem_range] at hi
        omega
      · rintro ⟨h1, h2⟩
        refine ⟨(v - (L + 1)).toNat, ?_, ?_⟩
        · rw [List.mem_range]; omega
        · omega
  · intro now
    exact ⟨_, rfl⟩
  · intro d0 h0
    unfold DB.AllocateSequence
    rw [h0]
    simp

theorem allocate_sequence_values_witness :
    ∃ seqs d', allocateMany 3 (Open "t0") = .ok (seqs, d') ∧
      seqs = (List.range 3).map (fun (i : Nat) => (0 : Int) + 1 + (i : Int)) ∧
      d'.lastSequence = some ((0 : Int) + (3 : Nat)) ∧
      ∀ received : List Int, received.Perm seqs →
        received.Nodup ∧ received.length = 3 ∧
        ∀ v : Int, v ∈ received ↔ 0 + 1 ≤ v ∧ v ≤ 0 + (3 : Nat) :=
  (allocate_sequence_values (Open "t0") 0 3 rfl (by decide)).1

/-! ## Database lemmas -/

theorem insertCell_ok {d d1 : DB} {cell : Cell} (h : insertCell d cell = .ok d1) :
    cell.ID ∉ d.cellIDs ∧ cell.Sequence ∉ d.cells.map Cell.Sequence ∧
    d1 = { d with cells := d.cells ++ [cell] } ∧
    { d with cells := d.cells ++ [cell] }.refOK cell.ParentID = true := by
  unfold insertCell at h
  split at h
  · simp at h
  · split at h
    · simp at h
    · rename_i h1 h2
      dsimp only at h
      split at h
      · rename_i h3
        simp only [Except.ok.injEq] at h
        exact ⟨h1, h2, h.symm, h3⟩
      · simp at h

theorem insertManifestEntry_ok {d d1 : DB} {e : ManifestEntry}
    (h : insertManifestEntry d e = .ok d1) :
    (∀ x ∈ d.manifestEntries, ¬ (x.CellID = e.CellID ∧ x.Path = e.Path)) ∧
    e.CellID ∈ d.cellIDs ∧
    d1 = { d with manifestEntries := d.manifestEntries ++ [e] } := by
  unfold insertManifestEntry at h
  split at h
  · simp at h
  · rename_i hany
    split at h
    · rename_i hmem
      simp only [Except.ok.injEq] at h
      refine ⟨?_, hmem, h.symm⟩
      intro x hx hc
      apply hany
      rw [List.any_eq_true]
      exact ⟨x, hx, by simpa using hc⟩
    · simp at h

theorem insertManifest_ok {d d1 : DB} {es : List ManifestEntry}
    (h : insertManifest d es = .ok d1) :
    d1 = { d with manifestEntries := d.manifestEntries ++ es } ∧
    (∀ e ∈ es, e.CellID ∈ d.cellIDs) ∧
    (∀ x ∈ d.manifestEntries, ∀ e ∈ es, ¬ (x.CellID = e.CellID ∧ x.Path = e.Path)) ∧
    es.Pairwise (fun a b => ¬ (a.CellID = b.CellID ∧ a.Path = b.Path)) := by
  induction es generalizing d with
  | nil =>
    simp only [insertManifest, Except.ok.injEq] at h
    subst h
    simp
  | cons e rest ih =>
    simp only [insertManifest] at h
    cases h1 : insertManifestEntry d e with
    | error err => simp [h1] at h
    | ok d2 =>
      simp only [h1] at h
      obtain ⟨hpk, hfk, hd2⟩ := insertManifestEntry_ok h1
      obtain ⟨e1, e2, e3, e4⟩ := ih h
      subst hd2
      refine ⟨by simp [e1], ?_, ?_, ?_⟩
      · intro x hx
        rcases List.mem_cons.mp hx with hx | hx
        · rw [hx]; exact hfk
        · exact e2 x hx
      · intro x hx y hy
        rcases List.mem_cons.mp hy with hy | hy
        · rw [hy]; exact hpk x hx
        · exact e3 x (List.mem_append_left _ hx) y hy
      · rw [List.pairwise_cons]
        exact ⟨fun y hy => e3 e (by simp) y hy, e4⟩

theorem upsertBranchHeadTx_ok {d : DB} {branch headCellID createdAt : String}
    (hmem : headCellID ∈ d.cellIDs) :
    upsertBranchHeadTx d branch headCellID createdAt =
      .ok { d with branches := upsertedBranches d.branches branch headCellID createdAt } := by
  unfold upsertBranchHeadTx upsertedBranches
  rw [if_pos hmem]
  split <;> rfl

theorem syncSequenceAllocatorTx_eq (d : DB) (sequence : Int) :
    syncSequenceAllocatorTx d sequence =
      { d with lastSequence := some (max (d.lastSequence.getD 0) sequence) } := by
  unfold syncSequenceAllocatorTx
  have hmax : (if d.lastSequence.getD 0 < sequence then sequence
      else d.lastSequence.getD 0) = max (d.lastSequence.getD 0) sequence := by
    rw [max_def]
    split <;> split <;> omega
  simp only [hmax]

theorem storedCell_eq (now : String) (cell : Cell) :
    (if TrimSpace ({ cell with Branch := (if TrimSpace cell.Branch = "" then defaultBranchName
                               else TrimSpace cell.Branch) } : Cell).Timestamp = "" then
        { ({ cell with Branch := (if TrimSpace cell.Branch = "" then defaultBranchName
                               else TrimSpace cell.Branch) } : Cell) with Timestamp := now }
      else { cell with Branch := (if TrimSpace cell.Branch = "" then defaultBranchName
                               else TrimSpace cell.Branch) }) = storedCell now cell := by
  by_cases ht : TrimSpace cell.Timestamp = "" <;> simp [storedCell, storedBranch, ht]

/-- The database a successful insert leaves, table by table. -/
theorem Insert_shape {now : String} {d d' : DB} {cell : Cell} {entries : List ManifestEntry}
    (h : d.InsertCellWithManifestAndAdvanceBranch now cell entries = .ok d') :
    cell.ID ∉ d.cellIDs ∧ cell.Sequence ∉ d.cells.map Cell.Sequence ∧
    (∀ e ∈ entries, e.CellID ∈ d.cellIDs ∨ e.CellID = cell.ID) ∧
    (∀ x ∈ d.manifestEntries, ∀ e ∈ entries, ¬ (x.CellID = e.CellID ∧ x.Path = e.Path)) ∧
    entries.Pairwise (fun a b => ¬ (a.CellID = b.CellID ∧ a.Path = b.Path)) ∧
    { d with cells := d.cells ++ [storedCell now cell] }.refOK cell.ParentID = true ∧
    d' = { cells := d.cells ++ [storedCell now cell],
           manifestEntries := d.manifestEntries ++ entries,
           branches := upsertedBranches d.branches (storedBranch cell.Branch) cell.ID
             (storedCell now cell).Timestamp,
           meta := (d.meta.filter fun kv => decide (kv.1 ≠ "head_cell")) ++ [("head_cell", cell.ID)],
           lastSequence := some (max (d.lastSequence.getD 0) cell.Sequence),
           agentRuns := d.agentRuns } := by
  unfold DB.InsertCellWithManifestAndAdvanceBranch at h
  dsimp only at h
  rw [storedCell_eq] at h
  cases h1 : insertCell d (storedCell now cell) with
  | error err => simp [h1] at h
  | ok d1 =>
    simp only [h1] at h
    obtain ⟨a1, a2, a3, a4⟩ := insertCell_ok h1
    subst a3
    rw [syncSequenceAllocatorTx_eq] at h
    cases h2 : insertManifest { ({ d with cells := d.cells ++ [storedCell now cell] } : DB) with
        lastSequence := some (max (({ d with cells := d.cells ++ [storedCell now cell] } :
          DB).lastSequence.getD 0) (storedCell now cell).Sequence) } entries with
    | error err => simp [h2] at h
    | ok d3 =>
      simp only [h2] at h
      obtain ⟨b1, b2, b3, b4⟩ := insertManifest_ok h2
      subst b1
      rw [upsertBranchHeadTx_ok (by simp [DB.cellIDs])] at h
      simp only [Except.ok.injEq] at h
      refine ⟨a1, a2, ?_, b3, b4, a4, ?_⟩
      · intro e he
        have := b2 e he
        simp only [DB.cellIDs, List.map_append, List.map_cons,
          List.map_nil, List.mem_append, List.mem_singleton] at this
        rcases this with h' | h'
        · exact Or.inl h'
        · exact Or.inr h'
      · rw [← h]
        rfl

/-! ## `ORDER BY path ASC` -/

theorem insertByPath_eq (e : ManifestEntry) (l : List ManifestEntry) :
    insertByPath e l = l.orderedInsert (fun a b => a.Path ≤ b.Path) e := by
  induction l with
  | nil => rfl
  | cons x xs ih => simp only [insertByPath, List.orderedInsert, ih]

theorem sortByPath_eq (l : List ManifestEntry) :
    sortByPath l = l.insertionSort (fun a b => a.Path ≤ b.Path) := by
  induction l with
  | nil => rfl
  | cons x xs ih => simp only [sortByPath, List.insertionSort, ih, insertByPath_eq]

theorem path_le_total : IsTotal ManifestEntry (fun a b => a.Path ≤ b.Path) :=
  ⟨fun a b => le_total a.Path b.Path⟩

theorem path_le_trans : IsTrans ManifestEntry (fun a b => a.Path ≤ b.Path) :=
  ⟨fun _ _ _ h1 h2 => le_trans h1 h2⟩

theorem sortByPath_perm (l : List ManifestEntry) : (sortByPath l).Perm l := by
  rw [sortByPath_eq]; exact List.perm_insertionSort _ l

theorem sortByPath_sorted (l : List ManifestEntry) :
    (sortByPath l).Pairwise (fun a b => a.Path ≤ b.Path) := by
  haveI := path_le_total
  haveI := path_le_trans
  rw [sortByPath_eq]; exact List.sorted_insertionSort _ l

theorem sortByPath_strict (l : List ManifestEntry)
    (h : l.Pairwise (fun a b => a.Path ≠ b.Path)) :
    (sortByPath l).Pairwise (fun a b => a.Path < b.Path) := by
  have h1 := sortByPath_sorted l
  have h2 : (sortByPath l).Pairwise (fun a b => a.Path ≠ b.Path) :=
    (sortByPath_perm l).symm.pairwise h (fun hab => hab.symm)
  exact (h1.and h2).imp (fun ⟨hle, hne⟩ => lt_of_le_of_ne hle hne)

/-! ## Lookups after an insert -/

theorem find?_append_new {α : Type} (p : α → Bool) (l : List α) (x : α)
    (h : ∀ y ∈ l, p y = false) : (l ++ [x]).find? p = [x].find? p := by
  rw [List.find?_append]
  have : l.find? p = none := by
    rw [List.find?_eq_none]
    intro y hy
    simp [h y hy]
  rw [this]
  rfl

theorem find?_append_old {α : Type} (p : α → Bool) (l : List α) (x : α) (h : p x = false) :
    (l ++ [x]).find? p = l.find? p := by
  rw [List.find?_append]
  simp [List.find?_cons, h]

theorem find?_setHead_other (branches : List Branch) (branch : String) (head : Option String)
    {name : String} (hne : name ≠ branch) :
    (branches.map fun b => if b.Name = branch then { b with HeadCellID := head } else b).find?
      (fun b => b.Name = name) = branches.find? (fun b => b.Name = name) := by
  induction branches with
  | nil => rfl
  | cons b rest ih =>
    simp only [List.map_cons, List.find?_cons]
    by_cases hb : b.Name = branch
    · have : ¬ b.Name = name := fun e => hne (e ▸ hb)
      simp only [hb, if_true, this, decide_False]
      have : ¬ branch = name := fun e => hne e.symm
      simp only [this, decide_False]
      exact ih
    · simp only [hb, if_false]
      by_cases hn : b.Name = name
      · simp [hn]
      · simp only [hn, decide_False]
        exact ih

theorem find?_setHead_same (branches : List Branch) (branch : String) (head : Option String) :
    (branches.map fun b => if b.Name = branch then { b with HeadCellID := head } else b).find?
      (fun b => b.Name = branch) =
      (branches.find? (fun b => b.Name = branch)).map fun b => { b with HeadCellID := head } := by
  induction branches with
  | nil => rfl
  | cons b rest ih =>
    simp only [List.map_cons, List.find?_cons]
    by_cases hb : b.Name = branch
    · simp [hb]
    · simp only [hb, if_false, decide_False]
      exact ih

theorem upsertedBranches_find_other (branches : List Branch) (branch head createdAt : String)
    {name : String} (hne : name ≠ branch) :
    (upsertedBranches branches branch head createdAt).find? (fun b => b.Name = name) =
      branches.find? (fun b => b.Name = name) := by
  unfold upsertedBranches
  split
  · exact find?_setHead_other branches branch (some head) hne
  · apply find?_append_old
    have : ¬ branch = name := fun e => hne e.symm
    simp [this]

theorem upsertedBranches_find_same (branches : List Branch) (branch head createdAt : String) :
    (upsertedBranches branches branch head createdAt).find? (fun b => b.Name = branch) =
      some { Name := branch, HeadCellID := some head,
             CreatedAt := match branches.find? (fun b => b.Name = branch) with
               | some b => b.CreatedAt
               | none => createdAt } := by
  unfold upsertedBranches
  split
  · rename_i hany
    rw [find?_setHead_same]
    cases hf : branches.find? (fun b => b.Name = branch) with
    | none =>
      rw [List.find?_eq_none] at hf
      obtain ⟨x, hx, hp⟩ := List.any_eq_true.mp hany
      exact absurd hp (hf x hx)
    | some b =>
      have := List.find?_some hf
      simp only [decide_eq_true_eq] at this
      simp [this]
  · rename_i hany
    have hnone : branches.find? (fun b => b.Name = branch) = none := by
      rw [List.find?_eq_none]
      intro x hx hp
      exact hany (List.any_eq_true.mpr ⟨x, hx, hp⟩)
    rw [find?_append_new _ _ _ (by
      intro y hy
      have := (List.find?_eq_none.mp hnone) y hy
      simpa using this), hnone]
    simp

theorem meta_find_same (m : List (String × String)) (key value : String) :
    ((m.filter fun kv => decide (kv.1 ≠ key)) ++ [(key, value)]).find? (fun kv => kv.1 = key) =
      some (key, value) := by
  rw [find?_append_new]
  · simp
  · intro y hy
    have := (List.mem_filter.mp hy).2
    simpa using this

theorem meta_find_other (m : List (String × String)) (key value : String) {k : String}
    (hne : k ≠ key) :
    ((m.filter fun kv => decide (kv.1 ≠ key)) ++ [(key, value)]).find? (fun kv => kv.1 = k) =
      m.find? (fun kv => kv.1 = k) := by
  have hk : ¬ key = k := fun e => hne e.symm
  rw [find?_append_old _ _ _ (by simp [hk]), List.find?_filter]
  congr 1
  funext a
  by_cases ha : a.1 = k
  · simp [ha, hne]
  · simp [ha]

/-- C3 (amended): when `InsertCellWithManifestAndAdvanceBranch` accepts a cell
with a non-blank timestamp and manifest entries that all carry the cell's id, on
a database that meets its foreign keys, then `GetCell(cell.id)` returns the cell
with its branch replaced by the trimmed name (`main` when blank),
`GetManifest(cell.id)` returns exactly the given entries in strictly ascending
path order, the branch row of that name has head `cell.id` (its `created_at` is
the cell's timestamp if the row was absent, untouched otherwise),
`meta["head_cell"]` is `cell.id`, the counter is the maximum of the previous
counter and `cell.sequence`, and every other cell, manifest, branch row, meta key
and agent run is as before. -/
theorem insert_cell_postcondition (now : String) (d d' : DB) (cell : Cell)
    (entries : List ManifestEntry) (hfk : d.ForeignKeysHold)
    (hts : TrimSpace cell.Timestamp ≠ "") (hent : ∀ e ∈ entries, e.CellID = cell.ID)
    (hok : d.InsertCellWithManifestAndAdvanceBranch now cell entries = .ok d') :
    d'.GetCell cell.ID = .ok { cell with Branch := storedBranch cell.Branch } ∧
    d'.GetManifest cell.ID = sortByPath entries ∧
    (sortByPath entries).Perm entries ∧
    (sortByPath entries).Pairwise (fun a b => a.Path < b.Path) ∧
    d'.GetBranch (storedBranch cell.Branch) =
      .ok { Name := storedBranch cell.Branch, HeadCellID := some cell.ID,
            CreatedAt := match d.GetBranch (storedBranch cell.Branch) with
              | .ok b => b.CreatedAt
              | .error _ => cell.Timestamp } ∧
    d'.GetMeta "head_cell" = .ok cell.ID ∧
    d'.lastSequence = some (max (d.lastSequence.getD 0) cell.Sequence) ∧
    (∀ id, id ≠ cell.ID → d'.GetCell id = d.GetCell id ∧ d'.GetManifest id = d.GetManifest id) ∧
    (∀ name, name ≠ storedBranch cell.Branch → d'.GetBranch name = d.GetBranch name) ∧
    (∀ key, key ≠ "head_cell" → d'.GetMeta key = d.GetMeta key) ∧
    d'.agentRuns = d.agentRuns := by
  obtain ⟨hid, _, _, _, hpair, _, hd'⟩ := Insert_shape hok
  have hsc : storedCell now cell = { cell with Branch := storedBranch cell.Branch } := by
    simp [storedCell, hts]
  rw [hsc] at hd'
  subst hd'
  have hold : ∀ x ∈ d.manifestEntries, x.CellID ≠ cell.ID := by
    intro x hx e
    exact hid (e ▸ hfk.2.1 x hx)
  have hdistinct : entries.Pairwise (fun a b => a.Path ≠ b.Path) :=
    hpair.imp_of_mem (fun {a b} ha hb hab e => hab ⟨(hent a ha).trans (hent b hb).symm, e⟩)
  refine ⟨?_, ?_, sortByPath_perm entries, sortByPath_strict entries hdistinct, ?_, ?_, rfl,
    ?_, ?_, ?_, rfl⟩
  · simp only [DB.GetCell]
    rw [find?_append_new]
    · simp
    · intro y hy
      have : y.ID ≠ cell.ID := fun e => hid (e ▸ List.mem_map_of_mem Cell.ID hy)
      simp [this]
  · simp only [DB.GetManifest, List.filter_append]
    have h1 : d.manifestEntries.filter (fun e => e.CellID = cell.ID) = [] := by
      rw [List.filter_eq_nil_iff]
      intro x hx
      simpa using hold x hx
    have h2 : entries.filter (fun e => e.CellID = cell.ID) = entries := by
      rw [List.filter_eq_self]
      intro x hx
      simpa using hent x hx
    rw [h1, h2, List.nil_append]
  · simp only [DB.GetBranch, upsertedBranches_find_same]
    cases hf : d.branches.find? (fun b => b.Name = storedBranch cell.Branch) <;> rfl
  · simp only [DB.GetMeta, meta_find_same]
  · intro id hne
    constructor
    · simp only [DB.GetCell]
      rw [find?_append_old]
      have : ¬ cell.ID = id := fun e => hne e.symm
      simp [this]
    · simp only [DB.GetManifest, List.filter_append]
      have h2 : entries.filter (fun e => e.CellID = id) = [] := by
        rw [List.filter_eq_nil_iff]
        intro x hx
        have : x.CellID ≠ id := fun e => hne (e.symm.trans (hent x hx))
        simpa using this
      rw [h2, List.append_nil]
  · intro name hne
    simp only [DB.GetBranch, upsertedBranches_find_other _ _ _ _ hne]
  · intro key hne
    simp only [DB.GetMeta, meta_find_other _ _ _ hne]

theorem insert_cell_postcondition_witness :
    twoCellDB.GetManifest "c_000002" = sortByPath exampleEntries :=
  (insert_cell_postcondition "t2" oneCellDB twoCellDB (plainCell "c_000002" 2 " dev ")
    exampleEntries (by decide) (by decide) (by decide) rfl).2.1

/-- C3, as stated, fails. The database holds `c_000001`; the call is given the
cell `c_000002` with branch `" dev "`, a non-blank timestamp, and one manifest
row whose `cell_id` is `c_000001`. The call is accepted; the stored cell has
branch `dev` (neither the given branch nor `main`), no branch row is named
`" dev "`, `GetManifest(c_000002)` is empty although a row was given, and the
manifest of the other cell `c_000001` has changed. -/
theorem insert_cell_counterexample :
    oneCellDB.ForeignKeysHold ∧
    TrimSpace (plainCell "c_000002" 2 " dev ").Timestamp ≠ "" ∧
    ∃ d', oneCellDB.InsertCellWithManifestAndAdvanceBranch "t2"
        (plainCell "c_000002" 2 " dev ") [foreignEntry] = .ok d' ∧
      (d'.GetCell "c_000002").toOption.map Cell.Branch = some "dev" ∧
      (d'.GetBranch " dev ").toOption = none ∧
      d'.GetManifest "c_000002" = [] ∧
      sortByPath [foreignEntry] ≠ [] ∧
      oneCellDB.GetManifest "c_000001" = [] ∧
      d'.GetManifest "c_000001" = [foreignEntry] :=
  ⟨by decide, by decide, _, rfl, by decide, by decide, by decide, by decide, by decide, by decide⟩

/-! ## Go maps -/

theorem mapSet_keys_nodup {V : Type} {m : GoMap V} (h : (m.map Prod.fst).Nodup) (k : String)
    (v : V) : ((mapSet m k v).map Prod.fst).Nodup := by
  unfold mapSet
  rw [List.map_append, List.nodup_append]
  refine ⟨List.Nodup.sublist ((List.filter_sublist _).map _) h, by simp, ?_⟩
  intro a ha hb
  simp only [List.map_cons, List.map_nil, List.mem_singleton] at hb
  obtain ⟨x, hx, rfl⟩ := List.mem_map.mp ha
  have := (List.mem_filter.mp hx).2
  simp [hb] at this

theorem mapGet_of_mem {V : Type} {m : GoMap V} (h : (m.map Prod.fst).Nodup) {k : String} {v : V}
    (hm : (k, v) ∈ m) : mapGet m k = some v := by
  induction m with
  | nil => simp at hm
  | cons x rest ih =>
    simp only [List.map_cons, List.nodup_cons] at h
    rcases List.mem_cons.mp hm with hx | hx
    · subst hx
      simp [mapGet]
    · have hne : x.1 ≠ k := by
        intro e
        exact h.1 (e ▸ List.mem_map_of_mem Prod.fst hx)
      have := ih h.2 hx
      simp only [mapGet, List.find?_cons, hne, decide_False] at this ⊢
      exact this

theorem mapGet_some_mem {V : Type} {m : GoMap V} {k : String} {v : V}
    (h : mapGet m k = some v) : (k, v) ∈ m := by
  unfold mapGet at h
  cases hf : m.find? (fun kv => kv.1 = k) with
  | none => simp [hf] at h
  | some e =>
    simp only [hf, Option.map_some', Option.some.injEq] at h
    have h1 := List.find?_some hf
    have h2 := List.mem_of_find?_eq_some hf
    simp only [decide_eq_true_eq] at h1
    rw [← h1, ← h]
    exact h2

theorem mapGet_none_iff {V : Type} {m : GoMap V} {k : String} :
    mapGet m k = none ↔ k ∉ m.map Prod.fst := by
  unfold mapGet
  rw [Option.map_eq_none', List.find?_eq_none]
  constructor
  · intro h hk
    obtain ⟨x, hx, rfl⟩ := List.mem_map.mp hk
    exact absurd (by simp) (h x hx)
  · intro h x hx hp
    simp only [decide_eq_true_eq] at hp
    exact h (hp ▸ List.mem_map_of_mem Prod.fst hx)

theorem EqualToEntries_iff {m : Manifest} {e : GoMap String} (hm : (m.map Prod.fst).Nodup)
    (he : (e.map Prod.fst).Nodup) (hhash : ∀ kv ∈ m, kv.2.Hash ≠ "") :
    EqualToEntries m e = true ↔ SameHashes m e := by
  unfold EqualToEntries SameHashes
  constructor
  · intro h
    split at h
    · simp at h
    · rename_i hlen
      simp only [ne_eq, Decidable.not_not] at hlen
      rw [List.all_eq_true] at h
      have hval : ∀ kv ∈ m, mapGet e kv.1 = some kv.2.Hash := by
        intro kv hkv
        have := h kv hkv
        simp only [decide_eq_true_eq] at this
        cases hg : mapGet e kv.1 with
        | none =>
          rw [hg] at this
          exact absurd this.symm (hhash kv hkv)
        | some v =>
          rw [hg] at this
          simp only [Option.getD_some] at this
          rw [this]
      have hsub : m.map Prod.fst ⊆ e.map Prod.fst := by
        intro k hk
        obtain ⟨kv, hkv, rfl⟩ := List.mem_map.mp hk
        by_contra hn
        have := mapGet_none_iff.mpr hn
        rw [hval kv hkv] at this
        simp at this
      have hperm : (m.map Prod.fst).Perm (e.map Prod.fst) :=
        (List.subperm_of_subset hm hsub).perm_of_length_le (by simp [hlen])
      constructor
      · intro p
        constructor
        · intro hp
          cases hg : mapGet m p with
          | none => simp [hg] at hp
          | some fe =>
            rw [hval (p, fe) (mapGet_some_mem hg)]
            rfl
        · intro hp
          cases hg : mapGet m p with
          | none =>
            have h1 := mapGet_none_iff.mp hg
            have h2 : p ∉ e.map Prod.fst := fun hh => h1 (hperm.mem_iff.mpr hh)
            rw [mapGet_none_iff.mpr h2] at hp
            simp at hp
          | some fe => rfl
      · intro p fe hg
        exact hval (p, fe) (mapGet_some_mem hg)
  · rintro ⟨hdom, hval⟩
    have hperm : (m.map Prod.fst).Perm (e.map Prod.fst) := by
      rw [List.perm_ext_iff_of_nodup hm he]
      intro k
      have := hdom k
      constructor
      · intro hk
        by_contra hn
        rw [mapGet_none_iff.mpr hn] at this
        obtain ⟨kv, hkv, hk1⟩ := List.mem_map.mp hk
        have hsome := mapGet_of_mem hm (show (k, kv.2) ∈ m by rw [← hk1]; exact hkv)
        rw [hsome] at this
        simp at this
      · intro hk
        by_contra hn
        rw [mapGet_none_iff.mpr hn] at this
        obtain ⟨kv, hkv, hk1⟩ := List.mem_map.mp hk
        have hsome := mapGet_of_mem he (show (k, kv.2) ∈ e by rw [← hk1]; exact hkv)
        rw [hsome] at this
        simp at this
    have hlen : m.length = e.length := by
      simpa using hperm.length_eq
    rw [if_neg (by simp [hlen]), List.all_eq_true]
    intro kv hkv
    have := hval kv.1 kv.2 (mapGet_of_mem hm hkv)
    simp [this]

/-! ## Captured manifests -/

theorem Captured.mapSet {sum256 : Bytes → Digest} {m : Manifest} (h : Captured sum256 m)
    (k : String) (fe : FileEntry) (hfe : ∃ data, fe.Hash = hashOf sum256 data) :
    Captured sum256 (mapSet m k fe) := by
  refine ⟨mapSet_keys_nodup h.1 k fe, ?_⟩
  intro kv hkv
  unfold Converge.mapSet at hkv
  rcases List.mem_append.mp hkv with hx | hx
  · exact h.2 kv (List.mem_filter.mp hx).1
  · simp only [List.mem_singleton] at hx
    rw [hx]
    exact hfe

theorem captureFile_captured {sum256 : Bytes → Digest} {s : Store} {m m1 : Manifest} {fs : FS}
    {p : Path} (h : Captured sum256 m) (hc : (captureFile sum256 s m fs p).1 = .ok m1) :
    Captured sum256 m1 := by
  unfold captureFile at hc
  dsimp only at hc
  split at hc
  · simp only [Except.ok.injEq] at hc
    exact hc ▸ h
  · split at hc
    · simp only [Except.ok.injEq] at hc
      exact hc ▸ h
    · split at hc
      · simp only [Except.ok.injEq] at hc
        exact hc ▸ h
      · split at hc
        · simp at hc
        · rename_i data _
          split at hc
          · simp at hc
          · rename_i hash fs1 hw
            simp only [Except.ok.injEq] at hc
            rw [← hc]
            apply h.mapSet
            refine ⟨data, ?_⟩
            exact Store.Write_hash sum256 s fs data hash (by rw [hw])

theorem captureWalk_captured {sum256 : Bytes → Digest} {s : Store} (ps : List Path)
    {m m1 : Manifest} {fs : FS} (h : Captured sum256 m)
    (hc : (captureWalk sum256 s ps m fs).1 = .ok m1) : Captured sum256 m1 := by
  induction ps generalizing m fs with
  | nil =>
    simp only [captureWalk, Except.ok.injEq] at hc
    exact hc ▸ h
  | cons p rest ih =>
    simp only [captureWalk] at hc
    split at hc
    · simp at hc
    · rename_i m2 fs1 hstep
      exact ih (captureFile_captured h (by rw [hstep])) hc

theorem Capture_captured {sum256 : Bytes → Digest} {s : Store} {fs : FS} {m : Manifest}
    (hc : (Capture sum256 s fs).1 = .ok m) : Captured sum256 m := by
  unfold Capture at hc
  split at hc
  · simp at hc
  · rename_i m1 fs1 hw
    simp only [Except.ok.injEq] at hc
    subst hc
    exact captureWalk_captured (m := []) _
      ⟨List.nodup_nil, fun _ h => absurd h (List.not_mem_nil _)⟩ (by rw [hw])

theorem Captured.hash_ne_empty {sum256 : Bytes → Digest} {m : Manifest} (h : Captured sum256 m) :
    ∀ kv ∈ m, kv.2.Hash ≠ "" := by
  intro kv hkv he
  obtain ⟨data, hd⟩ := h.2 kv hkv
  have := hashOf_length sum256 data
  rw [← hd, he] at this
  simp at this

/-- C6: for every manifest `m` that `Capture` returns and every path-to-hash map
`e` (a Go map: no path twice), `EqualToEntries(m, e)` is true exactly when `m` and
`e` have the same paths and on every path the hash in `m` is the hash in `e`. -/
theorem equal_to_entries_iff (sum256 : Bytes → Digest) (s : Store) (fs : FS) (m : Manifest)
    (e : GoMap String) (hcap : (Capture sum256 s fs).1 = .ok m)
    (he : (e.map Prod.fst).Nodup) :
    EqualToEntries m e = true ↔
      (∀ p, (mapGet m p).isSome ↔ (mapGet e p).isSome) ∧
      ∀ p fe, mapGet m p = some fe → mapGet e p = some fe.Hash :=
  EqualToEntries_iff (Capture_captured hcap).1 he (Capture_captured hcap).hash_ne_empty

theorem equal_to_entries_iff_witness :
    EqualToEntries (capturedOrEmpty padDigest ⟨".converge/objects"⟩ exampleTree)
        [("main.go", hashOf padDigest [112, 10])] = true ↔
      (∀ p, (mapGet (capturedOrEmpty padDigest ⟨".converge/objects"⟩ exampleTree) p).isSome ↔
        (mapGet [("main.go", hashOf padDigest [112, 10])] p).isSome) ∧
      ∀ p fe, mapGet (capturedOrEmpty padDigest ⟨".converge/objects"⟩ exampleTree) p = some fe →
        mapGet [("main.go", hashOf padDigest [112, 10])] p = some fe.Hash :=
  equal_to_entries_iff padDigest ⟨".converge/objects"⟩ exampleTree _ _ rfl (by decide)

/-! ## Trimming -/

theorem trimLeft_idem (l : List Char) : trimLeft (trimLeft l) = trimLeft l :=
  List.dropWhile_idempotent isSpace l

theorem trimLeft_eq_self {l : List Char} (h : ∀ c, l.head? = some c → isSpace c = false) :
    trimLeft l = l := by
  cases l with
  | nil => rfl
  | cons c rest =>
    have := h c rfl
    simp [trimLeft, List.dropWhile_cons, this]

theorem trimLeft_head {l : List Char} {c : Char} (h : (trimLeft l).head? = some c) :
    isSpace c = false := by
  induction l with
  | nil => simp [trimLeft] at h
  | cons x rest ih =>
    unfold trimLeft at h ih
    rw [List.dropWhile_cons] at h
    by_cases hx : isSpace x = true
    · rw [if_pos hx] at h
      exact ih h
    · rw [if_neg hx] at h
      simp only [List.head?_cons, Option.some.injEq] at h
      rw [← h]
      simpa using hx

theorem trimLeft_suffix (l : List Char) : trimLeft l <:+ l := List.dropWhile_suffix _

theorem trimRight_getLast {l : List Char} {c : Char} (h : (trimRight l).getLast? = some c) :
    isSpace c = false := by
  unfold trimRight at h
  rw [List.getLast?_reverse] at h
  exact trimLeft_head h

theorem trimRight_eq_self {l : List Char} (h : ∀ c, l.getLast? = some c → isSpace c = false) :
    trimRight l = l := by
  unfold trimRight
  rw [trimLeft_eq_self, List.reverse_reverse]
  intro c hc
  rw [List.head?_reverse] at hc
  exact h c hc

theorem trimRight_prefix (l : List Char) : trimRight l <+: l := by
  unfold trimRight
  have := trimLeft_suffix l.reverse
  rw [← List.reverse_prefix, List.reverse_reverse] at this
  exact this

/-- Trimming the right end keeps a first character that is not a space. -/
theorem trimRight_head {l : List Char} {c : Char} (hne : trimRight l ≠ [])
    (h : ∀ c, l.head? = some c → isSpace c = false)
    (hc : (trimRight l).head? = some c) : isSpace c = false := by
  obtain ⟨t, ht⟩ := trimRight_prefix l
  cases hr : trimRight l with
  | nil => exact absurd hr hne
  | cons x xs =>
    rw [hr] at hc ht
    simp only [List.head?_cons, Option.some.injEq] at hc
    apply h
    rw [← ht, ← hc]
    rfl

theorem TrimSpace_idem (s : String) : TrimSpace (TrimSpace s) = TrimSpace s := by
  unfold TrimSpace
  simp only
  congr 1
  have h1 : trimLeft (trimRight (trimLeft s.data)) = trimRight (trimLeft s.data) := by
    apply trimLeft_eq_self
    intro c hc
    by_cases hne : trimRight (trimLeft s.data) = []
    · rw [hne] at hc; simp at hc
    · exact trimRight_head hne (fun c hc => trimLeft_head hc) hc
  rw [h1]
  apply trimRight_eq_self
  intro c hc
  exact trimRight_getLast hc

theorem TrimSpace_ne_empty_of_head {s : String} {c : Char} {rest : List Char}
    (hs : s.data = c :: rest) (hc : isSpace c = false) : TrimSpace s ≠ "" := by
  unfold TrimSpace
  intro h
  have h' := congrArg String.data h
  simp only at h'
  have h1 : trimLeft s.data = c :: rest := by
    rw [hs]
    simp [trimLeft, List.dropWhile_cons, hc]
  rw [h1] at h'
  unfold trimRight trimLeft at h'
  have h2 : List.dropWhile isSpace (c :: rest).reverse = [] := by
    have := congrArg List.reverse h'
    simpa using this
  rw [List.dropWhile_eq_nil_iff] at h2
  have := h2 c (by simp)
  rw [hc] at this
  exact absurd this (by simp)

theorem CellID_not_blank (sequence : Int) : TrimSpace (CellID sequence) ≠ "" := by
  unfold CellID
  split
  · exact @TrimSpace_ne_empty_of_head _ 'c' ('_' :: _) rfl (by decide)
  · exact @TrimSpace_ne_empty_of_head _ 'c' ('_' :: '-' :: _) rfl (by decide)

/-! ## The invariant of histories -/

theorem DB.Inv.activeBranch {d : DB} {active : String} (inv : d.Inv active) (now : String) :
    ActiveBranch now d = (.ok active, d) := by
  obtain ⟨b, hb⟩ := inv.hasRow
  have ht := inv.trimmed
  have hne := inv.nonEmpty
  unfold ActiveBranch ActiveBranchFrom
  rw [inv.activeMeta]
  simp only [isNotFound, ht, hne, Bool.false_eq_true, or_self, if_false]
  simp [ensureBranchExists, hb]

theorem core_ID {c c1 : Cell} (h : c1.core = c.core) : c1.ID = c.ID := by
  have := congrArg Cell.ID h
  simpa [Cell.core] using this

theorem core_Branch {c c1 : Cell} (h : c1.core = c.core) : c1.Branch = c.Branch := by
  have := congrArg Cell.Branch h
  simpa [Cell.core] using this

theorem core_ParentID {c c1 : Cell} (h : c1.core = c.core) : c1.ParentID = c.ParentID := by
  have := congrArg Cell.ParentID h
  simpa [Cell.core] using this

theorem core_Sequence {c c1 : Cell} (h : c1.core = c.core) : c1.Sequence = c.Sequence := by
  have := congrArg Cell.Sequence h
  simpa [Cell.core] using this

theorem core_Source {c c1 : Cell} (h : c1.core = c.core) : c1.Source = c.Source := by
  have := congrArg Cell.Source h
  simpa [Cell.core] using this

theorem core_Message {c c1 : Cell} (h : c1.core = c.core) : c1.Message = c.Message := by
  have := congrArg Cell.Message h
  simpa [Cell.core] using this

theorem evalOnly.refl (d : DB) : evalOnly d d :=
  ⟨id, fun _ => rfl, by cases d; simp⟩

theorem evalOnly.trans {d d1 d2 : DB} (h1 : evalOnly d d1) (h2 : evalOnly d1 d2) :
    evalOnly d d2 := by
  obtain ⟨f, hf, e1⟩ := h1
  obtain ⟨g, hg, e2⟩ := h2
  refine ⟨g ∘ f, fun c => (hg (f c)).trans (hf c), ?_⟩
  rw [e2, e1]
  simp

theorem UpdateCellEval_evalOnly (d : DB) (id : String) (a b c e : Option Int)
    (s t : Option String) : evalOnly d (d.UpdateCellEval id a b c e s t) := by
  refine ⟨fun x => if x.ID = id then
      { x with EvalRequested := true, EvalRan := true, TestsPassed := a, TestsFailed := b,
               LintErrors := c, TypeErrors := e, EvalSkipped := s, EvalError := t }
    else x, ?_, rfl⟩
  intro x
  dsimp only
  split <;> rfl

theorem EvaluateCell_evalOnly (svc : Service) (d : DB) (fs : FS) (id : String) :
    evalOnly d (EvaluateCell svc d fs id).2 := by
  unfold EvaluateCell
  split
  · exact evalOnly.refl d
  · exact evalOnly.refl d
  · split
    · exact evalOnly.refl d
    · exact UpdateCellEval_evalOnly _ _ _ _ _ _ _ _

theorem evalOnly.cellIDs {d d1 : DB} (h : evalOnly d d1) : d1.cellIDs = d.cellIDs := by
  obtain ⟨f, hf, e⟩ := h
  rw [e]
  simp only [DB.cellIDs, List.map_map]
  apply List.map_congr_left
  intro c _
  exact core_ID (hf c)

theorem evalOnly.GetCell {d d1 : DB} (h : evalOnly d d1) {id : String} {c1 : Cell}
    (hg : d1.GetCell id = .ok c1) : ∃ c, d.GetCell id = .ok c ∧ c1.core = c.core := by
  obtain ⟨f, hf, e⟩ := h
  subst e
  simp only [DB.GetCell] at hg ⊢
  have hfind : ∀ l : List Cell, (l.map f).find? (fun c => c.ID = id) =
      (l.find? (fun c => c.ID = id)).map f := by
    intro l
    induction l with
    | nil => rfl
    | cons x xs ih =>
      simp only [List.map_cons, List.find?_cons, core_ID (hf x)]
      by_cases hx : x.ID = id
      · simp [hx]
      · simp only [hx, decide_False]
        exact ih
  rw [hfind] at hg
  cases hc : d.cells.find? (fun c => c.ID = id) with
  | none => simp [hc] at hg
  | some c =>
    simp only [hc, Option.map_some', Except.ok.injEq] at hg
    exact ⟨c, rfl, hg ▸ hf c⟩

theorem evalOnly.GetCell_some {d d1 : DB} (h : evalOnly d d1) {id : String} {c : Cell}
    (hg : d.GetCell id = .ok c) : ∃ c1, d1.GetCell id = .ok c1 ∧ c1.core = c.core := by
  obtain ⟨f, hf, e⟩ := h
  subst e
  simp only [DB.GetCell] at hg ⊢
  have hfind : ∀ l : List Cell, (l.map f).find? (fun c => c.ID = id) =
      (l.find? (fun c => c.ID = id)).map f := by
    intro l
    induction l with
    | nil => rfl
    | cons x xs ih =>
      simp only [List.map_cons, List.find?_cons, core_ID (hf x)]
      by_cases hx : x.ID = id
      · simp [hx]
      · simp only [hx, decide_False]
        exact ih
  rw [hfind]
  cases hc : d.cells.find? (fun c => c.ID = id) with
  | none => simp [hc] at hg
  | some c0 =>
    simp only [hc, Except.ok.injEq] at hg
    subst hg
    exact ⟨f c0, rfl, hf c0⟩

theorem evalOnly.tables {d d1 : DB} (h : evalOnly d d1) :
    d1.branches = d.branches ∧ d1.meta = d.meta ∧ d1.manifestEntries = d.manifestEntries ∧
    d1.lastSequence = d.lastSequence ∧ d1.agentRuns = d.agentRuns := by
  obtain ⟨f, _, e⟩ := h
  subst e
  exact ⟨rfl, rfl, rfl, rfl, rfl⟩

theorem evalOnly.keepsInv {d d1 : DB} {active : String} (h : evalOnly d d1) (inv : d.Inv active) :
    d1.Inv active := by
  obtain ⟨hb, hm, he, _, _⟩ := h.tables
  have hid := h.cellIDs
  have hget : ∀ k, d1.GetMeta k = d.GetMeta k := fun k => by simp [DB.GetMeta, hm]
  have hbr : ∀ n, d1.GetBranch n = d.GetBranch n := fun n => by simp [DB.GetBranch, hb]
  have href : ∀ r, d1.refOK r = d.refOK r := fun r => by
    cases r <;> simp [DB.refOK, hid]
  refine ⟨by rw [hget]; exact inv.activeMeta, inv.trimmed, inv.nonEmpty, ?_, ?_, ?_, ?_, ?_, ?_⟩
  · obtain ⟨b, hb'⟩ := inv.hasRow
    exact ⟨b, by rw [hbr]; exact hb'⟩
  · rw [hget, DB.headOf, hbr]
    exact inv.mirror
  · intro b hbm
    rw [href]
    exact inv.heads b (hb ▸ hbm)
  · intro c hc
    obtain ⟨f, hf, e⟩ := h
    subst e
    simp only [List.mem_map] at hc
    obtain ⟨c0, hc0, rfl⟩ := hc
    rw [core_ID (hf c0)]
    exact inv.ids c0 hc0
  · rw [he]; exact inv.rows
  · intro e hem
    rw [hid]
    exact inv.owners e (he ▸ hem)

theorem DB.Inv.counter {d : DB} {active : String} (inv : d.Inv active) (x : Option Int) :
    ({ d with lastSequence := x } : DB).Inv active :=
  ⟨inv.activeMeta, inv.trimmed, inv.nonEmpty, inv.hasRow, inv.mirror, inv.heads, inv.ids,
    inv.rows, inv.owners⟩

theorem storedBranch_of_trimmed {a : String} (ht : TrimSpace a = a) (hne : a ≠ "") :
    storedBranch a = a := by
  simp [storedBranch, ht, hne]

theorem mem_upsertedBranches {branches : List Branch} {branch head createdAt : String}
    {b : Branch} (h : b ∈ upsertedBranches branches branch head createdAt) :
    b.HeadCellID = some head ∨ b ∈ branches := by
  unfold upsertedBranches at h
  split at h
  · obtain ⟨x, hx, rfl⟩ := List.mem_map.mp h
    by_cases hn : x.Name = branch
    · left; simp [hn]
    · right; simpa [hn] using hx
  · rcases List.mem_append.mp h with h | h
    · exact Or.inr h
    · left
      simp only [List.mem_singleton] at h
      rw [h]

/-- An accepted insert of a cell of the active branch keeps the invariant and
makes the cell the head of that branch. -/
theorem DB.Inv.insert {d d3 : DB} {active now : String} {cell0 : Cell}
    {entries : List ManifestEntry} (inv : d.Inv active) (hb : cell0.Branch = active)
    (hid : TrimSpace cell0.ID ≠ "")
    (h : d.InsertCellWithManifestAndAdvanceBranch now cell0 entries = .ok d3) :
    d3.Inv active ∧ d3.headOf active = some cell0.ID ∧
    (∀ n, n ≠ active → d3.GetBranch n = d.GetBranch n) ∧
    d3.cells = d.cells ++ [storedCell now cell0] ∧ cell0.ID ∉ d.cellIDs ∧
    d3.manifestEntries = d.manifestEntries ++ entries := by
  obtain ⟨hfresh, _, hown, hcross, hpair, _, hd3⟩ := Insert_shape h
  have hsb : storedBranch cell0.Branch = active := by
    rw [hb]; exact storedBranch_of_trimmed inv.trimmed inv.nonEmpty
  rw [hsb] at hd3
  subst hd3
  have hhead : DB.headOf
      { cells := d.cells ++ [storedCell now cell0],
        manifestEntries := d.manifestEntries ++ entries,
        branches := upsertedBranches d.branches active cell0.ID (storedCell now cell0).Timestamp,
        meta := (d.meta.filter fun kv => decide (kv.1 ≠ "head_cell")) ++ [("head_cell", cell0.ID)],
        lastSequence := some (max (d.lastSequence.getD 0) cell0.Sequence),
        agentRuns := d.agentRuns } active = some cell0.ID := by
    simp only [DB.headOf, DB.GetBranch, upsertedBranches_find_same]
  refine ⟨⟨?_, inv.trimmed, inv.nonEmpty, ?_, ?_, ?_, ?_, ?_, ?_⟩, hhead, ?_, rfl, hfresh, rfl⟩
  · have := inv.activeMeta
    simp only [DB.GetMeta] at this ⊢
    rw [meta_find_other _ _ _ (by decide)]
    exact this
  · simp only [DB.GetBranch, upsertedBranches_find_same]
    exact ⟨_, rfl⟩
  · rw [hhead]
    simp only [DB.GetMeta, meta_find_same, Option.getD_some]
  · intro b hbm
    rcases mem_upsertedBranches hbm with hh | hh
    · rw [hh]
      simp [DB.refOK, DB.cellIDs, storedCell]
    · have := inv.heads b hh
      cases hr : b.HeadCellID with
      | none => rfl
      | some id =>
        rw [hr] at this
        simp only [DB.refOK, decide_eq_true_eq, DB.cellIDs] at this ⊢
        simp only [List.map_append, List.mem_append]
        exact Or.inl this
  · intro c hc
    rcases List.mem_append.mp hc with hc | hc
    · exact inv.ids c hc
    · simp only [List.mem_singleton] at hc
      rw [hc]
      exact hid
  · rw [List.pairwise_append]
    exact ⟨inv.rows, hpair, hcross⟩
  · intro e he
    simp only [DB.cellIDs, List.map_append, List.mem_append, List.map_cons, List.map_nil,
      List.mem_singleton]
    rcases List.mem_append.mp he with he | he
    · exact Or.inl (inv.owners e he)
    · rcases hown e he with h1 | h1
      · exact Or.inl h1
      · exact Or.inr (by rw [h1]; rfl)
  · intro n hn
    simp only [DB.GetBranch, upsertedBranches_find_other _ _ _ _ hn]

/-- What a successful `createCellFromManifest` does, on a database whose active branch is
`active`: it takes the next sequence, inserts one cell of that branch whose parent is the
known parent or else the branch head, and may then touch eval slots. -/
theorem createCellFromManifest_ok {svc : Service} {now : String} {d d1 : DB} {fs : FS}
    {manifest : Manifest} {opts : SnapOptions} {knownParent : Option Cell}
    {known : Option (List ManifestEntry)} {cell : Cell} {active : String}
    (hact : ActiveBranch now d = (.ok active, d))
    (h : createCellFromManifest svc now d fs manifest opts knownParent known = (.ok cell, d1)) :
    ∃ (L : Int) (cell0 : Cell) (d3 : DB),
      d.lastSequence = some L ∧
      cell0.ID = CellID (L + 1) ∧ cell0.Sequence = L + 1 ∧ cell0.Branch = active ∧
      cell0.ParentID = (match knownParent with
        | some p => some p
        | none => branchHeadCell d active).map Cell.ID ∧
      cell0.Message = opts.Message ∧
      cell0.Source = (if TrimSpace opts.Source = "" then "manual" else TrimSpace opts.Source) ∧
      DB.InsertCellWithManifestAndAdvanceBranch now { d with lastSequence := some (L + 1) } cell0
        (manifestEntriesOf (CellID (L + 1)) manifest) = .ok d3 ∧
      evalOnly d3 d1 ∧ d1.GetCell (CellID (L + 1)) = .ok cell := by
  unfold createCellFromManifest at h
  rw [hact] at h
  dsimp only at h
  cases hL : d.lastSequence with
  | none => simp [DB.AllocateSequence, hL] at h
  | some L =>
    simp only [DB.AllocateSequence, hL] at h
    by_cases hlt : L < maxInt64
    swap
    · rw [if_neg hlt] at h
      simp at h
    rw [if_pos hlt] at h
    dsimp only at h
    split at h
    · simp at h
    · rename_i d3 hins
      split at h
      · simp at h
      · rename_i created hget
        simp only [Prod.mk.injEq, Except.ok.injEq] at h
        obtain ⟨hc, hd⟩ := h
        subst hc
        refine ⟨L, _, d3, rfl, ?_, ?_, ?_, ?_, ?_, ?_, hins, ?_, ?_⟩
        · rfl
        · rfl
        · rfl
        · rfl
        · rfl
        · rfl
        · rw [← hd]
          split
          · split
            · exact (EvaluateCell_evalOnly svc d3 fs _).trans
                (by
                  rename_i heq
                  rw [heq]
                  exact UpdateCellEval_evalOnly _ _ _ _ _ _ _ _)
            · rename_i heq
              have := EvaluateCell_evalOnly svc d3 fs (CellID (L + 1))
              rw [heq] at this
              exact this
          · exact evalOnly.refl d3
        · rw [← hd]
          exact hget


/-- A cell is created only while the counter is below the largest 64-bit integer. -/
theorem createCellFromManifest_bound {svc : Service} {now : String} {d d1 : DB} {fs : FS}
    {manifest : Manifest} {opts : SnapOptions} {knownParent : Option Cell}
    {known : Option (List ManifestEntry)} {cell : Cell} {active : String} {L : Int}
    (hact : ActiveBranch now d = (.ok active, d))
    (h : createCellFromManifest svc now d fs manifest opts knownParent known = (.ok cell, d1))
    (hL : d.lastSequence = some L) : L < maxInt64 := by
  unfold createCellFromManifest at h
  rw [hact] at h
  dsimp only at h
  simp only [DB.AllocateSequence, hL] at h
  by_contra hlt
  rw [if_neg hlt] at h
  simp at h

theorem GetCell_ID {d : DB} {id : String} {c : Cell} (h : d.GetCell id = .ok c) :
    c.ID = id ∧ c ∈ d.cells := by
  unfold DB.GetCell at h
  cases hf : d.cells.find? (fun c => c.ID = id) with
  | none => simp [hf] at h
  | some c0 =>
    simp only [hf, Except.ok.injEq] at h
    subst h
    have := List.find?_some hf
    exact ⟨by simpa using this, List.mem_of_find?_eq_some hf⟩

theorem GetCell_of_mem {d : DB} {id : String} (h : id ∈ d.cellIDs) :
    ∃ c, d.GetCell id = .ok c := by
  unfold DB.GetCell
  cases hf : d.cells.find? (fun c => c.ID = id) with
  | none =>
    rw [List.find?_eq_none] at hf
    obtain ⟨c, hc, hid⟩ := List.mem_map.mp h
    exact absurd (by simpa using hid) (hf c hc)
  | some c0 => exact ⟨c0, rfl⟩

theorem GetBranch_mem {d : DB} {n : String} {b : Branch} (h : d.GetBranch n = .ok b) :
    b.Name = n ∧ b ∈ d.branches := by
  unfold DB.GetBranch at h
  cases hf : d.branches.find? (fun b => b.Name = n) with
  | none => simp [hf] at h
  | some b0 =>
    simp only [hf, Except.ok.injEq] at h
    subst h
    have := List.find?_some hf
    exact ⟨by simpa using this, List.mem_of_find?_eq_some hf⟩

/-- With branch heads that name stored cells with non-blank ids, the cell `branchHeadCell`
loads is the one the branch row names. -/
theorem DB.Inv.branchHeadCell_ID {d : DB} {active : String} (inv : d.Inv active) (n : String) :
    (branchHeadCell d n).map Cell.ID = d.headOf n := by
  unfold branchHeadCell DB.headOf
  cases hb : d.GetBranch n with
  | error e => rfl
  | ok b =>
    simp only
    cases hh : b.HeadCellID with
    | none => rfl
    | some id =>
      simp only
      have href := inv.heads b (GetBranch_mem hb).2
      rw [hh] at href
      simp only [DB.refOK, decide_eq_true_eq] at href
      obtain ⟨c, hc⟩ := GetCell_of_mem href
      have hcid := GetCell_ID hc
      have hne : TrimSpace id ≠ "" := by
        rw [← hcid.1]; exact inv.ids c hcid.2
      simp [hne, hc, hcid.1]

theorem DB.Inv.branchHeadCell_some {d : DB} {active : String} (inv : d.Inv active) {n id : String}
    (h : d.headOf n = some id) : ∃ c, branchHeadCell d n = some c ∧ c.ID = id ∧
      d.GetCell id = .ok c := by
  have := inv.branchHeadCell_ID n
  rw [h] at this
  cases hc : branchHeadCell d n with
  | none => simp [hc] at this
  | some c =>
    simp only [hc, Option.map_some', Option.some.injEq] at this
    refine ⟨c, rfl, this, ?_⟩
    unfold branchHeadCell at hc
    split at hc
    · simp at hc
    · rename_i b hb
      split at hc
      · simp at hc
      · rename_i id1 hid1
        split at hc
        · simp at hc
        · split at hc
          · rename_i c1 hg
            simp only [Option.some.injEq] at hc
            subst hc
            have e1 := (GetCell_ID hg).1
            have e2 : id1 = id := e1.symm.trans this
            rw [← e2]
            exact hg
          · simp at hc

theorem parent_choice (kp x : Option Cell) :
    (kp = none ∨ kp = x) →
    (match kp with
      | some p => some p
      | none => x) = x := by
  intro h
  rcases h with h | h
  · subst h; rfl
  · subst h
    cases kp <;> rfl

/-- The effect of a successful `createCellFromManifest` on a database in which the
invariant holds, the known parent being absent or the head cell of the active branch. -/
theorem createCellFromManifest_effect {svc : Service} {now : String} {d d1 : DB} {fs : FS}
    {manifest : Manifest} {opts : SnapOptions} {knownParent : Option Cell}
    {known : Option (List ManifestEntry)} {cell : Cell} {active : String}
    (inv : d.Inv active) (hkp : knownParent = none ∨ knownParent = branchHeadCell d active)
    (h : createCellFromManifest svc now d fs manifest opts knownParent known = (.ok cell, d1)) :
    d1.Inv active ∧ d1.headOf active = some cell.ID ∧ cell.Branch = active ∧
    cell.ParentID = d.headOf active ∧ cell.ID ∉ d.cellIDs ∧ d1.GetCell cell.ID = .ok cell ∧
    cell.Message = opts.Message ∧
    cell.Source = (if TrimSpace opts.Source = "" then "manual" else TrimSpace opts.Source) ∧
    (∀ n, n ≠ active → d1.GetBranch n = d.GetBranch n) ∧
    d1.cellIDs = d.cellIDs ++ [cell.ID] ∧
    (∀ id, id ≠ cell.ID → d1.GetManifest id = d.GetManifest id) := by
  obtain ⟨L, cell0, d3, hL, hid, _, hbr, hpar, hmsg, hsrc, hins, hev, hget⟩ :=
    createCellFromManifest_ok (inv.activeBranch now) h
  have hnb : TrimSpace cell0.ID ≠ "" := by rw [hid]; exact CellID_not_blank _
  obtain ⟨inv3, hhead3, hoth3, hcells3, hfresh, hman3⟩ :=
    (inv.counter (some (L + 1))).insert hbr hnb hins
  obtain ⟨hb, hm, hme, _, _⟩ := hev.tables
  -- the cell returned is the stored row, up to its eval slot
  obtain ⟨c3, hc3, hcore⟩ := hev.GetCell hget
  have hc3' : c3 = storedCell now cell0 := by
    simp only [DB.GetCell, hcells3] at hc3
    rw [find?_append_new] at hc3
    · simp only [List.find?_cons, storedCell, hid, decide_True, Except.ok.injEq] at hc3
      rw [← hc3]
      simp [storedCell, hid]
    · intro y hy
      have : y.ID ≠ CellID (L + 1) := fun e =>
        hfresh (by rw [hid, ← e]; exact List.mem_map_of_mem Cell.ID hy)
      simp [this]
  subst hc3'
  have hcid : cell.ID = CellID (L + 1) := by
    rw [core_ID hcore]; simp [storedCell, hid]
  have hpar' := parent_choice knownParent (branchHeadCell d active) hkp
  refine ⟨hev.keepsInv inv3, ?_, ?_, ?_, ?_, ?_, ?_, ?_, ?_, ?_, ?_⟩
  · rw [DB.headOf, show d1.GetBranch active = d3.GetBranch active by simp [DB.GetBranch, hb]]
    rw [hcid, ← hid]
    exact hhead3
  · rw [core_Branch hcore]
    simp only [storedCell, hbr]
    exact storedBranch_of_trimmed inv.trimmed inv.nonEmpty
  · rw [core_ParentID hcore]
    have hp2 : cell0.ParentID = Option.map Cell.ID (branchHeadCell d active) :=
      hpar.trans (congrArg (Option.map Cell.ID) hpar')
    simp only [storedCell, hp2]
    exact inv.branchHeadCell_ID active
  · rw [hcid, ← hid]
    exact hfresh
  · rw [hcid]; exact hget
  · rw [core_Message hcore]; simpa [storedCell] using hmsg
  · rw [core_Source hcore]; simpa [storedCell] using hsrc
  · intro n hn
    rw [show d1.GetBranch n = d3.GetBranch n by simp [DB.GetBranch, hb]]
    exact hoth3 n hn
  · rw [hev.cellIDs, DB.cellIDs, hcells3, hcid, ← hid]
    simp [DB.cellIDs, storedCell]
  · intro id hne
    simp only [DB.GetManifest, hme, hman3, List.filter_append]
    have h2 : (manifestEntriesOf (CellID (L + 1)) manifest).filter (fun e => e.CellID = id)
        = [] := by
      rw [List.filter_eq_nil_iff]
      intro x hx
      simp only [manifestEntriesOf, List.mem_map] at hx
      obtain ⟨p, _, rfl⟩ := hx
      have : ¬ CellID (L + 1) = id := fun e => hne (by rw [hcid, e])
      simpa using this
    rw [h2, List.append_nil]

theorem CreateCell_effect {svc : Service} {now : String} {opts : SnapOptions} {w w1 : World}
    {cell : Cell} {active : String} (inv : w.db.Inv active)
    (h : CreateCell svc now opts w = (.ok cell, w1)) :
    Created w.db w1.db active opts cell ∧ w1.fs = (Capture svc.sum256 svc.Store w.fs).2 := by
  unfold CreateCell at h
  split at h
  · simp at h
  · rename_i manifest fs1 hcap
    split at h
    rename_i r d1 hc
    simp only [Prod.mk.injEq] at h
    obtain ⟨hr, hw⟩ := h
    subst hr
    subst hw
    exact ⟨createCellFromManifest_effect inv (Or.inl rfl) hc, by rw [hcap]⟩

theorem CreateCellIfChanged_effect {svc : Service} {now : String} {opts : SnapOptions}
    {w w1 : World} {r : Option Cell} {active : String} (inv : w.db.Inv active)
    (h : CreateCellIfChanged svc now opts w = (.ok r, w1)) :
    w1.fs = (Capture svc.sum256 svc.Store w.fs).2 ∧
    ((r = none ∧ w1.db = w.db) ∨ ∃ cell, r = some cell ∧ Created w.db w1.db active opts cell) := by
  unfold CreateCellIfChanged at h
  split at h
  · simp at h
  · rename_i manifest fs1 hcap
    rw [inv.activeBranch now] at h
    dsimp only at h
    split at h
    · simp only [Prod.mk.injEq, Except.ok.injEq] at h
      obtain ⟨hr, hw⟩ := h
      subst hr
      subst hw
      exact ⟨by rw [hcap], Or.inl ⟨rfl, rfl⟩⟩
    · split at h
      · simp at h
      · rename_i cell d2 hc
        simp only [Prod.mk.injEq, Except.ok.injEq] at h
        obtain ⟨hr, hw⟩ := h
        subst hr
        subst hw
        exact ⟨by rw [hcap], Or.inr ⟨cell, rfl,
          createCellFromManifest_effect inv (Or.inr rfl) hc⟩⟩

theorem find?_append_left_some {α : Type} {p : α → Bool} {l : List α} {x : α} (l1 : List α)
    (h : l.find? p = some x) : (l ++ l1).find? p = some x := by
  rw [List.find?_append, h]
  rfl

theorem CreateBranch_ok {now : String} {d d2 : DB} {name : String} {head : Option String}
    {createdAt : String} (h : d.CreateBranch now name head createdAt = .ok d2) :
    TrimSpace name ≠ "" ∧ d.branches.find? (fun b => b.Name = TrimSpace name) = none ∧
    d.refOK head = true ∧
    d2 = { d with branches := d.branches ++
      [{ Name := TrimSpace name, HeadCellID := head,
         CreatedAt := if TrimSpace createdAt = "" then now else createdAt }] } := by
  unfold DB.CreateBranch at h
  dsimp only at h
  split at h
  · simp at h
  · rename_i hne
    split at h
    · simp at h
    · rename_i hany
      split at h
      · rename_i href
        simp only [Except.ok.injEq] at h
        refine ⟨hne, ?_, href, h.symm⟩
        rw [List.find?_eq_none]
        intro x hx hp
        exact hany (List.any_eq_true.mpr ⟨x, hx, hp⟩)
      · simp at h

theorem GetMeta_SetMeta_same (d : DB) (k v : String) : (d.SetMeta k v).GetMeta k = .ok v := by
  simp only [DB.GetMeta, DB.SetMeta, setMetaTx, meta_find_same]

theorem GetMeta_SetMeta_other (d : DB) (k v : String) {k1 : String} (h : k1 ≠ k) :
    (d.SetMeta k v).GetMeta k1 = d.GetMeta k1 := by
  simp only [DB.GetMeta, DB.SetMeta, setMetaTx, meta_find_other _ _ _ h]

theorem GetMeta_setHeadCellMeta_head (d : DB) (head : Option String) :
    (setHeadCellMeta d head).GetMeta "head_cell" = .ok (head.getD "") := by
  cases head <;> simp [setHeadCellMeta, GetMeta_SetMeta_same]

theorem GetMeta_setHeadCellMeta_other (d : DB) (head : Option String) {k : String}
    (h : k ≠ "head_cell") : (setHeadCellMeta d head).GetMeta k = d.GetMeta k := by
  cases head <;> simp [setHeadCellMeta, GetMeta_SetMeta_other _ _ _ h]

theorem setHeadCellMeta_tables (d : DB) (head : Option String) :
    (setHeadCellMeta d head).cells = d.cells ∧ (setHeadCellMeta d head).branches = d.branches ∧
    (setHeadCellMeta d head).manifestEntries = d.manifestEntries ∧
    (setHeadCellMeta d head).lastSequence = d.lastSequence ∧
    (setHeadCellMeta d head).agentRuns = d.agentRuns := by
  cases head <;> exact ⟨rfl, rfl, rfl, rfl, rfl⟩

/-- The invariant carried to a database with the same cells and manifests, from the facts
about its meta and branch tables. -/
theorem DB.Inv.rebuild {d d1 : DB} {active a1 : String} (inv : d.Inv active)
    (hc : d1.cells = d.cells) (hm : d1.manifestEntries = d.manifestEntries)
    (hact : d1.GetMeta "active_branch" = .ok a1) (ht : TrimSpace a1 = a1) (hne : a1 ≠ "")
    (hrow : ∃ b, d1.GetBranch a1 = .ok b)
    (hmirror : d1.GetMeta "head_cell" = .ok ((d1.headOf a1).getD ""))
    (hheads : ∀ b ∈ d1.branches, b ∈ d.branches ∨ d.refOK b.HeadCellID = true) :
    d1.Inv a1 := by
  have hid : d1.cellIDs = d.cellIDs := by simp [DB.cellIDs, hc]
  have href : ∀ r, d1.refOK r = d.refOK r := fun r => by cases r <;> simp [DB.refOK, hid]
  refine ⟨hact, ht, hne, hrow, hmirror, ?_, ?_, ?_, ?_⟩
  · intro b hb
    rw [href]
    rcases hheads b hb with h | h
    · exact inv.heads b h
    · exact h
  · intro c hcm
    exact inv.ids c (hc ▸ hcm)
  · rw [hm]; exact inv.rows
  · intro e he
    rw [hid]
    exact inv.owners e (hm ▸ he)

/-- What a successful `ForkBranch` does to a database in which the invariant holds. -/
theorem ForkBranch_shape {now name : String} {switchNow : Bool} {d d1 : DB} {br : Branch}
    {active : String} (inv : d.Inv active)
    (h : ForkBranch now name switchNow d = (.ok br, d1)) :
    TrimSpace name ≠ "" ∧ d.branches.find? (fun b => b.Name = TrimSpace name) = none ∧
    d.refOK (d.headOf active) = true ∧
    br = { Name := TrimSpace name, HeadCellID := d.headOf active, CreatedAt := now } ∧
    d1 = (if switchNow then
        setHeadCellMeta (DB.SetMeta { d with branches := d.branches ++ [br] }
          "active_branch" (TrimSpace name)) (d.headOf active)
      else { d with branches := d.branches ++ [br] }) ∧
    d1.GetBranch (TrimSpace name) = .ok br := by
  unfold ForkBranch at h
  dsimp only at h
  split at h
  · simp at h
  · rename_i hne
    split at h
    · simp at h
    · rw [inv.activeBranch now] at h
      dsimp only at h
      rw [inv.branchHeadCell_ID active] at h
      split at h
      · simp at h
      · rename_i d2 hcb
        obtain ⟨_, hnone, href, hd2⟩ := CreateBranch_ok hcb
        rw [TrimSpace_idem] at hnone hd2
        split at h
        · simp at h
        · rename_i b hgb
          simp only [Prod.mk.injEq, Except.ok.injEq] at h
          obtain ⟨hb, hd⟩ := h
          subst hb
          have hbr : ∀ d3 : DB, d3.branches = d2.branches → d3.GetBranch (TrimSpace name) =
              .ok { Name := TrimSpace name, HeadCellID := d.headOf active, CreatedAt := now } := by
            intro d3 h3
            simp only [DB.GetBranch, h3, hd2]
            rw [find?_append_new]
            · simp
            · intro y hy
              have := (List.find?_eq_none.mp hnone) y hy
              simpa using this
          have hb3 : (if switchNow = true then
              setHeadCellMeta (d2.SetMeta "active_branch" (TrimSpace name)) (d.headOf active)
              else d2).branches = d2.branches := by
            split
            · exact (setHeadCellMeta_tables _ _).2.1
            · rfl
          have hbeq : b =
              { Name := TrimSpace name, HeadCellID := d.headOf active, CreatedAt := now } := by
            have := hbr _ hb3
            rw [hgb] at this
            exact Except.ok.inj this
          refine ⟨hne, hnone, href, hbeq, ?_, ?_⟩
          · rw [← hd, hd2, hbeq]
            simp
          · rw [← hd, hbeq]
            exact hbr _ hb3

theorem headOf_of_GetBranch {d : DB} {n : String} {b : Branch} (h : d.GetBranch n = .ok b) :
    d.headOf n = b.HeadCellID := by
  simp [DB.headOf, h]

/-- `ForkBranch` keeps the invariant: the active branch is the new one when the call
switches, the old one otherwise. -/
theorem ForkBranch_inv {now name : String} {switchNow : Bool} {d d1 : DB} {br : Branch}
    {active : String} (inv : d.Inv active)
    (h : ForkBranch now name switchNow d = (.ok br, d1)) :
    d1.Inv (if switchNow then TrimSpace name else active) := by
  obtain ⟨hne, hnone, href, hbr, hd1, hget⟩ := ForkBranch_shape inv h
  obtain ⟨b0, hb0⟩ := inv.hasRow
  have hheads : ∀ b ∈ d.branches ++ [br], b ∈ d.branches ∨ d.refOK b.HeadCellID = true := by
    intro b hb
    rcases List.mem_append.mp hb with hb | hb
    · exact Or.inl hb
    · simp only [List.mem_singleton] at hb
      right
      rw [hb, hbr]
      exact href
  cases switchNow with
  | false =>
    simp only [Bool.false_eq_true, if_false] at hd1 ⊢
    subst hd1
    have hgb : DB.GetBranch { d with branches := d.branches ++ [br] } active = .ok b0 := by
      have := hb0
      simp only [DB.GetBranch] at this ⊢
      cases hf : d.branches.find? (fun b => b.Name = active) with
      | none => simp [hf] at this
      | some b1 =>
        simp only [hf, Except.ok.injEq] at this
        rw [find?_append_left_some _ hf, this]
    refine inv.rebuild rfl rfl inv.activeMeta inv.trimmed inv.nonEmpty ⟨b0, hgb⟩ ?_ hheads
    have := inv.mirror
    rw [headOf_of_GetBranch hb0] at this
    rw [headOf_of_GetBranch hgb]
    exact this
  | true =>
    simp only [if_true] at hd1 ⊢
    have hb1 := (setHeadCellMeta_tables (DB.SetMeta { d with branches := d.branches ++ [br] }
      "active_branch" (TrimSpace name)) (d.headOf active))
    rw [← hd1] at hb1
    refine inv.rebuild hb1.1 hb1.2.2.1 ?_ (TrimSpace_idem name) hne ⟨br, hget⟩ ?_ ?_
    · rw [hd1, GetMeta_setHeadCellMeta_other _ _ (by decide), GetMeta_SetMeta_same]
    · rw [headOf_of_GetBranch hget, hd1, GetMeta_setHeadCellMeta_head, hbr]
    · intro b hb
      rw [hb1.2.1] at hb
      exact hheads b hb

theorem World.eta (w : World) : ({ db := w.db, fs := w.fs } : World) = w := by
  cases w; rfl

theorem UpdateBranchHead_ok {d d2 : DB} {name : String} {head : Option String}
    (h : d.UpdateBranchHead name head = .ok d2) :
    d.refOK head = true ∧
    d2 = { d with branches := d.branches.map fun b =>
      if b.Name = name then { b with HeadCellID := head } else b } := by
  unfold DB.UpdateBranchHead at h
  split at h
  · split at h
    · rename_i href
      simp only [Except.ok.injEq] at h
      exact ⟨href, h.symm⟩
    · simp at h
  · simp at h

theorem UpdateBranchHead_found {d : DB} {name : String} {b : Branch}
    (hb : d.GetBranch name = .ok b) (head : Option String) :
    d.UpdateBranchHead name head ≠ .error .notFound := by
  unfold DB.UpdateBranchHead
  have hany : d.branches.any (fun b => b.Name = name) = true := by
    rw [List.any_eq_true]
    obtain ⟨h1, h2⟩ := GetBranch_mem hb
    exact ⟨b, h2, by simpa using h1⟩
  rw [if_pos hany]
  split <;> simp

/-- The steps of a successful `RestoreCell` on a database in which the invariant holds. -/
theorem RestoreCell_shape {svc : Service} {now targetID : String} {w w1 : World} {safety : Cell}
    {active : String} (inv : w.db.Inv active)
    (h : RestoreCell svc now targetID w = (.ok safety, w1)) :
    ∃ (target : Cell) (w0 : World) (fs2 fs3 : FS) (d2 : DB),
      w.db.GetCell targetID = .ok target ∧
      CreateCell svc now (safetyOptions ("safety snapshot before restore to " ++ targetID)) w =
        (.ok safety, w0) ∧
      writeRestoreLock w0.fs = .ok fs2 ∧
      restoreTrackedFilesToCell svc w0.db fs2 targetID (w.db.LatestCellByBranch active) =
        (.ok (), fs3) ∧
      w0.db.UpdateBranchHead active (some targetID) = .ok d2 ∧
      w1 = { db := setHeadCellMeta d2 (some targetID), fs := cleanup fs3 } := by
  unfold RestoreCell at h
  split at h
  · simp at h
  · simp at h
  · rename_i target hget
    rw [inv.activeBranch now] at h
    dsimp only at h
    rw [World.eta] at h
    split at h
    · simp at h
    · rename_i safety0 w0 hcc
      split at h
      · simp at h
      · rename_i fs2 hlock
        split at h
        · simp at h
        · rename_i u fs3 hrest
          have hinv0 := (CreateCell_effect inv hcc).1.1
          obtain ⟨b0, hb0⟩ := hinv0.hasRow
          cases hup : w0.db.UpdateBranchHead active (some targetID) with
          | error e =>
            cases e with
            | notFound => exact absurd hup (UpdateBranchHead_found hb0 _)
            | failed msg => simp [hup] at h
          | ok d2 =>
            simp only [hup, Prod.mk.injEq, Except.ok.injEq] at h
            obtain ⟨hs, hw⟩ := h
            subst hs
            exact ⟨target, w0, fs2, fs3, d2, hget, hcc, hlock, by rw [hrest], hup, hw.symm⟩

/-- `RestoreCell` keeps the invariant and rewinds the active branch to the target. -/
theorem RestoreCell_inv {svc : Service} {now targetID : String} {w w1 : World} {safety : Cell}
    {active : String} (inv : w.db.Inv active)
    (h : RestoreCell svc now targetID w = (.ok safety, w1)) :
    w1.db.Inv active ∧ w1.db.headOf active = some targetID ∧
    w1.db.GetMeta "head_cell" = .ok targetID ∧ w1.db.GetCell safety.ID = .ok safety ∧
    targetID ∈ w.db.cellIDs ∧ safety.ID ∉ w.db.cellIDs ∧ safety.Branch = active ∧
    safety.Source = "restore_safety" ∧
    safety.Message = "safety snapshot before restore to " ++ targetID := by
  obtain ⟨target, w0, fs2, fs3, d2, hget, hcc, _, _, hup, hw1⟩ := RestoreCell_shape inv h
  obtain ⟨⟨inv0, _, hbr, _, hfresh, hgs, hmsg, hsrc, _, _⟩, _⟩ := CreateCell_effect inv hcc
  obtain ⟨href, hd2⟩ := UpdateBranchHead_ok hup
  obtain ⟨b0, hb0⟩ := inv0.hasRow
  have htab := setHeadCellMeta_tables d2 (some targetID)
  have hgb : (setHeadCellMeta d2 (some targetID)).GetBranch active =
      .ok { b0 with HeadCellID := some targetID } := by
    have := hb0
    simp only [DB.GetBranch] at this ⊢
    rw [htab.2.1, hd2]
    simp only
    rw [find?_setHead_same]
    cases hf : w0.db.branches.find? (fun b => b.Name = active) with
    | none => simp [hf] at this
    | some b1 =>
      simp only [hf, Except.ok.injEq] at this
      simp [this]
  subst hw1
  refine ⟨?_, ?_, ?_, ?_, ?_, hfresh, hbr, ?_, hmsg⟩
  · refine inv0.rebuild (by rw [htab.1, hd2]) (by rw [htab.2.2.1, hd2]) ?_ inv0.trimmed
      inv0.nonEmpty ⟨_, hgb⟩ ?_ ?_
    · rw [GetMeta_setHeadCellMeta_other _ _ (by decide)]
      have := inv0.activeMeta
      simp only [DB.GetMeta, hd2] at this ⊢
      exact this
    · rw [headOf_of_GetBranch hgb, GetMeta_setHeadCellMeta_head]
    · intro b hb
      rw [htab.2.1, hd2] at hb
      simp only [List.mem_map] at hb
      obtain ⟨x, hx, rfl⟩ := hb
      by_cases hn : x.Name = active
      · right
        simpa [hn] using href
      · left
        simpa [hn] using hx
  · exact headOf_of_GetBranch hgb
  · exact GetMeta_setHeadCellMeta_head _ _
  · have := hgs
    simp only [DB.GetCell, htab.1, hd2] at this ⊢
    exact this
  · exact List.mem_map.mpr ⟨target, (GetCell_ID hget).2, (GetCell_ID hget).1⟩
  · rw [hsrc]
    simp only [safetyOptions]
    decide

/-- The steps of a successful `SwitchBranch` on a database in which the invariant holds. -/
theorem SwitchBranch_shape {svc : Service} {now name : String} {w w1 : World}
    {r : Option Cell × Cell} {active : String} (inv : w.db.Inv active)
    (h : SwitchBranch svc now name w = (.ok r, w1)) :
    ∃ (branch : Branch) (headID : String),
      TrimSpace name ≠ "" ∧ w.db.GetBranch (TrimSpace name) = .ok branch ∧
      branch.HeadCellID = some headID ∧ TrimSpace headID ≠ "" ∧
      ((active = TrimSpace name ∧ r.1 = none ∧ w.db.GetCell headID = .ok r.2 ∧ w1 = w) ∨
       (active ≠ TrimSpace name ∧ ∃ (safety : Cell) (w0 : World) (fs2 fs3 : FS),
          r.1 = some safety ∧
          CreateCell svc now (safetyOptions ("safety snapshot before switch to " ++ TrimSpace name))
            w = (.ok safety, w0) ∧
          writeRestoreLock w0.fs = .ok fs2 ∧
          restoreTrackedFilesToCell svc w0.db fs2 headID (branchHeadCell w.db active) =
            (.ok (), fs3) ∧
          w1 = { db := setHeadCellMeta (w0.db.SetMeta "active_branch" (TrimSpace name))
                   (some headID),
                 fs := cleanup fs3 } ∧
          w1.db.GetCell headID = .ok r.2)) := by
  unfold SwitchBranch at h
  dsimp only at h
  split at h
  · simp at h
  · rename_i hne
    split at h
    · simp at h
    · simp at h
    · rename_i branch hgb
      split at h
      · simp at h
      · rename_i headID hhead
        split at h
        · simp at h
        · rename_i hnb
          rw [inv.activeBranch now] at h
          dsimp only at h
          refine ⟨branch, headID, hne, hgb, hhead, hnb, ?_⟩
          split at h
          · rename_i heq
            left
            split at h
            · simp at h
            · rename_i target hgt
              simp only [Prod.mk.injEq, Except.ok.injEq] at h
              obtain ⟨hr, hw⟩ := h
              subst hr
              refine ⟨heq, rfl, hgt, ?_⟩
              rw [← hw]
          · rename_i hneq
            right
            rw [World.eta] at h
            refine ⟨hneq, ?_⟩
            split at h
            · simp at h
            · rename_i safety w0 hcc
              split at h
              · simp at h
              · rename_i fs2 hlock
                split at h
                · simp at h
                · rename_i u fs3 hrest
                  split at h
                  · simp at h
                  · rename_i target hgt
                    simp only [Prod.mk.injEq, Except.ok.injEq] at h
                    obtain ⟨hr, hw⟩ := h
                    subst hr
                    subst hw
                    exact ⟨safety, w0, fs2, fs3, rfl, hcc, hlock, by rw [hrest], rfl, hgt⟩

/-- `SwitchBranch` keeps the invariant; afterwards the named branch is the active one. -/
theorem SwitchBranch_inv {svc : Service} {now name : String} {w w1 : World}
    {r : Option Cell × Cell} {active : String} (inv : w.db.Inv active)
    (h : SwitchBranch svc now name w = (.ok r, w1)) : w1.db.Inv (TrimSpace name) := by
  obtain ⟨branch, headID, hne, hgb, hhead, _, hcase⟩ := SwitchBranch_shape inv h
  rcases hcase with ⟨heq, _, _, hw⟩ | ⟨hneq, safety, w0, fs2, fs3, _, hcc, _, _, hw, _⟩
  · rw [hw, ← heq]
    exact inv
  · obtain ⟨⟨inv0, _, _, _, _, _, _, _, hoth, _⟩, _⟩ := CreateCell_effect inv hcc
    have htab := setHeadCellMeta_tables (w0.db.SetMeta "active_branch" (TrimSpace name))
      (some headID)
    have hgb0 : w0.db.GetBranch (TrimSpace name) = .ok branch := by
      rw [hoth _ (fun e => hneq e.symm)]
      exact hgb
    have hgb1 : w1.db.GetBranch (TrimSpace name) = .ok branch := by
      rw [hw]
      have := hgb0
      simp only [DB.GetBranch, htab.2.1] at this ⊢
      exact this
    subst hw
    refine inv0.rebuild htab.1 htab.2.2.1 ?_ (TrimSpace_idem name) hne ⟨branch, hgb1⟩ ?_ ?_
    · rw [GetMeta_setHeadCellMeta_other _ _ (by decide), GetMeta_SetMeta_same]
    · rw [headOf_of_GetBranch hgb1, GetMeta_setHeadCellMeta_head, hhead]
    · intro b hb
      left
      rw [htab.2.1] at hb
      exact hb

/-- A database just opened meets the invariant with `main` active. -/
theorem Open_inv (now : String) : (Open now).Inv "main" :=
  ⟨rfl, by decide, by decide, ⟨_, rfl⟩, rfl, by
    intro b hb
    have hb1 : b ∈ [({ Name := "main", HeadCellID := none, CreatedAt := now } : Branch)] := hb
    simp only [List.mem_singleton] at hb1
    rw [hb1]
    rfl, by
    intro c hc
    have hc1 : c ∈ ([] : List Cell) := hc
    simp at hc1, by
    show List.Pairwise _ ([] : List ManifestEntry)
    exact List.Pairwise.nil, by
    intro e he
    have he1 : e ∈ ([] : List ManifestEntry) := he
    simp at he1⟩

theorem Op.run_inv {svc : Service} {now : String} {op : Op} {w w1 : World} {active : String}
    (inv : w.db.Inv active) (h : op.run svc now w = some w1) : ∃ a1, w1.db.Inv a1 := by
  cases op with
  | createCell opts =>
    simp only [Op.run] at h
    split at h
    · rename_i cell w2 hc
      simp only [Option.some.injEq] at h
      subst h
      exact ⟨active, (CreateCell_effect inv hc).1.1⟩
    · simp at h
  | createCellIfChanged opts =>
    simp only [Op.run] at h
    split at h
    · rename_i r w2 hc
      simp only [Option.some.injEq] at h
      subst h
      rcases (CreateCellIfChanged_effect inv hc).2 with ⟨_, hd⟩ | ⟨cell, _, hcr⟩
      · exact ⟨active, hd ▸ inv⟩
      · exact ⟨active, hcr.1⟩
    · simp at h
  | forkBranch name switchNow =>
    simp only [Op.run] at h
    split at h
    · rename_i br d1 hc
      simp only [Option.some.injEq] at h
      subst h
      exact ⟨_, ForkBranch_inv inv hc⟩
    · simp at h
  | switchBranch name =>
    simp only [Op.run] at h
    split at h
    · rename_i r w2 hc
      simp only [Option.some.injEq] at h
      subst h
      exact ⟨_, SwitchBranch_inv inv hc⟩
    · simp at h
  | restoreCell targetID =>
    simp only [Op.run] at h
    split at h
    · rename_i safety w2 hc
      simp only [Option.some.injEq] at h
      subst h
      exact ⟨active, (RestoreCell_inv inv hc).1⟩
    · simp at h

/-- Every reachable state meets the invariant, for the branch its meta names. -/
theorem Reachable.inv {svc : Service} {w : World} (h : Reachable svc w) :
    ∃ active, w.db.Inv active := by
  induction h with
  | opened now fs => exact ⟨"main", Open_inv now⟩
  | call now op _ hrun ih =>
    obtain ⟨a, inv⟩ := ih
    exact Op.run_inv inv hrun
  | edit fs _ ih => exact ih

theorem DB.Inv.active_unique {d : DB} {a a1 : String} (inv : d.Inv a)
    (h : d.GetMeta "active_branch" = .ok a1) : a1 = a := by
  rw [inv.activeMeta] at h
  exact (Except.ok.inj h).symm

/-- C7: in every state reached from a database just opened by successful
`CreateCell`, `CreateCellIfChanged`, `ForkBranch` (switching or not),
`SwitchBranch` and `RestoreCell` calls, `meta["active_branch"]` names a branch
and `meta["head_cell"]` is the `head_cell_id` of that branch's row, the empty
string standing for a null head. -/
theorem head_cell_mirror (svc : Service) (w : World) (h : Reachable svc w) :
    ∃ active, w.db.GetMeta "active_branch" = .ok active ∧
      (∃ b, w.db.GetBranch active = .ok b) ∧
      w.db.GetMeta "head_cell" = .ok ((w.db.headOf active).getD "") := by
  obtain ⟨active, inv⟩ := h.inv
  exact ⟨active, inv.activeMeta, inv.hasRow, inv.mirror⟩

theorem world1_reachable : Reachable exampleService world1 :=
  Reachable.call "t1" (Op.createCell (messageOnly "v1")) (Reachable.opened "t0" exampleTree)
    (by decide)

theorem head_cell_mirror_witness :
    ∃ active, world1.db.GetMeta "active_branch" = .ok active ∧
      (∃ b, world1.db.GetBranch active = .ok b) ∧
      world1.db.GetMeta "head_cell" = .ok ((world1.db.headOf active).getD "") :=
  head_cell_mirror exampleService world1 world1_reachable

/-- C4: in every state reached from a fresh repository by successful calls, a
cell that `CreateCell` or `CreateCellIfChanged` creates has the active branch as
its branch and, as `parent_id`, the `head_cell_id` that branch had just before
the call (null when the head is null); after the call the head of that branch is
the new cell. -/
theorem parent_is_branch_head (svc : Service) (w w1 : World) (now active : String)
    (opts : SnapOptions) (cell : Cell) (h : Reachable svc w)
    (hact : w.db.GetMeta "active_branch" = .ok active)
    (hcall : CreateCell svc now opts w = (.ok cell, w1) ∨
      CreateCellIfChanged svc now opts w = (.ok (some cell), w1)) :
    cell.Branch = active ∧ cell.ParentID = w.db.headOf active ∧
    w1.db.headOf active = some cell.ID ∧ w1.db.GetCell cell.ID = .ok cell := by
  obtain ⟨a, inv⟩ := h.inv
  have := inv.active_unique hact
  subst this
  rcases hcall with hc | hc
  · obtain ⟨⟨_, h1, h2, h3, _, h4, _⟩, _⟩ := CreateCell_effect inv hc
    exact ⟨h2, h3, h1, h4⟩
  · rcases (CreateCellIfChanged_effect inv hc).2 with ⟨hn, _⟩ | ⟨c, hs, _, h1, h2, h3, _, h4, _⟩
    · simp at hn
    · simp only [Option.some.injEq] at hs
      subst hs
      exact ⟨h2, h3, h1, h4⟩

theorem parent_is_branch_head_witness :
    (cellOf (CreateCell exampleService "t2" (messageOnly "v2") world1)).Branch = "main" ∧
    (cellOf (CreateCell exampleService "t2" (messageOnly "v2") world1)).ParentID =
      world1.db.headOf "main" ∧
    (CreateCell exampleService "t2" (messageOnly "v2") world1).2.db.headOf "main" =
      some (cellOf (CreateCell exampleService "t2" (messageOnly "v2") world1)).ID ∧
    (CreateCell exampleService "t2" (messageOnly "v2") world1).2.db.GetCell
      (cellOf (CreateCell exampleService "t2" (messageOnly "v2") world1)).ID =
      .ok (cellOf (CreateCell exampleService "t2" (messageOnly "v2") world1)) :=
  parent_is_branch_head exampleService world1 _ "t2" "main" (messageOnly "v2") _
    world1_reachable rfl (Or.inl rfl)

/-- C10: after a successful `RestoreCell(T)` in a reachable state whose active
branch is `B`, the head of `B` is `T` and `meta["head_cell"]` is `T`; the safety
cell returned has source `restore_safety`, message
`safety snapshot before restore to <T>` and branch `B`, is stored, and is not
`T`; and the next `CreateCell`, whatever the working tree has become, records
`parent_id = T` on branch `B`. -/
theorem restore_rewinds_head (svc : Service) (w w1 : World) (now targetID active : String)
    (safety : Cell) (h : Reachable svc w)
    (hact : w.db.GetMeta "active_branch" = .ok active)
    (hres : RestoreCell svc now targetID w = (.ok safety, w1)) :
    w1.db.headOf active = some targetID ∧ w1.db.GetMeta "head_cell" = .ok targetID ∧
    w1.db.GetMeta "active_branch" = .ok active ∧
    safety.Source = "restore_safety" ∧
    safety.Message = "safety snapshot before restore to " ++ targetID ∧
    safety.Branch = active ∧ w1.db.GetCell safety.ID = .ok safety ∧ safety.ID ≠ targetID ∧
    ∀ (now2 : String) (opts : SnapOptions) (fs : FS) (cell : Cell) (w2 : World),
      CreateCell svc now2 opts { w1 with fs := fs } = (.ok cell, w2) →
        cell.ParentID = some targetID ∧ cell.Branch = active := by
  obtain ⟨a, inv⟩ := h.inv
  have := inv.active_unique hact
  subst this
  obtain ⟨inv1, hhead, hmeta, hget, hmem, hfresh, hbr, hsrc, hmsg⟩ := RestoreCell_inv inv hres
  refine ⟨hhead, hmeta, inv1.activeMeta, hsrc, hmsg, hbr, hget, ?_, ?_⟩
  · intro e
    exact hfresh (e ▸ hmem)
  · intro now2 opts fs cell w2 hc
    have inv1' : ({ w1 with fs := fs } : World).db.Inv active := inv1
    obtain ⟨⟨_, _, h2, h3, _⟩, _⟩ := CreateCell_effect inv1' hc
    exact ⟨h3.trans hhead, h2⟩

theorem restore_rewinds_head_witness :
    restored1.2.db.headOf "main" = some "c_000001" ∧
    restored1.2.db.GetMeta "head_cell" = .ok "c_000001" ∧
    (cellOf restored1).Source = "restore_safety" :=
  ⟨(restore_rewinds_head exampleService world1 restored1.2 "t2" "c_000001" "main"
      (cellOf restored1) world1_reachable rfl rfl).1,
   (restore_rewinds_head exampleService world1 restored1.2 "t2" "c_000001" "main"
      (cellOf restored1) world1_reachable rfl rfl).2.1,
   (restore_rewinds_head exampleService world1 restored1.2 "t2" "c_000001" "main"
      (cellOf restored1) world1_reachable rfl rfl).2.2.2.1⟩

/-! ## The no-change short-circuit -/

theorem mapGet_mapSet {V : Type} (m : GoMap V) (k : String) (v : V) (k1 : String) :
    mapGet (mapSet m k v) k1 = if k1 = k then some v else mapGet m k1 := by
  unfold mapGet mapSet
  by_cases h : k1 = k
  · subst h
    rw [if_pos rfl, find?_append_new]
    · simp
    · intro y hy
      have := (List.mem_filter.mp hy).2
      simpa using this
  · rw [if_neg h]
    have hk : ¬ k = k1 := fun e => h e.symm
    rw [find?_append_old _ _ _ (by simp [hk]), List.find?_filter]
    congr 2
    funext a
    by_cases ha : a.1 = k1
    · simp [ha, h]
    · simp [ha]

theorem manifestHashes_foldl_nodup (es : List ManifestEntry) (acc : GoMap String)
    (h : (acc.map Prod.fst).Nodup) :
    ((es.foldl (fun out entry => mapSet out entry.Path entry.Hash) acc).map Prod.fst).Nodup := by
  induction es generalizing acc with
  | nil => exact h
  | cons e rest ih => exact ih _ (mapSet_keys_nodup h _ _)

theorem manifestHashesFromEntries_nodup (es : List ManifestEntry) :
    ((manifestHashesFromEntries es).map Prod.fst).Nodup :=
  manifestHashes_foldl_nodup es [] List.nodup_nil

theorem manifestHashes_foldl_get (es : List ManifestEntry) (acc : GoMap String) (p : String)
    (hd : es.Pairwise (fun a b => a.Path ≠ b.Path)) :
    mapGet (es.foldl (fun out entry => mapSet out entry.Path entry.Hash) acc) p =
      match es.find? (fun e => e.Path = p) with
      | some e => some e.Hash
      | none => mapGet acc p := by
  induction es generalizing acc with
  | nil => rfl
  | cons e rest ih =>
    rw [List.pairwise_cons] at hd
    simp only [List.foldl_cons, List.find?_cons]
    rw [ih _ hd.2]
    by_cases hp : e.Path = p
    · have hnone : rest.find? (fun x => x.Path = p) = none := by
        rw [List.find?_eq_none]
        intro x hx hxp
        simp only [decide_eq_true_eq] at hxp
        exact hd.1 x hx (hp.trans hxp.symm)
      simp only [hnone, hp, decide_True, mapGet_mapSet, if_true]
    · simp only [hp, decide_False]
      cases rest.find? (fun x => x.Path = p) with
      | some x => rfl
      | none =>
        simp only [mapGet_mapSet]
        rw [if_neg (fun e1 => hp e1.symm)]

theorem manifestHashesFromEntries_get (es : List ManifestEntry) (p h : String)
    (hd : es.Pairwise (fun a b => a.Path ≠ b.Path)) :
    mapGet (manifestHashesFromEntries es) p = some h ↔ ∃ e ∈ es, e.Path = p ∧ e.Hash = h := by
  unfold manifestHashesFromEntries
  rw [manifestHashes_foldl_get es [] p hd]
  cases hf : es.find? (fun e => e.Path = p) with
  | none =>
    simp only [mapGet, List.find?_nil, Option.map_none']
    constructor
    · intro h1; simp at h1
    · rintro ⟨e, he, hp, _⟩
      have := (List.find?_eq_none.mp hf) e he
      simp [hp] at this
  | some e0 =>
    have hp0 : e0.Path = p := by simpa using List.find?_some hf
    have hm0 := List.mem_of_find?_eq_some hf
    simp only [Option.some.injEq]
    constructor
    · intro h1
      exact ⟨e0, hm0, hp0, h1⟩
    · rintro ⟨e, he, hp, hh⟩
      by_cases hee : e = e0
      · rw [← hee]; exact hh
      · exfalso
        have hsym : Symmetric (fun a b : ManifestEntry => a.Path ≠ b.Path) :=
          fun _ _ hab => hab.symm
        have hne := List.Pairwise.forall hsym hd he hm0 hee
        exact hne (hp.trans hp0.symm)

/-- With one manifest row per cell and path, the rows of a cell have distinct paths. -/
theorem DB.Inv.manifest_paths {d : DB} {active : String} (inv : d.Inv active) (cellID : String) :
    (d.GetManifest cellID).Pairwise (fun a b => a.Path ≠ b.Path) := by
  unfold DB.GetManifest
  have h1 : (d.manifestEntries.filter fun e => e.CellID = cellID).Pairwise
      (fun a b => a.Path ≠ b.Path) := by
    have := inv.rows.filter (fun e => decide (e.CellID = cellID))
    refine this.imp_of_mem ?_
    intro a b ha hb hab e
    have ha1 := (List.mem_filter.mp ha).2
    have hb1 := (List.mem_filter.mp hb).2
    simp only [decide_eq_true_eq] at ha1 hb1
    exact hab ⟨ha1.trans hb1.symm, e⟩
  exact (sortByPath_perm _).symm.pairwise h1 (fun hab => hab.symm)

/-- Equal lists of (path, hash) pairs, up to order, give hash-equality. -/
theorem sameHashes_of_perm {m : Manifest} {es : List ManifestEntry}
    (hm : (m.map Prod.fst).Nodup) (hd : es.Pairwise (fun a b => a.Path ≠ b.Path))
    (hperm : (m.map fun kv => (kv.1, kv.2.Hash)).Perm (es.map fun e => (e.Path, e.Hash))) :
    SameHashes m (manifestHashesFromEntries es) := by
  have hfwd : ∀ p fe, mapGet m p = some fe →
      mapGet (manifestHashesFromEntries es) p = some fe.Hash := by
    intro p fe hg
    rw [manifestHashesFromEntries_get es p fe.Hash hd]
    have hmem : (p, fe.Hash) ∈ m.map fun kv => (kv.1, kv.2.Hash) :=
      List.mem_map.mpr ⟨(p, fe), mapGet_some_mem hg, rfl⟩
    obtain ⟨e, he, heq⟩ := List.mem_map.mp (hperm.mem_iff.mp hmem)
    simp only [Prod.mk.injEq] at heq
    exact ⟨e, he, heq.1, heq.2⟩
  refine ⟨?_, hfwd⟩
  intro p
  constructor
  · intro hs
    cases hg : mapGet m p with
    | none => simp [hg] at hs
    | some fe => rw [hfwd p fe hg]; rfl
  · intro hs
    cases hg : mapGet (manifestHashesFromEntries es) p with
    | none => simp [hg] at hs
    | some h =>
      obtain ⟨e, he, hp, hh⟩ := (manifestHashesFromEntries_get es p h hd).mp hg
      have hmem : (e.Path, e.Hash) ∈ es.map fun e => (e.Path, e.Hash) :=
        List.mem_map.mpr ⟨e, he, rfl⟩
      obtain ⟨kv, hkv, heq⟩ := List.mem_map.mp (hperm.mem_iff.mpr hmem)
      simp only [Prod.mk.injEq] at heq
      have : mapGet m p = some kv.2 := by
        apply mapGet_of_mem hm
        rw [← hp, ← heq.1]
        exact hkv
      rw [this]
      rfl

/-- C5: in a reachable state where the active branch has a head cell, when the
manifest `Capture` returns has the same (path, hash) pairs as the manifest of
that head, `CreateCellIfChanged` returns no cell and no error, and the database
it leaves is the database it found: no sequence allocated, no cell, manifest
row, branch row or meta value written. Only the blobs of the capture were
written. -/
theorem create_if_changed_noop (svc : Service) (w : World) (now active headID : String)
    (opts : SnapOptions) (m : Manifest) (fs1 : FS) (h : Reachable svc w)
    (hact : w.db.GetMeta "active_branch" = .ok active)
    (hhead : w.db.headOf active = some headID)
    (hcap : Capture svc.sum256 svc.Store w.fs = (.ok m, fs1))
    (hsame : (m.map fun kv => (kv.1, kv.2.Hash)).Perm
      ((w.db.GetManifest headID).map fun e => (e.Path, e.Hash))) :
    CreateCellIfChanged svc now opts w = (.ok none, { db := w.db, fs := fs1 }) := by
  obtain ⟨a, inv⟩ := h.inv
  have := inv.active_unique hact
  subst this
  obtain ⟨c, hc, hcid, _⟩ := inv.branchHeadCell_some hhead
  have hcapd := Capture_captured (show (Capture svc.sum256 svc.Store w.fs).1 = .ok m by rw [hcap])
  have heq : EqualToEntries m (manifestHashesFromEntries (w.db.GetManifest c.ID)) = true := by
    rw [EqualToEntries_iff hcapd.1 (manifestHashesFromEntries_nodup _) hcapd.hash_ne_empty, hcid]
    exact sameHashes_of_perm hcapd.1 (inv.manifest_paths headID) hsame
  unfold CreateCellIfChanged
  rw [hcap]
  dsimp only
  rw [inv.activeBranch now]
  dsimp only
  rw [hc]
  simp [heq]

theorem create_if_changed_noop_witness :
    CreateCellIfChanged exampleService "t2" (messageOnly "watch") world1 =
      (.ok none, { db := world1.db,
                   fs := (Capture exampleService.sum256 exampleService.Store world1.fs).2 }) :=
  create_if_changed_noop exampleService world1 "t2" "main" "c_000001" (messageOnly "watch")
    (capturedOrEmpty padDigest ⟨".converge/objects"⟩ world1.fs) _ world1_reachable rfl rfl rfl
    (by decide)

/-! ## What the restore leaves alone in the working tree -/

theorem MkdirAll_ok {fs fs1 : FS} {dir : Path} (h : MkdirAll fs dir = .ok fs1) : fs1 = fs := by
  unfold MkdirAll at h
  split at h
  · simp at h
  · simp only [Except.ok.injEq] at h
    exact h.symm

theorem WriteFile_lookup_other {fs fs1 : FS} {p q : Path} {data : Bytes} {perm : Nat}
    (h : WriteFile fs p data perm = .ok fs1) (hne : q ≠ p) : fs1.lookup q = fs.lookup q := by
  unfold WriteFile at h
  split at h
  · simp at h
  · split at h
    · split at h
      · simp at h
      · simp only [Except.ok.injEq] at h
        rw [← h]
        exact FS.lookup_set_other fs _ hne
    · simp only [Except.ok.injEq] at h
      rw [← h]
      exact FS.lookup_set_other fs _ hne

theorem Remove_lookup_other {fs fs1 : FS} {p q : Path} (h : Remove fs p = .ok fs1)
    (hne : q ≠ p) : fs1.lookup q = fs.lookup q := by
  unfold Remove at h
  split at h
  · simp only [Except.ok.injEq] at h
    rw [← h]
    exact FS.lookup_erase_other fs hne
  · split at h <;> simp at h

theorem cleanup_lookup_other (fs : FS) {q : Path} (hne : q ≠ lockPath) :
    (cleanup fs).lookup q = fs.lookup q := by
  unfold cleanup
  split
  · rename_i fs1 hrm
    exact Remove_lookup_other hrm hne
  · rfl

theorem writeRestoreLock_lookup_other {fs fs1 : FS} {q : Path}
    (h : writeRestoreLock fs = .ok fs1) (hne : q ≠ lockPath) : fs1.lookup q = fs.lookup q := by
  unfold writeRestoreLock at h
  split at h
  · simp at h
  · rename_i fs0 hmk
    rw [WriteFile_lookup_other h hne, MkdirAll_ok hmk]

theorem captureFile_preserves (sum256 : Bytes → Digest) (s : Store) (m : Manifest) (fs : FS)
    (p : Path) {q : Path} {n : FileNode} (h : fs.lookup q = some n) :
    (captureFile sum256 s m fs p).2.lookup q = some n := by
  unfold captureFile
  dsimp only
  split
  · exact h
  · split
    · exact h
    · split
      · exact h
      · split
        · exact h
        · rename_i data _
          have hw := Store.Write_preserves sum256 s fs data h
          split
          · rename_i err fs1 he
            rw [he] at hw
            exact hw
          · rename_i hash fs1 he
            rw [he] at hw
            exact hw

theorem captureWalk_preserves (sum256 : Bytes → Digest) (s : Store) {q : Path} {n : FileNode} :
    ∀ (ps : List Path) (m : Manifest) (fs : FS), fs.lookup q = some n →
      (captureWalk sum256 s ps m fs).2.lookup q = some n := by
  intro ps
  induction ps with
  | nil => intro m fs h; exact h
  | cons p ps ih =>
    intro m fs h
    have hf := captureFile_preserves sum256 s m fs p h
    unfold captureWalk
    split
    · rename_i err fs1 he
      rw [he] at hf
      exact hf
    · rename_i m1 fs1 he
      rw [he] at hf
      exact ih m1 fs1 hf

theorem Capture_preserves (sum256 : Bytes → Digest) (s : Store) (fs : FS) {q : Path}
    {n : FileNode} (h : fs.lookup q = some n) : (Capture sum256 s fs).2.lookup q = some n := by
  have hw := captureWalk_preserves sum256 s (walkFiles fs) [] fs h
  unfold Capture
  split
  · rename_i err fs1 he
    rw [he] at hw
    exact hw
  · rename_i m fs1 he
    rw [he] at hw
    exact hw

theorem writeTargets_frame (s : Store) {q : Path} :
    ∀ (entries : List ManifestEntry) (fs : FS), (∀ e ∈ entries, Join [e.Path] ≠ q) →
      (writeTargets s fs entries).2.lookup q = fs.lookup q := by
  intro entries
  induction entries with
  | nil => intro fs _; rfl
  | cons entry rest ih =>
    intro fs hq
    have hne : q ≠ Join [entry.Path] := fun e => hq entry (List.mem_cons_self _ _) e.symm
    have hrest : ∀ e ∈ rest, Join [e.Path] ≠ q := fun e he => hq e (List.mem_cons_of_mem _ he)
    unfold writeTargets
    split
    · rfl
    · dsimp only
      split
      · rfl
      · rename_i fs1 hmk
        have h1 := MkdirAll_ok hmk
        subst h1
        split
        · rfl
        · rename_i fs2 hwr
          rw [ih fs2 hrest]
          exact WriteFile_lookup_other hwr hne

theorem removeStale_frame (targetPaths : List String) {q : Path} :
    ∀ (entries : List ManifestEntry) (fs : FS), (∀ e ∈ entries, Join [e.Path] ≠ q) →
      (removeStale targetPaths fs entries).2.lookup q = fs.lookup q := by
  intro entries
  induction entries with
  | nil => intro fs _; rfl
  | cons entry rest ih =>
    intro fs hq
    have hne : q ≠ Join [entry.Path] := fun e => hq entry (List.mem_cons_self _ _) e.symm
    have hrest : ∀ e ∈ rest, Join [e.Path] ≠ q := fun e he => hq e (List.mem_cons_of_mem _ he)
    unfold removeStale
    split
    · exact ih fs hrest
    · split
      · rename_i fs1 hrm
        rw [ih fs1 hrest]
        exact Remove_lookup_other hrm hne
      · exact ih fs hrest
      · rfl

theorem restoreTrackedFilesToCell_frame (svc : Service) (d : DB) (fs : FS) (targetID : String)
    (current : Option Cell) {q : Path}
    (htarget : ∀ e ∈ d.GetManifest targetID, Join [e.Path] ≠ q)
    (hcurrent : ∀ e ∈ d.manifestOf (current.map Cell.ID), Join [e.Path] ≠ q) :
    (restoreTrackedFilesToCell svc d fs targetID current).2.lookup q = fs.lookup q := by
  have hw := writeTargets_frame svc.Store (d.GetManifest targetID) fs htarget
  unfold restoreTrackedFilesToCell
  dsimp only
  split
  · rename_i err fs1 he
    rw [he] at hw
    exact hw
  · rename_i u fs1 he
    rw [he] at hw
    rw [← hw]
    cases current with
    | none => exact removeStale_frame _ [] fs1 (fun _ h => absurd h (List.not_mem_nil _))
    | some head => exact removeStale_frame _ _ fs1 hcurrent

theorem latestBySequence_mem : ∀ {cs : List Cell} {c : Cell},
    latestBySequence cs = some c → c ∈ cs := by
  intro cs
  induction cs with
  | nil => intro c h; simp [latestBySequence] at h
  | cons x xs ih =>
    intro c h
    unfold latestBySequence at h
    split at h
    · simp only [Option.some.injEq] at h
      rw [← h]
      exact List.mem_cons_self _ _
    · rename_i best hb
      split at h
      · simp only [Option.some.injEq] at h
        rw [← h]
        exact List.mem_cons_self _ _
      · simp only [Option.some.injEq] at h
        rw [← h]
        exact List.mem_cons_of_mem _ (ih hb)

theorem LatestCellByBranch_mem {d : DB} {branch : String} {c : Cell}
    (h : d.LatestCellByBranch branch = some c) : c.ID ∈ d.cellIDs := by
  have := latestBySequence_mem h
  exact List.mem_map.mpr ⟨c, (List.mem_filter.mp this).1, rfl⟩

/-- C9, amended: after a successful `RestoreCell(T)` in a reachable state whose
working tree holds no symbolic link, every file of the working tree other than
`.converge/restore.lock` whose path is in none of the manifests of `T`, of the
head cell of the active branch and of the latest cell of the active branch is
still there with the bytes and mode it had. -/
theorem restore_preserves_untracked (svc : Service) (w w1 : World)
    (now targetID active : String) (safety : Cell) (q : Path) (node : FileNode)
    (h : Reachable svc w)
    (_hnolink : ∀ e ∈ w.fs, e.2.symlink = false)
    (hact : w.db.GetMeta "active_branch" = .ok active)
    (hres : RestoreCell svc now targetID w = (.ok safety, w1))
    (hfile : w.fs.lookup q = some node)
    (hlock : q ≠ lockPath)
    (htarget : ∀ e ∈ w.db.GetManifest targetID, Join [e.Path] ≠ q)
    (_hhead : ∀ e ∈ w.db.manifestOf (w.db.headOf active), Join [e.Path] ≠ q)
    (hlatest : ∀ e ∈ w.db.manifestOf ((w.db.LatestCellByBranch active).map Cell.ID),
      Join [e.Path] ≠ q) :
    w1.fs.lookup q = some node := by
  obtain ⟨a, inv⟩ := h.inv
  have hactive := inv.active_unique hact
  subst hactive
  obtain ⟨target, w0, fs2, fs3, d2, hget, hcc, hlk, hrt, _, hw1⟩ := RestoreCell_shape inv hres
  obtain ⟨⟨_, _, _, _, hfresh, _, _, _, _, _, hman⟩, hfs⟩ := CreateCell_effect inv hcc
  have hmemT : targetID ∈ w.db.cellIDs := by
    obtain ⟨hid, hmem⟩ := GetCell_ID hget
    exact List.mem_map.mpr ⟨target, hmem, hid⟩
  have hT : targetID ≠ safety.ID := fun e => hfresh (e ▸ hmemT)
  have h0 : w0.fs.lookup q = some node := by
    rw [hfs]
    exact Capture_preserves _ _ _ hfile
  have h2 : fs2.lookup q = some node := by
    rw [writeRestoreLock_lookup_other hlk hlock]
    exact h0
  have ht0 : ∀ e ∈ w0.db.GetManifest targetID, Join [e.Path] ≠ q := by
    rw [hman targetID hT]
    exact htarget
  have hl0 : ∀ e ∈ w0.db.manifestOf ((w.db.LatestCellByBranch active).map Cell.ID),
      Join [e.Path] ≠ q := by
    cases hl : w.db.LatestCellByBranch active with
    | none => intro e he; exact absurd he (List.not_mem_nil _)
    | some c =>
      have hc : c.ID ≠ safety.ID := fun e => hfresh (e ▸ LatestCellByBranch_mem hl)
      rw [hl] at hlatest
      show ∀ e ∈ w0.db.GetManifest c.ID, Join [e.Path] ≠ q
      rw [hman c.ID hc]
      exact hlatest
  have h3 : fs3.lookup q = some node := by
    have hframe := restoreTrackedFilesToCell_frame svc w0.db fs2 targetID
      (w.db.LatestCellByBranch active) ht0 hl0
    rw [hrt] at hframe
    exact hframe.trans h2
  rw [hw1]
  show (cleanup fs3).lookup q = some node
  rw [cleanup_lookup_other fs3 hlock]
  exact h3

theorem restore_preserves_untracked_witness :
    (∀ e ∈ worldNotes.fs, e.2.symlink = false) ∧
    worldNotes.fs.lookup ["notes.tmp"] = some (plainFile [110, 10]) ∧
    restoredNotes.2.fs.lookup ["notes.tmp"] = some (plainFile [110, 10]) :=
  ⟨by decide, by decide,
   restore_preserves_untracked exampleService worldNotes restoredNotes.2 "t2" "c_000001" "main"
    (cellOf restoredNotes) ["notes.tmp"] (plainFile [110, 10])
    (Reachable.edit worldNotes.fs world1_reachable) (by decide) rfl rfl (by decide) (by decide)
    (by decide) (by decide) (by decide)⟩

/-- C9 as stated fails: in the state `worldStale`, reached by one `CreateCell`
and an edit of the tree, the file `.converge/restore.lock` lies under an ignored
directory and is in neither the manifest of `c_000001` nor that of the head of
the active branch `main`, the call `RestoreCell("c_000001")` succeeds, and the
file is gone afterwards. -/
theorem restore_removes_stale_lock :
    Reachable exampleService worldStale ∧
    (worldStale.db.GetMeta "active_branch").toOption = some "main" ∧
    worldStale.db.headOf "main" = some "c_000001" ∧
    worldStale.fs.lookup lockPath = some (plainFile restoringBytes) ∧
    walkReaches lockPath = false ∧
    (∀ e ∈ worldStale.db.GetManifest "c_000001", Join [e.Path] ≠ lockPath) ∧
    restoredStale.1.toOption.map Cell.ID = some "c_000002" ∧
    restoredStale.2.fs.lookup lockPath = none ∧
    restoredStale.2.fs.exist lockPath = false :=
  ⟨Reachable.edit worldStale.fs world1_reachable, by decide, by decide, by decide, by decide,
    by decide, by decide, by decide, by decide⟩

theorem world2_reachable : Reachable exampleService world2 :=
  Reachable.call "t2" (Op.createCell (messageOnly "v2"))
    (Reachable.edit world1Edited.fs world1_reachable) (by decide)

theorem world3_reachable : Reachable exampleService world3 :=
  Reachable.call "t3" (Op.forkBranch "feature-a" true) world2_reachable (by decide)

/-- C8 on the code: in the state `world3`, reached by two `CreateCell` calls and
`ForkBranch("feature-a", true)`, the head of the active branch `feature-a` is
`c_000002`, whose manifest holds `helper.go`; the manifest of `c_000001` does
not. No cell carries the branch name yet, so `LatestCellByBranch` finds none,
`RestoreCell("c_000001")` succeeds and `helper.go` is still in the working
tree. The same file loop run with the head cell that `branchHeadCell` finds
removes the file. -/
theorem restore_leaves_tracked_file :
    Reachable exampleService world3 ∧
    (world3.db.GetMeta "active_branch").toOption = some "feature-a" ∧
    world3.db.headOf "feature-a" = some "c_000002" ∧
    "helper.go" ∈ world3.db.pathsOf "c_000002" ∧
    "helper.go" ∉ world3.db.pathsOf "c_000001" ∧
    world3.db.LatestCellByBranch "feature-a" = none ∧
    (branchHeadCell world3.db "feature-a").map Cell.ID = some "c_000002" ∧
    restored3.1.toOption.map Cell.ID = some "c_000003" ∧
    restored3.2.db.headOf "feature-a" = some "c_000001" ∧
    restored3.2.fs.lookup ["helper.go"] = some (plainFile [113, 10]) ∧
    (restoreTrackedFilesToCell exampleService world3.db world3.fs "c_000001"
      (branchHeadCell world3.db "feature-a")).2.exist ["helper.go"] = false :=
  ⟨world3_reachable, by decide, by decide, by decide, by decide, by decide, by decide,
    by decide, by decide, by decide, by decide⟩

/-! ## Switching and forking branches -/

theorem DB.Inv.head_not_blank {d : DB} {active : String} (inv : d.Inv active) {n id : String}
    (h : d.headOf n = some id) : TrimSpace id ≠ "" := by
  obtain ⟨c, _, hid, hget⟩ := inv.branchHeadCell_some h
  have := inv.ids c (GetCell_ID hget).2
  rw [hid] at this
  exact this

theorem GetBranch_of_headOf {d : DB} {n id : String} (h : d.headOf n = some id) :
    ∃ b, d.GetBranch n = .ok b ∧ b.HeadCellID = some id := by
  unfold DB.headOf at h
  split at h
  · rename_i b hb
    exact ⟨b, hb, h⟩
  · simp at h

/-- C13: `SwitchBranch(name)` returns an error and leaves the database and the
working tree (so also the cells and the restore lock) as they were when the
trimmed name is empty, when no branch row has the trimmed name, and when the
branch row has a null or blank head. -/
theorem switch_failures (svc : Service) (now name : String) (w : World)
    (hbad : TrimSpace name = "" ∨ (∀ b ∈ w.db.branches, b.Name ≠ TrimSpace name) ∨
      ∃ b, w.db.GetBranch (TrimSpace name) = .ok b ∧
        (b.HeadCellID = none ∨ ∃ id, b.HeadCellID = some id ∧ TrimSpace id = "")) :
    ∃ err, SwitchBranch svc now name w = (.error err, w) := by
  unfold SwitchBranch
  dsimp only
  by_cases hne : TrimSpace name = ""
  · exact ⟨_, by rw [if_pos hne]⟩
  · rw [if_neg hne]
    rcases hbad with h0 | hnone | ⟨b, hb, hhead⟩
    · exact absurd h0 hne
    · have hget : w.db.GetBranch (TrimSpace name) = .error .notFound := by
        unfold DB.GetBranch
        have : w.db.branches.find? (fun b => b.Name = TrimSpace name) = none := by
          rw [List.find?_eq_none]
          intro x hx
          simpa using hnone x hx
        rw [this]
      rw [hget]
      exact ⟨_, rfl⟩
    · rw [hb]
      dsimp only
      rcases hhead with hnull | ⟨id, hid, hblank⟩
      · rw [hnull]
        exact ⟨_, rfl⟩
      · rw [hid]
        dsimp only
        rw [if_pos hblank]
        exact ⟨_, rfl⟩

theorem switch_failures_witness :
    (∃ err, SwitchBranch exampleService "t2" "  " world1 = (.error err, world1)) ∧
    (∃ err, SwitchBranch exampleService "t2" "feature-a" world1 = (.error err, world1)) ∧
    (∃ err, SwitchBranch exampleService "t2" "main" world0 = (.error err, world0)) :=
  ⟨switch_failures exampleService "t2" "  " world1 (Or.inl (by decide)),
   switch_failures exampleService "t2" "feature-a" world1 (Or.inr (Or.inl (by decide))),
   switch_failures exampleService "t2" "main" world0
    (Or.inr (Or.inr ⟨{ Name := "main", HeadCellID := none, CreatedAt := "t0" }, rfl,
      Or.inl rfl⟩))⟩

/-- C12: in a reachable state, when the trimmed name is the active branch and
that branch has a head cell, `SwitchBranch` returns no safety cell together with
the head cell, and the state it leaves is the state it found: no cell, sequence,
lock, database row or file is written. -/
theorem switch_to_active_noop (svc : Service) (w : World) (now name active headID : String)
    (h : Reachable svc w)
    (hact : w.db.GetMeta "active_branch" = .ok active)
    (hname : TrimSpace name = active)
    (hhead : w.db.headOf active = some headID) :
    ∃ target, w.db.GetCell headID = .ok target ∧ target.ID = headID ∧
      SwitchBranch svc now name w = (.ok (none, target), w) := by
  obtain ⟨a, inv⟩ := h.inv
  have hactive := inv.active_unique hact
  subst hactive
  obtain ⟨b, hb, hbh⟩ := GetBranch_of_headOf hhead
  obtain ⟨c, _, hcid, hget⟩ := inv.branchHeadCell_some hhead
  have hnb := inv.head_not_blank hhead
  refine ⟨c, hget, hcid, ?_⟩
  unfold SwitchBranch
  dsimp only
  rw [hname, if_neg inv.nonEmpty, hb]
  dsimp only
  rw [hbh]
  dsimp only
  rw [if_neg hnb, inv.activeBranch now]
  dsimp only
  rw [if_pos rfl, hget]

theorem switch_to_active_noop_witness :
    ∃ target, world1.db.GetCell "c_000001" = .ok target ∧ target.ID = "c_000001" ∧
      SwitchBranch exampleService "t2" " main " world1 = (.ok (none, target), world1) :=
  switch_to_active_noop exampleService world1 "t2" " main " "main" "c_000001"
    world1_reachable rfl (by decide) (by decide)

/-- C14, amended: in a reachable state with active branch `active`, when the
trimmed name is not empty, is not the name of a branch row and is not `main` up
to letter case while a branch `main` exists, `ForkBranch(name, false)` succeeds
and returns the row (trimmed name, head of the active branch, creation time);
the database it leaves is the database it found with that one row appended to
the branches, so the cells, the other branch rows and the meta values are as
before. When the trimmed name is empty or is the name of a branch row the call
fails and leaves the database as it was. -/
theorem fork_without_switch (svc : Service) (w : World) (now name active : String)
    (h : Reachable svc w)
    (hact : w.db.GetMeta "active_branch" = .ok active) :
    (TrimSpace name ≠ "" → (∀ b ∈ w.db.branches, b.Name ≠ TrimSpace name) →
      ¬ (equalFoldMain (TrimSpace name) = true ∧
          (w.db.GetBranch defaultBranchName).toBool = true) →
      ForkBranch now name false w.db =
        (.ok { Name := TrimSpace name, HeadCellID := w.db.headOf active, CreatedAt := now },
         { w.db with branches := w.db.branches ++
            [{ Name := TrimSpace name, HeadCellID := w.db.headOf active,
               CreatedAt := now }] })) ∧
    ((TrimSpace name = "" ∨ ∃ b ∈ w.db.branches, b.Name = TrimSpace name) →
      ∃ err, ForkBranch now name false w.db = (.error err, w.db)) := by
  obtain ⟨a, inv⟩ := h.inv
  have hactive := inv.active_unique hact
  subst hactive
  constructor
  · intro hne hnew hfold
    have hany : w.db.branches.any (fun b => b.Name = TrimSpace name) = false := by
      rw [List.any_eq_false]
      intro x hx
      simpa using hnew x hx
    have href : w.db.refOK (w.db.headOf active) = true := by
      obtain ⟨b, hb⟩ := inv.hasRow
      rw [headOf_of_GetBranch hb]
      exact inv.heads b (GetBranch_mem hb).2
    have hcb : w.db.CreateBranch now (TrimSpace name) (w.db.headOf active) now =
        .ok { w.db with branches := w.db.branches ++
          [{ Name := TrimSpace name, HeadCellID := w.db.headOf active, CreatedAt := now }] } := by
      unfold DB.CreateBranch
      dsimp only
      rw [TrimSpace_idem, if_neg hne, hany]
      simp only [Bool.false_eq_true, if_false, href, if_true]
      by_cases hnow : TrimSpace now = ""
      · rw [if_pos hnow]
      · rw [if_neg hnow]
    have hfind : List.find? (fun (b : Branch) => decide (b.Name = TrimSpace name))
        (w.db.branches ++
          [({ Name := TrimSpace name, HeadCellID := w.db.headOf active, CreatedAt := now } :
            Branch)]) =
        some { Name := TrimSpace name, HeadCellID := w.db.headOf active, CreatedAt := now } := by
      rw [find?_append_new]
      · simp
      · intro y hy
        simpa using hnew y hy
    unfold ForkBranch
    dsimp only
    rw [if_neg hne, if_neg (by simpa using hfold), inv.activeBranch now]
    dsimp only
    rw [inv.branchHeadCell_ID active, hcb]
    simp only [Bool.false_eq_true, if_false, DB.GetBranch, hfind]
  · intro hbad
    unfold ForkBranch
    dsimp only
    by_cases hne : TrimSpace name = ""
    · exact ⟨_, by rw [if_pos hne]⟩
    · rw [if_neg hne]
      split
      · exact ⟨_, rfl⟩
      · rcases hbad with h0 | ⟨b, hb, hbn⟩
        · exact absurd h0 hne
        · have hany : w.db.branches.any (fun b => b.Name = TrimSpace name) = true :=
            List.any_eq_true.mpr ⟨b, hb, by simpa using hbn⟩
          have hcb : ∃ msg, w.db.CreateBranch now (TrimSpace name) (w.db.headOf active) now =
              .error (.failed msg) := by
            unfold DB.CreateBranch
            dsimp only
            rw [TrimSpace_idem, if_neg hne, hany]
            exact ⟨_, rfl⟩
          obtain ⟨msg, hmsg⟩ := hcb
          rw [inv.activeBranch now]
          dsimp only
          rw [inv.branchHeadCell_ID active, hmsg]
          exact ⟨_, rfl⟩

theorem fork_without_switch_witness :
    ForkBranch "t2" " feature-a " false world1.db =
      (.ok { Name := "feature-a", HeadCellID := some "c_000001", CreatedAt := "t2" },
       { world1.db with branches := world1.db.branches ++
          [{ Name := "feature-a", HeadCellID := some "c_000001", CreatedAt := "t2" }] }) ∧
    (∃ err, ForkBranch "t2" "main" false world1.db = (.error err, world1.db)) :=
  ⟨(fork_without_switch exampleService world1 "t2" " feature-a " "main" world1_reachable rfl).1
      (by decide) (by decide) (by decide),
   (fork_without_switch exampleService world1 "t2" "main" "main" world1_reachable rfl).2
      (Or.inr (by decide))⟩

/-- C14 as stated fails: in the state `world1` no branch is named `Main`, and
`ForkBranch("Main", false)` returns an error, because the name equals `main` up
to letter case and the branch `main` exists. -/
theorem fork_refuses_main_in_other_case :
    Reachable exampleService world1 ∧
    TrimSpace "Main" ≠ "" ∧
    (∀ b ∈ world1.db.branches, b.Name ≠ TrimSpace "Main") ∧
    (ForkBranch "t2" "Main" false world1.db).1.toOption = none ∧
    (ForkBranch "t2" "Main" false world1.db).2 = world1.db :=
  ⟨world1_reachable, by decide, by decide, by decide, by decide⟩

/-! ## Evaluation failures -/

theorem find?_map_update (l : List Cell) (id : String) (f : Cell → Cell)
    (hf : ∀ c, (f c).ID = c.ID) :
    (l.map fun c => if c.ID = id then f c else c).find? (fun c => c.ID = id) =
      (l.find? (fun c => c.ID = id)).map f := by
  induction l with
  | nil => rfl
  | cons x xs ih =>
    by_cases hx : x.ID = id
    · simp [List.find?_cons, hx, hf]
    · simp only [List.map_cons, List.find?_cons, hx, if_false, decide_False]
      exact ih

theorem GetCell_UpdateCellEval (d : DB) (id : String) (a b c e : Option Int)
    (s t : Option String) :
    (d.UpdateCellEval id a b c e s t).GetCell id =
      (d.GetCell id).map fun x =>
        { x with EvalRequested := true, EvalRan := true, TestsPassed := a, TestsFailed := b,
                 LintErrors := c, TypeErrors := e, EvalSkipped := s, EvalError := t } := by
  have hfind := find?_map_update d.cells id (fun x =>
    { x with EvalRequested := true, EvalRan := true, TestsPassed := a, TestsFailed := b,
             LintErrors := c, TypeErrors := e, EvalSkipped := s, EvalError := t })
    (fun _ => rfl)
  unfold DB.GetCell DB.UpdateCellEval
  dsimp only at hfind ⊢
  rw [hfind]
  cases d.cells.find? (fun c => c.ID = id) <;> rfl

theorem UpdateCellEval_twice (d : DB) (id : String) (a b c e a1 b1 c1 e1 : Option Int)
    (s t s1 t1 : Option String) :
    (d.UpdateCellEval id a b c e s t).UpdateCellEval id a1 b1 c1 e1 s1 t1 =
      d.UpdateCellEval id a1 b1 c1 e1 s1 t1 := by
  unfold DB.UpdateCellEval
  simp only [List.map_map]
  congr 1
  apply List.map_congr_left
  intro x _
  simp only [Function.comp]
  by_cases hx : x.ID = id
  · simp [hx]
  · simp [hx]

theorem Service.withEvaluator_Store (svc : Service) (runner : Runner) :
    (svc.withEvaluator runner).Store = svc.Store := rfl

theorem EvaluateCell_quiet (svc : Service) (fs : FS) {d : DB} {id : String} {c : Cell}
    (hget : d.GetCell id = .ok c) :
    EvaluateCell (svc.withEvaluator quietRunner) d fs id =
      ((EvalResult.zero, none),
        d.UpdateCellEval id EvalResult.zero.TestsPassedPtr EvalResult.zero.TestsFailedPtr
          EvalResult.zero.LintErrorsPtr EvalResult.zero.TypeErrorsPtr
          EvalResult.zero.SkippedPtr none) := by
  unfold EvaluateCell
  rw [hget]
  rfl

theorem EvaluateCell_missing (svc : Service) (fs : FS) {d : DB} {id : String} {err : DbError}
    (hget : d.GetCell id = .error err) :
    ∃ msg, EvaluateCell svc d fs id = ((EvalResult.zero, some msg), d) := by
  unfold EvaluateCell
  rw [hget]
  cases err with
  | notFound => exact ⟨_, rfl⟩
  | failed msg => exact ⟨_, rfl⟩

/-- The evaluation of a stored cell that fails with `errText`: the error is
returned, and recording the failure afterwards gives the same database as
recording it at once. -/
theorem EvaluateCell_failure (svc : Service) {fs : FS} {d : DB} {id errText : String} {c : Cell}
    (hget : d.GetCell id = .ok c) (hfail : evalFailure svc fs = some errText) :
    ∃ r d1, EvaluateCell svc d fs id = ((r, some errText), d1) ∧
      d1.UpdateCellEval id none none none none none (some errText) =
        d.UpdateCellEval id none none none none none (some errText) := by
  unfold EvaluateCell
  rw [hget]
  dsimp only
  unfold evalFailure at hfail
  cases hev : svc.Evaluator with
  | none =>
    rw [hev] at hfail
    simp only [Option.some.injEq] at hfail
    rw [← hfail]
    exact ⟨_, _, rfl, rfl⟩
  | some runner =>
    rw [hev] at hfail
    dsimp only at hfail ⊢
    rw [hfail]
    exact ⟨_, _, rfl, UpdateCellEval_twice _ _ _ _ _ _ _ _ _ _ _ _ _ _⟩

/-- The call with the evaluation failing, from the same call with an evaluator
that reports no error: the same cell with the failure recorded. -/
theorem createCellFromManifest_eval_failure {svc : Service} {now : String} {d d0 : DB}
    {fs : FS} {manifest : Manifest} {opts : SnapOptions} {knownParent : Option Cell}
    {known : Option (List ManifestEntry)} {c0 : Cell} {errText : String}
    (hrun : opts.RunEval = true) (hfail : evalFailure svc fs = some errText)
    (h0 : createCellFromManifest (svc.withEvaluator quietRunner) now d fs manifest opts
      knownParent known = (.ok c0, d0)) :
    createCellFromManifest svc now d fs manifest opts knownParent known =
      (.ok (c0.evalFailed errText),
        d0.UpdateCellEval c0.ID none none none none none (some errText)) := by
  unfold createCellFromManifest at h0
  split at h0
  · simp at h0
  · rename_i branch d1 hab
    dsimp only at h0
    split at h0
    · simp at h0
    · rename_i seq d2 hseq
      simp only [Service.withEvaluator_Store] at h0
      split at h0
      · simp at h0
      · rename_i d3 hins
        simp only [hrun, if_true] at h0
        unfold createCellFromManifest
        rw [hab]
        dsimp only
        rw [hseq]
        dsimp only
        rw [hins]
        simp only [hrun, if_true]
        cases hg : d3.GetCell (CellID seq) with
        | error err =>
          obtain ⟨msg, he⟩ := EvaluateCell_missing (svc.withEvaluator quietRunner) fs hg
          rw [he] at h0
          dsimp only at h0
          rw [GetCell_UpdateCellEval, hg] at h0
          simp [Except.map] at h0
        | ok c3 =>
          rw [EvaluateCell_quiet svc fs hg] at h0
          dsimp only at h0
          rw [GetCell_UpdateCellEval, hg] at h0
          simp only [Except.map, Prod.mk.injEq, Except.ok.injEq] at h0
          obtain ⟨hc0, hd0⟩ := h0
          obtain ⟨r, d4, hev, hd4⟩ := EvaluateCell_failure svc hg hfail
          rw [hev]
          dsimp only
          rw [hd4, GetCell_UpdateCellEval, hg]
          subst hc0
          subst hd0
          have hid : c3.ID = CellID seq := (GetCell_ID hg).1
          simp only [Except.map, hid, UpdateCellEval_twice]
          rfl

theorem Service.withEvaluator_sum256 (svc : Service) (runner : Runner) :
    (svc.withEvaluator runner).sum256 = svc.sum256 := rfl

theorem CreateCell_eval_failure {svc : Service} {now : String} {opts : SnapOptions}
    {w w0 : World} {c0 : Cell} {errText : String} (hrun : opts.RunEval = true)
    (hfail : evalFailure svc (Capture svc.sum256 svc.Store w.fs).2 = some errText)
    (h0 : CreateCell (svc.withEvaluator quietRunner) now opts w = (.ok c0, w0)) :
    ∃ w1, CreateCell svc now opts w = (.ok (c0.evalFailed errText), w1) := by
  unfold CreateCell at h0 ⊢
  simp only [Service.withEvaluator_Store, Service.withEvaluator_sum256] at h0
  cases hcap : Capture svc.sum256 svc.Store w.fs with
  | mk r fs1 =>
    rw [hcap] at h0 hfail
    cases r with
    | error err => simp at h0
    | ok manifest =>
      dsimp only at h0 hfail ⊢
      cases hc : createCellFromManifest (svc.withEvaluator quietRunner) now w.db fs1 manifest
          opts none none with
      | mk r0 d0 =>
        rw [hc] at h0
        simp only [Prod.mk.injEq] at h0
        obtain ⟨hr0, _⟩ := h0
        subst hr0
        rw [createCellFromManifest_eval_failure hrun hfail hc]
        exact ⟨_, rfl⟩

theorem CreateCellIfChanged_eval_failure {svc : Service} {now : String} {opts : SnapOptions}
    {w w0 : World} {c0 : Cell} {errText : String} (hrun : opts.RunEval = true)
    (hfail : evalFailure svc (Capture svc.sum256 svc.Store w.fs).2 = some errText)
    (h0 : CreateCellIfChanged (svc.withEvaluator quietRunner) now opts w = (.ok (some c0), w0)) :
    ∃ w1, CreateCellIfChanged svc now opts w = (.ok (some (c0.evalFailed errText)), w1) := by
  unfold CreateCellIfChanged at h0 ⊢
  simp only [Service.withEvaluator_Store, Service.withEvaluator_sum256] at h0
  cases hcap : Capture svc.sum256 svc.Store w.fs with
  | mk r fs1 =>
    rw [hcap] at h0 hfail
    cases r with
    | error err => simp at h0
    | ok manifest =>
      dsimp only at h0 hfail ⊢
      cases hab : ActiveBranch now w.db with
      | mk rb d1 =>
        rw [hab] at h0
        cases rb with
        | error err => simp at h0
        | ok branch =>
          dsimp only at h0 ⊢
          split at h0
          · simp at h0
          · rename_i hcond
            rw [if_neg hcond]
            cases hc : createCellFromManifest (svc.withEvaluator quietRunner) now d1 fs1
                manifest opts (branchHeadCell d1 branch)
                (Option.map (fun p => d1.GetManifest p.ID) (branchHeadCell d1 branch)) with
            | mk r0 d0 =>
              rw [hc] at h0
              cases r0 with
              | error err => simp at h0
              | ok c =>
                simp only [Prod.mk.injEq, Except.ok.injEq, Option.some.injEq] at h0
                obtain ⟨hr0, _⟩ := h0
                subst hr0
                rw [createCellFromManifest_eval_failure hrun hfail hc]
                exact ⟨_, rfl⟩

/-- C17: in a reachable state, take a `CreateCell` or `CreateCellIfChanged` call
with `RunEval` set whose evaluation fails with the text `errText` (no evaluator
is configured, or the run reports an error), and whose steps before the
evaluation succeed, that is: the same call succeeds with an evaluator that
reports no error, returning the cell `c0`. Then the call succeeds, and returns
`c0` with the eval slot (requested, ran, no counts, `errText`); that cell is the
row stored under its id and is the head of the active branch. -/
theorem eval_failure_keeps_cell (svc : Service) (w : World) (now active errText : String)
    (opts : SnapOptions) (h : Reachable svc w)
    (hact : w.db.GetMeta "active_branch" = .ok active)
    (hrun : opts.RunEval = true)
    (hfail : evalFailure svc (Capture svc.sum256 svc.Store w.fs).2 = some errText) :
    (∀ c0 w0, CreateCell (svc.withEvaluator quietRunner) now opts w = (.ok c0, w0) →
      ∃ cell w1, CreateCell svc now opts w = (.ok cell, w1) ∧
        cell = c0.evalFailed errText ∧ cell.EvalRequested = true ∧ cell.EvalRan = true ∧
        cell.EvalError = some errText ∧ w1.db.GetCell cell.ID = .ok cell ∧
        w1.db.headOf active = some cell.ID) ∧
    (∀ c0 w0,
      CreateCellIfChanged (svc.withEvaluator quietRunner) now opts w = (.ok (some c0), w0) →
      ∃ cell w1, CreateCellIfChanged svc now opts w = (.ok (some cell), w1) ∧
        cell = c0.evalFailed errText ∧ cell.EvalRequested = true ∧ cell.EvalRan = true ∧
        cell.EvalError = some errText ∧ w1.db.GetCell cell.ID = .ok cell ∧
        w1.db.headOf active = some cell.ID) := by
  obtain ⟨a, inv⟩ := h.inv
  have hactive := inv.active_unique hact
  subst hactive
  constructor
  · intro c0 w0 h0
    obtain ⟨w1, h1⟩ := CreateCell_eval_failure hrun hfail h0
    obtain ⟨⟨_, hhead, _, _, _, hget, _⟩, _⟩ := CreateCell_effect inv h1
    exact ⟨_, w1, h1, rfl, rfl, rfl, rfl, hget, hhead⟩
  · intro c0 w0 h0
    obtain ⟨w1, h1⟩ := CreateCellIfChanged_eval_failure hrun hfail h0
    rcases (CreateCellIfChanged_effect inv h1).2 with ⟨hn, _⟩ | ⟨c, hs, _, hhead, _, _, _, hget, _⟩
    · simp at hn
    · simp only [Option.some.injEq] at hs
      subst hs
      exact ⟨_, w1, h1, rfl, rfl, rfl, rfl, hget, hhead⟩

theorem eval_failure_keeps_cell_witness :
    ∃ cell w1, CreateCell exampleService "t2" (evalOptions "v2") world1Edited = (.ok cell, w1) ∧
      cell = (cellOf (CreateCell (exampleService.withEvaluator quietRunner) "t2"
        (evalOptions "v2") world1Edited)).evalFailed "evaluator is not configured" ∧
      cell.EvalRequested = true ∧ cell.EvalRan = true ∧
      cell.EvalError = some "evaluator is not configured" ∧
      w1.db.GetCell cell.ID = .ok cell ∧ w1.db.headOf "main" = some cell.ID :=
  (eval_failure_keeps_cell exampleService world1Edited "t2" "main" "evaluator is not configured"
    (evalOptions "v2") (Reachable.edit world1Edited.fs world1_reachable) rfl rfl rfl).1
    (cellOf (CreateCell (exampleService.withEvaluator quietRunner) "t2" (evalOptions "v2")
      world1Edited))
    (CreateCell (exampleService.withEvaluator quietRunner) "t2" (evalOptions "v2")
      world1Edited).2 rfl

/-! ## Manifest diff classification -/

theorem insertString_eq (s : String) (l : List String) :
    insertString s l = l.orderedInsert (fun a b => a ≤ b) s := by
  induction l with
  | nil => rfl
  | cons x xs ih => simp only [insertString, List.orderedInsert, ih]

theorem sortStrings_eq (l : List String) :
    sortStrings l = l.insertionSort (fun a b => a ≤ b) := by
  induction l with
  | nil => rfl
  | cons x xs ih => simp only [sortStrings, List.insertionSort, ih, insertString_eq]

theorem sortStrings_perm (l : List String) : (sortStrings l).Perm l := by
  rw [sortStrings_eq]; exact List.perm_insertionSort _ l

theorem sortStrings_mem (l : List String) (p : String) : p ∈ sortStrings l ↔ p ∈ l :=
  (sortStrings_perm l).mem_iff

theorem sortStrings_strict (l : List String) (h : l.Nodup) :
    (sortStrings l).Pairwise (fun a b => a < b) := by
  have h1 : (sortStrings l).Pairwise (fun a b => a ≤ b) := by
    rw [sortStrings_eq]; exact List.sorted_insertionSort _ l
  have h2 : (sortStrings l).Pairwise (fun a b => a ≠ b) :=
    (sortStrings_perm l).symm.pairwise h (fun hab => hab.symm)
  exact (h1.and h2).imp (fun ⟨hle, hne⟩ => lt_of_le_of_ne hle hne)

/-- The entries of `to` whose path is not a key of `from`. -/
theorem compareTo_foldl (fromMap : GoMap String) (toMap : GoMap String)
    (acc : List String × List String) :
    toMap.foldl (fun acc kv =>
      match mapGet fromMap kv.1 with
      | none => (acc.1 ++ [kv.1], acc.2)
      | some fromHash => if fromHash ≠ kv.2 then (acc.1, acc.2 ++ [kv.1]) else acc) acc =
    (acc.1 ++ (toMap.filter fun kv => (mapGet fromMap kv.1).isNone).map Prod.fst,
     acc.2 ++ (toMap.filter fun kv =>
        match mapGet fromMap kv.1 with
        | none => false
        | some fromHash => decide (fromHash ≠ kv.2)).map Prod.fst) := by
  induction toMap generalizing acc with
  | nil => simp
  | cons kv rest ih =>
    rw [List.foldl_cons, ih]
    cases hg : mapGet fromMap kv.1 with
    | none => simp [List.filter_cons, hg]
    | some fromHash =>
      by_cases hne : fromHash = kv.2
      · simp [List.filter_cons, hg, hne]
      · simp [List.filter_cons, hg, hne]

theorem compareFrom_foldl (fromMap : GoMap String) (toMap : GoMap String) (acc : List String) :
    fromMap.foldl (fun acc kv =>
      match mapGet toMap kv.1 with
      | none => acc ++ [kv.1]
      | some _ => acc) acc =
    acc ++ (fromMap.filter fun kv => (mapGet toMap kv.1).isNone).map Prod.fst := by
  induction fromMap generalizing acc with
  | nil => simp
  | cons kv rest ih =>
    rw [List.foldl_cons, ih]
    cases hg : mapGet toMap kv.1 with
    | none => simp [List.filter_cons, hg]
    | some h => simp [List.filter_cons, hg]

theorem compareTo_eq (fromMap toMap : GoMap String) :
    compareTo fromMap toMap =
      ((toMap.filter fun kv => (mapGet fromMap kv.1).isNone).map Prod.fst,
       (toMap.filter fun kv =>
          match mapGet fromMap kv.1 with
          | none => false
          | some fromHash => decide (fromHash ≠ kv.2)).map Prod.fst) := by
  have h := compareTo_foldl fromMap toMap ([], [])
  simp only [List.nil_append] at h
  exact h

theorem compareFrom_eq (fromMap toMap : GoMap String) :
    compareFrom fromMap toMap =
      (fromMap.filter fun kv => (mapGet toMap kv.1).isNone).map Prod.fst := by
  have h := compareFrom_foldl fromMap toMap []
  simp only [List.nil_append] at h
  exact h

theorem mapGet_isSome_iff {V : Type} {m : GoMap V} {k : String} :
    (mapGet m k).isSome ↔ k ∈ m.map Prod.fst := by
  rw [← not_iff_not, ← mapGet_none_iff]
  cases mapGet m k <;> simp

theorem keys_filter_nodup {V : Type} {m : GoMap V} (h : (m.map Prod.fst).Nodup)
    (p : String × V → Bool) : ((m.filter p).map Prod.fst).Nodup :=
  List.Nodup.sublist ((List.filter_sublist _).map _) h

theorem mem_keys_filter {V : Type} {m : GoMap V} (h : (m.map Prod.fst).Nodup)
    (p : String × V → Bool) (k : String) :
    k ∈ (m.filter p).map Prod.fst ↔ ∃ v, mapGet m k = some v ∧ p (k, v) = true := by
  constructor
  · intro hk
    obtain ⟨kv, hkv, rfl⟩ := List.mem_map.mp hk
    obtain ⟨hm, hp⟩ := List.mem_filter.mp hkv
    exact ⟨kv.2, mapGet_of_mem h hm, hp⟩
  · rintro ⟨v, hv, hp⟩
    exact List.mem_map.mpr ⟨(k, v), List.mem_filter.mpr ⟨mapGet_some_mem hv, hp⟩, rfl⟩

/-- C19: for maps from paths to hashes (their keys distinct, as in a Go map),
`CompareManifests(from, to)` returns as `Added` the paths of `to` that are not
in `from`, as `Modified` the paths in both whose hashes differ, as `Removed` the
paths of `from` that are not in `to`, each list strictly ascending (so without
duplicates); and on equal maps the three lists are empty. -/
theorem compare_manifests_classifies (fromMap toMap : GoMap String)
    (hfrom : (fromMap.map Prod.fst).Nodup) (hto : (toMap.map Prod.fst).Nodup) :
    (∀ p, p ∈ (CompareManifests fromMap toMap).Added ↔
      (mapGet toMap p).isSome ∧ mapGet fromMap p = none) ∧
    (∀ p, p ∈ (CompareManifests fromMap toMap).Modified ↔
      ∃ hf ht, mapGet fromMap p = some hf ∧ mapGet toMap p = some ht ∧ hf ≠ ht) ∧
    (∀ p, p ∈ (CompareManifests fromMap toMap).Removed ↔
      (mapGet fromMap p).isSome ∧ mapGet toMap p = none) ∧
    (CompareManifests fromMap toMap).Added.Pairwise (fun a b => a < b) ∧
    (CompareManifests fromMap toMap).Modified.Pairwise (fun a b => a < b) ∧
    (CompareManifests fromMap toMap).Removed.Pairwise (fun a b => a < b) ∧
    (fromMap = toMap → CompareManifests fromMap toMap =
      { Added := [], Modified := [], Removed := [] }) := by
  have hA : ∀ p, p ∈ (CompareManifests fromMap toMap).Added ↔
      (mapGet toMap p).isSome ∧ mapGet fromMap p = none := by
    intro p
    show p ∈ sortStrings (compareTo fromMap toMap).1 ↔ _
    rw [compareTo_eq, sortStrings_mem, mem_keys_filter hto]
    constructor
    · rintro ⟨v, hv, hp⟩
      exact ⟨by simp [hv], by simpa using hp⟩
    · rintro ⟨hs, hn⟩
      obtain ⟨v, hv⟩ := Option.isSome_iff_exists.mp hs
      exact ⟨v, hv, by simp [hn]⟩
  have hM : ∀ p, p ∈ (CompareManifests fromMap toMap).Modified ↔
      ∃ hf ht, mapGet fromMap p = some hf ∧ mapGet toMap p = some ht ∧ hf ≠ ht := by
    intro p
    show p ∈ sortStrings (compareTo fromMap toMap).2 ↔ _
    rw [compareTo_eq, sortStrings_mem, mem_keys_filter hto]
    constructor
    · rintro ⟨v, hv, hp⟩
      cases hg : mapGet fromMap p with
      | none => simp [hg] at hp
      | some hf =>
        simp only [hg, decide_eq_true_eq] at hp
        exact ⟨hf, v, rfl, hv, hp⟩
    · rintro ⟨hf, ht, h1, h2, hne⟩
      exact ⟨ht, h2, by simp [h1, hne]⟩
  have hR : ∀ p, p ∈ (CompareManifests fromMap toMap).Removed ↔
      (mapGet fromMap p).isSome ∧ mapGet toMap p = none := by
    intro p
    show p ∈ sortStrings (compareFrom fromMap toMap) ↔ _
    rw [compareFrom_eq, sortStrings_mem, mem_keys_filter hfrom]
    constructor
    · rintro ⟨v, hv, hp⟩
      exact ⟨by simp [hv], by simpa using hp⟩
    · rintro ⟨hs, hn⟩
      obtain ⟨v, hv⟩ := Option.isSome_iff_exists.mp hs
      exact ⟨v, hv, by simp [hn]⟩
  refine ⟨hA, hM, hR, ?_, ?_, ?_, ?_⟩
  · show (sortStrings (compareTo fromMap toMap).1).Pairwise _
    rw [compareTo_eq]
    exact sortStrings_strict _ (keys_filter_nodup hto _)
  · show (sortStrings (compareTo fromMap toMap).2).Pairwise _
    rw [compareTo_eq]
    exact sortStrings_strict _ (keys_filter_nodup hto _)
  · show (sortStrings (compareFrom fromMap toMap)).Pairwise _
    rw [compareFrom_eq]
    exact sortStrings_strict _ (keys_filter_nodup hfrom _)
  · intro heq
    subst heq
    have hA0 : (CompareManifests fromMap fromMap).Added = [] := by
      apply List.eq_nil_iff_forall_not_mem.mpr
      intro p hp
      obtain ⟨hs, hn⟩ := (hA p).mp hp
      rw [hn] at hs
      simp at hs
    have hM0 : (CompareManifests fromMap fromMap).Modified = [] := by
      apply List.eq_nil_iff_forall_not_mem.mpr
      intro p hp
      obtain ⟨hf, ht, h1, h2, hne⟩ := (hM p).mp hp
      rw [h1] at h2
      exact hne (Option.some.inj h2)
    have hR0 : (CompareManifests fromMap fromMap).Removed = [] := by
      apply List.eq_nil_iff_forall_not_mem.mpr
      intro p hp
      obtain ⟨hs, hn⟩ := (hR p).mp hp
      rw [hn] at hs
      simp at hs
    cases hc : CompareManifests fromMap fromMap with
    | mk a m r =>
      rw [hc] at hA0 hM0 hR0
      simp only at hA0 hM0 hR0
      rw [hA0, hM0, hR0]

theorem compare_manifests_classifies_witness :
    CompareManifests exampleFrom exampleTo =
      { Added := ["new.go"], Modified := ["b.go"], Removed := ["gone.go"] } ∧
    ("b.go" ∈ (CompareManifests exampleFrom exampleTo).Modified ↔
      ∃ hf ht, mapGet exampleFrom "b.go" = some hf ∧ mapGet exampleTo "b.go" = some ht ∧
        hf ≠ ht) ∧
    CompareManifests exampleFrom exampleFrom = { Added := [], Modified := [], Removed := [] } :=
  ⟨by decide,
   (compare_manifests_classifies exampleFrom exampleTo (by decide) (by decide)).2.1 "b.go",
   (compare_manifests_classifies exampleFrom exampleFrom (by decide) (by decide)).2.2.2.2.2.2
    rfl⟩

/-! ## Expanded unified diff -/

theorem splitLines_ne_nil (l : List Char) : splitLines l ≠ [] := by
  cases l with
  | nil => simp [splitLines]
  | cons c cs =>
    unfold splitLines
    split
    · simp
    · split <;> simp

theorem joinLines_cons_head (c : Char) (w : List Char) (ws : List (List Char)) :
    joinLines ((c :: w) :: ws) = c :: joinLines (w :: ws) := by
  cases ws <;> rfl

theorem joinLines_splitLines (l : List Char) : joinLines (splitLines l) = l := by
  induction l with
  | nil => rfl
  | cons c cs ih =>
    unfold splitLines
    split
    · rename_i hc
      cases hs : splitLines cs with
      | nil => exact absurd hs (splitLines_ne_nil cs)
      | cons w ws =>
        rw [hs] at ih
        show [] ++ '\n' :: joinLines (w :: ws) = c :: cs
        rw [ih, hc]
        rfl
    · split
      · rename_i hs
        exact absurd hs (splitLines_ne_nil cs)
      · rename_i w ws hs
        rw [hs] at ih
        rw [joinLines_cons_head, ih]

theorem Split_inj {a b : String} (h : Split a = Split b) : a = b := by
  unfold Split at h
  have hinj : Function.Injective String.mk := fun x y hxy => by
    have := congrArg String.data hxy
    exact this
  have h1 := List.map_injective_iff.mpr hinj h
  have h2 := congrArg joinLines h1
  rw [joinLines_splitLines, joinLines_splitLines] at h2
  cases a; cases b
  simp only at h2
  rw [h2]

/-! ### The searches of `computeChanges` -/

theorem searchNew_some {oldLine : String} {newLines : List String} {oj dj : Nat}
    (h : searchNew oldLine newLines oj = some dj) :
    oj + dj < newLines.length ∧ oldLine = newLines.getD (oj + dj) "" := by
  unfold searchNew at h
  have := List.find?_some h
  simpa using this

theorem findSome?_some_elim {α β : Type} {f : α → Option β} {l : List α} {b : β}
    (h : l.findSome? f = some b) : ∃ a ∈ l, f a = some b := by
  induction l with
  | nil => simp at h
  | cons x xs ih =>
    rw [List.findSome?_cons] at h
    cases hx : f x with
    | some y =>
      rw [hx] at h
      exact ⟨x, List.mem_cons_self _ _, by rw [hx]; exact h⟩
    | none =>
      rw [hx] at h
      obtain ⟨a, ha, hfa⟩ := ih h
      exact ⟨a, List.mem_cons_of_mem _ ha, hfa⟩

theorem searchOld_some {oldLines newLines : List String} {oi oj di dj : Nat}
    (h : searchOld oldLines newLines oi oj = some (di, dj)) :
    oi + di < oldLines.length ∧ oj + dj < newLines.length ∧
      oldLines.getD (oi + di) "" = newLines.getD (oj + dj) "" := by
  unfold searchOld at h
  obtain ⟨d, _, hd⟩ := findSome?_some_elim h
  split at hd
  · rename_i hlt
    cases hs : searchNew (oldLines.getD (oi + d) "") newLines oj with
    | none =>
      rw [hs] at hd
      simp at hd
    | some e =>
      simp only [hs, Option.map_some', Option.some.injEq, Prod.mk.injEq] at hd
      obtain ⟨h1, h2⟩ := hd
      subst h1
      subst h2
      obtain ⟨h3, h4⟩ := searchNew_some hs
      exact ⟨hlt, h3, h4⟩
  · simp at hd

/-! ### The changes -/

theorem drop_eq_of_getD {O N : List String} {i j : Nat} (hi : i < O.length) (hj : j < N.length)
    (hline : O.getD i "" = N.getD j "") (hrest : O.drop (i + 1) = N.drop (j + 1)) :
    O.drop i = N.drop j := by
  rw [List.drop_eq_getElem_cons hi, List.drop_eq_getElem_cons hj, hrest]
  rw [List.getD_eq_getElem _ _ hi, List.getD_eq_getElem _ _ hj] at hline
  rw [hline]

/-- The main loop with enough fuel: it appends changes that lie within the two
arrays, and appends none only when the two arrays agree from `i` and `j` on. -/
theorem computeChangesAux_spec (O N : List String) :
    ∀ (fuel i j : Nat) (cs : List change), i ≤ O.length → j ≤ N.length →
      (O.length - i) + (N.length - j) < fuel →
      ∃ more, computeChangesAux O N fuel i j cs = cs ++ more ∧
        (∀ c ∈ more, c.Within O.length N.length) ∧
        (more = [] → O.drop i = N.drop j) := by
  intro fuel
  induction fuel with
  | zero => intro i j cs _ _ h; omega
  | succ fuel ih =>
    intro i j cs hi hj hfuel
    unfold computeChangesAux
    by_cases hboth : i < O.length ∧ j < N.length
    · rw [if_pos hboth]
      by_cases hline : O.getD i "" = N.getD j ""
      · rw [if_pos hline]
        obtain ⟨more, h1, h2, h3⟩ := ih (i + 1) (j + 1) cs (by omega) (by omega) (by omega)
        exact ⟨more, h1, h2, fun hm => drop_eq_of_getD hboth.1 hboth.2 hline (h3 hm)⟩
      · rw [if_neg hline]
        cases hs : searchOld O N i j with
        | none =>
          refine ⟨[_], rfl, ?_, by simp⟩
          intro c hc
          simp only [List.mem_singleton] at hc
          subst hc
          exact ⟨by simp only; omega, le_refl _, by simp only; omega, le_refl _⟩
        | some p =>
          obtain ⟨di, dj⟩ := p
          obtain ⟨h1, h2, h3⟩ := searchOld_some hs
          have hpos : 0 < di + dj := by
            rcases Nat.eq_zero_or_pos (di + dj) with h0 | h0
            · have hdi : di = 0 := by omega
              have hdj : dj = 0 := by omega
              subst hdi
              subst hdj
              exact absurd h3 hline
            · exact h0
          obtain ⟨more, h4, h5, _⟩ := ih (i + di) (j + dj)
            (cs ++ [{ oldStart := i, oldEnd := i + di, newStart := j, newEnd := j + dj }])
            (by omega) (by omega) (by omega)
          refine ⟨{ oldStart := i, oldEnd := i + di, newStart := j, newEnd := j + dj } :: more,
            ?_, ?_, by simp⟩
          · dsimp only
            rw [h4, List.append_assoc]
            rfl
          · intro c hc
            rcases List.mem_cons.mp hc with hc | hc
            · subst hc
              exact ⟨by simp only; omega, by simp only; omega, by simp only; omega,
                by simp only; omega⟩
            · exact h5 c hc
    · rw [if_neg hboth]
      by_cases hany : i < O.length ∨ j < N.length
      · rw [if_pos hany]
        refine ⟨[_], rfl, ?_, by simp⟩
        intro c hc
        simp only [List.mem_singleton] at hc
        subst hc
        exact ⟨hi, le_refl _, hj, le_refl _⟩
      · rw [if_neg hany]
        refine ⟨[], by simp, by simp, fun _ => ?_⟩
        rw [List.drop_eq_nil_of_le (by omega), List.drop_eq_nil_of_le (by omega)]

/-- The result of the main loop does not depend on the fuel once there is enough. -/
theorem computeChangesAux_fuel (O N : List String) :
    ∀ (fuel fuel1 i j : Nat) (cs : List change), i ≤ O.length → j ≤ N.length →
      (O.length - i) + (N.length - j) < fuel → (O.length - i) + (N.length - j) < fuel1 →
      computeChangesAux O N fuel i j cs = computeChangesAux O N fuel1 i j cs := by
  intro fuel
  induction fuel with
  | zero => intro fuel1 i j cs _ _ h; omega
  | succ fuel ih =>
    intro fuel1 i j cs hi hj hfuel hfuel1
    cases fuel1 with
    | zero => omega
    | succ fuel1 =>
      rw [computeChangesAux, computeChangesAux]
      by_cases hboth : i < O.length ∧ j < N.length
      · rw [if_pos hboth, if_pos hboth]
        by_cases hline : O.getD i "" = N.getD j ""
        · rw [if_pos hline, if_pos hline]
          exact ih fuel1 (i + 1) (j + 1) cs (by omega) (by omega) (by omega) (by omega)
        · rw [if_neg hline, if_neg hline]
          cases hs : searchOld O N i j with
          | none => rfl
          | some p =>
            obtain ⟨di, dj⟩ := p
            obtain ⟨h1, h2, h3⟩ := searchOld_some hs
            have hpos : 0 < di + dj := by
              rcases Nat.eq_zero_or_pos (di + dj) with h0 | h0
              · have hdi : di = 0 := by omega
                have hdj : dj = 0 := by omega
                subst hdi
                subst hdj
                exact absurd h3 hline
              · exact h0
            exact ih fuel1 (i + di) (j + dj) _ (by omega) (by omega) (by omega) (by omega)
      · rw [if_neg hboth, if_neg hboth]

theorem computeChanges_within (O N : List String) :
    ∀ c ∈ computeChanges O N, c.Within O.length N.length := by
  obtain ⟨more, h1, h2, _⟩ := computeChangesAux_spec O N (O.length + N.length + 1) 0 0 []
    (Nat.zero_le _) (Nat.zero_le _) (by omega)
  unfold computeChanges
  rw [h1]
  simpa using h2

theorem computeChanges_ne_nil {O N : List String} (h : O ≠ N) : computeChanges O N ≠ [] := by
  obtain ⟨more, h1, _, h3⟩ := computeChangesAux_spec O N (O.length + N.length + 1) 0 0 []
    (Nat.zero_le _) (Nat.zero_le _) (by omega)
  unfold computeChanges
  rw [h1]
  intro hnil
  simp only [List.nil_append] at hnil
  exact h (by simpa using h3 hnil)

/-! ### The hunks -/

theorem wrap64_eq {x : Int} (h1 : -9223372036854775808 ≤ x) (h2 : x < 9223372036854775808) :
    wrap64 x = x := by
  unfold wrap64
  have e63 : (2 : Int) ^ 63 = 9223372036854775808 := by norm_num
  have e64 : (2 : Int) ^ 64 = 18446744073709551616 := by norm_num
  rw [e63, e64]
  omega

theorem maxInt_eq (a b : Int) : maxInt a b = max a b := by
  unfold maxInt
  split <;> omega

theorem minInt_eq (a b : Int) : minInt a b = min a b := by
  unfold minInt
  split <;> omega

/-- The hunk the code builds is the hunk of the specification, when the context is
not negative and adding it to the lengths does not leave the range of `int`. -/
theorem hunkOf_eq_specHunk (O N : List String) (context : Int) (c : change)
    (hc : 0 ≤ context) (hw : c.Within O.length N.length)
    (ho : context + O.length + 1 < 9223372036854775808)
    (hn : context + N.length + 1 < 9223372036854775808) :
    hunkOf O N context c = specHunk O N context c := by
  obtain ⟨h1, h2, h3, h4⟩ := hw
  have e1 : wrap64 ((c.oldStart : Int) - context) = c.oldStart - context :=
    wrap64_eq (by omega) (by omega)
  have e2 : wrap64 ((c.oldEnd : Int) + context) = c.oldEnd + context :=
    wrap64_eq (by omega) (by omega)
  have e3 : wrap64 ((c.newStart : Int) - context) = c.newStart - context :=
    wrap64_eq (by omega) (by omega)
  have e4 : wrap64 ((c.newEnd : Int) + context) = c.newEnd + context :=
    wrap64_eq (by omega) (by omega)
  have e5 : wrap64 (max 0 ((c.oldStart : Int) - context) + 1) =
      max 0 ((c.oldStart : Int) - context) + 1 := wrap64_eq (by omega) (by omega)
  have e6 : wrap64 (min (O.length : Int) (c.oldEnd + context) -
      max 0 ((c.oldStart : Int) - context)) =
      min (O.length : Int) (c.oldEnd + context) - max 0 ((c.oldStart : Int) - context) :=
    wrap64_eq (by omega) (by omega)
  have e7 : wrap64 (max 0 ((c.newStart : Int) - context) + 1) =
      max 0 ((c.newStart : Int) - context) + 1 := wrap64_eq (by omega) (by omega)
  have e8 : wrap64 (min (N.length : Int) (c.newEnd + context) -
      max 0 ((c.newStart : Int) - context)) =
      min (N.length : Int) (c.newEnd + context) - max 0 ((c.newStart : Int) - context) :=
    wrap64_eq (by omega) (by omega)
  unfold hunkOf specHunk hunkHeader specHeader
  simp only [maxInt_eq, minInt_eq, e1, e2, e3, e4, e5, e6, e7, e8]

/-- C20, amended: for two different texts and a context `c` (a negative one
counting as 0) such that `c` plus the number of lines of either text, plus one,
stays below 2^63, `computeChanges` finds at least one change between the
newline-split line arrays, every change lies within the arrays, and
`ExpandedUnifiedDiff` is the two file headers followed by one hunk per change,
each made of the header `@@ -a,b +c2,d @@` of the specification and of the
context, removed and added lines. -/
theorem expanded_diff_headers (filename oldContent newContent : String) (c : Int)
    (hne : oldContent ≠ newContent)
    (hold : max c 0 + (Split oldContent).length + 1 < 9223372036854775808)
    (hnew : max c 0 + (Split newContent).length + 1 < 9223372036854775808) :
    computeChanges (Split oldContent) (Split newContent) ≠ [] ∧
    (∀ ch ∈ computeChanges (Split oldContent) (Split newContent),
      ch.Within (Split oldContent).length (Split newContent).length) ∧
    ExpandedUnifiedDiff filename oldContent newContent c =
      "--- a/" ++ filename ++ "\n" ++ "+++ b/" ++ filename ++ "\n" ++
        String.join ((computeChanges (Split oldContent) (Split newContent)).map
          (specHunk (Split oldContent) (Split newContent) (max c 0))) := by
  have hsplit : Split oldContent ≠ Split newContent := fun e => hne (Split_inj e)
  have hnil := computeChanges_ne_nil hsplit
  have hwithin := computeChanges_within (Split oldContent) (Split newContent)
  refine ⟨hnil, hwithin, ?_⟩
  have hctx : (if c < 0 then 0 else c) = max c 0 := by
    split <;> omega
  have hlen : ¬ (computeChanges (Split oldContent) (Split newContent)).length = 0 := by
    intro h0
    exact hnil (List.length_eq_zero.mp h0)
  have hmap : groupHunks (computeChanges (Split oldContent) (Split newContent))
      (Split oldContent) (Split newContent) (max c 0) =
      (computeChanges (Split oldContent) (Split newContent)).map
        (specHunk (Split oldContent) (Split newContent) (max c 0)) := by
    unfold groupHunks
    apply List.map_congr_left
    intro ch hch
    exact hunkOf_eq_specHunk _ _ _ ch (le_max_right c 0) (hwithin ch hch) hold hnew
  unfold ExpandedUnifiedDiff
  rw [if_neg hne]
  dsimp only
  rw [if_neg hlen, hctx, hmap]

set_option maxRecDepth 100000 in
theorem expanded_diff_headers_witness :
    ExpandedUnifiedDiff "main.go" "a\nb\nc\nd\n" "a\nb\nx\nd\n" 1 =
      "--- a/main.go\n+++ b/main.go\n" ++
        String.join ((computeChanges (Split "a\nb\nc\nd\n") (Split "a\nb\nx\nd\n")).map
          (specHunk (Split "a\nb\nc\nd\n") (Split "a\nb\nx\nd\n") (max 1 0))) ∧
    computeChanges (Split "a\nb\nc\nd\n") (Split "a\nb\nx\nd\n") =
      [{ oldStart := 2, oldEnd := 3, newStart := 2, newEnd := 3 }] ∧
    specHunk (Split "a\nb\nc\nd\n") (Split "a\nb\nx\nd\n") (max 1 0)
      { oldStart := 2, oldEnd := 3, newStart := 2, newEnd := 3 } =
      "@@ -2,3 +2,3 @@\n b\n-c\n+x\n d\n" :=
  ⟨(expanded_diff_headers "main.go" "a\nb\nc\nd\n" "a\nb\nx\nd\n" 1 (by decide) (by decide)
      (by decide)).2.2,
   by decide, by decide⟩

set_option maxRecDepth 100000 in
/-- C20 as stated fails for a context near the largest `int`: with context
2^63 - 1 the sum `oldEnd + contextLines` wraps around, and the header of the
hunk between `a\nb\nc\nd\n` and `a\nb\nx\nd\n` carries a negative count, where
the formula of the specification gives `@@ -1,5 +1,5 @@`. -/
theorem expanded_diff_overflow :
    ExpandedUnifiedDiff "main.go" "a\nb\nc\nd\n" "a\nb\nx\nd\n" maxInt64 =
      "--- a/main.go\n+++ b/main.go\n" ++
        "@@ -1,-9223372036854775806 +1,-9223372036854775806 @@\n a\n b\n-c\n+x\n" ∧
    computeChanges (Split "a\nb\nc\nd\n") (Split "a\nb\nx\nd\n") =
      [{ oldStart := 2, oldEnd := 3, newStart := 2, newEnd := 3 }] ∧
    specHeader { oldStart := 2, oldEnd := 3, newStart := 2, newEnd := 3 } 5 5 maxInt64 =
      "@@ -1,5 +1,5 @@\n" :=
  ⟨by decide, by decide, by decide⟩

/-! ## Slash paths -/

theorem intercalate_go_data (acc : String) (l : List String) :
    (String.intercalate.go acc "/" l).data = acc.data ++ l.flatMap fun a => '/' :: a.data := by
  induction l generalizing acc with
  | nil => simp [String.intercalate.go]
  | cons a rest ih =>
    rw [String.intercalate.go, ih]
    simp [String.data_append, List.flatMap_cons]

theorem intercalate_data (a : String) (l : List String) :
    ("/".intercalate (a :: l)).data = a.data ++ l.flatMap fun a => '/' :: a.data := by
  rw [String.intercalate, intercalate_go_data]

theorem splitSlash_append_slash (w r : List Char) (h : '/' ∉ w) :
    splitSlash (w ++ '/' :: r) = w :: splitSlash r := by
  induction w with
  | nil => simp [splitSlash]
  | cons c rest ih =>
    have hc : c ≠ '/' := fun e => h (e ▸ List.mem_cons_self _ _)
    have hr : '/' ∉ rest := fun m => h (List.mem_cons_of_mem _ m)
    simp [splitSlash, hc, ih hr]

theorem splitSlash_joined (a : String) (l : List String) (ha : '/' ∉ a.data)
    (hl : ∀ c ∈ l, '/' ∉ c.data) :
    splitSlash (a.data ++ l.flatMap fun a => '/' :: a.data) = a.data :: l.map String.data := by
  induction l generalizing a with
  | nil => simpa using splitSlash_no_slash _ ha
  | cons b rest ih =>
    rw [List.flatMap_cons, List.cons_append, splitSlash_append_slash _ _ ha,
      ih b (hl b (List.mem_cons_self _ _)) (fun c hc => hl c (List.mem_cons_of_mem _ hc))]
    rfl

/-- Splitting the slash form of a path gives its components back. -/
theorem components_intercalate {p : Path} (hne : p ≠ []) (hp : ∀ c ∈ p, '/' ∉ c.data) :
    components ("/".intercalate p) = p := by
  cases p with
  | nil => exact absurd rfl hne
  | cons a l =>
    unfold components
    rw [intercalate_data, splitSlash_joined a l (hp a (List.mem_cons_self _ _))
      (fun c hc => hp c (List.mem_cons_of_mem _ hc))]
    have hid : (String.mk ∘ String.data) = id := by funext s; rfl
    simp [hid]

theorem intercalate_inj {p q : Path} (hp0 : p ≠ []) (hq0 : q ≠ [])
    (hp : ∀ c ∈ p, '/' ∉ c.data) (hq : ∀ c ∈ q, '/' ∉ c.data)
    (h : "/".intercalate p = "/".intercalate q) : p = q := by
  rw [← components_intercalate hp0 hp, ← components_intercalate hq0 hq, h]

theorem foldl_cleanStep_plain (acc : List String) {p : Path} (hp : ∀ c ∈ p, plainName c) :
    p.foldl cleanStep acc = p.reverse ++ acc := by
  induction p generalizing acc with
  | nil => rfl
  | cons c rest ih =>
    rw [List.foldl_cons, cleanStep_plain _ (hp c (List.mem_cons_self _ _)),
      ih _ (fun x hx => hp x (List.mem_cons_of_mem _ hx))]
    simp

/-- The file a manifest path names is the path itself. -/
theorem Join_intercalate {p : Path} (hne : p ≠ []) (hp : ∀ c ∈ p, plainName c) :
    Join ["/".intercalate p] = p := by
  unfold Join cleanComponents
  simp only [List.flatMap_cons, List.flatMap_nil, List.append_nil]
  rw [components_intercalate hne (fun c hc => (hp c hc).1), foldl_cleanStep_plain [] hp]
  simp

/-! ## The walk -/

theorem insertPath_mem (p q : Path) (l : List Path) : q ∈ insertPath p l ↔ q = p ∨ q ∈ l := by
  induction l with
  | nil => simp [insertPath]
  | cons x xs ih =>
    unfold insertPath
    split
    · simp
    · simp only [List.mem_cons, ih]
      tauto

theorem sortPaths_mem (q : Path) (l : List Path) : q ∈ sortPaths l ↔ q ∈ l := by
  induction l with
  | nil => simp [sortPaths]
  | cons x xs ih => simp [sortPaths, insertPath_mem, ih]

theorem walkFiles_mem (fs : FS) (p : Path) :
    p ∈ walkFiles fs ↔ p ∈ fs.map Prod.fst ∧ walkReaches p = true := by
  unfold walkFiles
  rw [sortPaths_mem, List.mem_filter]

theorem FS.lookup_isSome_of_key {fs : FS} {p : Path} (h : p ∈ fs.map Prod.fst) :
    ∃ node, fs.lookup p = some node := by
  obtain ⟨e, he, hp⟩ := List.mem_map.mp h
  have := FS.mem_lookup_isSome (show (p, e.2) ∈ fs by rw [← hp]; exact he)
  exact Option.isSome_iff_exists.mp this

theorem FS.key_of_lookup {fs : FS} {p : Path} {node : FileNode} (h : fs.lookup p = some node) :
    p ∈ fs.map Prod.fst :=
  List.mem_map.mpr ⟨(p, node), FS.lookup_some_mem h, rfl⟩

/-- One call of the callback, against the tree the walk started on: the manifest
it leaves is read off that tree, and the files of that tree are still there. -/
theorem captureFile_record {sum256 : Bytes → Digest} {s : Store} {m m1 : Manifest}
    {fs fsi fs1 : FS} {p : Path}
    (hext : ∀ q n, fs.lookup q = some n → fsi.lookup q = some n)
    (hp : p ∈ fs.map Prod.fst)
    (h : captureFile sum256 s m fsi p = (.ok m1, fs1)) :
    m1 = recordFile sum256 fs m p ∧ ∀ q n, fs.lookup q = some n → fs1.lookup q = some n := by
  obtain ⟨node, hnode⟩ := FS.lookup_isSome_of_key hp
  have hnodei := hext p node hnode
  unfold captureFile at h
  unfold recordFile
  dsimp only at h
  rw [hnode]
  by_cases hign : p.getLastD "" ∈ IgnoredFileNames
  · rw [if_pos hign] at h
    rw [if_pos hign]
    simp only [Prod.mk.injEq, Except.ok.injEq] at h
    exact ⟨h.1.symm, h.2 ▸ hext⟩
  · rw [if_neg hign, hnodei] at h
    rw [if_neg hign]
    dsimp only at h ⊢
    cases hsym : node.symlink with
    | true =>
      simp only [hsym, if_true, Prod.mk.injEq, Except.ok.injEq] at h
      simp only [if_true]
      exact ⟨h.1.symm, h.2 ▸ hext⟩
    | false =>
      have hread : ReadFile fsi p = .ok node.data := by
        unfold ReadFile
        rw [hnodei]
        simp [hsym]
      simp only [hsym, Bool.false_eq_true, if_false, hread] at h
      cases hw : s.Write sum256 fsi node.data with
      | mk r fs2 =>
        rw [hw] at h
        cases r with
        | error err => simp at h
        | ok hash =>
          simp only [Prod.mk.injEq, Except.ok.injEq] at h
          have hh : hash = hashOf sum256 node.data :=
            Store.Write_hash sum256 s fsi node.data hash (by rw [hw])
          refine ⟨?_, ?_⟩
          · rw [← h.1, hh]
            simp [entryOf]
          · intro q n hq
            have := Store.Write_preserves sum256 s fsi node.data (hext q n hq)
            rw [hw] at this
            rw [← h.2]
            exact this

theorem captureWalk_record {sum256 : Bytes → Digest} {s : Store} {fs : FS} :
    ∀ (ps : List Path) (m m1 : Manifest) (fsi fs1 : FS),
      (∀ q n, fs.lookup q = some n → fsi.lookup q = some n) →
      (∀ p ∈ ps, p ∈ fs.map Prod.fst) →
      captureWalk sum256 s ps m fsi = (.ok m1, fs1) →
      m1 = recordWalk sum256 fs ps m ∧ ∀ q n, fs.lookup q = some n → fs1.lookup q = some n := by
  intro ps
  induction ps with
  | nil =>
    intro m m1 fsi fs1 hext _ h
    simp only [captureWalk, Prod.mk.injEq, Except.ok.injEq] at h
    exact ⟨h.1.symm, h.2 ▸ hext⟩
  | cons p rest ih =>
    intro m m1 fsi fs1 hext hps h
    unfold captureWalk at h
    cases hc : captureFile sum256 s m fsi p with
    | mk r fs2 =>
      rw [hc] at h
      cases r with
      | error err => simp at h
      | ok m2 =>
        dsimp only at h
        obtain ⟨hm2, hext2⟩ := captureFile_record hext (hps p (List.mem_cons_self _ _)) hc
        obtain ⟨hm1, hext1⟩ := ih m2 m1 fs2 fs1 hext2
          (fun q hq => hps q (List.mem_cons_of_mem _ hq)) h
        refine ⟨?_, hext1⟩
        rw [hm1, hm2]
        rfl

/-- The manifest `Capture` returns is read off the tree it was given, and the
files of that tree are still there afterwards. -/
theorem Capture_record {sum256 : Bytes → Digest} {s : Store} {fs fs1 : FS} {m : Manifest}
    (h : Capture sum256 s fs = (.ok m, fs1)) :
    m = recordWalk sum256 fs (walkFiles fs) [] ∧
      ∀ q n, fs.lookup q = some n → fs1.lookup q = some n := by
  unfold Capture at h
  cases hc : captureWalk sum256 s (walkFiles fs) [] fs with
  | mk r fs2 =>
    rw [hc] at h
    cases r with
    | error err => simp at h
    | ok m2 =>
      simp only [Prod.mk.injEq, Except.ok.injEq] at h
      obtain ⟨hm, hext⟩ := captureWalk_record (walkFiles fs) [] m2 fs fs2 (fun _ _ hq => hq)
        (fun p hp => ((walkFiles_mem fs p).mp hp).1) hc
      exact ⟨h.1 ▸ hm, h.2 ▸ hext⟩

/-! ## The manifest read off the tree -/

theorem recordFile_hit {sum256 : Bytes → Digest} {fs : FS} {p : Path} {key : String}
    {fe : FileEntry} (m : Manifest) (h : records sum256 fs p key fe) :
    mapGet (recordFile sum256 fs m p) key = some fe := by
  obtain ⟨node, hl, hs, hi, hk, hf⟩ := h
  unfold recordFile
  rw [if_neg hi, hl]
  simp only [hs, Bool.false_eq_true, if_false]
  rw [mapGet_mapSet, if_pos hk, hf]

theorem recordFile_miss {sum256 : Bytes → Digest} {fs : FS} {p : Path} {key : String}
    (m : Manifest) (h : ∀ fe, ¬ records sum256 fs p key fe) :
    mapGet (recordFile sum256 fs m p) key = mapGet m key := by
  unfold recordFile
  by_cases hi : p.getLastD "" ∈ IgnoredFileNames
  · rw [if_pos hi]
  · rw [if_neg hi]
    cases hl : fs.lookup p with
    | none => rfl
    | some node =>
      dsimp only
      cases hs : node.symlink with
      | true => simp
      | false =>
        simp only [Bool.false_eq_true, if_false]
        rw [mapGet_mapSet]
        by_cases hk : key = "/".intercalate p
        · exact absurd ⟨node, hl, hs, hi, hk, rfl⟩ (h _)
        · rw [if_neg hk]

theorem recordWalk_get {sum256 : Bytes → Digest} {fs : FS} {key : String} :
    ∀ (ps : List Path) (m : Manifest) (fe : FileEntry),
      (∀ p ∈ ps, ∀ q ∈ ps, ∀ f1 f2, records sum256 fs p key f1 → records sum256 fs q key f2 →
        f1 = f2) →
      (mapGet (recordWalk sum256 fs ps m) key = some fe ↔
        (∃ p ∈ ps, records sum256 fs p key fe) ∨
        ((∀ p ∈ ps, ∀ f, ¬ records sum256 fs p key f) ∧ mapGet m key = some fe)) := by
  intro ps
  induction ps with
  | nil =>
    intro m fe _
    simp [recordWalk]
  | cons p rest ih =>
    intro m fe hfun
    have hrest : ∀ a ∈ rest, ∀ b ∈ rest, ∀ f1 f2, records sum256 fs a key f1 →
        records sum256 fs b key f2 → f1 = f2 :=
      fun a ha b hb => hfun a (List.mem_cons_of_mem _ ha) b (List.mem_cons_of_mem _ hb)
    have hstep : recordWalk sum256 fs (p :: rest) m =
        recordWalk sum256 fs rest (recordFile sum256 fs m p) := rfl
    rw [hstep, ih (recordFile sum256 fs m p) fe hrest]
    by_cases hp : ∃ f0, records sum256 fs p key f0
    · obtain ⟨f0, hf0⟩ := hp
      rw [recordFile_hit m hf0]
      constructor
      · rintro (⟨q, hq, hr⟩ | ⟨_, he⟩)
        · exact Or.inl ⟨q, List.mem_cons_of_mem _ hq, hr⟩
        · simp only [Option.some.injEq] at he
          exact Or.inl ⟨p, List.mem_cons_self _ _, he ▸ hf0⟩
      · rintro (⟨q, hq, hr⟩ | ⟨hno, _⟩)
        · by_cases hex : ∃ a ∈ rest, ∃ f, records sum256 fs a key f
          · obtain ⟨a, ha, f, hf⟩ := hex
            have : f = fe := hfun a (List.mem_cons_of_mem _ ha) q hq f fe hf hr
            exact Or.inl ⟨a, ha, this ▸ hf⟩
          · right
            refine ⟨fun a ha f hf => hex ⟨a, ha, f, hf⟩, ?_⟩
            have : f0 = fe := hfun p (List.mem_cons_self _ _) q hq f0 fe hf0 hr
            rw [this]
        · exact absurd hf0 (hno p (List.mem_cons_self _ _) f0)
    · have hmiss : ∀ f, ¬ records sum256 fs p key f := fun f hf => hp ⟨f, hf⟩
      rw [recordFile_miss m hmiss]
      constructor
      · rintro (⟨q, hq, hr⟩ | ⟨hno, he⟩)
        · exact Or.inl ⟨q, List.mem_cons_of_mem _ hq, hr⟩
        · right
          refine ⟨?_, he⟩
          intro a ha f
          rcases List.mem_cons.mp ha with h1 | h1
          · rw [h1]; exact hmiss f
          · exact hno a h1 f
      · rintro (⟨q, hq, hr⟩ | ⟨hno, he⟩)
        · rcases List.mem_cons.mp hq with h1 | h1
          · rw [h1] at hr; exact absurd hr (hmiss fe)
          · exact Or.inl ⟨q, h1, hr⟩
        · exact Or.inr ⟨fun a ha f => hno a (List.mem_cons_of_mem _ ha) f, he⟩

theorem FS.WellFormed.key {fs : FS} (h : fs.WellFormed) {p : Path} (hp : p ∈ fs.map Prod.fst) :
    p ≠ [] ∧ ∀ c ∈ p, plainName c := by
  obtain ⟨e, he, rfl⟩ := List.mem_map.mp hp
  exact h e he

/-- Two plain paths recorded under the same key are the same file. -/
theorem records_functional {sum256 : Bytes → Digest} {fs : FS}
    {p q : Path} {key : String} {f1 f2 : FileEntry}
    (hp : p ≠ [] ∧ ∀ c ∈ p, plainName c) (hq : q ≠ [] ∧ ∀ c ∈ q, plainName c)
    (h1 : records sum256 fs p key f1) (h2 : records sum256 fs q key f2) : p = q ∧ f1 = f2 := by
  obtain ⟨n1, hl1, _, _, hk1, hf1⟩ := h1
  obtain ⟨n2, hl2, _, _, hk2, hf2⟩ := h2
  have hpq : p = q := intercalate_inj hp.1 hq.1 (fun c hc => (hp.2 c hc).1)
    (fun c hc => (hq.2 c hc).1) (hk1.symm.trans hk2)
  subst hpq
  rw [hl1] at hl2
  simp only [Option.some.injEq] at hl2
  subst hl2
  exact ⟨rfl, hf1.trans hf2.symm⟩

/-- The entries of the manifest `Capture` returns on a tree whose walked paths are plain. -/
theorem Capture_get {sum256 : Bytes → Digest} {s : Store} {fs fs1 : FS} {m : Manifest}
    (hwf : ∀ p ∈ walkFiles fs, p ≠ [] ∧ ∀ c ∈ p, plainName c)
    (h : Capture sum256 s fs = (.ok m, fs1)) (key : String) (fe : FileEntry) :
    mapGet m key = some fe ↔
      ∃ p node, walked fs p node ∧ key = "/".intercalate p ∧ fe = entryOf sum256 node := by
  obtain ⟨hm, _⟩ := Capture_record h
  rw [hm, recordWalk_get (walkFiles fs) [] fe
    (fun p hp q hq f1 f2 h1 h2 => (records_functional (hwf p hp) (hwf q hq) h1 h2).2)]
  constructor
  · rintro (⟨p, hp, node, hl, hs, hi, hk, hf⟩ | ⟨_, he⟩)
    · exact ⟨p, node, ⟨hl, hs, hi, ((walkFiles_mem fs p).mp hp).2⟩, hk, hf⟩
    · simp [mapGet] at he
  · rintro ⟨p, node, ⟨hl, hs, hi, hw⟩, hk, hf⟩
    exact Or.inl ⟨p, (walkFiles_mem fs p).mpr ⟨FS.key_of_lookup hl, hw⟩, node, hl, hs, hi, hk, hf⟩

theorem FS.WellFormed.walkFiles {fs : FS} (h : fs.WellFormed) :
    ∀ p ∈ walkFiles fs, p ≠ [] ∧ ∀ c ∈ p, plainName c :=
  fun p hp => h.key ((walkFiles_mem fs p).mp hp).1

/-- On a well-formed tree the files the walk keeps are the files of the policy. -/
theorem walked_iff_tracked {fs : FS} (hwf : fs.WellFormed) (p : Path) (node : FileNode) :
    walked fs p node ↔ tracked fs p node := by
  unfold walked tracked
  constructor
  · rintro ⟨hl, hs, hi, hw⟩
    refine ⟨hl, hs, by simpa [IgnoredFileNames] using hi, ?_⟩
    simp only [walkReaches, Bool.and_eq_true, List.all_eq_true, decide_eq_true_eq] at hw
    exact fun d hd => by simpa [IgnoredDirNames, StateDirName] using hw.2 d hd
  · rintro ⟨hl, hs, hi, hw⟩
    refine ⟨hl, hs, by simpa [IgnoredFileNames] using hi, ?_⟩
    obtain ⟨hne, hplain⟩ := hwf.key (FS.key_of_lookup hl)
    simp only [walkReaches, Bool.and_eq_true, List.all_eq_true, decide_eq_true_eq]
    refine ⟨⟨by simpa using hne, ?_⟩, fun d hd => by
      simpa [IgnoredDirNames, StateDirName] using hw d hd⟩
    cases p with
    | nil => exact absurd rfl hne
    | cons a rest =>
      have := (hplain a (List.mem_cons_self _ _)).2.2.2
      simpa using this

/-! ## The tree after a capture -/

theorem captureFile_new {sum256 : Bytes → Digest} {s : Store} {m : Manifest} {fs : FS}
    {p q : Path} {n : FileNode} (h : (captureFile sum256 s m fs p).2.lookup q = some n) :
    fs.lookup q = some n ∨ ∃ b, q = s.blobPath (hashOf sum256 b) := by
  unfold captureFile at h
  dsimp only at h
  split at h
  · exact Or.inl h
  · split at h
    · exact Or.inl h
    · split at h
      · exact Or.inl h
      · split at h
        · exact Or.inl h
        · rename_i data _
          have hw := Store.Write_fs sum256 s fs data
          have hq : (s.Write sum256 fs data).2.lookup q = some n := by
            split at h
            · rename_i err fs1 he
              rw [he]; exact h
            · rename_i hash fs1 he
              rw [he]; exact h
          rcases hw with hsame | ⟨_, _, hset⟩
          · rw [hsame] at hq
            exact Or.inl hq
          · rw [hset] at hq
            by_cases hqp : q = s.blobPath (hashOf sum256 data)
            · exact Or.inr ⟨data, hqp⟩
            · rw [FS.lookup_set_other _ _ hqp] at hq
              exact Or.inl hq

theorem captureWalk_new {sum256 : Bytes → Digest} {s : Store} {q : Path} {n : FileNode} :
    ∀ (ps : List Path) (m : Manifest) (fs : FS),
      (captureWalk sum256 s ps m fs).2.lookup q = some n →
      fs.lookup q = some n ∨ ∃ b, q = s.blobPath (hashOf sum256 b) := by
  intro ps
  induction ps with
  | nil => intro m fs h; exact Or.inl h
  | cons p ps ih =>
    intro m fs h
    unfold captureWalk at h
    cases hc : captureFile sum256 s m fs p with
    | mk r fs2 =>
      rw [hc] at h
      have hstep : ∀ n0, fs2.lookup q = some n0 →
          fs.lookup q = some n0 ∨ ∃ b, q = s.blobPath (hashOf sum256 b) := by
        intro n0 h0
        exact @captureFile_new sum256 s m fs p q n0 (by rw [hc]; exact h0)
      cases r with
      | error err => exact hstep n h
      | ok m2 =>
        dsimp only at h
        rcases ih m2 fs2 h with h1 | h1
        · exact hstep n h1
        · exact Or.inr h1

theorem Capture_new {sum256 : Bytes → Digest} {s : Store} {fs : FS} {q : Path} {n : FileNode}
    (h : (Capture sum256 s fs).2.lookup q = some n) :
    fs.lookup q = some n ∨ ∃ b, q = s.blobPath (hashOf sum256 b) := by
  apply captureWalk_new (walkFiles fs) [] fs
  unfold Capture at h
  split at h
  · rename_i err fs1 he
    rw [he]; exact h
  · rename_i m fs1 he
    rw [he]; exact h

/-- The walk does not enter a store that lies under an ignored directory. -/
theorem walkReaches_blobPath {sum256 : Bytes → Digest} {s : Store}
    (hs : ∃ d ∈ Join [s.root], d ∈ IgnoredDirNames) (b : Bytes) :
    walkReaches (s.blobPath (hashOf sum256 b)) = false := by
  obtain ⟨d, hd, hign⟩ := hs
  rw [blobPath_hashOf]
  have hdrop : (Join [s.root] ++ [String.mk ((hashOf sum256 b).data.take 2),
      hashOf sum256 b]).dropLast = Join [s.root] ++ [String.mk ((hashOf sum256 b).data.take 2)] := by
    rw [show [String.mk ((hashOf sum256 b).data.take 2), hashOf sum256 b] =
      [String.mk ((hashOf sum256 b).data.take 2)] ++ [hashOf sum256 b] from rfl,
      ← List.append_assoc, List.dropLast_concat]
  unfold walkReaches
  rw [hdrop]
  have : (Join [s.root] ++ [String.mk ((hashOf sum256 b).data.take 2)]).all
      (fun name => decide (name ∉ IgnoredDirNames)) = false := by
    rw [List.all_eq_false]
    exact ⟨d, List.mem_append_left _ hd, by simpa using hign⟩
  rw [this]
  simp

/-- When the store lies under an ignored directory, the walk finds after a
capture the files it found before. -/
theorem walked_after_Capture {sum256 : Bytes → Digest} {s : Store} {fs fs1 : FS} {m : Manifest}
    (hs : ∃ d ∈ Join [s.root], d ∈ IgnoredDirNames)
    (h : Capture sum256 s fs = (.ok m, fs1)) (p : Path) (node : FileNode) :
    walked fs1 p node ↔ walked fs p node := by
  unfold walked
  constructor
  · rintro ⟨hl, hsym, hi, hw⟩
    refine ⟨?_, hsym, hi, hw⟩
    have hl2 : (Capture sum256 s fs).2.lookup p = some node := by rw [h]; exact hl
    rcases Capture_new hl2 with h1 | ⟨b, hb⟩
    · exact h1
    · rw [hb, walkReaches_blobPath hs b] at hw
      simp at hw
  · rintro ⟨hl, hsym, hi, hw⟩
    exact ⟨(Capture_record h).2 p node hl, hsym, hi, hw⟩

/-- C18: for every well-formed project tree, the manifest `Capture` returns has
no key twice, and holds an entry under a key exactly when the key is the
forward-slash path of a regular file that is not a symbolic link, is not named
`.DS_Store` and lies under no directory named `.converge`, `.git`,
`node_modules` or `__pycache__`, the entry being the hash of the file's bytes
with its mode and size; two such files never share a key. So the manifest is
settled by those files: a capture of any tree with the same such files gives a
manifest with the same entries, and when the blob store lies under an ignored
directory, so does a second capture of the tree the first capture left. -/
theorem capture_ignore_policy (sum256 : Bytes → Digest) (s : Store) (fs fs1 : FS) (m : Manifest)
    (hwf : fs.WellFormed) (hcap : Capture sum256 s fs = (.ok m, fs1)) :
    (m.map Prod.fst).Nodup ∧
    (∀ key fe, mapGet m key = some fe ↔
      ∃ p node, tracked fs p node ∧ key = "/".intercalate p ∧
        fe = { Hash := hashOf sum256 node.data, Mode := node.mode, Size := node.data.length }) ∧
    (∀ p q n1 n2, tracked fs p n1 → tracked fs q n2 →
      "/".intercalate p = "/".intercalate q → p = q) ∧
    (∀ (s2 : Store) (fs2 fs3 : FS) (m2 : Manifest), fs2.WellFormed →
      (∀ p node, tracked fs2 p node ↔ tracked fs p node) →
      Capture sum256 s2 fs2 = (.ok m2, fs3) → ∀ key, mapGet m2 key = mapGet m key) ∧
    ((∃ d ∈ Join [s.root], d ∈ IgnoredDirNames) → ∀ (m2 : Manifest) (fs2 : FS),
      Capture sum256 s fs1 = (.ok m2, fs2) → ∀ key, mapGet m2 key = mapGet m key) := by
  have hget : ∀ key fe, mapGet m key = some fe ↔
      ∃ p node, tracked fs p node ∧ key = "/".intercalate p ∧ fe = entryOf sum256 node := by
    intro key fe
    rw [Capture_get hwf.walkFiles hcap]
    constructor
    · rintro ⟨p, node, hw, hk, hf⟩
      exact ⟨p, node, (walked_iff_tracked hwf p node).mp hw, hk, hf⟩
    · rintro ⟨p, node, hw, hk, hf⟩
      exact ⟨p, node, (walked_iff_tracked hwf p node).mpr hw, hk, hf⟩
  refine ⟨(Capture_captured (show (Capture sum256 s fs).1 = .ok m by rw [hcap])).1, hget, ?_, ?_, ?_⟩
  · intro p q n1 n2 hp hq hk
    obtain ⟨hp0, hpp⟩ := hwf.key (FS.key_of_lookup hp.1)
    obtain ⟨hq0, hqp⟩ := hwf.key (FS.key_of_lookup hq.1)
    exact intercalate_inj hp0 hq0 (fun c hc => (hpp c hc).1) (fun c hc => (hqp c hc).1) hk
  · intro s2 fs2 fs3 m2 hwf2 hsame hcap2 key
    apply Option.ext
    intro fe
    show mapGet m2 key = some fe ↔ mapGet m key = some fe
    rw [hget, Capture_get hwf2.walkFiles hcap2]
    constructor
    · rintro ⟨p, node, hw, hk, hf⟩
      exact ⟨p, node, (hsame p node).mp ((walked_iff_tracked hwf2 p node).mp hw), hk, hf⟩
    · rintro ⟨p, node, hw, hk, hf⟩
      exact ⟨p, node, (walked_iff_tracked hwf2 p node).mpr ((hsame p node).mpr hw), hk, hf⟩
  · intro hs m2 fs2 hcap2 key
    have hwf1 : ∀ p ∈ walkFiles fs1, p ≠ [] ∧ ∀ c ∈ p, plainName c := by
      intro p hp
      obtain ⟨hkey, hreach⟩ := (walkFiles_mem fs1 p).mp hp
      obtain ⟨node, hnode⟩ := FS.lookup_isSome_of_key hkey
      have hl2 : (Capture sum256 s fs).2.lookup p = some node := by rw [hcap]; exact hnode
      rcases Capture_new hl2 with h1 | ⟨b, hb⟩
      · exact hwf.key (FS.key_of_lookup h1)
      · rw [hb, walkReaches_blobPath hs b] at hreach
        simp at hreach
    apply Option.ext
    intro fe
    show mapGet m2 key = some fe ↔ mapGet m key = some fe
    rw [Capture_get hwf.walkFiles hcap, Capture_get hwf1 hcap2]
    constructor
    · rintro ⟨p, node, hw, hk, hf⟩
      exact ⟨p, node, (walked_after_Capture hs hcap p node).mp hw, hk, hf⟩
    · rintro ⟨p, node, hw, hk, hf⟩
      exact ⟨p, node, (walked_after_Capture hs hcap p node).mpr hw, hk, hf⟩

theorem policyTree_wellFormed : policyTree.WellFormed := by
  unfold FS.WellFormed
  simp only [plainName]
  decide

theorem capture_ignore_policy_witness :
    policyTree.WellFormed ∧
    (Capture padDigest ⟨".converge/objects"⟩ policyTree).1.toOption = some policyManifest ∧
    (∀ key fe, mapGet policyManifest key = some fe ↔
      ∃ p node, tracked policyTree p node ∧ key = "/".intercalate p ∧
        fe = { Hash := hashOf padDigest node.data, Mode := node.mode,
               Size := node.data.length }) ∧
    (∀ (m2 : Manifest) (fs2 : FS),
      Capture padDigest ⟨".converge/objects"⟩
        (Capture padDigest ⟨".converge/objects"⟩ policyTree).2 = (.ok m2, fs2) →
      ∀ key, mapGet m2 key = mapGet policyManifest key) :=
  ⟨policyTree_wellFormed, by decide,
   (capture_ignore_policy padDigest ⟨".converge/objects"⟩ policyTree
      (Capture padDigest ⟨".converge/objects"⟩ policyTree).2 policyManifest
      (policyTree_wellFormed) (by rfl)).2.1,
   (capture_ignore_policy padDigest ⟨".converge/objects"⟩ policyTree
      (Capture padDigest ⟨".converge/objects"⟩ policyTree).2 policyManifest
      (policyTree_wellFormed) (by rfl)).2.2.2.2 (by decide)⟩

/-! ## Agent runs -/

theorem DB.Inv.runs {d : DB} {active : String} (inv : d.Inv active) (x : List AgentRun) :
    ({ d with agentRuns := x } : DB).Inv active :=
  ⟨inv.activeMeta, inv.trimmed, inv.nonEmpty, inv.hasRow, inv.mirror, inv.heads, inv.ids,
    inv.rows, inv.owners⟩

/-- Whatever `createCellFromManifest` returns, it keeps the invariant and the
agent runs, and it adds at most one cell. -/
theorem createCellFromManifest_any {svc : Service} {now : String} {d d1 : DB} {fs : FS}
    {manifest : Manifest} {opts : SnapOptions} {knownParent : Option Cell}
    {known : Option (List ManifestEntry)} {active : String} {r : Except String Cell}
    (inv : d.Inv active)
    (h : createCellFromManifest svc now d fs manifest opts knownParent known = (r, d1)) :
    d1.Inv active ∧ d1.agentRuns = d.agentRuns ∧
    (d1.cellIDs = d.cellIDs ∨ ∃ id, id ∉ d.cellIDs ∧ d1.cellIDs = d.cellIDs ++ [id]) := by
  unfold createCellFromManifest at h
  rw [inv.activeBranch now] at h
  dsimp only at h
  cases hL : d.lastSequence with
  | none =>
    simp only [DB.AllocateSequence, hL, Prod.mk.injEq] at h
    rw [← h.2]
    exact ⟨inv, rfl, Or.inl rfl⟩
  | some L =>
    simp only [DB.AllocateSequence, hL] at h
    by_cases hlt : L < maxInt64
    swap
    · rw [if_neg hlt] at h
      simp only [Prod.mk.injEq] at h
      rw [← h.2]
      exact ⟨inv, rfl, Or.inl rfl⟩
    rw [if_pos hlt] at h
    dsimp only at h
    split at h
    · simp only [Prod.mk.injEq] at h
      rw [← h.2]
      exact ⟨inv.counter _, rfl, Or.inl rfl⟩
    · rename_i d3 hins
      have hnb : TrimSpace (CellID (L + 1)) ≠ "" := CellID_not_blank _
      obtain ⟨inv3, _, _, hcells3, hfresh, _⟩ :=
        (inv.counter (some (L + 1))).insert rfl hnb hins
      have hruns3 : d3.agentRuns = d.agentRuns := by
        obtain ⟨_, _, _, _, _, _, hd3⟩ := Insert_shape hins
        rw [hd3]
      have hids3 : d3.cellIDs = d.cellIDs ++ [CellID (L + 1)] := by
        simp only [DB.cellIDs, hcells3, List.map_append, List.map_cons, List.map_nil]
        simp [storedCell]
      have key : ∀ d4, evalOnly d3 d4 → d4.Inv active ∧ d4.agentRuns = d.agentRuns ∧
          (d4.cellIDs = d.cellIDs ∨ ∃ id, id ∉ d.cellIDs ∧ d4.cellIDs = d.cellIDs ++ [id]) := by
        intro d4 hev
        refine ⟨hev.keepsInv inv3, ?_, Or.inr ⟨CellID (L + 1), hfresh, ?_⟩⟩
        · rw [hev.tables.2.2.2.2, hruns3]
        · rw [hev.cellIDs, hids3]
      have hev : evalOnly d3 (if opts.RunEval = true then
          match EvaluateCell svc d3 fs (CellID (L + 1)) with
          | ((_, some errText), d') =>
            d'.UpdateCellEval (CellID (L + 1)) none none none none none (some errText)
          | ((_, none), d') => d'
        else d3) := by
        split
        · split
          · exact (EvaluateCell_evalOnly svc d3 fs _).trans
              (by
                rename_i heq
                rw [heq]
                exact UpdateCellEval_evalOnly _ _ _ _ _ _ _ _)
          · rename_i heq
            have := EvaluateCell_evalOnly svc d3 fs (CellID (L + 1))
            rw [heq] at this
            exact this
        · exact evalOnly.refl d3
      split at h
      · simp only [Prod.mk.injEq] at h
        rw [← h.2]
        exact key _ hev
      · simp only [Prod.mk.injEq] at h
        rw [← h.2]
        exact key _ hev

/-- Whatever `CreateCellIfChanged` returns, it keeps the invariant and the agent
runs, and it adds at most one cell. -/
theorem CreateCellIfChanged_any {svc : Service} {now : String} {opts : SnapOptions}
    {w w1 : World} {r : Except String (Option Cell)} {active : String} (inv : w.db.Inv active)
    (h : CreateCellIfChanged svc now opts w = (r, w1)) :
    w1.db.Inv active ∧ w1.db.agentRuns = w.db.agentRuns ∧
    (w1.db.cellIDs = w.db.cellIDs ∨
      ∃ id, id ∉ w.db.cellIDs ∧ w1.db.cellIDs = w.db.cellIDs ++ [id]) := by
  unfold CreateCellIfChanged at h
  split at h
  · simp only [Prod.mk.injEq] at h
    rw [← h.2]
    exact ⟨inv, rfl, Or.inl rfl⟩
  · rename_i manifest fs1 hcap
    rw [inv.activeBranch now] at h
    dsimp only at h
    split at h
    · simp only [Prod.mk.injEq] at h
      rw [← h.2]
      exact ⟨inv, rfl, Or.inl rfl⟩
    · split at h
      · rename_i err d2 hc
        simp only [Prod.mk.injEq] at h
        rw [← h.2]
        exact createCellFromManifest_any inv hc
      · rename_i cell d2 hc
        simp only [Prod.mk.injEq] at h
        rw [← h.2]
        exact createCellFromManifest_any inv hc

theorem sourceOf_trimmed (opts : AgentCompletionOptions) :
    TrimSpace opts.sourceOf = opts.sourceOf ∧ opts.sourceOf ≠ "" := by
  unfold AgentCompletionOptions.sourceOf
  split
  · exact ⟨by decide, by decide⟩
  · rename_i h
    exact ⟨TrimSpace_idem _, h⟩

theorem ReserveAgentRun_new {now : String} {d : DB} {opts : AgentCompletionOptions}
    (hv : opts.valid) (hnew : ∀ r ∈ d.agentRuns, r.RunID ≠ TrimSpace opts.RunID) :
    d.ReserveAgentRun now
        { RunID := TrimSpace opts.RunID, Agent := TrimSpace opts.Agent,
          Message := TrimSpace opts.Message,
          Tags := if TrimSpace opts.Tags ≠ "" then some (TrimSpace opts.Tags) else none,
          Source := opts.sourceOf, Status := "", Branch := none, CellID := none, Error := none,
          CreatedAt := "", UpdatedAt := "" } =
      (.ok (true, some (reservedRow now opts)),
       { d with agentRuns := d.agentRuns ++ [reservedRow now opts] }) := by
  obtain ⟨h1, h2, _⟩ := hv
  have hany : d.agentRuns.any (fun r => decide (r.RunID = TrimSpace opts.RunID)) = false := by
    rw [List.any_eq_false]
    intro x hx
    simpa using hnew x hx
  unfold DB.ReserveAgentRun
  dsimp only
  rw [TrimSpace_idem, if_neg h1, TrimSpace_idem, if_neg h2, hany]
  simp only [Bool.false_eq_true, if_false, (sourceOf_trimmed opts).1, (sourceOf_trimmed opts).2,
    TrimSpace_idem, reservedRow]

theorem ReserveAgentRun_existing {now : String} {d : DB} {opts : AgentCompletionOptions}
    {existing : AgentRun} (hv : opts.valid)
    (hfind : d.agentRuns.find? (fun r => r.RunID = TrimSpace opts.RunID) = some existing) :
    d.ReserveAgentRun now
        { RunID := TrimSpace opts.RunID, Agent := TrimSpace opts.Agent,
          Message := TrimSpace opts.Message,
          Tags := if TrimSpace opts.Tags ≠ "" then some (TrimSpace opts.Tags) else none,
          Source := opts.sourceOf, Status := "", Branch := none, CellID := none, Error := none,
          CreatedAt := "", UpdatedAt := "" } =
      (.ok (false, some existing), d) := by
  obtain ⟨h1, h2, _⟩ := hv
  have hany : d.agentRuns.any (fun r => decide (r.RunID = TrimSpace opts.RunID)) = true := by
    rw [List.any_eq_true]
    exact ⟨existing, List.mem_of_find?_eq_some hfind,
      @List.find?_some _ (fun (r : AgentRun) => decide (r.RunID = TrimSpace opts.RunID)) _ _
        hfind⟩
  unfold DB.ReserveAgentRun
  dsimp only
  rw [TrimSpace_idem, if_neg h1, TrimSpace_idem, if_neg h2, hany]
  simp only [if_true, DB.GetAgentRun, TrimSpace_idem, if_neg h1, hfind]

theorem FinalizeAgentRun_ok {now : String} {d : DB} {opts : AgentCompletionOptions}
    {status : String} (cellID branch runErr : Option String) (hv : opts.valid)
    (hst : TrimSpace status = status) (hs0 : status ≠ "")
    (hrow : ∃ r ∈ d.agentRuns, r.RunID = TrimSpace opts.RunID) :
    d.FinalizeAgentRun now (TrimSpace opts.RunID) status cellID branch opts.sourceOf runErr =
      .ok { d with
        agentRuns := finalizedRuns d.agentRuns now opts status cellID branch runErr } := by
  obtain ⟨h1, _, _⟩ := hv
  obtain ⟨r, hr, hrid⟩ := hrow
  have hany : d.agentRuns.any (fun r => decide (r.RunID = TrimSpace opts.RunID)) = true := by
    rw [List.any_eq_true]
    exact ⟨r, hr, by simpa using hrid⟩
  unfold DB.FinalizeAgentRun
  dsimp only
  rw [TrimSpace_idem, if_neg h1, hst, if_neg hs0, hany]
  simp only [if_true, (sourceOf_trimmed opts).1, (sourceOf_trimmed opts).2, if_false,
    finalizedRuns]

theorem finalizedRuns_find (runs : List AgentRun) (now : String) (opts : AgentCompletionOptions)
    (status : String) (cellID branch runErr : Option String) :
    (finalizedRuns runs now opts status cellID branch runErr).find?
        (fun r => r.RunID = TrimSpace opts.RunID) =
      (runs.find? (fun r => r.RunID = TrimSpace opts.RunID)).map
        (finalizeRow now status cellID branch opts.sourceOf runErr) := by
  unfold finalizedRuns
  induction runs with
  | nil => rfl
  | cons x xs ih =>
    by_cases hx : x.RunID = TrimSpace opts.RunID
    · simp [List.find?_cons, hx, finalizeRow]
    · simp only [List.map_cons, List.find?_cons, hx, if_false, decide_False]
      exact ih

theorem finalizedRuns_find_other (runs : List AgentRun) (now : String)
    (opts : AgentCompletionOptions) (status : String) (cellID branch runErr : Option String)
    {other : String} (h : other ≠ TrimSpace opts.RunID) :
    (finalizedRuns runs now opts status cellID branch runErr).find?
        (fun r => r.RunID = other) = runs.find? (fun r => r.RunID = other) := by
  unfold finalizedRuns
  induction runs with
  | nil => rfl
  | cons x xs ih =>
    by_cases hx : x.RunID = TrimSpace opts.RunID
    · have hxo : x.RunID ≠ other := fun e => h (e.symm.trans hx)
      have hfo : (finalizeRow now status cellID branch opts.sourceOf runErr x).RunID ≠ other :=
        hxo
      rw [List.map_cons, if_pos hx, List.find?_cons, List.find?_cons]
      simp only [hxo, hfo, decide_False]
      exact ih
    · simp only [List.map_cons, List.find?_cons, hx, if_false]
      rw [ih]

/-- The row of a run after its reservation and its finalization. -/
theorem GetAgentRun_finalized {d : DB} {now : String} {opts : AgentCompletionOptions}
    (status : String) (cellID branch runErr : Option String) (hv : opts.valid)
    (hnew : ∀ r ∈ d.agentRuns, r.RunID ≠ TrimSpace opts.RunID) (d2 : DB)
    (hruns : d2.agentRuns = d.agentRuns ++ [reservedRow now opts]) :
    DB.GetAgentRun
        { d2 with agentRuns := finalizedRuns d2.agentRuns now opts status cellID branch runErr }
        opts.RunID =
      .ok (finalizeRow now status cellID branch opts.sourceOf runErr (reservedRow now opts)) := by
  unfold DB.GetAgentRun
  dsimp only
  rw [if_neg hv.1, finalizedRuns_find, hruns, find?_append_new]
  · simp [reservedRow]
  · intro y hy
    simpa using hnew y hy

/-! ## Agent completion -/

theorem find?_none_of_new {runs : List AgentRun} {runID : String}
    (h : runs.find? (fun r => r.RunID = runID) = none) : ∀ r ∈ runs, r.RunID ≠ runID := by
  intro r hr
  have := List.find?_eq_none.mp h r hr
  simpa using this

/-- A report that fails a check made before the reservation: an error, the zero
result, and the state as it was. -/
theorem HandleAgentCompletion_invalid (svc : Service) (now : String)
    (opts : AgentCompletionOptions) (w : World) (h : ¬ opts.valid) :
    ∃ err, HandleAgentCompletion svc now opts w = ((AgentCompletionResult.zero, some err), w) := by
  unfold HandleAgentCompletion
  dsimp only
  by_cases h1 : TrimSpace opts.RunID = ""
  · exact ⟨_, by rw [if_pos h1]⟩
  · rw [if_neg h1]
    by_cases h2 : TrimSpace opts.Agent = ""
    · exact ⟨_, by rw [if_pos h2]⟩
    · rw [if_neg h2]
      by_cases h3 : TrimSpace opts.Message = ""
      · exact ⟨_, by rw [if_pos h3]⟩
      · exact absurd ⟨h1, h2, h3⟩ h

/-- A report of a run that has a row: the answer is read off the row, and the
state is as it was. -/
theorem HandleAgentCompletion_duplicate (svc : Service) (now : String)
    {opts : AgentCompletionOptions} {w : World} {existing : AgentRun} (hv : opts.valid)
    (hfind : w.db.agentRuns.find? (fun r => r.RunID = TrimSpace opts.RunID) = some existing) :
    HandleAgentCompletion svc now opts w = ((resultFromDuplicate (some existing), none), w) := by
  have hres := @ReserveAgentRun_existing now w.db opts existing hv hfind
  simp only [AgentCompletionOptions.sourceOf] at hres
  unfold HandleAgentCompletion
  dsimp only
  rw [if_neg hv.1, if_neg hv.2.1, if_neg hv.2.2, hres]

theorem reserve_row {w w2 : World} {now : String} {opts : AgentCompletionOptions}
    (h : w2.db.agentRuns = (w.reserve now opts).db.agentRuns) :
    ∃ r ∈ w2.db.agentRuns, r.RunID = TrimSpace opts.RunID := by
  rw [h]
  exact ⟨reservedRow now opts, by simp [World.reserve], rfl⟩

theorem HandleAgentCompletion_error {svc : Service} {now : String}
    {opts : AgentCompletionOptions} {w w2 : World} {active createErr : String}
    (inv : w.db.Inv active) (hv : opts.valid)
    (hnew : ∀ r ∈ w.db.agentRuns, r.RunID ≠ TrimSpace opts.RunID)
    (hc : CreateCellIfChanged svc now opts.snap (w.reserve now opts) = (.error createErr, w2)) :
    HandleAgentCompletion svc now opts w =
      ((failedResult (TrimSpace opts.RunID) opts.sourceOf createErr, some createErr),
       w2.finalize now opts AgentCompletionStatusFailed none none (some createErr)) := by
  obtain ⟨_, hruns, _⟩ := CreateCellIfChanged_any
    (show (w.reserve now opts).db.Inv active from inv.runs _) hc
  have hres := @ReserveAgentRun_new now w.db opts hv hnew
  have hfin := @FinalizeAgentRun_ok now w2.db opts AgentCompletionStatusFailed none none
    (some createErr) hv (by decide) (by decide) (reserve_row hruns)
  simp only [AgentCompletionOptions.sourceOf] at hres hfin
  simp only [AgentCompletionOptions.snap, AgentCompletionOptions.sourceOf, World.reserve] at hc
  unfold HandleAgentCompletion
  dsimp only
  rw [if_neg hv.1, if_neg hv.2.1, if_neg hv.2.2, hres]
  dsimp only
  rw [hc]
  dsimp only
  rw [hfin]
  rfl

theorem HandleAgentCompletion_unchanged {svc : Service} {now : String}
    {opts : AgentCompletionOptions} {w w2 : World} {active : String}
    (inv : w.db.Inv active) (hv : opts.valid)
    (hnew : ∀ r ∈ w.db.agentRuns, r.RunID ≠ TrimSpace opts.RunID)
    (hc : CreateCellIfChanged svc now opts.snap (w.reserve now opts) = (.ok none, w2)) :
    HandleAgentCompletion svc now opts w =
      (({ Status := AgentCompletionStatusNoChange, RunID := TrimSpace opts.RunID, CellID := none,
          Branch := active, Source := opts.sourceOf, Error := "" }, none),
       w2.finalize now opts AgentCompletionStatusNoChange none (some active) none) := by
  obtain ⟨inv2, hruns, _⟩ := CreateCellIfChanged_any
    (show (w.reserve now opts).db.Inv active from inv.runs _) hc
  have hres := @ReserveAgentRun_new now w.db opts hv hnew
  have hfin := @FinalizeAgentRun_ok now w2.db opts AgentCompletionStatusNoChange none
    (some active) none hv (by decide) (by decide) (reserve_row hruns)
  simp only [AgentCompletionOptions.sourceOf] at hres hfin
  simp only [AgentCompletionOptions.snap, AgentCompletionOptions.sourceOf, World.reserve] at hc
  unfold HandleAgentCompletion
  dsimp only
  rw [if_neg hv.1, if_neg hv.2.1, if_neg hv.2.2, hres]
  dsimp only
  rw [hc]
  dsimp only
  rw [inv2.activeBranch now]
  dsimp only
  rw [hfin]
  rfl

theorem HandleAgentCompletion_created {svc : Service} {now : String}
    {opts : AgentCompletionOptions} {w w2 : World} {active : String} {cell : Cell}
    (inv : w.db.Inv active) (hv : opts.valid)
    (hnew : ∀ r ∈ w.db.agentRuns, r.RunID ≠ TrimSpace opts.RunID)
    (hc : CreateCellIfChanged svc now opts.snap (w.reserve now opts) = (.ok (some cell), w2)) :
    HandleAgentCompletion svc now opts w =
      (({ Status := AgentCompletionStatusCreated, RunID := TrimSpace opts.RunID,
          CellID := some cell.ID, Branch := TrimSpace cell.Branch, Source := opts.sourceOf,
          Error := "" }, none),
       w2.finalize now opts AgentCompletionStatusCreated (some cell.ID)
         (some (TrimSpace cell.Branch)) none) := by
  obtain ⟨_, hruns, _⟩ := CreateCellIfChanged_any
    (show (w.reserve now opts).db.Inv active from inv.runs _) hc
  have hres := @ReserveAgentRun_new now w.db opts hv hnew
  have hfin := @FinalizeAgentRun_ok now w2.db opts AgentCompletionStatusCreated (some cell.ID)
    (some (TrimSpace cell.Branch)) none hv (by decide) (by decide) (reserve_row hruns)
  simp only [AgentCompletionOptions.sourceOf] at hres hfin
  simp only [AgentCompletionOptions.snap, AgentCompletionOptions.sourceOf, World.reserve] at hc
  unfold HandleAgentCompletion
  dsimp only
  rw [if_neg hv.1, if_neg hv.2.1, if_neg hv.2.2, hres]
  dsimp only
  rw [hc]
  dsimp only
  rw [hfin]
  rfl

/-- A report keeps the invariant, whatever it returns. -/
theorem HandleAgentCompletion_inv (svc : Service) (now : String) (opts : AgentCompletionOptions)
    {w : World} {active : String} (inv : w.db.Inv active) :
    (HandleAgentCompletion svc now opts w).2.db.Inv active := by
  by_cases hv : opts.valid
  · cases hfind : w.db.agentRuns.find? (fun r => r.RunID = TrimSpace opts.RunID) with
    | some existing =>
      rw [HandleAgentCompletion_duplicate svc now hv hfind]
      exact inv
    | none =>
      have hnew := find?_none_of_new hfind
      cases hc : CreateCellIfChanged svc now opts.snap (w.reserve now opts) with
      | mk r w2 =>
        have inv2 := (CreateCellIfChanged_any
          (show (w.reserve now opts).db.Inv active from inv.runs _) hc).1
        cases r with
        | error e =>
          rw [HandleAgentCompletion_error inv hv hnew hc]
          exact inv2.runs _
        | ok oc =>
          cases oc with
          | none =>
            rw [HandleAgentCompletion_unchanged inv hv hnew hc]
            exact inv2.runs _
          | some cell =>
            rw [HandleAgentCompletion_created inv hv hnew hc]
            exact inv2.runs _
  · obtain ⟨err, he⟩ := HandleAgentCompletion_invalid svc now opts w hv
    rw [he]
    exact inv

/-- Every state reached with agent completions among the calls meets the invariant. -/
theorem AgentReachable.meetsInv {svc : Service} {w : World} (h : AgentReachable svc w) :
    ∃ active, w.db.Inv active := by
  induction h with
  | plain hr => exact hr.inv
  | call now op _ hrun ih =>
    obtain ⟨a, inv⟩ := ih
    exact Op.run_inv inv hrun
  | edit fs _ ih => exact ih
  | completion now opts _ ih =>
    obtain ⟨a, inv⟩ := ih
    exact ⟨a, HandleAgentCompletion_inv svc now opts inv⟩

theorem GetAgentRun_find {d : DB} {runID : String} {run : AgentRun}
    (h : d.GetAgentRun runID = .ok run) :
    d.agentRuns.find? (fun r => r.RunID = TrimSpace runID) = some run := by
  unfold DB.GetAgentRun at h
  dsimp only at h
  split at h
  · simp at h
  · split at h
    · rename_i r hr
      simp only [Except.ok.injEq] at h
      rw [← h]
      exact hr
    · simp at h

theorem GetAgentRun_of_find {d : DB} {runID : String} {run : AgentRun}
    (hne : TrimSpace runID ≠ "")
    (h : d.agentRuns.find? (fun r => r.RunID = TrimSpace runID) = some run) :
    d.GetAgentRun runID = .ok run := by
  unfold DB.GetAgentRun
  dsimp only
  rw [if_neg hne, h]

theorem reserve_runs {w w2 : World} {now : String} {opts : AgentCompletionOptions}
    (h : w2.db.agentRuns = (w.reserve now opts).db.agentRuns) :
    w2.db.agentRuns = w.db.agentRuns ++ [reservedRow now opts] := h

/-- A report of a run that has a row leaves the state as it was, whether or not
it passes the checks. -/
theorem later_report (svc : Service) {w1 : World} {row : AgentRun} {runID : String}
    (hrow : w1.db.agentRuns.find? (fun r => r.RunID = runID) = some row)
    (c : String × AgentCompletionOptions) (hc : TrimSpace c.2.RunID = runID) :
    (HandleAgentCompletion svc c.1 c.2 w1).2 = w1 ∧
    (c.2.valid → HandleAgentCompletion svc c.1 c.2 w1 =
      ((resultFromDuplicate (some row), none), w1)) ∧
    (¬ c.2.valid → ∃ err, HandleAgentCompletion svc c.1 c.2 w1 =
      ((AgentCompletionResult.zero, some err), w1)) := by
  subst hc
  have hdup : c.2.valid → HandleAgentCompletion svc c.1 c.2 w1 =
      ((resultFromDuplicate (some row), none), w1) :=
    fun hv => HandleAgentCompletion_duplicate svc c.1 hv hrow
  refine ⟨?_, hdup, HandleAgentCompletion_invalid svc c.1 c.2 w1⟩
  by_cases hv : c.2.valid
  · rw [hdup hv]
  · obtain ⟨err, he⟩ := HandleAgentCompletion_invalid svc c.1 c.2 w1 hv
    rw [he]

theorem completions_same (svc : Service) {w1 : World} {row : AgentRun} {runID : String}
    (hrow : w1.db.agentRuns.find? (fun r => r.RunID = runID) = some row) :
    ∀ calls : List (String × AgentCompletionOptions),
      (∀ c ∈ calls, TrimSpace c.2.RunID = runID) →
      completions svc calls w1 =
        (calls.map (fun c => (HandleAgentCompletion svc c.1 c.2 w1).1), w1) := by
  intro calls
  induction calls with
  | nil => intro _; rfl
  | cons c rest ih =>
    intro hall
    have h1 := (later_report svc hrow c (hall c (List.mem_cons_self _ _))).1
    have h2 := ih (fun x hx => hall x (List.mem_cons_of_mem _ hx))
    obtain ⟨now, opts⟩ := c
    simp only [completions, List.map_cons]
    dsimp only at h1
    rw [h1, h2]

/-- C15, amended: take a state reached with agent completions among the calls,
a report that passes the checks made before the reservation (trimmed run id,
agent and message not empty), and any list of later reports with the same
trimmed run id. After the first report the run has a row. Every later report
leaves the state exactly as the first report left it, so it creates no cell and
leaves the row unchanged: one that passes the checks returns, with no error, the
status `duplicate` with the run id and the source of the row, its cell id when
that is not blank, and its branch and error text trimmed; one that fails a check
returns an error and the zero result. When the run had no row before the first
report, that report returns `created`, `no_change` or `failed`, adds at most one
cell (with `created` exactly one, whose id it returns), and a duplicate carries
the cell id, branch and source the first report returned and its error text
trimmed. When the run had a row, the first report is itself such a duplicate. -/
theorem agent_run_at_most_once (svc : Service) (w : World) (now : String)
    (opts : AgentCompletionOptions) (calls : List (String × AgentCompletionOptions))
    (h : AgentReachable svc w) (hv : opts.valid)
    (hcalls : ∀ c ∈ calls, TrimSpace c.2.RunID = TrimSpace opts.RunID) :
    ∃ row, (HandleAgentCompletion svc now opts w).2.db.GetAgentRun opts.RunID = .ok row ∧
      completions svc calls (HandleAgentCompletion svc now opts w).2 =
        (calls.map (fun c =>
          (HandleAgentCompletion svc c.1 c.2 (HandleAgentCompletion svc now opts w).2).1),
         (HandleAgentCompletion svc now opts w).2) ∧
      (∀ c ∈ calls, c.2.valid →
        HandleAgentCompletion svc c.1 c.2 (HandleAgentCompletion svc now opts w).2 =
          ((resultFromDuplicate (some row), none), (HandleAgentCompletion svc now opts w).2)) ∧
      (∀ c ∈ calls, ¬ c.2.valid → ∃ err,
        HandleAgentCompletion svc c.1 c.2 (HandleAgentCompletion svc now opts w).2 =
          ((AgentCompletionResult.zero, some err), (HandleAgentCompletion svc now opts w).2)) ∧
      ((∀ r ∈ w.db.agentRuns, r.RunID ≠ TrimSpace opts.RunID) →
        ((HandleAgentCompletion svc now opts w).1.1.Status = "created" ∨
          (HandleAgentCompletion svc now opts w).1.1.Status = "no_change" ∨
          (HandleAgentCompletion svc now opts w).1.1.Status = "failed") ∧
        ((HandleAgentCompletion svc now opts w).2.db.cellIDs = w.db.cellIDs ∨
          ∃ id, id ∉ w.db.cellIDs ∧
            (HandleAgentCompletion svc now opts w).2.db.cellIDs = w.db.cellIDs ++ [id]) ∧
        ((HandleAgentCompletion svc now opts w).1.1.Status = "created" →
          ∃ id, (HandleAgentCompletion svc now opts w).1.1.CellID = some id ∧
            id ∉ w.db.cellIDs ∧
            (HandleAgentCompletion svc now opts w).2.db.cellIDs = w.db.cellIDs ++ [id]) ∧
        resultFromDuplicate (some row) =
          { Status := "duplicate", RunID := TrimSpace opts.RunID,
            CellID := (HandleAgentCompletion svc now opts w).1.1.CellID,
            Branch := (HandleAgentCompletion svc now opts w).1.1.Branch,
            Source := (HandleAgentCompletion svc now opts w).1.1.Source,
            Error := TrimSpace (HandleAgentCompletion svc now opts w).1.1.Error }) ∧
      (∀ existing, w.db.GetAgentRun opts.RunID = .ok existing →
        row = existing ∧
        HandleAgentCompletion svc now opts w =
          ((resultFromDuplicate (some existing), none), w)) := by
  obtain ⟨active, inv⟩ := h.meetsInv
  have key : ∀ row, (HandleAgentCompletion svc now opts w).2.db.GetAgentRun opts.RunID =
      .ok row →
      completions svc calls (HandleAgentCompletion svc now opts w).2 =
        (calls.map (fun c =>
          (HandleAgentCompletion svc c.1 c.2 (HandleAgentCompletion svc now opts w).2).1),
         (HandleAgentCompletion svc now opts w).2) ∧
      (∀ c ∈ calls, c.2.valid →
        HandleAgentCompletion svc c.1 c.2 (HandleAgentCompletion svc now opts w).2 =
          ((resultFromDuplicate (some row), none), (HandleAgentCompletion svc now opts w).2)) ∧
      (∀ c ∈ calls, ¬ c.2.valid → ∃ err,
        HandleAgentCompletion svc c.1 c.2 (HandleAgentCompletion svc now opts w).2 =
          ((AgentCompletionResult.zero, some err), (HandleAgentCompletion svc now opts w).2)) := by
    intro row hget
    have hfind := GetAgentRun_find hget
    exact ⟨completions_same svc hfind calls hcalls,
      fun c hc => (later_report svc hfind c (hcalls c hc)).2.1,
      fun c hc => (later_report svc hfind c (hcalls c hc)).2.2⟩
  cases hfind : w.db.agentRuns.find? (fun r => r.RunID = TrimSpace opts.RunID) with
  | some existing =>
    have hdup := HandleAgentCompletion_duplicate svc now hv hfind
    have hget : (HandleAgentCompletion svc now opts w).2.db.GetAgentRun opts.RunID =
        .ok existing := by
      rw [hdup]
      exact GetAgentRun_of_find hv.1 hfind
    obtain ⟨k1, k2, k3⟩ := key existing hget
    refine ⟨existing, hget, k1, k2, k3, ?_, ?_⟩
    · intro hnew
      have hrid := @List.find?_some _
        (fun (r : AgentRun) => decide (r.RunID = TrimSpace opts.RunID)) _ _ hfind
      exact absurd (by simpa using hrid) (hnew existing (List.mem_of_find?_eq_some hfind))
    · intro ex hex
      have := GetAgentRun_find hex
      rw [hfind] at this
      simp only [Option.some.injEq] at this
      subst this
      exact ⟨rfl, hdup⟩
  | none =>
    have hnew := find?_none_of_new hfind
    have hnoex : ∀ existing, w.db.GetAgentRun opts.RunID = .ok existing →
        False := by
      intro ex hex
      have := GetAgentRun_find hex
      rw [hfind] at this
      simp at this
    have invr : (w.reserve now opts).db.Inv active := inv.runs _
    cases hc : CreateCellIfChanged svc now opts.snap (w.reserve now opts) with
    | mk r w2 =>
      obtain ⟨inv2, hruns, hcells⟩ := CreateCellIfChanged_any invr hc
      cases r with
      | error e =>
        have heq := HandleAgentCompletion_error inv hv hnew hc
        have hget : (HandleAgentCompletion svc now opts w).2.db.GetAgentRun opts.RunID =
            .ok (finalizeRow now AgentCompletionStatusFailed none none opts.sourceOf (some e)
              (reservedRow now opts)) := by
          rw [heq]
          exact GetAgentRun_finalized AgentCompletionStatusFailed none none (some e) hv hnew
            w2.db (reserve_runs hruns)
        obtain ⟨k1, k2, k3⟩ := key _ hget
        refine ⟨_, hget, k1, k2, k3, ?_, fun ex hex => (hnoex ex hex).elim⟩
        intro _
        rw [heq]
        refine ⟨Or.inr (Or.inr rfl), hcells, ?_, rfl⟩
        intro hs
        exact absurd hs (by decide : AgentCompletionStatusFailed ≠ "created")
      | ok oc =>
        obtain ⟨_, heff⟩ := CreateCellIfChanged_effect invr hc
        cases oc with
        | none =>
          have heq := HandleAgentCompletion_unchanged inv hv hnew hc
          have hget : (HandleAgentCompletion svc now opts w).2.db.GetAgentRun opts.RunID =
              .ok (finalizeRow now AgentCompletionStatusNoChange none (some active) opts.sourceOf none
                (reservedRow now opts)) := by
            rw [heq]
            exact GetAgentRun_finalized AgentCompletionStatusNoChange none (some active) none
              hv hnew w2.db (reserve_runs hruns)
          obtain ⟨k1, k2, k3⟩ := key _ hget
          refine ⟨_, hget, k1, k2, k3, ?_, fun ex hex => (hnoex ex hex).elim⟩
          intro _
          rw [heq]
          refine ⟨Or.inr (Or.inl rfl), hcells, ?_, ?_⟩
          · intro hs
            exact absurd hs (by decide : AgentCompletionStatusNoChange ≠ "created")
          · show resultFromDuplicate (some (finalizeRow now AgentCompletionStatusNoChange none
              (some active) opts.sourceOf none (reservedRow now opts))) = _
            simp only [resultFromDuplicate, finalizeRow, reservedRow, inv.trimmed,
              AgentCompletionStatusDuplicate]
            have hte : TrimSpace "" = "" := by decide
            simp [hte]
        | some cell =>
          have heq := HandleAgentCompletion_created inv hv hnew hc
          have hget : (HandleAgentCompletion svc now opts w).2.db.GetAgentRun opts.RunID =
              .ok (finalizeRow now AgentCompletionStatusCreated (some cell.ID)
              (some (TrimSpace cell.Branch)) opts.sourceOf none
                (reservedRow now opts)) := by
            rw [heq]
            exact GetAgentRun_finalized AgentCompletionStatusCreated (some cell.ID)
              (some (TrimSpace cell.Branch)) none hv hnew w2.db (reserve_runs hruns)
          obtain ⟨k1, k2, k3⟩ := key _ hget
          refine ⟨_, hget, k1, k2, k3, ?_, fun ex hex => (hnoex ex hex).elim⟩
          intro _
          rcases heff with ⟨hnone, _⟩ | ⟨cell1, hcell, hcr⟩
          · simp at hnone
          · simp only [Option.some.injEq] at hcell
            subst hcell
            obtain ⟨_, _, _, _, hfresh, hgetc, _, _, _, hids, _⟩ := hcr
            have hnb : TrimSpace cell.ID ≠ "" := inv2.ids cell (GetCell_ID hgetc).2
            rw [heq]
            refine ⟨Or.inl rfl, hcells, fun _ => ⟨cell.ID, rfl, hfresh, hids⟩, ?_⟩
            show resultFromDuplicate (some (finalizeRow now AgentCompletionStatusCreated
              (some cell.ID) (some (TrimSpace cell.Branch)) opts.sourceOf none
              (reservedRow now opts))) = _
            simp only [resultFromDuplicate, finalizeRow, reservedRow, TrimSpace_idem,
              AgentCompletionStatusDuplicate]
            have hte : TrimSpace "" = "" := by decide
            simp [hnb, hte]

theorem agent_run_at_most_once_witness :
    ∃ row, reportedWorld.db.GetAgentRun "run-1" = .ok row ∧
      (completions exampleService exampleRetries reportedWorld).2 = reportedWorld ∧
      (∀ c ∈ exampleRetries, c.2.valid →
        HandleAgentCompletion exampleService c.1 c.2 reportedWorld =
          ((resultFromDuplicate (some row), none), reportedWorld)) := by
  obtain ⟨row, hget, hk, hdup, _⟩ :=
    agent_run_at_most_once exampleService world1Edited "t2"
      (reportOptions "run-1" "codex" "second") exampleRetries
      (AgentReachable.plain (Reachable.edit _ world1_reachable))
      ⟨by decide, by decide, by decide⟩ (by decide)
  refine ⟨row, hget, ?_, hdup⟩
  show (completions exampleService exampleRetries (HandleAgentCompletion exampleService "t2"
    (reportOptions "run-1" "codex" "second") world1Edited).2).2 = _
  rw [hk]
  rfl

/-- C15 as stated fails: after the run `run-1` was reported and a cell created,
a later report with the same run id and a blank message returns an error and
the zero result, whose status is not `duplicate`. -/
theorem agent_retry_with_blank_message :
    AgentReachable exampleService world1Edited ∧
    (HandleAgentCompletion exampleService "t2" (reportOptions "run-1" "codex" "second")
      world1Edited).1 =
      ({ Status := "created", RunID := "run-1", CellID := some "c_000002", Branch := "main",
         Source := "agent_complete", Error := "" }, none) ∧
    TrimSpace (reportOptions "run-1" "codex" "  ").RunID = "run-1" ∧
    (HandleAgentCompletion exampleService "t3" (reportOptions "run-1" "codex" "  ")
      reportedWorld).1 = (AgentCompletionResult.zero, some "message is required") ∧
    AgentCompletionResult.zero.Status ≠ AgentCompletionStatusDuplicate :=
  ⟨AgentReachable.plain (Reachable.edit _ world1_reachable), by decide, by decide, by decide,
    by decide⟩

/-- C16: in a state reached with agent completions among the calls, a report that
passes the checks and whose run has no row yet (so the call reserves the run)
leaves a row for the run whose status is the status returned and is `created`,
`no_change` or `failed`, not `running`. With `created` the row and the result
hold the id and the branch of a cell that is new and is stored, and no error is
returned; with `no_change` the row holds no cell id and the active branch, no
cell is added and no error is returned; with `failed` the row holds the error
text, which is also returned as the error. -/
theorem agent_run_terminal (svc : Service) (w : World) (now : String)
    (opts : AgentCompletionOptions) (active : String)
    (h : AgentReachable svc w)
    (hact : w.db.GetMeta "active_branch" = .ok active)
    (hv : opts.valid)
    (hnew : ∀ r ∈ w.db.agentRuns, r.RunID ≠ TrimSpace opts.RunID) :
    ∃ row, (HandleAgentCompletion svc now opts w).2.db.GetAgentRun opts.RunID = .ok row ∧
      row.RunID = TrimSpace opts.RunID ∧
      row.Status = (HandleAgentCompletion svc now opts w).1.1.Status ∧
      (row.Status = "created" ∨ row.Status = "no_change" ∨ row.Status = "failed") ∧
      row.Status ≠ agentRunStatusRunning ∧
      (row.Status = "created" → ∃ cell,
        (HandleAgentCompletion svc now opts w).2.db.GetCell cell.ID = .ok cell ∧
        cell.ID ∉ w.db.cellIDs ∧ cell.Branch = active ∧
        row.CellID = some cell.ID ∧ row.Branch = some cell.Branch ∧ row.Error = none ∧
        (HandleAgentCompletion svc now opts w).1.1.CellID = some cell.ID ∧
        (HandleAgentCompletion svc now opts w).1.1.Branch = cell.Branch ∧
        (HandleAgentCompletion svc now opts w).1.2 = none) ∧
      (row.Status = "no_change" →
        row.CellID = none ∧ row.Branch = some active ∧ row.Error = none ∧
        (HandleAgentCompletion svc now opts w).2.db.GetMeta "active_branch" = .ok active ∧
        (HandleAgentCompletion svc now opts w).2.db.cellIDs = w.db.cellIDs ∧
        (HandleAgentCompletion svc now opts w).1.1.CellID = none ∧
        (HandleAgentCompletion svc now opts w).1.1.Branch = active ∧
        (HandleAgentCompletion svc now opts w).1.2 = none) ∧
      (row.Status = "failed" → ∃ errText,
        row.Error = some errText ∧ row.CellID = none ∧
        (HandleAgentCompletion svc now opts w).1.1.Error = errText ∧
        (HandleAgentCompletion svc now opts w).1.2 = some errText) := by
  obtain ⟨a, inv⟩ := h.meetsInv
  have hactive := inv.active_unique hact
  subst hactive
  have invr : (w.reserve now opts).db.Inv active := inv.runs _
  cases hc : CreateCellIfChanged svc now opts.snap (w.reserve now opts) with
  | mk r w2 =>
    obtain ⟨inv2, hruns, _⟩ := CreateCellIfChanged_any invr hc
    cases r with
    | error e =>
      rw [HandleAgentCompletion_error inv hv hnew hc]
      refine ⟨_, GetAgentRun_finalized AgentCompletionStatusFailed none none (some e) hv hnew
        w2.db (reserve_runs hruns), rfl, rfl, Or.inr (Or.inr rfl), (by decide : AgentCompletionStatusFailed ≠ agentRunStatusRunning), ?_, ?_, ?_⟩
      · intro hs
        exact absurd hs (by decide : AgentCompletionStatusFailed ≠ "created")
      · intro hs
        exact absurd hs (by decide : AgentCompletionStatusFailed ≠ "no_change")
      · intro _
        exact ⟨e, rfl, rfl, rfl, rfl⟩
    | ok oc =>
      obtain ⟨_, heff⟩ := CreateCellIfChanged_effect invr hc
      cases oc with
      | none =>
        rw [HandleAgentCompletion_unchanged inv hv hnew hc]
        refine ⟨_, GetAgentRun_finalized AgentCompletionStatusNoChange none (some active) none
          hv hnew w2.db (reserve_runs hruns), rfl, rfl, Or.inr (Or.inl rfl), (by decide : AgentCompletionStatusNoChange ≠ agentRunStatusRunning),
          ?_, ?_, ?_⟩
        · intro hs
          exact absurd hs (by decide : AgentCompletionStatusNoChange ≠ "created")
        · intro _
          rcases heff with ⟨_, hdb⟩ | ⟨cell, hcell, _⟩
          · refine ⟨rfl, rfl, rfl, inv2.activeMeta, ?_, rfl, rfl, rfl⟩
            show w2.db.cellIDs = w.db.cellIDs
            rw [hdb]
            rfl
          · simp at hcell
        · intro hs
          exact absurd hs (by decide : AgentCompletionStatusNoChange ≠ "failed")
      | some cell =>
        rw [HandleAgentCompletion_created inv hv hnew hc]
        rcases heff with ⟨hnone, _⟩ | ⟨cell1, hcell, hcr⟩
        · simp at hnone
        · simp only [Option.some.injEq] at hcell
          subst hcell
          obtain ⟨_, _, hbr, _, hfresh, hget, _⟩ := hcr
          have htrim : TrimSpace cell.Branch = cell.Branch := by
            rw [hbr]; exact inv.trimmed
          refine ⟨_, GetAgentRun_finalized AgentCompletionStatusCreated (some cell.ID)
            (some (TrimSpace cell.Branch)) none hv hnew w2.db (reserve_runs hruns), rfl, rfl,
            Or.inl rfl, (by decide : AgentCompletionStatusCreated ≠ agentRunStatusRunning), ?_, ?_, ?_⟩
          · intro _
            exact ⟨cell, hget, hfresh, hbr, rfl, congrArg some htrim, rfl, rfl, htrim, rfl⟩
          · intro hs
            exact absurd hs (by decide : AgentCompletionStatusCreated ≠ "no_change")
          · intro hs
            exact absurd hs (by decide : AgentCompletionStatusCreated ≠ "failed")

theorem agent_run_terminal_witness :
    ∃ row, (HandleAgentCompletion exampleService "t2" (reportOptions "run-1" "codex" "second")
        world1Edited).2.db.GetAgentRun "run-1" = .ok row ∧
      row.RunID = "run-1" ∧ row.Status = "created" ∧ row.CellID = some "c_000002" ∧
      row.Branch = some "main" := by
  obtain ⟨row, hget, hid, hst, _, _, hcreated, _, _⟩ :=
    agent_run_terminal exampleService world1Edited "t2" (reportOptions "run-1" "codex" "second")
      "main" (AgentReachable.plain (Reachable.edit _ world1_reachable)) rfl
      ⟨by decide, by decide, by decide⟩ (by decide)
  have hs : (HandleAgentCompletion exampleService "t2" (reportOptions "run-1" "codex" "second")
      world1Edited).1.1.Status = "created" := by decide
  have hc : (HandleAgentCompletion exampleService "t2" (reportOptions "run-1" "codex" "second")
      world1Edited).1.1.CellID = some "c_000002" := by decide
  rw [hs] at hst
  obtain ⟨cell, _, _, hbr, hcid, hrb, _, hres, _, _⟩ := hcreated hst
  refine ⟨row, hget, hid, hst, ?_, ?_⟩
  · rw [hcid, ← hres, hc]
  · rw [hrb, hbr]

/-! ## The files a restore writes -/

theorem Store.Read_ok_iff (s : Store) (fs : FS) (hash : String) (data : Bytes) :
    s.Read fs hash = .ok data ↔
      ∃ node, fs.lookup (s.blobPath hash) = some node ∧ node.symlink = false ∧
        node.data = data := by
  unfold Store.Read ReadFile
  cases hl : fs.lookup (s.blobPath hash) with
  | none =>
    by_cases hd : fs.isDir (s.blobPath hash) = true <;> simp [hd]
  | some node =>
    cases hs : node.symlink with
    | true => simp [hs]
    | false => simp [hs]

theorem WriteFile_lookup_same {fs fs1 : FS} {p : Path} {data : Bytes} {perm : Nat}
    (h : WriteFile fs p data perm = .ok fs1) :
    ∃ node, fs1.lookup p = some node ∧ node.data = data ∧ node.symlink = false := by
  unfold WriteFile at h
  split at h
  · simp at h
  · split at h
    · split at h
      · simp at h
      · simp only [Except.ok.injEq] at h
        rw [← h]
        exact ⟨_, FS.lookup_set_same fs _ _, rfl, rfl⟩
    · simp only [Except.ok.injEq] at h
      rw [← h]
      exact ⟨_, FS.lookup_set_same fs _ _, rfl, rfl⟩

/-- After a successful first loop of the restore, every target path holds the
bytes read from the store for its hash, when no two targets share a place and no
blob lies at a target's place. -/
theorem writeTargets_written (s : Store) :
    ∀ (entries : List ManifestEntry) (fs fsW : FS),
      writeTargets s fs entries = (.ok (), fsW) →
      entries.Pairwise (fun a b => Join [a.Path] ≠ Join [b.Path]) →
      (∀ a ∈ entries, ∀ b ∈ entries, s.blobPath b.Hash ≠ Join [a.Path]) →
      ∀ e ∈ entries, ∃ data node, s.Read fs e.Hash = .ok data ∧
        fsW.lookup (Join [e.Path]) = some node ∧ node.data = data ∧ node.symlink = false := by
  intro entries
  induction entries with
  | nil => intro _ _ _ _ _ e he; exact absurd he (List.not_mem_nil _)
  | cons entry rest ih =>
    intro fs fsW h hpw hblob e he
    unfold writeTargets at h
    split at h
    · simp at h
    · rename_i data hread
      dsimp only at h
      split at h
      · simp at h
      · rename_i fs1 hmk
        have h1 := MkdirAll_ok hmk
        subst h1
        split at h
        · simp at h
        · rename_i fs2 hwr
          have hrestpw := (List.pairwise_cons.mp hpw).2
          have hhead := (List.pairwise_cons.mp hpw).1
          have hrestblob : ∀ a ∈ rest, ∀ b ∈ rest, s.blobPath b.Hash ≠ Join [a.Path] :=
            fun a ha b hb => hblob a (List.mem_cons_of_mem _ ha) b (List.mem_cons_of_mem _ hb)
          rcases List.mem_cons.mp he with heq | hin
          · subst heq
            obtain ⟨node, hn, hd, hs⟩ := WriteFile_lookup_same hwr
            refine ⟨data, node, hread, ?_, hd, hs⟩
            have hframe := writeTargets_frame s rest fs2
              (fun x hx => (hhead x hx).symm)
            rw [h] at hframe
            exact hframe.trans hn
          · obtain ⟨d2, node, hr2, hn, hd, hs⟩ := ih fs2 fsW h hrestpw hrestblob e hin
            refine ⟨d2, node, ?_, hn, hd, hs⟩
            rw [Store.Read_ok_iff] at hr2 ⊢
            obtain ⟨bn, hbl, hbs, hbd⟩ := hr2
            refine ⟨bn, ?_, hbs, hbd⟩
            rw [← WriteFile_lookup_other hwr
              (hblob entry (List.mem_cons_self _ _) e (List.mem_cons_of_mem _ hin))]
            exact hbl

/-- The second loop of the restore leaves alone every place that is not the
place of a row whose path is missing from the targets. -/
theorem removeStale_frame_stale (targetPaths : List String) {q : Path} :
    ∀ (entries : List ManifestEntry) (fs : FS),
      (∀ e ∈ entries, e.Path ∉ targetPaths → Join [e.Path] ≠ q) →
      (removeStale targetPaths fs entries).2.lookup q = fs.lookup q := by
  intro entries
  induction entries with
  | nil => intro fs _; rfl
  | cons entry rest ih =>
    intro fs hq
    have hrest : ∀ e ∈ rest, e.Path ∉ targetPaths → Join [e.Path] ≠ q :=
      fun e he => hq e (List.mem_cons_of_mem _ he)
    unfold removeStale
    split
    · exact ih fs hrest
    · rename_i hnot
      have hne : q ≠ Join [entry.Path] :=
        fun e => hq entry (List.mem_cons_self _ _) hnot e.symm
      split
      · rename_i fs1 hrm
        rw [ih fs1 hrest]
        exact Remove_lookup_other hrm hne
      · exact ih fs hrest
      · rfl

/-! ## Rows that `Capture` filed -/

theorem captured_Join {sum256 : Bytes → Digest} {e : ManifestEntry}
    (h : capturedRow sum256 e) :
    walkReaches (Join [e.Path]) = true ∧ e.Path = "/".intercalate (Join [e.Path]) := by
  obtain ⟨⟨p, hne, hpl, hw, hp⟩, _⟩ := h
  have hj : Join [e.Path] = p := by rw [hp]; exact Join_intercalate hne hpl
  rw [hj]
  exact ⟨hw, hp⟩

theorem captured_Join_inj {sum256 : Bytes → Digest} {a b : ManifestEntry}
    (ha : capturedRow sum256 a) (hb : capturedRow sum256 b) (h : Join [a.Path] = Join [b.Path]) :
    a.Path = b.Path := by
  rw [(captured_Join ha).2, (captured_Join hb).2, h]

theorem captured_blob {sum256 : Bytes → Digest} {s : Store} {e : ManifestEntry}
    (hs : Join [s.root] = [StateDirName, ObjectsDirName]) (h : capturedRow sum256 e) :
    walkReaches (s.blobPath e.Hash) = false := by
  obtain ⟨_, data, hd⟩ := h
  rw [hd]
  exact walkReaches_blobPath ⟨StateDirName, by rw [hs]; simp, by decide⟩ data

theorem captured_blob_ne {sum256 : Bytes → Digest} {s : Store} {a b : ManifestEntry}
    (hs : Join [s.root] = [StateDirName, ObjectsDirName]) (ha : capturedRow sum256 a)
    (hb : capturedRow sum256 b) : s.blobPath b.Hash ≠ Join [a.Path] := by
  intro e
  have h1 := captured_blob hs hb
  rw [e, (captured_Join ha).1] at h1
  simp at h1

theorem captured_blob_ne_lock {sum256 : Bytes → Digest} {s : Store} {e : ManifestEntry}
    (hs : Join [s.root] = [StateDirName, ObjectsDirName]) (h : capturedRow sum256 e) :
    s.blobPath e.Hash ≠ lockPath := by
  obtain ⟨_, data, hd⟩ := h
  rw [hd, blobPath_hashOf, hs]
  intro e
  have := congrArg List.length e
  rw [show lockPath.length = 2 from by decide] at this
  simp at this

theorem captured_ne_lock {sum256 : Bytes → Digest} {e : ManifestEntry}
    (h : capturedRow sum256 e) : Join [e.Path] ≠ lockPath := by
  intro e1
  have h1 := (captured_Join h).1
  rw [e1] at h1
  exact absurd h1 (by decide)

/-! ## The switch -/

/-- C11: in a reachable state with active branch `a` whose working tree holds no
symbolic link, let the trimmed name `b`
be another branch whose head is `h`, the blob store lie at `.converge/objects`,
and the manifest rows of `h` and of the head of `a` be rows as `Capture` files
them. A successful `SwitchBranch` returns one new cell, the safety cell, which
is the only cell added; its source is `restore_safety`, its branch `a`, its
message `safety snapshot before switch to <b>`. Afterwards the head of `a` is
the safety cell, the head of `b` is still `h`, `meta["active_branch"]` is `b`,
`meta["head_cell"]` is `h`, the target returned is the stored cell `h`, every
path of the manifest of `h` holds in the working tree the bytes the store holds
for its hash, and the next `CreateCell`, whatever the working tree has become,
records `parent_id = h` on branch `b`. -/
theorem switch_between_branches (svc : Service) (w w1 : World) (now name a h : String)
    (r : Option Cell × Cell)
    (hr : Reachable svc w)
    (_hnolink : ∀ e ∈ w.fs, e.2.symlink = false)
    (hact : w.db.GetMeta "active_branch" = .ok a)
    (hne : TrimSpace name ≠ a)
    (hhead : w.db.headOf (TrimSpace name) = some h)
    (hstore : Join [svc.Store.root] = [StateDirName, ObjectsDirName])
    (hrows : ∀ e ∈ w.db.GetManifest h ++ w.db.manifestOf (w.db.headOf a),
      capturedRow svc.sum256 e)
    (hsw : SwitchBranch svc now name w = (.ok r, w1)) :
    ∃ safety, r.1 = some safety ∧
      safety.ID ∉ w.db.cellIDs ∧ w1.db.cellIDs = w.db.cellIDs ++ [safety.ID] ∧
      w1.db.GetCell safety.ID = .ok safety ∧
      safety.Source = "restore_safety" ∧ safety.Branch = a ∧
      safety.Message = "safety snapshot before switch to " ++ TrimSpace name ∧
      w1.db.headOf a = some safety.ID ∧
      w1.db.headOf (TrimSpace name) = some h ∧
      w1.db.GetMeta "active_branch" = .ok (TrimSpace name) ∧
      w1.db.GetMeta "head_cell" = .ok h ∧
      r.2.ID = h ∧ w1.db.GetCell h = .ok r.2 ∧
      w1.db.GetManifest h = w.db.GetManifest h ∧
      (∀ e ∈ w.db.GetManifest h, ∃ data node, svc.Store.Read w1.fs e.Hash = .ok data ∧
        w1.fs.lookup (Join [e.Path]) = some node ∧ node.data = data ∧
        node.symlink = false) ∧
      ∀ (now2 : String) (opts : SnapOptions) (fs : FS) (cell : Cell) (w2 : World),
        CreateCell svc now2 opts { w1 with fs := fs } = (.ok cell, w2) →
          cell.ParentID = some h ∧ cell.Branch = TrimSpace name := by
  obtain ⟨a1, inv⟩ := hr.inv
  have hactive := inv.active_unique hact
  subst hactive
  have inv1 := SwitchBranch_inv inv hsw
  obtain ⟨branch, headID, _, hgb, hbh, _, hcase⟩ := SwitchBranch_shape inv hsw
  have hh : headID = h := by
    have := headOf_of_GetBranch hgb
    rw [hhead, hbh] at this
    exact (Option.some.inj this).symm
  subst hh
  rcases hcase with ⟨heq, _⟩ | ⟨_, safety, w0, fs2, fs3, hr1, hcc, hlock, hrest, hw1, hgt⟩
  · exact absurd heq.symm hne
  obtain ⟨⟨inv0, hhead0, hbr, _, hfresh, hget0, hmsg, hsrc, hoth, hids, hman⟩, _⟩ :=
    CreateCell_effect inv hcc
  have htab := setHeadCellMeta_tables (w0.db.SetMeta "active_branch" (TrimSpace name))
    (some headID)
  have hcells : w1.db.cells = w0.db.cells := by rw [hw1]; exact htab.1
  have hbranches : w1.db.branches = w0.db.branches := by rw [hw1]; exact htab.2.1
  have hentries : w1.db.manifestEntries = w0.db.manifestEntries := by rw [hw1]; exact htab.2.2.1
  have hheadb : w1.db.headOf (TrimSpace name) = some headID := by
    simp only [DB.headOf, DB.GetBranch, hbranches]
    have := hoth (TrimSpace name) hne
    simp only [DB.GetBranch] at this
    rw [this]
    have := hhead
    simp only [DB.headOf, DB.GetBranch] at this
    exact this
  have hmemh : headID ∈ w.db.cellIDs := by
    have := inv.heads branch (GetBranch_mem hgb).2
    rw [hbh] at this
    simpa [DB.refOK] using this
  have hhs : headID ≠ safety.ID := fun e => hfresh (e ▸ hmemh)
  have hman0 : w0.db.GetManifest headID = w.db.GetManifest headID := hman headID hhs
  have htargets : ∀ e ∈ w.db.GetManifest headID, capturedRow svc.sum256 e :=
    fun e he => hrows e (List.mem_append_left _ he)
  -- the two loops of the restore, and the rows of the head of the branch that was active
  have hstep : ∃ fsW cur, writeTargets svc.Store fs2 (w.db.GetManifest headID) = (.ok (), fsW) ∧
      removeStale ((w.db.GetManifest headID).map ManifestEntry.Path) fsW cur = (.ok (), fs3) ∧
      ∀ e ∈ cur, capturedRow svc.sum256 e := by
    unfold restoreTrackedFilesToCell at hrest
    dsimp only at hrest
    rw [hman0] at hrest
    cases hb : branchHeadCell w.db a with
    | none =>
      rw [hb] at hrest
      dsimp only at hrest
      split at hrest
      · simp at hrest
      · rename_i u fsW hwt
        exact ⟨fsW, [], hwt, hrest, fun e he => absurd he (List.not_mem_nil _)⟩
    | some head =>
      rw [hb] at hrest
      dsimp only at hrest
      split at hrest
      · simp at hrest
      · rename_i u fsW hwt
        refine ⟨fsW, _, hwt, hrest, ?_⟩
        intro e he
        have hid : some head.ID = w.db.headOf a := by
          rw [← inv.branchHeadCell_ID a, hb]
          rfl
        obtain ⟨c, _, hcid, hcget⟩ := inv.branchHeadCell_some hid.symm
        have hmem : head.ID ∈ w.db.cellIDs :=
          List.mem_map.mpr ⟨c, (GetCell_ID hcget).2, hcid⟩
        have hne2 : head.ID ≠ safety.ID := fun e1 => hfresh (e1 ▸ hmem)
        have he2 : e ∈ w.db.GetManifest head.ID := by
          rw [← hman head.ID hne2]; exact he
        apply hrows e
        apply List.mem_append_right
        rw [← hid]
        exact he2
  obtain ⟨fsW, cur, hwt, hrm, hcur⟩ := hstep
  refine ⟨safety, hr1, hfresh, ?_, ?_, ?_, hbr, hmsg, ?_, hheadb, inv1.activeMeta, ?_,
    (GetCell_ID hgt).1, hgt, ?_, ?_, ?_⟩
  · simp only [DB.cellIDs, hcells]
    exact hids
  · simp only [DB.GetCell, hcells]
    exact hget0
  · rw [hsrc]
    simp only [safetyOptions]
    decide
  · simp only [DB.headOf, DB.GetBranch, hbranches]
    exact hhead0
  · have := inv1.mirror
    rw [hheadb] at this
    exact this
  · simp only [DB.GetManifest, hentries]
    exact hman0
  · intro e he
    have hpw : (w.db.GetManifest headID).Pairwise
        (fun x y => Join [x.Path] ≠ Join [y.Path]) := by
      refine (inv.manifest_paths headID).imp_of_mem ?_
      intro x y hx hy hxy e1
      exact hxy (captured_Join_inj (htargets x hx) (htargets y hy) e1)
    obtain ⟨data, node, hread, hnode, hdata, hsym⟩ :=
      writeTargets_written svc.Store (w.db.GetManifest headID) fs2 fsW hwt hpw
        (fun x hx y hy => captured_blob_ne hstore (htargets x hx) (htargets y hy)) e he
    have hcap := htargets e he
    have hfin : ∀ q : Path, q ≠ lockPath →
        (∀ x ∈ cur,
          x.Path ∉ (w.db.GetManifest headID).map ManifestEntry.Path → Join [x.Path] ≠ q) →
        w1.fs.lookup q = fsW.lookup q := by
      intro q hq hstale
      have h3 := removeStale_frame_stale
        ((w.db.GetManifest headID).map ManifestEntry.Path) cur fsW hstale
      rw [hrm] at h3
      rw [hw1]
      show (cleanup fs3).lookup q = _
      rw [cleanup_lookup_other fs3 hq]
      exact h3
    refine ⟨data, node, ?_, ?_, hdata, hsym⟩
    · rw [Store.Read_ok_iff] at hread ⊢
      obtain ⟨bn, hbl, hbs, hbd⟩ := hread
      refine ⟨bn, ?_, hbs, hbd⟩
      rw [hfin _ (captured_blob_ne_lock hstore hcap)
        (fun x hx _ => (captured_blob_ne hstore (hcur x hx) hcap).symm)]
      have hframe := writeTargets_frame svc.Store (w.db.GetManifest headID) fs2
        (fun x hx => (captured_blob_ne hstore (htargets x hx) hcap).symm)
      rw [hwt] at hframe
      exact hframe.trans hbl
    · rw [hfin _ (captured_ne_lock hcap) ?_]
      · exact hnode
      · intro x hx hnot e1
        apply hnot
        rw [captured_Join_inj (hcur x hx) hcap e1]
        exact List.mem_map_of_mem _ he
  · intro now2 opts fs cell w2 hc
    have inv1' : ({ w1 with fs := fs } : World).db.Inv (TrimSpace name) := inv1
    obtain ⟨⟨_, _, h2, h3, _⟩, _⟩ := CreateCell_effect inv1' hc
    exact ⟨h3.trans hheadb, h2⟩

theorem worldAhead_reachable : Reachable exampleService worldAhead := by
  have h1 : Reachable exampleService
      { world1 with db := (ForkBranch "t2" "feature-a" false world1.db).2 } :=
    Reachable.call "t2" (Op.forkBranch "feature-a" false) world1_reachable (by decide)
  have h2 : Reachable exampleService worldForked :=
    Reachable.edit (world1.fs.set ["helper.go"] (plainFile [113, 10])) h1
  exact Reachable.call "t3" (Op.createCell (messageOnly "v2")) h2 (by decide)

theorem worldAhead_rows :
    ∀ e ∈ worldAhead.db.GetManifest "c_000001" ++
        worldAhead.db.manifestOf (worldAhead.db.headOf "main"),
      capturedRow exampleService.sum256 e := by
  have hl : worldAhead.db.GetManifest "c_000001" ++
      worldAhead.db.manifestOf (worldAhead.db.headOf "main") =
      [{ CellID := "c_000001", Path := "main.go", Hash := hashOf padDigest [112, 10],
         Mode := 420, Size := 2 },
       { CellID := "c_000002", Path := "helper.go", Hash := hashOf padDigest [113, 10],
         Mode := 420, Size := 2 },
       { CellID := "c_000002", Path := "main.go", Hash := hashOf padDigest [112, 10],
         Mode := 420, Size := 2 }] := by decide
  intro e he
  rw [hl] at he
  simp only [List.mem_cons, List.mem_singleton, List.not_mem_nil, or_false] at he
  rcases he with rfl | rfl | rfl
  · exact ⟨⟨["main.go"], by decide, by simp only [plainName]; decide, by decide, by decide⟩,
      ⟨[112, 10], rfl⟩⟩
  · exact ⟨⟨["helper.go"], by decide, by simp only [plainName]; decide, by decide, by decide⟩,
      ⟨[113, 10], rfl⟩⟩
  · exact ⟨⟨["main.go"], by decide, by simp only [plainName]; decide, by decide, by decide⟩,
      ⟨[112, 10], rfl⟩⟩

theorem switch_between_branches_witness :
    (∀ e ∈ worldAhead.fs, e.2.symlink = false) ∧
    worldAhead.db.headOf "main" = some "c_000002" ∧
    (worldAhead.db.GetManifest "c_000001").map ManifestEntry.Path = ["main.go"] ∧
    ∃ safety, (cellsOf switched).1 = some safety ∧
      switched.2.db.cellIDs = worldAhead.db.cellIDs ++ [safety.ID] ∧
      safety.Source = "restore_safety" ∧ safety.Branch = "main" ∧
      switched.2.db.headOf "main" = some safety.ID ∧
      switched.2.db.headOf "feature-a" = some "c_000001" ∧
      switched.2.db.GetMeta "active_branch" = .ok "feature-a" ∧
      switched.2.db.GetMeta "head_cell" = .ok "c_000001" ∧
      (cellsOf switched).2.ID = "c_000001" ∧
      ∀ e ∈ worldAhead.db.GetManifest "c_000001", ∃ data node,
        exampleService.Store.Read switched.2.fs e.Hash = .ok data ∧
        switched.2.fs.lookup (Join [e.Path]) = some node ∧ node.data = data ∧
        node.symlink = false := by
  obtain ⟨safety, h1, _, h3, _, h5, h6, _, h8, h9, h10, h11, h12, _, _, h15, _⟩ :=
    switch_between_branches exampleService worldAhead switched.2 "t4" "feature-a" "main"
      "c_000001" (cellsOf switched) worldAhead_reachable (by decide) rfl (by decide) (by decide)
      (by decide) worldAhead_rows rfl
  exact ⟨by decide, by decide, by decide, safety, h1, h3, h5, h6, h8, h9, h10, h11, h12, h15⟩

/-! ## LOC rules -/

theorem foldl_count {α : Type} (p : α → Bool) (step : Int → α → Int)
    (hstep : ∀ n a, step n a = if p a then n + 1 else n) (l : List α) (n : Int) :
    l.foldl step n = n + ((l.filter p).length : Int) := by
  induction l generalizing n with
  | nil => simp
  | cons a rest ih =>
    rw [List.foldl_cons, ih, hstep]
    by_cases ha : p a = true
    · simp only [ha, if_true, List.filter_cons_of_pos, List.length_cons]
      push_cast
      ring
    · simp only [ha, Bool.false_eq_true, if_false]
      rw [List.filter_cons_of_neg ha]

theorem isComment_eq (ext line : String) :
    isComment ext line =
      match commentPrefix ext with
      | some p => startsWith line p
      | none => false := by
  unfold isComment commentPrefix
  split
  · rfl
  · split
    · rfl
    · split <;> rfl

set_option maxRecDepth 100000 in
/-- C21: for every file name and content, `CountLOC` is the number of
newline-separated lines that, trimmed of surrounding whitespace, are not empty
and do not begin with the comment prefix of the lower-cased extension (`//`,
`#`, `--`, or none); empty content gives 0. The extension is lower-cased as
`strings.ToLower` does it, beyond ASCII too: `.SWİFT`, written with the dotted
capital I (U+0130), is `.swift`. -/
theorem count_loc_rules (filename content : String) :
    CountLOC filename content =
      (((Split content).filter (countsAsCode (ToLower (Ext filename)))).length : Int) ∧
    CountLOC filename "" = 0 ∧
    CountLOC "main.go" "package main\n\n// comment\nfunc main() {}\n" = 2 ∧
    CountLOC "app.PY" "# c\nx = 1\n\n  # d\ny = 2\n" = 2 ∧
    CountLOC "data.txt" "a\n\n// b\n" = 2 ∧
    ToLower ".SWİFT" = ".swift" ∧
    CountLOC "x.SWİFT" "// c\ncode" = 1 := by
  refine ⟨?_, rfl, by decide, by decide, by decide, by decide, by decide⟩
  unfold CountLOC
  by_cases hc : content = ""
  · rw [if_pos hc, hc]
    have hs : Split "" = [""] := by decide
    have ht : TrimSpace "" = "" := by decide
    rw [hs]
    simp [countsAsCode, ht]
  · rw [if_neg hc]
    dsimp only
    have h := foldl_count (fun line => countsAsCode (ToLower (Ext filename)) (String.mk line))
      (fun count line =>
        if TrimSpace (String.mk line) = "" then count
        else if isComment (ToLower (Ext filename)) (TrimSpace (String.mk line)) = true then count
        else count + 1)
      (by
        intro n a
        dsimp only
        rw [isComment_eq]
        unfold countsAsCode
        by_cases ht : TrimSpace (String.mk a) = ""
        · simp [ht]
        · cases hp : commentPrefix (ToLower (Ext filename)) with
          | none => simp [ht]
          | some p =>
            by_cases hs : startsWith (TrimSpace (String.mk a)) p = true
            · simp [ht, hs]
            · simp [ht, hs])
      (splitLines content.data) 0
    rw [h]
    simp only [zero_add, Split, List.filter_map, List.length_map]
    rfl

/-! ## The statistics of a cell -/

/-- The first loop of `computeDiffStats`, from any running totals. -/
theorem diffStats_first (pm : GoMap String) (s : Store) (fs : FS) (current : Manifest)
    (st : DiffStats) :
    current.foldl (fun st kv =>
      match mapGet pm kv.1 with
      | none => { st with added := st.added + 1,
                          linesAdded := st.linesAdded + blobLines s fs kv.2.Hash }
      | some oldHash =>
        if oldHash ≠ kv.2.Hash then
          let newLines := blobLines s fs kv.2.Hash
          let oldLines := blobLines s fs oldHash
          if newLines ≥ oldLines then
            { st with modified := st.modified + 1,
                      linesAdded := st.linesAdded + (newLines - oldLines) }
          else
            { st with modified := st.modified + 1,
                      linesRemoved := st.linesRemoved + (oldLines - newLines) }
        else st) st =
    { added := st.added + ((current.filter (isAdded pm)).length : Int),
      modified := st.modified + ((current.filter (isModified pm)).length : Int),
      removed := st.removed,
      linesAdded := st.linesAdded + specLinesAdded current pm s fs,
      linesRemoved := st.linesRemoved +
        ((current.filter (isModified pm)).map fun kv =>
          if lineDelta pm s fs kv ≥ 0 then 0 else - lineDelta pm s fs kv).sum } := by
  induction current generalizing st with
  | nil => simp [specLinesAdded]
  | cons kv rest ih =>
    rw [List.foldl_cons, ih]
    cases hg : mapGet pm kv.1 with
    | none =>
      have hA : isAdded pm kv = true := by simp [isAdded, hg]
      have hM : isModified pm kv = false := by simp [isModified, hg]
      simp only [specLinesAdded, List.filter_cons, hA, hM, if_true, Bool.false_eq_true, if_false,
        List.length_cons, List.map_cons, List.sum_cons, DiffStats.mk.injEq]
      refine ⟨?_, trivial, trivial, ?_, trivial⟩
      · push_cast; ring
      · ring
    | some oldHash =>
      have hA : isAdded pm kv = false := by simp [isAdded, hg]
      by_cases hne : oldHash = kv.2.Hash
      · have hM : isModified pm kv = false := by simp [isModified, hg, hne]
        simp only [specLinesAdded, List.filter_cons, hA, hM, Bool.false_eq_true, if_false, hne,
          ne_eq, not_true_eq_false]
      · have hM : isModified pm kv = true := by simp [isModified, hg, hne]
        have hd : lineDelta pm s fs kv = blobLines s fs kv.2.Hash - blobLines s fs oldHash := by
          simp [lineDelta, hg]
        by_cases hge : blobLines s fs kv.2.Hash ≥ blobLines s fs oldHash
        · have hd0 : lineDelta pm s fs kv ≥ 0 := by rw [hd]; omega
          simp only [specLinesAdded, List.filter_cons, hA, hM, if_true, Bool.false_eq_true,
            if_false, hne, ne_eq, not_false_eq_true, hge, List.length_cons, List.map_cons,
            List.sum_cons, hd0, DiffStats.mk.injEq]
          refine ⟨trivial, ?_, trivial, ?_, ?_⟩
          · push_cast; ring
          · rw [hd]; ring
          · ring
        · have hd0 : ¬ lineDelta pm s fs kv ≥ 0 := by rw [hd]; omega
          simp only [specLinesAdded, List.filter_cons, hA, hM, if_true, Bool.false_eq_true,
            if_false, hne, ne_eq, not_false_eq_true, hge, List.length_cons, List.map_cons,
            List.sum_cons, hd0, DiffStats.mk.injEq]
          refine ⟨trivial, ?_, trivial, ?_, ?_⟩
          · push_cast; ring
          · ring
          · rw [hd]; ring

/-- The second loop of `computeDiffStats`, from any running totals. -/
theorem diffStats_second (current : Manifest) (s : Store) (fs : FS)
    (parentEntries : List ManifestEntry) (st : DiffStats) :
    parentEntries.foldl (fun st e =>
      match mapGet current e.Path with
      | some _ => st
      | none => { st with removed := st.removed + 1,
                          linesRemoved := st.linesRemoved + blobLines s fs e.Hash }) st =
    { added := st.added, modified := st.modified,
      removed := st.removed + ((parentEntries.filter (isRemoved current)).length : Int),
      linesAdded := st.linesAdded,
      linesRemoved := st.linesRemoved +
        ((parentEntries.filter (isRemoved current)).map fun e => blobLines s fs e.Hash).sum } := by
  induction parentEntries generalizing st with
  | nil => simp
  | cons e rest ih =>
    rw [List.foldl_cons, ih]
    cases hg : mapGet current e.Path with
    | none =>
      have hR : isRemoved current e = true := by simp [isRemoved, hg]
      simp only [List.filter_cons, hR, if_true, List.length_cons, List.map_cons, List.sum_cons,
        DiffStats.mk.injEq]
      refine ⟨trivial, trivial, ?_, trivial, ?_⟩
      · push_cast; ring
      · ring
    | some fe =>
      have hR : isRemoved current e = false := by simp [isRemoved, hg]
      simp only [List.filter_cons, hR, Bool.false_eq_true, if_false]

/-- What `computeDiffStats` returns, field by field. -/
theorem computeDiffStats_eq (current : Manifest) (parentEntries : List ManifestEntry)
    (s : Store) (fs : FS) :
    computeDiffStats current parentEntries s fs =
      { added := ((current.filter (isAdded (manifestHashesFromEntries parentEntries))).length :
          Int),
        modified :=
          ((current.filter (isModified (manifestHashesFromEntries parentEntries))).length : Int),
        removed := ((parentEntries.filter (isRemoved current)).length : Int),
        linesAdded := specLinesAdded current (manifestHashesFromEntries parentEntries) s fs,
        linesRemoved := specLinesRemoved current parentEntries
          (manifestHashesFromEntries parentEntries) s fs } := by
  have h1 := diffStats_first (manifestHashesFromEntries parentEntries) s fs current
    { added := 0, modified := 0, removed := 0, linesAdded := 0, linesRemoved := 0 }
  have h2 := diffStats_second current s fs parentEntries
  unfold computeDiffStats
  dsimp only
  generalize hx : List.foldl _ _ current = x
  have hx1 := hx.symm.trans h1
  subst hx1
  refine (h2 _).trans ?_
  simp [specLinesRemoved]

/-! ## The counts of files against the diff engine -/

theorem sortStrings_length (l : List String) : (sortStrings l).length = l.length :=
  (sortStrings_perm l).length_eq

theorem mapSet_new {V : Type} (m : GoMap V) (k : String) (v : V) (h : k ∉ m.map Prod.fst) :
    mapSet m k v = m ++ [(k, v)] := by
  unfold mapSet
  congr 1
  rw [List.filter_eq_self]
  intro a ha
  have : a.1 ≠ k := fun e => h (List.mem_map.mpr ⟨a, ha, e⟩)
  simpa using this

theorem manifestHashes_foldl_eq (es : List ManifestEntry) (acc : GoMap String)
    (hd : es.Pairwise (fun a b => a.Path ≠ b.Path))
    (hacc : ∀ e ∈ es, e.Path ∉ acc.map Prod.fst) :
    es.foldl (fun out entry => mapSet out entry.Path entry.Hash) acc =
      acc ++ es.map fun e => (e.Path, e.Hash) := by
  induction es generalizing acc with
  | nil => simp
  | cons e rest ih =>
    rw [List.pairwise_cons] at hd
    rw [List.foldl_cons, mapSet_new _ _ _ (hacc e (List.mem_cons_self _ _)), ih _ hd.2]
    · simp
    · intro x hx hmem
      simp only [List.map_append, List.map_cons, List.map_nil, List.mem_append,
        List.mem_singleton] at hmem
      rcases hmem with h1 | h1
      · exact hacc x (List.mem_cons_of_mem _ hx) h1
      · exact hd.1 x hx h1.symm

/-- Rows with distinct paths give the map in the order of the rows. -/
theorem manifestHashesFromEntries_eq (es : List ManifestEntry)
    (hd : es.Pairwise (fun a b => a.Path ≠ b.Path)) :
    manifestHashesFromEntries es = es.map fun e => (e.Path, e.Hash) := by
  unfold manifestHashesFromEntries
  rw [manifestHashes_foldl_eq es [] hd (fun _ _ h => by simp at h)]
  simp

theorem mapGet_currentHashes (current : Manifest) (k : String) :
    mapGet (currentHashes current) k = (mapGet current k).map FileEntry.Hash := by
  unfold mapGet currentHashes
  induction current with
  | nil => rfl
  | cons kv rest ih =>
    by_cases hk : kv.1 = k
    · simp [List.find?_cons, hk]
    · simp only [List.map_cons, List.find?_cons, hk, decide_False]
      exact ih

/-- The two loops of `Service.WorkingTreeDelta` count the files of each kind. -/
theorem deltaCounts_eq (manifest : Manifest) (lm : GoMap String) :
    deltaCounts manifest lm =
      { Added := ((manifest.filter (isAdded lm)).length : Int),
        Modified := ((manifest.filter (isModified lm)).length : Int),
        Removed := ((lm.filter fun kv => (mapGet manifest kv.1).isNone).length : Int) } := by
  have h1 : ∀ (l : Manifest) (d : Converge.WorkingTreeDelta),
      l.foldl (fun delta kv =>
        match mapGet lm kv.1 with
        | none => { delta with Added := delta.Added + 1 }
        | some hash =>
          if hash ≠ kv.2.Hash then { delta with Modified := delta.Modified + 1 } else delta) d =
      { Added := d.Added + ((l.filter (isAdded lm)).length : Int),
        Modified := d.Modified + ((l.filter (isModified lm)).length : Int),
        Removed := d.Removed } := by
    intro l
    induction l with
    | nil => intro d; simp
    | cons kv rest ih =>
      intro d
      rw [List.foldl_cons, ih]
      cases hg : mapGet lm kv.1 with
      | none =>
        have hA : isAdded lm kv = true := by simp [isAdded, hg]
        have hM : isModified lm kv = false := by simp [isModified, hg]
        simp only [List.filter_cons, hA, hM, if_true, Bool.false_eq_true, if_false,
          List.length_cons, WorkingTreeDelta.mk.injEq]
        refine ⟨trivial, ?_, trivial⟩
        push_cast; ring
      | some hash =>
        have hA : isAdded lm kv = false := by simp [isAdded, hg]
        by_cases hne : hash = kv.2.Hash
        · have hM : isModified lm kv = false := by simp [isModified, hg, hne]
          simp only [List.filter_cons, hA, hM, Bool.false_eq_true, if_false, hne, ne_eq,
            not_true_eq_false]
        · have hM : isModified lm kv = true := by simp [isModified, hg, hne]
          simp only [List.filter_cons, hA, hM, if_true, Bool.false_eq_true, if_false, hne, ne_eq,
            not_false_eq_true, List.length_cons, WorkingTreeDelta.mk.injEq]
          refine ⟨?_, trivial, trivial⟩
          push_cast; ring
  have h2 : ∀ (l : GoMap String) (d : Converge.WorkingTreeDelta),
      l.foldl (fun delta kv =>
        match mapGet manifest kv.1 with
        | some _ => delta
        | none => { delta with Removed := delta.Removed + 1 }) d =
      { Added := d.Added, Modified := d.Modified,
        Removed := d.Removed + ((l.filter fun kv => (mapGet manifest kv.1).isNone).length : Int) } := by
    intro l
    induction l with
    | nil => intro d; simp
    | cons kv rest ih =>
      intro d
      rw [List.foldl_cons, ih]
      cases hg : mapGet manifest kv.1 with
      | none =>
        simp only [List.filter_cons, hg, Option.isNone_none, if_true, List.length_cons,
          WorkingTreeDelta.mk.injEq]
        refine ⟨trivial, trivial, ?_⟩
        push_cast; ring
      | some fe =>
        simp only [List.filter_cons, hg, Option.isNone_some, Bool.false_eq_true, if_false]
  unfold deltaCounts
  dsimp only
  generalize hx : List.foldl _ _ manifest = x
  have hx1 := hx.symm.trans (h1 manifest _)
  subst hx1
  refine (h2 lm _).trans ?_
  simp

/-- The lengths of the lists of `CompareManifests(parent hashes, current hashes)`. -/
theorem CompareManifests_lengths (pm : GoMap String) (current : Manifest) :
    (CompareManifests pm (currentHashes current)).Added.length =
      (current.filter (isAdded pm)).length ∧
    (CompareManifests pm (currentHashes current)).Modified.length =
      (current.filter (isModified pm)).length ∧
    (CompareManifests pm (currentHashes current)).Removed.length =
      (pm.filter fun kv => (mapGet current kv.1).isNone).length := by
  refine ⟨?_, ?_, ?_⟩
  · show (sortStrings (compareTo pm (currentHashes current)).1).length = _
    rw [sortStrings_length, compareTo_eq, List.length_map, currentHashes, List.filter_map,
      List.length_map]
    rfl
  · show (sortStrings (compareTo pm (currentHashes current)).2).length = _
    rw [sortStrings_length, compareTo_eq, List.length_map, currentHashes, List.filter_map,
      List.length_map]
    congr 1
    apply List.filter_congr
    intro kv _
    simp only [Function.comp, isModified]
    cases mapGet pm kv.1 <;> rfl
  · show (sortStrings (compareFrom pm (currentHashes current))).length = _
    rw [sortStrings_length, compareFrom_eq, List.length_map]
    congr 1
    apply List.filter_congr
    intro kv _
    rw [mapGet_currentHashes]
    cases mapGet current kv.1 <;> rfl

theorem removed_count (current : Manifest) (parentEntries : List ManifestEntry)
    (hpar : parentEntries.Pairwise (fun a b => a.Path ≠ b.Path)) :
    ((manifestHashesFromEntries parentEntries).filter
      fun kv => (mapGet current kv.1).isNone).length =
      (parentEntries.filter (isRemoved current)).length := by
  rw [manifestHashesFromEntries_eq parentEntries hpar, List.filter_map, List.length_map]
  rfl

/-- What a successful `Service.WorkingTreeDelta` returns when the invariant holds. -/
theorem WorkingTreeDelta_ok {svc : Service} {now : String} {w w1 : World} {active : String}
    {latest : Cell} {delta : Converge.WorkingTreeDelta} (inv : w.db.Inv active)
    (h : svc.WorkingTreeDelta now w = (.ok (some latest, delta), w1)) :
    branchHeadCell w.db active = some latest ∧
    ∃ manifest fs1, Capture svc.sum256 svc.Store w.fs = (.ok manifest, fs1) ∧
      delta = deltaCounts manifest (manifestHashesFromEntries (w.db.GetManifest latest.ID)) := by
  unfold Service.WorkingTreeDelta at h
  rw [inv.activeBranch now] at h
  dsimp only at h
  cases hb : branchHeadCell w.db active with
  | none =>
    rw [hb] at h
    simp at h
  | some c =>
    rw [hb] at h
    dsimp only at h
    cases hc : Capture svc.sum256 svc.Store w.fs with
    | mk r fs1 =>
      rw [hc] at h
      cases r with
      | error e => simp at h
      | ok manifest =>
        simp only [Prod.mk.injEq, Except.ok.injEq, Option.some.injEq] at h
        obtain ⟨⟨hl, hd⟩, _⟩ := h
        subst hl
        exact ⟨rfl, manifest, fs1, rfl, hd.symm⟩

/-- C24: for every manifest and every list of parent rows with distinct paths,
the `added`, `modified` and `removed` of `computeDiffStats` and the `Added`,
`Modified` and `Removed` of the counting loops of `WorkingTreeDelta` are the
lengths of the `Added`, `Modified` and `Removed` lists of
`CompareManifests(parent hashes, current hashes)`; with no parent rows every
file of the manifest counts as added; and in a reachable state a successful
`WorkingTreeDelta` returns those lengths for the manifest `Capture` returns and
the rows of the head cell of the active branch. -/
theorem file_counts_agree (current : Manifest) (parentEntries : List ManifestEntry)
    (s : Store) (fs : FS)
    (hpar : parentEntries.Pairwise (fun a b => a.Path ≠ b.Path)) :
    ((computeDiffStats current parentEntries s fs).added =
        (CompareManifests (manifestHashesFromEntries parentEntries)
          (currentHashes current)).Added.length ∧
      (computeDiffStats current parentEntries s fs).modified =
        (CompareManifests (manifestHashesFromEntries parentEntries)
          (currentHashes current)).Modified.length ∧
      (computeDiffStats current parentEntries s fs).removed =
        (CompareManifests (manifestHashesFromEntries parentEntries)
          (currentHashes current)).Removed.length) ∧
    ((deltaCounts current (manifestHashesFromEntries parentEntries)).Added =
        (CompareManifests (manifestHashesFromEntries parentEntries)
          (currentHashes current)).Added.length ∧
      (deltaCounts current (manifestHashesFromEntries parentEntries)).Modified =
        (CompareManifests (manifestHashesFromEntries parentEntries)
          (currentHashes current)).Modified.length ∧
      (deltaCounts current (manifestHashesFromEntries parentEntries)).Removed =
        (CompareManifests (manifestHashesFromEntries parentEntries)
          (currentHashes current)).Removed.length) ∧
    ((computeDiffStats current [] s fs).added = current.length ∧
      (computeDiffStats current [] s fs).modified = 0 ∧
      (computeDiffStats current [] s fs).removed = 0) ∧
    ∀ (svc : Service) (now : String) (w w1 : World) (latest : Cell)
      (delta : Converge.WorkingTreeDelta), Reachable svc w →
      svc.WorkingTreeDelta now w = (.ok (some latest, delta), w1) →
      ∃ manifest, (Capture svc.sum256 svc.Store w.fs).1 = .ok manifest ∧
        delta.Added = (CompareManifests (manifestHashesFromEntries
          (w.db.GetManifest latest.ID)) (currentHashes manifest)).Added.length ∧
        delta.Modified = (CompareManifests (manifestHashesFromEntries
          (w.db.GetManifest latest.ID)) (currentHashes manifest)).Modified.length ∧
        delta.Removed = (CompareManifests (manifestHashesFromEntries
          (w.db.GetManifest latest.ID)) (currentHashes manifest)).Removed.length := by
  have key : ∀ (cur : Manifest) (es : List ManifestEntry),
      es.Pairwise (fun a b => a.Path ≠ b.Path) →
      ((deltaCounts cur (manifestHashesFromEntries es)).Added =
          (CompareManifests (manifestHashesFromEntries es) (currentHashes cur)).Added.length ∧
        (deltaCounts cur (manifestHashesFromEntries es)).Modified =
          (CompareManifests (manifestHashesFromEntries es) (currentHashes cur)).Modified.length ∧
        (deltaCounts cur (manifestHashesFromEntries es)).Removed =
          (CompareManifests (manifestHashesFromEntries es)
            (currentHashes cur)).Removed.length) := by
    intro cur es _
    obtain ⟨hA, hM, hR⟩ := CompareManifests_lengths (manifestHashesFromEntries es) cur
    rw [deltaCounts_eq, hA, hM, hR]
    exact ⟨rfl, rfl, rfl⟩
  obtain ⟨hA, hM, hR⟩ :=
    CompareManifests_lengths (manifestHashesFromEntries parentEntries) current
  refine ⟨?_, key current parentEntries hpar, ?_, ?_⟩
  · rw [computeDiffStats_eq, hA, hM, hR, removed_count current parentEntries hpar]
    exact ⟨rfl, rfl, rfl⟩
  · rw [computeDiffStats_eq]
    simp [manifestHashesFromEntries, isAdded, isModified, mapGet]
  · intro svc now w w1 latest delta hreach hdelta
    obtain ⟨active, inv⟩ := hreach.inv
    obtain ⟨_, manifest, fs1, hcap, hd⟩ := WorkingTreeDelta_ok inv hdelta
    refine ⟨manifest, by rw [hcap], ?_⟩
    rw [hd]
    exact key manifest _ (inv.manifest_paths latest.ID)

theorem file_counts_agree_witness :
    ((computeDiffStats exampleCurrent exampleParent exampleService.Store twoBlobs).added =
        (CompareManifests (manifestHashesFromEntries exampleParent)
          (currentHashes exampleCurrent)).Added.length ∧
      (computeDiffStats exampleCurrent exampleParent exampleService.Store twoBlobs).modified =
        (CompareManifests (manifestHashesFromEntries exampleParent)
          (currentHashes exampleCurrent)).Modified.length ∧
      (computeDiffStats exampleCurrent exampleParent exampleService.Store twoBlobs).removed =
        (CompareManifests (manifestHashesFromEntries exampleParent)
          (currentHashes exampleCurrent)).Removed.length) ∧
    CompareManifests (manifestHashesFromEntries exampleParent) (currentHashes exampleCurrent) =
      { Added := ["new.txt"], Modified := ["a.txt"], Removed := ["gone.txt"] } :=
  ⟨(file_counts_agree exampleCurrent exampleParent exampleService.Store twoBlobs
      (by decide)).1, by decide⟩

/-! ## Lines added and removed -/

theorem countLines_eq (data : Bytes) (h : data ≠ []) :
    countLines data =
      (data.count 10 : Int) + (if data.getLast? = some 10 then 0 else 1) := by
  unfold countLines
  have hl : ¬ data.length = 0 := fun e => h (List.length_eq_zero.mp e)
  rw [if_neg hl]
  dsimp only
  have hf := foldl_count (fun b : UInt8 => decide (b = 10))
    (fun n b => if b = 10 then n + 1 else n) (fun n a => by simp) data 1
  rw [hf]
  have hc : (data.filter fun b : UInt8 => decide (b = 10)).length = data.count 10 := by
    rw [List.count_eq_countP, List.countP_eq_length_filter]
    congr 1
  rw [hc]
  split <;> ring_nf

theorem countLines_nonneg (data : Bytes) : 0 ≤ countLines data := by
  by_cases h : data = []
  · rw [h]; decide
  · rw [countLines_eq data h]
    split <;> omega

theorem blobLines_nonneg (s : Store) (fs : FS) (hash : String) : 0 ≤ blobLines s fs hash := by
  unfold blobLines
  split
  · exact countLines_nonneg _
  · exact le_refl 0

theorem sum_map_nonneg {α : Type} (l : List α) (f : α → Int) (h : ∀ a, 0 ≤ f a) :
    0 ≤ (l.map f).sum := by
  induction l with
  | nil => simp
  | cons a rest ih =>
    simp only [List.map_cons, List.sum_cons]
    have := h a
    omega

/-- C25: `countLines` is 0 on empty data and otherwise the number of newline
bytes, plus 1 when the last byte is not a newline; the lines of a blob that can
be read are `countLines` of its bytes. `computeDiffStats` returns as
`lines_added` the lines of every added file plus, for every modified file whose
new count is at least the old one, the difference; and as `lines_removed`, for
every other modified file, the old count minus the new one, plus the lines of
every removed file. Both totals are at least 0; a one-line file rewritten to two
lines gives `lines_added = 1` and `lines_removed = 0`. -/
theorem line_delta_accounting (current : Manifest) (parentEntries : List ManifestEntry)
    (s : Store) (fs : FS) :
    countLines [] = 0 ∧
    (∀ data : Bytes, data ≠ [] → countLines data =
      (data.count 10 : Int) + (if data.getLast? = some 10 then 0 else 1)) ∧
    (∀ hash data, s.Read fs hash = .ok data → blobLines s fs hash = countLines data) ∧
    (computeDiffStats current parentEntries s fs).linesAdded =
      specLinesAdded current (manifestHashesFromEntries parentEntries) s fs ∧
    (computeDiffStats current parentEntries s fs).linesRemoved =
      specLinesRemoved current parentEntries (manifestHashesFromEntries parentEntries) s fs ∧
    0 ≤ (computeDiffStats current parentEntries s fs).linesAdded ∧
    0 ≤ (computeDiffStats current parentEntries s fs).linesRemoved ∧
    computeDiffStats (oneFile [111, 110, 101, 10, 116, 119, 111, 10]) (oneRow [111, 110, 101, 10])
        exampleService.Store twoBlobs =
      { added := 0, modified := 1, removed := 0, linesAdded := 1, linesRemoved := 0 } := by
  refine ⟨by decide, countLines_eq, ?_, ?_, ?_, ?_, ?_, by decide⟩
  · intro hash data h
    unfold blobLines
    rw [h]
  · rw [computeDiffStats_eq]
  · rw [computeDiffStats_eq]
  · rw [computeDiffStats_eq]
    show 0 ≤ specLinesAdded _ _ _ _
    unfold specLinesAdded
    have h1 := sum_map_nonneg (current.filter (isAdded (manifestHashesFromEntries parentEntries)))
      (fun kv => blobLines s fs kv.2.Hash) (fun kv => blobLines_nonneg s fs _)
    have h2 := sum_map_nonneg
      (current.filter (isModified (manifestHashesFromEntries parentEntries)))
      (fun kv => if lineDelta (manifestHashesFromEntries parentEntries) s fs kv ≥ 0 then
        lineDelta (manifestHashesFromEntries parentEntries) s fs kv else 0)
      (fun kv => by dsimp only; split <;> omega)
    omega
  · rw [computeDiffStats_eq]
    show 0 ≤ specLinesRemoved _ _ _ _ _
    unfold specLinesRemoved
    have h1 := sum_map_nonneg
      (current.filter (isModified (manifestHashesFromEntries parentEntries)))
      (fun kv => if lineDelta (manifestHashesFromEntries parentEntries) s fs kv ≥ 0 then 0
        else - lineDelta (manifestHashesFromEntries parentEntries) s fs kv)
      (fun kv => by dsimp only; split <;> omega)
    have h2 := sum_map_nonneg (parentEntries.filter (isRemoved current))
      (fun e => blobLines s fs e.Hash) (fun e => blobLines_nonneg s fs _)
    omega

theorem line_delta_accounting_witness :
    blobLines exampleService.Store twoBlobs (hashOf padDigest [111, 110, 101, 10]) =
      countLines [111, 110, 101, 10] ∧
    countLines [111, 110, 101, 10] = 1 ∧
    countLines [111, 110, 101, 10, 116, 119, 111] = 2 ∧
    (computeDiffStats exampleCurrent exampleParent exampleService.Store twoBlobs).linesAdded =
      2 ∧
    (computeDiffStats exampleCurrent exampleParent exampleService.Store twoBlobs).linesRemoved =
      2 :=
  ⟨(line_delta_accounting exampleCurrent exampleParent exampleService.Store twoBlobs).2.2.1
      (hashOf padDigest [111, 110, 101, 10]) [111, 110, 101, 10] rfl,
   by decide, by decide, by decide, by decide⟩

/-! ## Change detection -/

theorem searchOld_progress {O N : List String} {i j di dj : Nat}
    (hs : searchOld O N i j = some (di, dj)) (hline : ¬ O.getD i "" = N.getD j "") :
    0 < di + dj := by
  obtain ⟨_, _, h3⟩ := searchOld_some hs
  rcases Nat.eq_zero_or_pos (di + dj) with h0 | h0
  · have hdi : di = 0 := by omega
    have hdj : dj = 0 := by omega
    subst hdi
    subst hdj
    exact absurd h3 hline
  · exact h0

/-- With enough iterations allowed the loop ends, and it returns what
`computeChangesAux` returns. -/
theorem computeChangesRun_eq (O N : List String) :
    ∀ (fuel i j : Nat) (cs : List change), i ≤ O.length → j ≤ N.length →
      (O.length - i) + (N.length - j) < fuel →
      computeChangesRun O N fuel i j cs = some (computeChangesAux O N fuel i j cs) := by
  intro fuel
  induction fuel with
  | zero => intro i j cs _ _ h; omega
  | succ fuel ih =>
    intro i j cs hi hj hfuel
    rw [computeChangesRun, computeChangesAux]
    by_cases hboth : i < O.length ∧ j < N.length
    · rw [if_pos hboth, if_pos hboth]
      by_cases hline : O.getD i "" = N.getD j ""
      · rw [if_pos hline, if_pos hline]
        exact ih (i + 1) (j + 1) cs (by omega) (by omega) (by omega)
      · rw [if_neg hline, if_neg hline]
        cases hs : searchOld O N i j with
        | none => rfl
        | some p =>
          obtain ⟨di, dj⟩ := p
          obtain ⟨h1, h2, _⟩ := searchOld_some hs
          have hpos := searchOld_progress hs hline
          exact ih (i + di) (j + dj) _ (by omega) (by omega) (by omega)
    · rw [if_neg hboth, if_neg hboth]
      by_cases hany : i < O.length ∨ j < N.length
      · rw [if_pos hany, if_pos hany]
      · rw [if_neg hany, if_neg hany]

theorem applyChanges_step {O N : List String} {i : Nat} (hi : i < O.length) :
    ∀ (j : Nat) (more : List change), orderedFrom O.length N.length (i + 1) j more →
      applyChanges O N i more = O.getD i "" :: applyChanges O N (i + 1) more := by
  intro j more hord
  cases more with
  | nil =>
    simp only [applyChanges]
    rw [List.drop_eq_getElem_cons hi, List.getD_eq_getElem _ _ hi]
  | cons c rest =>
    obtain ⟨h1, _, _, _⟩ := hord
    simp only [applyChanges]
    rw [List.drop_eq_getElem_cons hi, List.getD_eq_getElem _ _ hi]
    have : c.oldStart - i = (c.oldStart - (i + 1)) + 1 := by omega
    rw [this, List.take_succ_cons]
    simp

theorem orderedFrom_mono {lo ln : Nat} {i j i1 j1 : Nat} {more : List change}
    (h : orderedFrom lo ln i j more) (hi : i1 ≤ i) (hj : j1 ≤ j) : orderedFrom lo ln i1 j1 more := by
  cases more with
  | nil => trivial
  | cons c rest =>
    obtain ⟨h1, h2, h3, h4⟩ := h
    exact ⟨le_trans hi h1, le_trans hj h2, h3, h4⟩

/-- The main loop with enough fuel: the changes it appends are in order from `i`
and `j` on, and applied to the old lines from `i` they give the new lines from `j`. -/
theorem computeChangesAux_sound (O N : List String) :
    ∀ (fuel i j : Nat) (cs : List change), i ≤ O.length → j ≤ N.length →
      (O.length - i) + (N.length - j) < fuel →
      ∃ more, computeChangesAux O N fuel i j cs = cs ++ more ∧
        orderedFrom O.length N.length i j more ∧
        applyChanges O N i more = N.drop j := by
  intro fuel
  induction fuel with
  | zero => intro i j cs _ _ h; omega
  | succ fuel ih =>
    intro i j cs hi hj hfuel
    unfold computeChangesAux
    by_cases hboth : i < O.length ∧ j < N.length
    · rw [if_pos hboth]
      by_cases hline : O.getD i "" = N.getD j ""
      · rw [if_pos hline]
        obtain ⟨more, h1, h2, h3⟩ := ih (i + 1) (j + 1) cs (by omega) (by omega) (by omega)
        refine ⟨more, h1, orderedFrom_mono h2 (by omega) (by omega), ?_⟩
        rw [applyChanges_step hboth.1 (j + 1) more h2, h3, hline,
          List.drop_eq_getElem_cons hboth.2, List.getD_eq_getElem _ _ hboth.2]
      · rw [if_neg hline]
        cases hs : searchOld O N i j with
        | none =>
          refine ⟨[_], rfl, ⟨le_refl _, le_refl _, ⟨by simp only; omega, le_refl _,
            by simp only; omega, le_refl _⟩, trivial⟩, ?_⟩
          simp only [applyChanges, Nat.sub_self, List.take_zero, List.nil_append]
          rw [List.drop_eq_nil_of_le (le_refl _), List.append_nil, List.take_of_length_le]
          simp
        | some p =>
          obtain ⟨di, dj⟩ := p
          obtain ⟨h1, h2, _⟩ := searchOld_some hs
          have hpos := searchOld_progress hs hline
          obtain ⟨more, h4, h5, h6⟩ := ih (i + di) (j + dj)
            (cs ++ [{ oldStart := i, oldEnd := i + di, newStart := j, newEnd := j + dj }])
            (by omega) (by omega) (by omega)
          refine ⟨{ oldStart := i, oldEnd := i + di, newStart := j, newEnd := j + dj } :: more,
            ?_, ⟨le_refl _, le_refl _, ⟨by simp only; omega, by simp only; omega,
              by simp only; omega, by simp only; omega⟩, h5⟩, ?_⟩
          · dsimp only
            rw [h4, List.append_assoc]
            rfl
          · simp only [applyChanges, Nat.sub_self, List.take_zero, List.nil_append]
            rw [h6, Nat.add_sub_cancel_left, ← List.drop_drop, List.take_append_drop]
    · rw [if_neg hboth]
      by_cases hany : i < O.length ∨ j < N.length
      · rw [if_pos hany]
        refine ⟨[_], rfl, ⟨le_refl _, le_refl _, ⟨hi, le_refl _, hj, le_refl _⟩, trivial⟩, ?_⟩
        simp only [applyChanges, Nat.sub_self, List.take_zero, List.nil_append]
        rw [List.drop_eq_nil_of_le (le_refl _), List.append_nil, List.take_of_length_le]
        simp
      · rw [if_neg hany]
        refine ⟨[], by simp, trivial, ?_⟩
        simp only [applyChanges]
        rw [List.drop_eq_nil_of_le (by omega), List.drop_eq_nil_of_le (by omega)]


theorem orderedFrom_within {lo ln : Nat} :
    ∀ (more : List change) (i j : Nat), orderedFrom lo ln i j more →
      ∀ c ∈ more, c.Within lo ln := by
  intro more
  induction more with
  | nil => intro i j _ c hc; cases hc
  | cons c rest ih =>
    intro i j h x hx
    obtain ⟨_, _, h3, h4⟩ := h
    rcases List.mem_cons.mp hx with rfl | hx
    · exact h3
    · exact ih _ _ h4 x hx

/-- On equal arrays, started at the same line on both sides, the loop appends
nothing. -/
theorem computeChangesAux_same (O : List String) :
    ∀ (fuel i : Nat) (cs : List change), computeChangesAux O O fuel i i cs = cs := by
  intro fuel
  induction fuel with
  | zero => intro i cs; rfl
  | succ fuel ih =>
    intro i cs
    unfold computeChangesAux
    by_cases hi : i < O.length
    · rw [if_pos ⟨hi, hi⟩, if_pos rfl]
      exact ih (i + 1) cs
    · rw [if_neg (fun h => hi h.1), if_neg (fun h => hi (h.elim id id))]

/-- C28: for every pair of line arrays, the loop of `computeChanges` ends within
`len(old) + len(new) + 1` iterations and returns the list `computeChanges old new`;
the changes are ordered on both sides (each starts at or after the end of the one
before, the first at or after 0) and lie within the arrays; copying `old` while
replacing each range `old[oldStart, oldEnd)` by `new[newStart, newEnd)` gives
`new`; and the list is empty exactly when `old = new`. -/
theorem change_detection_sound (old new : List String) :
    computeChangesRun old new (old.length + new.length + 1) 0 0 [] =
      some (computeChanges old new) ∧
    orderedFrom old.length new.length 0 0 (computeChanges old new) ∧
    (∀ c ∈ computeChanges old new, c.Within old.length new.length) ∧
    applyChanges old new 0 (computeChanges old new) = new ∧
    (computeChanges old new = [] ↔ old = new) := by
  have hrun := computeChangesRun_eq old new (old.length + new.length + 1) 0 0 []
    (Nat.zero_le _) (Nat.zero_le _) (by omega)
  obtain ⟨more, h1, h2, h3⟩ := computeChangesAux_sound old new (old.length + new.length + 1) 0 0 []
    (Nat.zero_le _) (Nat.zero_le _) (by omega)
  have hc : computeChanges old new = more := by
    unfold computeChanges
    rw [h1, List.nil_append]
  refine ⟨hrun, ?_, ?_, ?_, ?_⟩
  · rw [hc]; exact h2
  · rw [hc]; exact orderedFrom_within more 0 0 h2
  · rw [hc, h3, List.drop_zero]
  · constructor
    · intro hnil
      rw [hc] at hnil
      rw [hnil] at h3
      simpa [applyChanges] using h3
    · intro heq
      subst heq
      unfold computeChanges
      exact computeChangesAux_same old _ 0 []

set_option maxRecDepth 100000 in
theorem change_detection_sound_witness :
    computeChanges ["a", "b", "c"] ["x", "a", "b", "y"] =
      [{ oldStart := 0, oldEnd := 0, newStart := 0, newEnd := 1 },
       { oldStart := 2, oldEnd := 3, newStart := 3, newEnd := 4 }] ∧
    applyChanges ["a", "b", "c"] ["x", "a", "b", "y"] 0
      (computeChanges ["a", "b", "c"] ["x", "a", "b", "y"]) = ["x", "a", "b", "y"] :=
  ⟨by decide, (change_detection_sound ["a", "b", "c"] ["x", "a", "b", "y"]).2.2.2.1⟩

set_option maxRecDepth 100000 in
/-- C29 on the code: between `a\nb\nc` and `x\na\nb\ny` with context 3 the second
hunk has the header `@@ -1,3 +1,4 @@`; its body has three lines starting with a
space or `-`, as the header says, and three lines starting with a space or `+`,
where the header says 4. The same holds with the context 120. -/
theorem hunk_header_disagrees_with_body :
    ExpandedUnifiedDiff "f.txt" "a\nb\nc" "x\na\nb\ny" 3 =
      "--- a/f.txt\n+++ b/f.txt\n" ++ "@@ -1,3 +1,4 @@\n+x\n a\n b\n c\n" ++
        "@@ -1,3 +1,4 @@\n a\n b\n-c\n+y\n" ∧
    ExpandedUnifiedDiff "f.txt" "a\nb\nc" "x\na\nb\ny" 120 =
      ExpandedUnifiedDiff "f.txt" "a\nb\nc" "x\na\nb\ny" 3 ∧
    groupHunks (computeChanges (Split "a\nb\nc") (Split "x\na\nb\ny")) (Split "a\nb\nc")
        (Split "x\na\nb\ny") 3 =
      ["@@ -1,3 +1,4 @@\n+x\n a\n b\n c\n", "@@ -1,3 +1,4 @@\n a\n b\n-c\n+y\n"] ∧
    hunkBodyLines "@@ -1,3 +1,4 @@\n a\n b\n-c\n+y\n" = [" a", " b", "-c", "+y"] ∧
    countMarked [' ', '-'] "@@ -1,3 +1,4 @@\n a\n b\n-c\n+y\n" = 3 ∧
    countMarked [' ', '+'] "@@ -1,3 +1,4 @@\n a\n b\n-c\n+y\n" = 3 :=
  ⟨by decide, by decide, by decide, by decide, by decide, by decide⟩

/-! ## `ActiveBranch` and a failing read of the meta table -/

theorem ensureBranchExists_meta (now : String) (d : DB) (branch : String) :
    (ensureBranchExists now d branch).2.meta = d.meta := by
  unfold ensureBranchExists
  cases hg : d.GetBranch branch with
  | ok b => rfl
  | error e =>
    cases e with
    | failed msg => rfl
    | notFound =>
      dsimp only
      cases hc : d.CreateBranch now branch ((d.LatestCellByBranch branch).map Cell.ID) now with
      | error err => rfl
      | ok d1 =>
        dsimp only
        unfold DB.CreateBranch at hc
        dsimp only at hc
        split at hc
        · cases hc
        · split at hc
          · cases hc
          · split at hc
            · cases hc
              rfl
            · cases hc

set_option maxRecDepth 100000 in
/-- C27 on the code: when `GetMeta("active_branch")` fails with an error other
than not-found, `ActiveBranch` does what it does when the key is missing: the
returned branch string is empty, so the first condition holds, `main` is written
to `meta["active_branch"]`, and the error is never returned. In the state
`world3`, whose active branch is `feature-a`, such a failure makes `ActiveBranch`
return `main` without an error and leaves `main` as the stored active branch. -/
theorem active_branch_swallows_read_failure (msg now : String) (d : DB) :
    ActiveBranchFrom (.error (.failed msg)) now d = ActiveBranchFrom (.error .notFound) now d ∧
    (ActiveBranchFrom (.error (.failed msg)) now d).2.GetMeta "active_branch" = .ok "main" ∧
    (world3.db.GetMeta "active_branch").toOption = some "feature-a" ∧
    (ActiveBranchFrom (.error (.failed "disk I/O error")) "t4" world3.db).1.toOption =
      some "main" ∧
    ((ActiveBranchFrom (.error (.failed "disk I/O error")) "t4" world3.db).2.GetMeta
      "active_branch").toOption = some "main" := by
  have hmeta : (ActiveBranchFrom (.error (.failed msg)) now d).2.meta =
      (d.SetMeta "active_branch" defaultBranchName).meta := by
    unfold ActiveBranchFrom
    dsimp only
    have hte : TrimSpace "" = "" := by decide
    rw [if_pos (Or.inr hte)]
    have := ensureBranchExists_meta now (d.SetMeta "active_branch" defaultBranchName)
      (TrimSpace defaultBranchName)
    revert this
    cases ensureBranchExists now (d.SetMeta "active_branch" defaultBranchName)
      (TrimSpace defaultBranchName) with
    | mk r d2 =>
      cases r with
      | error e => exact id
      | ok u => exact id
  refine ⟨?_, ?_, by decide, by decide, by decide⟩
  · unfold ActiveBranchFrom
    dsimp only
    have hte : TrimSpace "" = "" := by decide
    rw [if_pos (Or.inr hte), if_pos (Or.inr hte)]
  · have h := GetMeta_SetMeta_same d "active_branch" defaultBranchName
    unfold DB.GetMeta at h ⊢
    rw [hmeta]
    exact h

/-! ## Decimal digits -/

theorem digitValue_digitChar {k : Nat} (h : k < 10) : digitValue (Nat.digitChar k) = k := by
  interval_cases k <;> rfl

theorem isDigit_digitChar {k : Nat} (h : k < 10) : (Nat.digitChar k).isDigit = true := by
  interval_cases k <;> rfl

theorem toDigitsCore_append (fuel : Nat) :
    ∀ (n : Nat) (ds : List Char),
      Nat.toDigitsCore 10 fuel n ds = Nat.toDigitsCore 10 fuel n [] ++ ds := by
  induction fuel with
  | zero => intro n ds; rfl
  | succ fuel ih =>
    intro n ds
    simp only [Nat.toDigitsCore]
    by_cases h0 : n / 10 = 0
    · simp [h0]
    · simp only [h0, if_false]
      rw [ih (n / 10) (Nat.digitChar (n % 10) :: ds), ih (n / 10) [Nat.digitChar (n % 10)]]
      simp

theorem digitsValue_append_single (l : List Char) (c : Char) :
    digitsValue (l ++ [c]) = digitsValue l * 10 + digitValue c := by
  simp [digitsValue, List.foldl_append]

theorem digitsValue_toDigitsCore (fuel : Nat) :
    ∀ n : Nat, n < fuel → digitsValue (Nat.toDigitsCore 10 fuel n []) = n := by
  induction fuel with
  | zero => intro n h; omega
  | succ fuel ih =>
    intro n hn
    simp only [Nat.toDigitsCore]
    by_cases h0 : n / 10 = 0
    · simp only [h0, if_true]
      have hlt : n < 10 := by omega
      have hmod : n % 10 = n := Nat.mod_eq_of_lt hlt
      rw [hmod]
      simp [digitsValue, digitValue_digitChar hlt]
    · simp only [h0, if_false]
      rw [toDigitsCore_append, digitsValue_append_single, ih (n / 10) (by omega),
        digitValue_digitChar (Nat.mod_lt n (by decide))]
      omega

/-- The digits `Nat.toDigits` gives write the number. -/
theorem digitsValue_toDigits (n : Nat) : digitsValue (Nat.toDigits 10 n) = n :=
  digitsValue_toDigitsCore (n + 1) n (Nat.lt_succ_self n)

theorem isDigit_toDigitsCore (fuel : Nat) :
    ∀ (n : Nat) (ds : List Char), (∀ c ∈ ds, c.isDigit = true) →
      ∀ c ∈ Nat.toDigitsCore 10 fuel n ds, c.isDigit = true := by
  induction fuel with
  | zero => intro n ds h; exact h
  | succ fuel ih =>
    intro n ds h
    simp only [Nat.toDigitsCore]
    have hcons : ∀ c ∈ Nat.digitChar (n % 10) :: ds, c.isDigit = true := by
      intro c hc
      rcases List.mem_cons.mp hc with rfl | hc
      · exact isDigit_digitChar (Nat.mod_lt n (by decide))
      · exact h c hc
    by_cases h0 : n / 10 = 0
    · simp only [h0, if_true]
      exact hcons
    · simp only [h0, if_false]
      exact ih _ _ hcons

theorem isDigit_toDigits (n : Nat) : ∀ c ∈ Nat.toDigits 10 n, c.isDigit = true :=
  isDigit_toDigitsCore (n + 1) n [] (by intro c hc; cases hc)

theorem digitsValue_zeros (k : Nat) (l : List Char) :
    digitsValue (List.replicate k '0' ++ l) = digitsValue l := by
  induction k with
  | zero => rfl
  | succ k ih =>
    rw [List.replicate_succ, List.cons_append]
    unfold digitsValue at ih ⊢
    rw [List.foldl_cons]
    exact ih

theorem digitsValue_padZeros (width : Nat) (l : List Char) :
    digitsValue (padZeros width l) = digitsValue l :=
  digitsValue_zeros _ l

/-- A list of decimal digits writes a number below the power of ten of its length. -/
theorem digitsValue_lt (l : List Char) (h : ∀ c ∈ l, c.isDigit = true) :
    digitsValue l < 10 ^ l.length := by
  induction l using List.reverseRecOn with
  | nil => decide
  | append_singleton l c ih =>
    rw [digitsValue_append_single, List.length_append, List.length_singleton, pow_succ]
    have h1 := ih (fun x hx => h x (List.mem_append_left _ hx))
    have hc : c.isDigit = true := h c (List.mem_append_right _ (List.mem_singleton_self c))
    have hv : digitValue c < 10 := by
      simp only [Char.isDigit, Bool.and_eq_true, decide_eq_true_eq] at hc
      have h57 : c.toNat ≤ 57 := by
        have := hc.2
        exact this
      unfold digitValue
      omega
    omega

theorem CellID_nonneg {n : Int} (h : 0 ≤ n) :
    CellID n = String.mk ('c' :: '_' :: padZeros 6 (Nat.toDigits 10 n.toNat)) := by
  unfold CellID
  rw [if_pos h]
  rfl

/-- `CellID` gives different ids to different sequences that are not negative. -/
theorem CellID_inj {a b : Int} (ha : 0 ≤ a) (hb : 0 ≤ b) (h : CellID a = CellID b) : a = b := by
  rw [CellID_nonneg ha, CellID_nonneg hb] at h
  have h1 : padZeros 6 (Nat.toDigits 10 a.toNat) = padZeros 6 (Nat.toDigits 10 b.toNat) := by
    have := congrArg String.data h
    simpa using this
  have h2 := congrArg digitsValue h1
  rw [digitsValue_padZeros, digitsValue_padZeros, digitsValue_toDigits, digitsValue_toDigits] at h2
  omega

theorem toDigits_length_le {n : Nat} (h : n < 1000000) : (Nat.toDigits 10 n).length ≤ 6 :=
  Nat.toDigitsCore_length 10 (by decide) (n + 1) n 6 (by simpa using h) (by decide)

theorem toDigits_length_gt {n : Nat} (h : 1000000 ≤ n) : 6 < (Nat.toDigits 10 n).length := by
  by_contra hle
  have hlt := digitsValue_lt (Nat.toDigits 10 n) (isDigit_toDigits n)
  rw [digitsValue_toDigits] at hlt
  have hpow : 10 ^ (Nat.toDigits 10 n).length ≤ 10 ^ 6 :=
    Nat.pow_le_pow_right (by decide) (by omega)
  have : (10 : Nat) ^ 6 = 1000000 := by norm_num
  omega

/-! ## The counter and the ids along the histories -/

/-- A string that SQL `TRIM` empties is emptied by `strings.TrimSpace`. -/
theorem TrimSpace_of_sqlTrim {s : String} (h : sqlTrim s = "") : TrimSpace s = "" := by
  unfold sqlTrim at h
  have h1 := congrArg String.data h
  simp only at h1
  have h2 : List.dropWhile (· = ' ') (List.dropWhile (· = ' ') s.data).reverse = [] := by
    have := congrArg List.reverse h1
    simpa using this
  rw [List.dropWhile_eq_nil_iff] at h2
  have h3 : List.dropWhile (· = ' ') s.data = [] := by
    cases hd : List.dropWhile (· = ' ') s.data with
    | nil => rfl
    | cons x xs =>
      exfalso
      have hx := h2 x (by rw [hd]; simp)
      have hhead := @List.head_dropWhile_not _ (fun c : Char => decide (c = ' ')) s.data
        (by rw [hd]; simp)
      simp only [hd, List.head_cons] at hhead
      rw [hx] at hhead
      simp at hhead
  rw [List.dropWhile_eq_nil_iff] at h3
  have h4 : trimLeft s.data = [] := by
    unfold trimLeft
    rw [List.dropWhile_eq_nil_iff]
    intro c hc
    have := h3 c hc
    simp only [decide_eq_true_eq] at this
    rw [this]
    decide
  unfold TrimSpace
  rw [h4]
  rfl

theorem sqlTrim_storedBranch (branch : String) : sqlTrim (storedBranch branch) ≠ "" := by
  unfold storedBranch
  split
  · decide
  · rename_i hne
    intro h
    have := TrimSpace_of_sqlTrim h
    rw [TrimSpace_idem] at this
    exact hne this

theorem any_main_upserted {branches : List Branch} (branch head createdAt : String)
    (h : branches.any (fun b => b.Name = "main") = true) :
    (upsertedBranches branches branch head createdAt).any (fun b => b.Name = "main") = true := by
  unfold upsertedBranches
  split
  · rw [List.any_eq_true] at h ⊢
    obtain ⟨b, hb, hn⟩ := h
    refine ⟨if b.Name = branch then { b with HeadCellID := some head } else b,
      List.mem_map.mpr ⟨b, hb, rfl⟩, ?_⟩
    split <;> exact hn
  · rw [List.any_append, h]
    rfl

theorem any_main_map {branches : List Branch} (f : Branch → Branch)
    (hf : ∀ b, (f b).Name = b.Name)
    (h : branches.any (fun b => b.Name = "main") = true) :
    (branches.map f).any (fun b => b.Name = "main") = true := by
  rw [List.any_eq_true] at h ⊢
  obtain ⟨b, hb, hn⟩ := h
  refine ⟨f b, List.mem_map.mpr ⟨b, hb, rfl⟩, ?_⟩
  rw [hf b]
  exact hn

theorem names_map {branches : List Branch} (f : Branch → Branch)
    (hf : ∀ b, (f b).Name = b.Name)
    (h : branches.Pairwise fun a b => a.Name ≠ b.Name) :
    (branches.map f).Pairwise fun a b => a.Name ≠ b.Name := by
  rw [List.pairwise_map]
  refine h.imp ?_
  intro a b hab
  rw [hf a, hf b]
  exact hab

theorem names_append {branches : List Branch} {br : Branch}
    (h : branches.Pairwise fun a b => a.Name ≠ b.Name)
    (hfresh : branches.any (fun b => b.Name = br.Name) = false) :
    (branches ++ [br]).Pairwise fun a b => a.Name ≠ b.Name := by
  rw [List.pairwise_append]
  refine ⟨h, List.pairwise_singleton _ _, ?_⟩
  intro a ha b hb heq
  rw [List.mem_singleton] at hb
  rw [hb] at heq
  have hany : branches.any (fun x => x.Name = br.Name) = true := by
    rw [List.any_eq_true]
    exact ⟨a, ha, by simpa using heq⟩
  rw [hfresh] at hany
  cases hany

theorem names_upserted {branches : List Branch} (branch head createdAt : String)
    (h : branches.Pairwise fun a b => a.Name ≠ b.Name) :
    (upsertedBranches branches branch head createdAt).Pairwise fun a b => a.Name ≠ b.Name := by
  unfold upsertedBranches
  split
  · exact names_map _ (fun b => by split <;> rfl) h
  · rename_i hany
    exact names_append h (by simpa using hany)

theorem Open_settled (now : String) : (Open now).Settled := by
  have hnil : ∀ c : Cell, c ∈ (Open now).cells → False := by
    intro c hc
    have hc1 : c ∈ ([] : List Cell) := hc
    simp at hc1
  exact ⟨⟨0, rfl, le_refl _, fun c hc => (hnil c hc).elim⟩, fun c hc => (hnil c hc).elim,
    fun c hc => (hnil c hc).elim, rfl, List.pairwise_singleton _ _⟩

/-- The facts carried to a database with the same cells and counter and a branch
table that still has `main`. -/
theorem DB.Settled.same {d d1 : DB} (s : d.Settled) (hc : d1.cells = d.cells)
    (hl : d1.lastSequence = d.lastSequence)
    (hm : d1.branches.any (fun b => b.Name = "main") = true)
    (hn : d1.branches.Pairwise fun a b => a.Name ≠ b.Name) : d1.Settled :=
  ⟨by rw [hc, hl]; exact s.counter, by rw [hc]; exact s.format, by rw [hc]; exact s.branchSet,
    hm, hn⟩

theorem DB.Settled.allocate {d d1 : DB} {n : Int} (s : d.Settled)
    (h : d.AllocateSequence = .ok (n, d1)) :
    d1.Settled ∧ d1.lastSequence = some n ∧ d1.cells = d.cells ∧ 0 < n ∧
      ∀ c ∈ d.cells, c.Sequence < n := by
  obtain ⟨L, hL, h0, hle⟩ := s.counter
  unfold DB.AllocateSequence at h
  rw [hL] at h
  dsimp only at h
  split at h
  swap
  · cases h
  simp only [Except.ok.injEq, Prod.mk.injEq] at h
  obtain ⟨hn, hd⟩ := h
  subst hn
  subst hd
  refine ⟨⟨⟨L + 1, rfl, by omega, fun c hc => by have := hle c hc; omega⟩, s.format,
    s.branchSet, s.mainRow, s.names⟩, rfl, rfl, by omega, fun c hc => by have := hle c hc; omega⟩

theorem DB.Settled.afterInsert {d d1 : DB} {now : String} {cell : Cell}
    {entries : List ManifestEntry} (s : d.Settled) (hpos : 0 < cell.Sequence)
    (hid : cell.ID = CellID cell.Sequence)
    (h : d.InsertCellWithManifestAndAdvanceBranch now cell entries = .ok d1) : d1.Settled := by
  obtain ⟨L, hL, h0, hle⟩ := s.counter
  obtain ⟨_, _, _, _, _, _, hd⟩ := Insert_shape h
  subst hd
  refine ⟨⟨max L cell.Sequence, ?_, le_trans h0 (le_max_left _ _), ?_⟩, ?_, ?_, ?_,
    names_upserted _ _ _ s.names⟩
  · simp [hL]
  · intro c hc
    simp only [List.mem_append, List.mem_singleton] at hc
    rcases hc with hc | hc
    · exact le_trans (hle c hc) (le_max_left _ _)
    · rw [hc]
      exact le_max_right _ _
  · intro c hc
    simp only [List.mem_append, List.mem_singleton] at hc
    rcases hc with hc | hc
    · exact s.format c hc
    · rw [hc]
      exact ⟨hpos, hid⟩
  · intro c hc
    simp only [List.mem_append, List.mem_singleton] at hc
    rcases hc with hc | hc
    · exact s.branchSet c hc
    · rw [hc]
      exact sqlTrim_storedBranch cell.Branch
  · exact any_main_upserted _ _ _ s.mainRow

theorem DB.Settled.evalOnly {d d1 : DB} (s : d.Settled) (h : evalOnly d d1) : d1.Settled := by
  obtain ⟨f, hf, e⟩ := h
  subst e
  obtain ⟨L, hL, h0, hle⟩ := s.counter
  refine ⟨⟨L, hL, h0, ?_⟩, ?_, ?_, s.mainRow, s.names⟩
  · intro c hc
    obtain ⟨x, hx, rfl⟩ := List.mem_map.mp hc
    rw [core_Sequence (hf x)]
    exact hle x hx
  · intro c hc
    obtain ⟨x, hx, rfl⟩ := List.mem_map.mp hc
    rw [core_Sequence (hf x), core_ID (hf x)]
    exact s.format x hx
  · intro c hc
    obtain ⟨x, hx, rfl⟩ := List.mem_map.mp hc
    rw [core_Branch (hf x)]
    exact s.branchSet x hx

theorem createCellFromManifest_settled {svc : Service} {now : String} {d d1 : DB} {fs : FS}
    {manifest : Manifest} {opts : SnapOptions} {knownParent : Option Cell}
    {known : Option (List ManifestEntry)} {cell : Cell} {active : String}
    (inv : d.Inv active) (s : d.Settled)
    (h : createCellFromManifest svc now d fs manifest opts knownParent known = (.ok cell, d1)) :
    d1.Settled := by
  obtain ⟨L, cell0, d3, hL, hid, hseq, _, _, _, _, hins, hev, _⟩ :=
    createCellFromManifest_ok (inv.activeBranch now) h
  obtain ⟨L1, hL1, h0, _⟩ := s.counter
  have hLL : L1 = L := by
    rw [hL] at hL1
    exact (Option.some.inj hL1).symm
  subst hLL
  have hlt : L1 < maxInt64 := createCellFromManifest_bound (inv.activeBranch now) h hL
  have halloc : d.AllocateSequence = .ok (L1 + 1, { d with lastSequence := some (L1 + 1) }) := by
    unfold DB.AllocateSequence
    rw [hL]
    dsimp only
    rw [if_pos hlt]
  have s2 := (s.allocate halloc).1
  have s3 := s2.afterInsert (by rw [hseq]; omega) (by rw [hid, hseq]) hins
  exact s3.evalOnly hev

theorem CreateCell_settled {svc : Service} {now : String} {opts : SnapOptions} {w w1 : World}
    {cell : Cell} {active : String} (inv : w.db.Inv active) (s : w.db.Settled)
    (h : CreateCell svc now opts w = (.ok cell, w1)) : w1.db.Settled := by
  unfold CreateCell at h
  split at h
  · simp at h
  · rename_i manifest fs1 hcap
    split at h
    rename_i r d1 hc
    simp only [Prod.mk.injEq] at h
    obtain ⟨hr, hw⟩ := h
    subst hr
    subst hw
    exact createCellFromManifest_settled inv s hc

theorem CreateCellIfChanged_settled {svc : Service} {now : String} {opts : SnapOptions}
    {w w1 : World} {r : Option Cell} {active : String} (inv : w.db.Inv active)
    (s : w.db.Settled) (h : CreateCellIfChanged svc now opts w = (.ok r, w1)) :
    w1.db.Settled := by
  unfold CreateCellIfChanged at h
  split at h
  · simp at h
  · rename_i manifest fs1 hcap
    rw [inv.activeBranch now] at h
    dsimp only at h
    split at h
    · simp only [Prod.mk.injEq, Except.ok.injEq] at h
      obtain ⟨_, hw⟩ := h
      subst hw
      exact s
    · split at h
      · simp at h
      · rename_i cell d2 hc
        simp only [Prod.mk.injEq, Except.ok.injEq] at h
        obtain ⟨_, hw⟩ := h
        subst hw
        exact createCellFromManifest_settled inv s hc

theorem Op.run_settled {svc : Service} {now : String} {op : Op} {w w1 : World} {active : String}
    (inv : w.db.Inv active) (s : w.db.Settled) (h : op.run svc now w = some w1) :
    w1.db.Settled := by
  cases op with
  | createCell opts =>
    simp only [Op.run] at h
    split at h
    · rename_i cell w2 hc
      simp only [Option.some.injEq] at h
      subst h
      exact CreateCell_settled inv s hc
    · simp at h
  | createCellIfChanged opts =>
    simp only [Op.run] at h
    split at h
    · rename_i r w2 hc
      simp only [Option.some.injEq] at h
      subst h
      exact CreateCellIfChanged_settled inv s hc
    · simp at h
  | forkBranch name switchNow =>
    simp only [Op.run] at h
    split at h
    · rename_i br d1 hc
      simp only [Option.some.injEq] at h
      subst h
      obtain ⟨_, hfind, _, hbr, hd1, _⟩ := ForkBranch_shape inv hc
      have hfresh : w.db.branches.any (fun b => b.Name = br.Name) = false := by
        rw [hbr]
        rw [Bool.eq_false_iff]
        intro hany
        rw [List.any_eq_true] at hany
        obtain ⟨x, hx, hxn⟩ := hany
        have := List.find?_eq_none.mp hfind x hx
        exact this hxn
      have hm : (w.db.branches ++ [br]).any (fun b => b.Name = "main") = true := by
        rw [List.any_append, s.mainRow]
        rfl
      have hn := names_append s.names hfresh
      dsimp only
      rw [hd1]
      split
      · have htab := setHeadCellMeta_tables
          (DB.SetMeta { w.db with branches := w.db.branches ++ [br] } "active_branch"
            (TrimSpace name)) (w.db.headOf active)
        refine s.same htab.1 htab.2.2.2.1 ?_ ?_
        · rw [htab.2.1]
          exact hm
        · rw [htab.2.1]
          exact hn
      · exact s.same rfl rfl hm hn
    · simp at h
  | switchBranch name =>
    simp only [Op.run] at h
    split at h
    · rename_i r w2 hc
      simp only [Option.some.injEq] at h
      subst h
      obtain ⟨branch, headID, _, _, _, _, hcase⟩ := SwitchBranch_shape inv hc
      rcases hcase with ⟨_, _, _, hw⟩ | ⟨_, safety, w0, fs2, fs3, _, hcc, _, _, hw, _⟩
      · rw [hw]
        exact s
      · have s0 := CreateCell_settled inv s hcc
        have htab := setHeadCellMeta_tables (w0.db.SetMeta "active_branch" (TrimSpace name))
          (some headID)
        rw [hw]
        refine s0.same htab.1 htab.2.2.2.1 ?_ ?_
        · show (setHeadCellMeta (w0.db.SetMeta "active_branch" (TrimSpace name))
            (some headID)).branches.any _ = true
          rw [htab.2.1]
          exact s0.mainRow
        · show (setHeadCellMeta (w0.db.SetMeta "active_branch" (TrimSpace name))
            (some headID)).branches.Pairwise _
          rw [htab.2.1]
          exact s0.names
    · simp at h
  | restoreCell targetID =>
    simp only [Op.run] at h
    split at h
    · rename_i safety w2 hc
      simp only [Option.some.injEq] at h
      subst h
      obtain ⟨target, w0, fs2, fs3, d2, _, hcc, _, _, hup, hw1⟩ := RestoreCell_shape inv hc
      have s0 := CreateCell_settled inv s hcc
      obtain ⟨_, hd2⟩ := UpdateBranchHead_ok hup
      have htab := setHeadCellMeta_tables d2 (some targetID)
      rw [hw1]
      refine s0.same ?_ ?_ ?_ ?_
      · show (setHeadCellMeta d2 (some targetID)).cells = w0.db.cells
        rw [htab.1, hd2]
      · show (setHeadCellMeta d2 (some targetID)).lastSequence = w0.db.lastSequence
        rw [htab.2.2.2.1, hd2]
      · show (setHeadCellMeta d2 (some targetID)).branches.any _ = true
        rw [htab.2.1, hd2]
        exact any_main_map _ (fun b => by split <;> rfl) s0.mainRow
      · show (setHeadCellMeta d2 (some targetID)).branches.Pairwise _
        rw [htab.2.1, hd2]
        exact names_map _ (fun b => by split <;> rfl) s0.names
    · simp at h

/-- Every reachable state has a counter that bounds the stored sequences, cells
with the ids of their sequences, and the branch row `main`. -/
theorem Reachable.settled {svc : Service} {w : World} (h : Reachable svc w) : w.db.Settled := by
  induction h with
  | opened now fs => exact Open_settled now
  | call now op hw hrun ih =>
    obtain ⟨a, inv⟩ := hw.inv
    exact Op.run_settled inv ih hrun
  | edit fs _ ih => exact ih

/-- Along `AllocateSequence` calls and inserts of any cells the counter row
exists and holds a value that is not negative and not below any stored sequence. -/
theorem SeqReachable.counted {d : DB} (h : SeqReachable d) :
    ∃ L : Int, d.lastSequence = some L ∧ 0 ≤ L ∧ ∀ c ∈ d.cells, c.Sequence ≤ L := by
  induction h with
  | opened now => exact (Open_settled now).counter
  | allocated _ ha ih =>
    rename_i d0 d1 n
    obtain ⟨L, hL, h0, hle⟩ := ih
    unfold DB.AllocateSequence at ha
    rw [hL] at ha
    dsimp only at ha
    split at ha
    swap
    · cases ha
    simp only [Except.ok.injEq, Prod.mk.injEq] at ha
    rw [← ha.2]
    exact ⟨L + 1, rfl, by omega, fun c hc => by have := hle c hc; omega⟩
  | inserted now cell entries _ hins ih =>
    obtain ⟨L, hL, h0, hle⟩ := ih
    obtain ⟨_, _, _, _, _, _, hd⟩ := Insert_shape hins
    subst hd
    refine ⟨max L cell.Sequence, by simp [hL], le_trans h0 (le_max_left _ _), ?_⟩
    intro c hc
    simp only [List.mem_append, List.mem_singleton] at hc
    rcases hc with hc | hc
    · exact le_trans (hle c hc) (le_max_left _ _)
    · rw [hc]
      exact le_max_right _ _

/-! ## Cell ids -/

theorem worldSide_reachable : Reachable exampleService worldSide := by
  have h1 : Reachable exampleService worldSide0 :=
    Reachable.call "t1" (Op.forkBranch "side" true) (Reachable.opened "t0" exampleTree) (by decide)
  exact Reachable.call "t2" (Op.createCell (messageOnly "v1")) h1 (by decide)

theorem seqExample_reachable : SeqReachable seqExample := by
  have h1 : SeqReachable seqAllocated :=
    SeqReachable.allocated (SeqReachable.opened "t0") (rfl : (Open "t0").AllocateSequence = _)
  exact SeqReachable.inserted "t1" (plainCell (CellID 1) 1 "main") [] h1 (by rfl)

set_option maxRecDepth 100000 in
/-- C22 as stated fails from the sequence 1000000 on: `%06d` pads to at least
six digits and cuts nothing, so `CellID(1000000)` is `c_1000000`, with seven
digits after `c_`. -/
theorem cell_id_seven_digits :
    CellID 1000000 = "c_1000000" ∧ (CellID 1000000).length = 9 ∧
    ¬ ∃ digits : List Char, CellID 1000000 = String.mk ('c' :: '_' :: digits) ∧
        digits.length = 6 := by
  have h : CellID 1000000 = "c_1000000" := by decide
  refine ⟨h, by rw [h]; decide, ?_⟩
  rintro ⟨digits, hd, hl⟩
  rw [h] at hd
  have hlen := congrArg String.length hd
  have h9 : ("c_1000000" : String).length = 9 := by decide
  rw [h9] at hlen
  simp [String.length, hl] at hlen

/-- C22 (amended): every cell stored in a state reached from a database just
opened by successful `CreateCell`, `CreateCellIfChanged`, `ForkBranch`,
`SwitchBranch` and `RestoreCell` calls has a sequence above 0 and the id
`CellID(sequence)`; for every sequence `n` from 1 to 999999, `CellID(n)` is `c_`
followed by exactly six decimal digits that write `n`, zeros in front; from
1000000 on it is `c_` followed by the decimal representation of `n`, which has
more than six digits. -/
theorem cell_id_format {svc : Service} {w : World} (h : Reachable svc w) :
    (∀ c ∈ w.db.cells, 0 < c.Sequence ∧ c.ID = CellID c.Sequence) ∧
    (∀ n : Int, 1 ≤ n → n ≤ 999999 →
      ∃ digits : List Char, CellID n = String.mk ('c' :: '_' :: digits) ∧ digits.length = 6 ∧
        (∀ ch ∈ digits, ch.isDigit = true) ∧ (digitsValue digits : Int) = n ∧
        digits = List.replicate (6 - (Nat.toDigits 10 n.toNat).length) '0' ++
          Nat.toDigits 10 n.toNat) ∧
    (∀ n : Int, 1000000 ≤ n →
      CellID n = String.mk ('c' :: '_' :: Nat.toDigits 10 n.toNat) ∧
      6 < (Nat.toDigits 10 n.toNat).length ∧
      (digitsValue (Nat.toDigits 10 n.toNat) : Int) = n) := by
  refine ⟨h.settled.format, ?_, ?_⟩
  · intro n h1 h2
    have h0 : 0 ≤ n := by omega
    have hlen := @toDigits_length_le n.toNat (by omega)
    refine ⟨padZeros 6 (Nat.toDigits 10 n.toNat), CellID_nonneg h0, ?_, ?_, ?_, rfl⟩
    · unfold padZeros
      rw [List.length_append, List.length_replicate]
      omega
    · intro ch hch
      unfold padZeros at hch
      rcases List.mem_append.mp hch with hz | hd
      · rw [(List.mem_replicate.mp hz).2]
        rfl
      · exact isDigit_toDigits _ ch hd
    · rw [digitsValue_padZeros, digitsValue_toDigits]
      omega
  · intro n h1
    have h0 : 0 ≤ n := by omega
    have hlen := @toDigits_length_gt n.toNat (by omega)
    refine ⟨?_, hlen, ?_⟩
    · rw [CellID_nonneg h0]
      unfold padZeros
      have hz : 6 - (Nat.toDigits 10 n.toNat).length = 0 := by omega
      rw [hz]
      rfl
    · rw [digitsValue_toDigits]
      omega

set_option maxRecDepth 100000 in
theorem cell_id_format_witness :
    world1.db.cells.map (fun c => (c.ID, c.Sequence)) = [("c_000001", 1)] ∧
    (∀ c ∈ world1.db.cells, 0 < c.Sequence ∧ c.ID = CellID c.Sequence) ∧
    CellID 42 = "c_000042" :=
  ⟨by decide, (cell_id_format world1_reachable).1, by decide⟩

/-! ## Fresh ids -/

/-- With a counter below the largest 64-bit integer that bounds the stored
sequences, `AllocateSequence` returns the next value, which no cell has; when
the cells carry the ids of their positive sequences, its id is not in use. -/
theorem fresh_of_counted {d : DB} {L : Int} (hL : d.lastSequence = some L) (h0 : 0 ≤ L)
    (hle : ∀ c ∈ d.cells, c.Sequence ≤ L) (hlt : L < maxInt64) :
    d.AllocateSequence = .ok (L + 1, { d with lastSequence := some (L + 1) }) ∧
    (∀ c ∈ d.cells, c.Sequence < L + 1) ∧ L + 1 ∉ d.cells.map Cell.Sequence ∧
    (d.pipelineFormed →
      CellID (L + 1) ∉ d.cellIDs ∧
      ∀ cell : Cell, cell.ID = CellID (L + 1) → cell.Sequence = L + 1 →
        ({ d with lastSequence := some (L + 1), cells := d.cells ++ [cell] } : DB).refOK
          cell.ParentID = true →
        insertCell { d with lastSequence := some (L + 1) } cell =
          .ok { d with lastSequence := some (L + 1), cells := d.cells ++ [cell] }) := by
  have hseq : L + 1 ∉ d.cells.map Cell.Sequence := by
    intro hmem
    obtain ⟨c, hc, hcs⟩ := List.mem_map.mp hmem
    have := hle c hc
    omega
  refine ⟨?_, fun c hc => by have := hle c hc; omega, hseq, ?_⟩
  · unfold DB.AllocateSequence
    rw [hL]
    dsimp only
    rw [if_pos hlt]
  · intro hformat
    have hid : CellID (L + 1) ∉ d.cellIDs := by
      intro hmem
      obtain ⟨c, hc, hcid⟩ := List.mem_map.mp hmem
      obtain ⟨hpos, hfmt⟩ := hformat c hc
      rw [hfmt] at hcid
      have := CellID_inj (le_of_lt hpos) (by omega) hcid
      have := hle c hc
      omega
    refine ⟨hid, ?_⟩
    intro cell hcid hcseq href
    have hid1 : cell.ID ∉ ({ d with lastSequence := some (L + 1) } : DB).cellIDs := by
      rw [hcid]
      exact hid
    have hseq1 : cell.Sequence ∉
        ({ d with lastSequence := some (L + 1) } : DB).cells.map Cell.Sequence := by
      rw [hcseq]
      exact hseq
    unfold insertCell
    rw [if_neg hid1, if_neg hseq1]
    dsimp only
    rw [if_pos href]

set_option maxRecDepth 100000 in
/-- C30 as stated fails for an insert whose id is not the id of its sequence.
The insert of the cell `c_000002` with sequence 1 into a database just opened
is accepted and leaves the counter at 1; `AllocateSequence` then returns 2, the
id `CellID(2)` is `c_000002`, which is in use, and the insert of the pipeline's
cell of sequence 2 fails. -/
theorem allocated_id_in_use :
    SeqReachable seqForeign ∧
    seqForeign.cells.map (fun c => (c.ID, c.Sequence)) = [("c_000002", 1)] ∧
    seqForeign.lastSequence = some 1 ∧
    seqForeign.AllocateSequence.toOption = some (2, seqForeignAllocated) ∧
    CellID 2 = "c_000002" ∧ CellID 2 ∈ seqForeign.cellIDs ∧
    (seqForeignAllocated.InsertCellWithManifestAndAdvanceBranch "t2"
      (plainCell (CellID 2) 2 "main") []).toOption = none :=
  ⟨SeqReachable.inserted "t1" (plainCell "c_000002" 1 "main") [] (SeqReachable.opened "t0")
      (by rfl),
   by decide, by decide, by decide, by decide, by decide, by decide⟩

/-- C30 (amended): in every state reached from a database just opened by
`AllocateSequence` calls and inserts of cells, and in every state reached by the
core operations, the counter row holds a value `L` that is at least the
sequence of every stored cell. While `L` is below the largest 64-bit integer,
`AllocateSequence` returns `L + 1`, which is above every stored sequence and is
the sequence of no cell; and when every stored cell has a positive sequence and
the id `CellID(sequence)`, as the cells of the pipeline have, the id
`CellID(L + 1)` is not in use, so `insertCell` accepts a cell with that id and
sequence whenever its parent reference holds. In the states reached by the core
operations every stored cell is of that form. -/
theorem fresh_ids {d : DB}
    (h : SeqReachable d ∨ ∃ (svc : Service) (w : World), Reachable svc w ∧ w.db = d) :
    ∃ L : Int, d.lastSequence = some L ∧ (∀ c ∈ d.cells, c.Sequence ≤ L) ∧
      (L < maxInt64 →
        d.AllocateSequence = .ok (L + 1, { d with lastSequence := some (L + 1) }) ∧
        (∀ c ∈ d.cells, c.Sequence < L + 1) ∧ L + 1 ∉ d.cells.map Cell.Sequence ∧
        (d.pipelineFormed →
          CellID (L + 1) ∉ d.cellIDs ∧
          ∀ cell : Cell, cell.ID = CellID (L + 1) → cell.Sequence = L + 1 →
            ({ d with lastSequence := some (L + 1), cells := d.cells ++ [cell] } : DB).refOK
              cell.ParentID = true →
            insertCell { d with lastSequence := some (L + 1) } cell =
              .ok { d with lastSequence := some (L + 1), cells := d.cells ++ [cell] })) ∧
      ((∃ (svc : Service) (w : World), Reachable svc w ∧ w.db = d) → d.pipelineFormed) := by
  have hcounted : ∃ L : Int, d.lastSequence = some L ∧ 0 ≤ L ∧ ∀ c ∈ d.cells, c.Sequence ≤ L := by
    rcases h with h | ⟨svc, w, hw, rfl⟩
    · exact h.counted
    · exact hw.settled.counter
  obtain ⟨L, hL, h0, hle⟩ := hcounted
  refine ⟨L, hL, hle, fun hlt => fresh_of_counted hL h0 hle hlt, ?_⟩
  rintro ⟨svc, w, hw, rfl⟩
  exact hw.settled.format

set_option maxRecDepth 100000 in
theorem fresh_ids_witness :
    seqExample.cells.map (fun c => (c.ID, c.Sequence)) = [("c_000001", 1)] ∧
    seqExample.lastSequence = some 1 ∧
    seqExample.AllocateSequence = .ok (2, { seqExample with lastSequence := some 2 }) ∧
    CellID 2 ∉ seqExample.cellIDs := by
  have hlast : seqExample.lastSequence = some 1 := by decide
  have hformed : seqExample.pipelineFormed := by
    unfold DB.pipelineFormed
    decide
  obtain ⟨L, h1, _, h3, _⟩ := fresh_ids (Or.inl seqExample_reachable)
  have hL : L = 1 := by
    rw [hlast] at h1
    exact (Option.some.inj h1).symm
  subst hL
  obtain ⟨h4, _, _, h5⟩ := h3 (by decide)
  exact ⟨by decide, hlast, h4, (h5 hformed).1⟩

/-! ## Opening a database again -/

theorem latestBySequence_none {cs : List Cell} (h : latestBySequence cs = none) : cs = [] := by
  cases cs with
  | nil => rfl
  | cons x xs =>
    unfold latestBySequence at h
    split at h
    · cases h
    · split at h <;> cases h

theorem find?_map_name (f : Branch → Branch) (hf : ∀ b, (f b).Name = b.Name) (name : String) :
    ∀ l : List Branch, (l.map f).find? (fun b => b.Name = name) =
      (l.find? (fun b => b.Name = name)).map f := by
  intro l
  induction l with
  | nil => rfl
  | cons x xs ih =>
    simp only [List.map_cons, List.find?_cons, hf x]
    by_cases hx : x.Name = name
    · simp [hx]
    · simp only [hx, decide_False]
      exact ih

/-- Two rows of a table without repeated names that have the same name are the same row. -/
theorem row_unique {branches : List Branch}
    (h : branches.Pairwise fun a b => a.Name ≠ b.Name) {a b : Branch}
    (ha : a ∈ branches) (hb : b ∈ branches) (hn : a.Name = b.Name) : a = b := by
  by_contra hne
  exact (h.forall (fun x y hxy => fun e => hxy e.symm) ha hb hne) hn

/-- On a database whose cells carry a branch, with the row `main`, both meta keys
and a counter that bounds the stored sequences, the migration changes nothing but
a null head of `main`. -/
theorem migrate_settled {d : DB} (s : d.Settled)
    (hA : d.meta.any (fun kv => kv.1 = "active_branch") = true)
    (hH : d.meta.any (fun kv => kv.1 = "head_cell") = true) (now : String) :
    migrate now d = { d with branches := backfilledBranches d } := by
  obtain ⟨L, hL, h0, hle⟩ := s.counter
  have hbranch := s.branchSet
  have hmain := s.mainRow
  clear s
  obtain ⟨cells, rows, branches, metas, last, runs⟩ := d
  dsimp only at hL hle hbranch hmain hA hH
  subst hL
  have hcells : cells.map
      (fun c => if sqlTrim c.Branch = "" then { c with Branch := "main" } else c) = cells := by
    conv_rhs => rw [← List.map_id cells]
    apply List.map_congr_left
    intro c hc
    rw [if_neg (hbranch c hc)]
    rfl
  unfold migrate backfilledBranches DB.LatestCell
  dsimp only
  rw [hcells, if_pos hmain]
  cases hlat : latestBySequence cells with
  | none =>
    simp only [Option.map_none', Option.getD_none, hA, hH, eq_self_iff_true, if_true, hlat]
    have hL0 : (if L < 0 then 0 else L) = L := by
      split <;> omega
    have hbr : branches.map (fun b : Branch =>
        if b.Name = "main" ∧ b.HeadCellID = none then
          ({ Name := b.Name, HeadCellID := none, CreatedAt := b.CreatedAt } : Branch)
        else b) = branches := by
      conv_rhs => rw [← List.map_id branches]
      apply List.map_congr_left
      intro b _
      split
      · rename_i hb
        obtain ⟨name, head, created⟩ := b
        simp only at hb
        simp [hb.2]
      · rfl
    rw [hL0, hbr]
  | some c =>
    simp only [Option.map_some', Option.getD_some, hA, hH, eq_self_iff_true, if_true, hlat]
    have hc := hle c (latestBySequence_mem hlat)
    have hL0 : (if L < c.Sequence then c.Sequence else L) = L := by
      split <;> omega
    have hbr : branches.map (fun b : Branch =>
        if b.Name = "main" then
          ({ Name := b.Name, HeadCellID := some (b.HeadCellID.getD c.ID),
             CreatedAt := b.CreatedAt } : Branch)
        else b) =
        branches.map (fun b : Branch =>
          if b.Name = "main" ∧ b.HeadCellID = none then
            ({ Name := b.Name, HeadCellID := some c.ID, CreatedAt := b.CreatedAt } : Branch)
          else b) := by
      apply List.map_congr_left
      intro b _
      obtain ⟨name, head, created⟩ := b
      by_cases hn : name = "main"
      · cases head with
        | none => simp [hn]
        | some x => simp [hn]
      · simp [hn]
    rw [hL0, hbr]

/-- C26 as stated fails in the state reached by `ForkBranch("side", true)` and a
`CreateCell` from a repository just created: the cell `c_000001` is on `side`,
the head of `main` is null, and the migration sets it to `c_000001`. -/
theorem open_again_changes_main_head :
    Reachable exampleService worldSide ∧
    (worldSide.db.GetBranch "main").toOption =
      some { Name := "main", HeadCellID := none, CreatedAt := "t0" } ∧
    ((migrate "t9" worldSide.db).GetBranch "main").toOption =
      some { Name := "main", HeadCellID := some "c_000001", CreatedAt := "t0" } ∧
    migrate "t9" worldSide.db ≠ worldSide.db :=
  ⟨worldSide_reachable, by decide, by decide, by decide⟩

/-- C26 (amended): in every state reached from a database just opened by
successful `CreateCell`, `CreateCellIfChanged`, `ForkBranch`, `SwitchBranch` and
`RestoreCell` calls, running the migration again leaves every cell, every
manifest row, every meta value, the sequence counter, every agent run and every
branch row as it was, except that a null head of `main` becomes the id of the
latest cell when a cell is stored; so the database is unchanged when the head
of `main` is set or no cell is stored. -/
theorem open_again_backfills_main {svc : Service} {w : World} (h : Reachable svc w)
    (now : String) :
    migrate now w.db = { w.db with branches := backfilledBranches w.db } ∧
    (if w.db.headOf "main" = none ∧ w.db.cells ≠ [] then
      (migrate now w.db).headOf "main" = w.db.LatestCell.map Cell.ID ∧
        (migrate now w.db).headOf "main" ≠ none
    else migrate now w.db = w.db) := by
  obtain ⟨a, inv⟩ := h.inv
  have s := h.settled
  have hA : w.db.meta.any (fun kv => kv.1 = "active_branch") = true := by
    have := inv.activeMeta
    unfold DB.GetMeta at this
    split at this
    · rename_i kv hfind
      rw [List.any_eq_true]
      exact ⟨kv, List.mem_of_find?_eq_some hfind, by simpa using List.find?_some hfind⟩
    · cases this
  have hH : w.db.meta.any (fun kv => kv.1 = "head_cell") = true := by
    have := inv.mirror
    unfold DB.GetMeta at this
    split at this
    · rename_i kv hfind
      rw [List.any_eq_true]
      exact ⟨kv, List.mem_of_find?_eq_some hfind, by simpa using List.find?_some hfind⟩
    · cases this
  have hm := migrate_settled s hA hH now
  refine ⟨hm, ?_⟩
  have hmainrow := s.mainRow
  rw [List.any_eq_true] at hmainrow
  obtain ⟨b0, hb0, hn0⟩ := hmainrow
  cases hfind : w.db.branches.find? (fun b => b.Name = "main") with
  | none =>
    exact absurd hn0 (List.find?_eq_none.mp hfind b0 hb0)
  | some b1 =>
    have hb1 : b1 ∈ w.db.branches := List.mem_of_find?_eq_some hfind
    have hn1 : b1.Name = "main" := by simpa using List.find?_some hfind
    have hhead : w.db.headOf "main" = b1.HeadCellID := by
      unfold DB.headOf DB.GetBranch
      rw [hfind]
    split
    · rename_i hcond
      obtain ⟨hnone, hcells⟩ := hcond
      rw [hhead] at hnone
      have hnew : (migrate now w.db).headOf "main" = w.db.LatestCell.map Cell.ID := by
        rw [hm]
        unfold DB.headOf DB.GetBranch backfilledBranches
        dsimp only
        rw [find?_map_name _ (fun b => by split <;> rfl), hfind]
        dsimp only [Option.map_some']
        rw [if_pos ⟨hn1, hnone⟩]
      refine ⟨hnew, ?_⟩
      rw [hnew]
      intro hlat
      cases hl : w.db.LatestCell with
      | none => exact hcells (latestBySequence_none hl)
      | some c =>
        rw [hl] at hlat
        cases hlat
    · rename_i hcond
      rw [hm]
      have hbr : backfilledBranches w.db = w.db.branches := by
        unfold backfilledBranches
        conv_rhs => rw [← List.map_id w.db.branches]
        apply List.map_congr_left
        intro b hb
        split
        · rename_i hbc
          have hsame : b = b1 := row_unique s.names hb hb1 (hbc.1.trans hn1.symm)
          have hcells : w.db.cells = [] := by
            by_contra hne
            exact hcond ⟨by rw [hhead, ← hsame]; exact hbc.2, hne⟩
          have hlat : w.db.LatestCell = none := by
            unfold DB.LatestCell
            rw [hcells]
            rfl
          rw [hlat]
          obtain ⟨name, head, created⟩ := b
          simp only at hbc
          simp [hbc.2]
        · rfl
      rw [hbr]


set_option maxRecDepth 100000 in
theorem open_again_backfills_main_witness :
    world1.db.headOf "main" = some "c_000001" ∧
    (migrate "t3" world1.db = { world1.db with branches := backfilledBranches world1.db } ∧
      (if world1.db.headOf "main" = none ∧ world1.db.cells ≠ [] then
        (migrate "t3" world1.db).headOf "main" = world1.db.LatestCell.map Cell.ID ∧
          (migrate "t3" world1.db).headOf "main" ≠ none
      else migrate "t3" world1.db = world1.db)) :=
  ⟨by decide, open_again_backfills_main world1_reachable "t3"⟩

/-! ## Cells are not changed once inserted -/

theorem keeps.unchanged (d : DB) : keeps d d :=
  ⟨⟨[], by simp⟩, fun _ _ => rfl⟩

theorem keeps.andThen {d d1 d2 : DB} (h1 : keeps d d1) (h2 : keeps d1 d2) : keeps d d2 := by
  obtain ⟨⟨e1, hc1⟩, hr1⟩ := h1
  obtain ⟨⟨e2, hc2⟩, hr2⟩ := h2
  refine ⟨⟨e1 ++ e2, by rw [hc2, hc1, List.append_assoc]⟩, ?_⟩
  intro c hc
  rw [hr2 c (by rw [hc1]; exact List.mem_append_left _ hc), hr1 c hc]

theorem keeps.of_tables {d d1 : DB} (hc : d1.cells = d.cells)
    (hm : d1.manifestEntries = d.manifestEntries) : keeps d d1 :=
  ⟨⟨[], by rw [hc, List.append_nil]⟩, fun _ _ => by unfold DB.rowsOf; rw [hm]⟩

theorem insertCell_keeps {d d1 : DB} {cell : Cell} (h : insertCell d cell = .ok d1) :
    keeps d d1 ∧ d1.cells = d.cells ++ [cell] := by
  unfold insertCell at h
  split at h
  · cases h
  · split at h
    · cases h
    · dsimp only at h
      split at h
      · simp only [Except.ok.injEq] at h
        subst h
        exact ⟨⟨⟨[cell], rfl⟩, fun _ _ => rfl⟩, rfl⟩
      · cases h

theorem AllocateSequence_keeps {d d1 : DB} {n : Int} (h : d.AllocateSequence = .ok (n, d1)) :
    keeps d d1 := by
  unfold DB.AllocateSequence at h
  split at h
  · cases h
  · split at h
    · simp only [Except.ok.injEq, Prod.mk.injEq] at h
      rw [← h.2]
      exact keeps.of_tables rfl rfl
    · cases h

theorem CreateBranch_keeps {now : String} {d d1 : DB} {name : String} {head : Option String}
    {createdAt : String} (h : d.CreateBranch now name head createdAt = .ok d1) : keeps d d1 := by
  unfold DB.CreateBranch at h
  dsimp only at h
  split at h
  · cases h
  · split at h
    · cases h
    · split at h
      · simp only [Except.ok.injEq] at h
        rw [← h]
        exact keeps.of_tables rfl rfl
      · cases h

theorem UpdateBranchHead_keeps {d d1 : DB} {name : String} {head : Option String}
    (h : d.UpdateBranchHead name head = .ok d1) : keeps d d1 := by
  rw [(UpdateBranchHead_ok h).2]
  exact keeps.of_tables rfl rfl

theorem SetMeta_keeps (d : DB) (key value : String) : keeps d (d.SetMeta key value) :=
  keeps.of_tables rfl rfl

theorem setHeadCellMeta_keeps (d : DB) (head : Option String) :
    keeps d (setHeadCellMeta d head) :=
  keeps.of_tables (setHeadCellMeta_tables d head).1 (setHeadCellMeta_tables d head).2.2.1

theorem ReserveAgentRun_keeps (now : String) (d : DB) (run : AgentRun) :
    keeps d (d.ReserveAgentRun now run).2 := by
  unfold DB.ReserveAgentRun
  dsimp only
  split
  · exact keeps.unchanged d
  · split
    · exact keeps.unchanged d
    · split
      · split <;> exact keeps.unchanged d
      · exact keeps.of_tables rfl rfl

theorem FinalizeAgentRun_keeps {now : String} {d d1 : DB} {runID status : String}
    {cellID branch : Option String} {source : String} {runErr : Option String}
    (h : d.FinalizeAgentRun now runID status cellID branch source runErr = .ok d1) :
    keeps d d1 := by
  unfold DB.FinalizeAgentRun at h
  dsimp only at h
  split at h
  · cases h
  · split at h
    · cases h
    · split at h
      · simp only [Except.ok.injEq] at h
        rw [← h]
        exact keeps.of_tables rfl rfl
      · cases h

theorem ensureBranchExists_keeps {now : String} {d d1 : DB} {branch : String}
    {r : Except String Unit} (h : ensureBranchExists now d branch = (r, d1)) : keeps d d1 := by
  unfold ensureBranchExists at h
  split at h
  · simp only [Prod.mk.injEq] at h
    rw [← h.2]
    exact keeps.unchanged d
  · simp only [Prod.mk.injEq] at h
    rw [← h.2]
    exact keeps.unchanged d
  · dsimp only at h
    split at h
    · simp only [Prod.mk.injEq] at h
      rw [← h.2]
      exact keeps.unchanged d
    · rename_i d2 hc
      simp only [Prod.mk.injEq] at h
      rw [← h.2]
      exact CreateBranch_keeps hc

theorem ActiveBranchFrom_keeps {g : Except DbError String} {now : String} {d d1 : DB}
    {r : Except String String} (h : ActiveBranchFrom g now d = (r, d1)) : keeps d d1 := by
  unfold ActiveBranchFrom at h
  dsimp only at h
  split at h
  · split at h
    · rename_i err d2 he
      simp only [Prod.mk.injEq] at h
      rw [← h.2]
      exact (SetMeta_keeps d _ _).andThen (ensureBranchExists_keeps he)
    · rename_i u d2 he
      simp only [Prod.mk.injEq] at h
      rw [← h.2]
      exact (SetMeta_keeps d _ _).andThen (ensureBranchExists_keeps he)
  · split at h
    · simp only [Prod.mk.injEq] at h
      rw [← h.2]
      exact keeps.unchanged d
    · split at h
      · rename_i err d2 he
        simp only [Prod.mk.injEq] at h
        rw [← h.2]
        exact ensureBranchExists_keeps he
      · rename_i u d2 he
        simp only [Prod.mk.injEq] at h
        rw [← h.2]
        exact ensureBranchExists_keeps he

theorem ActiveBranch_keeps {now : String} {d d1 : DB} {r : Except String String}
    (h : ActiveBranch now d = (r, d1)) : keeps d d1 :=
  ActiveBranchFrom_keeps h


theorem evalAt.untouched (name : String) (d : DB) : evalAt name d d :=
  ⟨fun c => c, fun _ _ => rfl, fun _ => rfl, by cases d; simp⟩

theorem evalAt.twice {id : String} {d d1 d2 : DB} (h1 : evalAt id d d1) (h2 : evalAt id d1 d2) :
    evalAt id d d2 := by
  obtain ⟨f, hf1, hf2, e1⟩ := h1
  obtain ⟨g, hg1, hg2, e2⟩ := h2
  refine ⟨g ∘ f, ?_, fun c => (hg2 (f c)).trans (hf2 c), ?_⟩
  · intro c hc
    show g (f c) = c
    rw [hf1 c hc, hg1 c hc]
  · rw [e2, e1]
    simp

theorem UpdateCellEval_evalAt (d : DB) (id : String) (a b c e : Option Int)
    (s t : Option String) : evalAt id d (d.UpdateCellEval id a b c e s t) := by
  refine ⟨fun x => if x.ID = id then
      { x with EvalRequested := true, EvalRan := true, TestsPassed := a, TestsFailed := b,
               LintErrors := c, TypeErrors := e, EvalSkipped := s, EvalError := t }
    else x, ?_, ?_, rfl⟩
  · intro x hx
    dsimp only
    rw [if_neg hx]
  · intro x
    dsimp only
    split <;> rfl

theorem EvaluateCell_evalAt (svc : Service) (d : DB) (fs : FS) (id : String) :
    evalAt id d (EvaluateCell svc d fs id).2 := by
  unfold EvaluateCell
  split
  · exact evalAt.untouched id d
  · exact evalAt.untouched id d
  · split
    · exact evalAt.untouched id d
    · exact UpdateCellEval_evalAt _ _ _ _ _ _ _ _

/-- A change of the eval slot of a cell that `d` does not hold leaves the cells
of `d` as they are. -/
theorem keeps.evalAt {id : String} {d d3 d4 : DB} (hfresh : id ∉ d.cellIDs) (hk : keeps d d3)
    (he : evalAt id d3 d4) : keeps d d4 := by
  obtain ⟨⟨e, hc⟩, hr⟩ := hk
  obtain ⟨g, hg, _, e4⟩ := he
  subst e4
  refine ⟨⟨e.map g, ?_⟩, hr⟩
  show d3.cells.map g = d.cells ++ e.map g
  rw [hc, List.map_append]
  congr 1
  conv_rhs => rw [← List.map_id d.cells]
  apply List.map_congr_left
  intro c hcm
  apply hg
  intro hid
  exact hfresh (hid ▸ List.mem_map.mpr ⟨c, hcm, rfl⟩)

/-- An accepted insert whose manifest rows carry the id of the new cell leaves the
stored cells and their rows as they are. -/
theorem Insert_keeps {now : String} {d d1 : DB} {cell : Cell} {entries : List ManifestEntry}
    (hown : ∀ e ∈ entries, e.CellID = cell.ID)
    (h : d.InsertCellWithManifestAndAdvanceBranch now cell entries = .ok d1) :
    keeps d d1 ∧ cell.ID ∉ d.cellIDs := by
  obtain ⟨hfresh, _, _, _, _, _, hd⟩ := Insert_shape h
  subst hd
  refine ⟨⟨⟨[storedCell now cell], rfl⟩, ?_⟩, hfresh⟩
  intro c hc
  show (d.manifestEntries ++ entries).filter _ = d.manifestEntries.filter _
  rw [List.filter_append]
  have : entries.filter (fun e => decide (e.CellID = c.ID)) = [] := by
    rw [List.filter_eq_nil_iff]
    intro e he
    simp only [decide_eq_true_eq]
    intro heq
    rw [hown e he] at heq
    exact hfresh (heq ▸ List.mem_map.mpr ⟨c, hc, rfl⟩)
  rw [this, List.append_nil]

theorem manifestEntriesOf_own (cellID : String) (manifest : Manifest) :
    ∀ e ∈ manifestEntriesOf cellID manifest, e.CellID = cellID := by
  intro e he
  unfold manifestEntriesOf at he
  obtain ⟨p, _, rfl⟩ := List.mem_map.mp he
  rfl

/-- Whatever `createCellFromManifest` returns, the cells stored before and their
manifest rows are as they were. -/
theorem createCellFromManifest_keeps {svc : Service} {now : String} {d d1 : DB} {fs : FS}
    {manifest : Manifest} {opts : SnapOptions} {knownParent : Option Cell}
    {known : Option (List ManifestEntry)} {r : Except String Cell}
    (h : createCellFromManifest svc now d fs manifest opts knownParent known = (r, d1)) :
    keeps d d1 := by
  unfold createCellFromManifest at h
  split at h
  · rename_i err d0 ha
    simp only [Prod.mk.injEq] at h
    rw [← h.2]
    exact ActiveBranch_keeps ha
  · rename_i branch d0 ha
    have k0 := ActiveBranch_keeps ha
    split at h
    · simp only [Prod.mk.injEq] at h
      rw [← h.2]
      exact k0
    · rename_i seq d2 hal
      have k2 := k0.andThen (AllocateSequence_keeps hal)
      dsimp only at h
      split at h
      · simp only [Prod.mk.injEq] at h
        rw [← h.2]
        exact k2
      · rename_i d3 hins
        obtain ⟨k3, hfresh⟩ := Insert_keeps (manifestEntriesOf_own _ _) hins
        have hfresh0 : CellID seq ∉ d.cellIDs := by
          intro hmem
          apply hfresh
          obtain ⟨c, hc, hcid⟩ := List.mem_map.mp hmem
          obtain ⟨e, he⟩ := k2.1
          exact List.mem_map.mpr ⟨c, by rw [he]; exact List.mem_append_left _ hc, hcid⟩
        have hev : evalAt (CellID seq) d3 (if opts.RunEval = true then
            match EvaluateCell svc d3 fs (CellID seq) with
            | ((_, some errText), d') =>
              d'.UpdateCellEval (CellID seq) none none none none none (some errText)
            | ((_, none), d') => d'
          else d3) := by
          split
          · have hE := EvaluateCell_evalAt svc d3 fs (CellID seq)
            split
            · rename_i heq
              rw [heq] at hE
              exact hE.twice (UpdateCellEval_evalAt _ _ _ _ _ _ _ _)
            · rename_i heq
              rw [heq] at hE
              exact hE
          · exact evalAt.untouched _ d3
        have k4 := keeps.evalAt hfresh0 (k2.andThen k3) hev
        split at h
        · simp only [Prod.mk.injEq] at h
          rw [← h.2]
          exact k4
        · simp only [Prod.mk.injEq] at h
          rw [← h.2]
          exact k4

theorem CreateCell_keeps {svc : Service} {now : String} {opts : SnapOptions} {w w1 : World}
    {r : Except String Cell} (h : CreateCell svc now opts w = (r, w1)) : keeps w.db w1.db := by
  unfold CreateCell at h
  split at h
  · simp only [Prod.mk.injEq] at h
    rw [← h.2]
    exact keeps.unchanged _
  · split at h
    rename_i r1 d1 hc
    simp only [Prod.mk.injEq] at h
    rw [← h.2]
    exact createCellFromManifest_keeps hc

theorem CreateCellIfChanged_keeps {svc : Service} {now : String} {opts : SnapOptions}
    {w w1 : World} {r : Except String (Option Cell)}
    (h : CreateCellIfChanged svc now opts w = (r, w1)) : keeps w.db w1.db := by
  unfold CreateCellIfChanged at h
  split at h
  · simp only [Prod.mk.injEq] at h
    rw [← h.2]
    exact keeps.unchanged _
  · split at h
    · rename_i err d1 ha
      simp only [Prod.mk.injEq] at h
      rw [← h.2]
      exact ActiveBranch_keeps ha
    · rename_i branch d1 ha
      have k1 := ActiveBranch_keeps ha
      dsimp only at h
      split at h
      · simp only [Prod.mk.injEq] at h
        rw [← h.2]
        exact k1
      · split at h
        · rename_i err d2 hc
          simp only [Prod.mk.injEq] at h
          rw [← h.2]
          exact k1.andThen (createCellFromManifest_keeps hc)
        · rename_i cell d2 hc
          simp only [Prod.mk.injEq] at h
          rw [← h.2]
          exact k1.andThen (createCellFromManifest_keeps hc)

theorem ForkBranch_keeps {now name : String} {switchNow : Bool} {d d1 : DB}
    {r : Except String Branch} (h : ForkBranch now name switchNow d = (r, d1)) :
    keeps d d1 := by
  unfold ForkBranch at h
  dsimp only at h
  split at h
  · simp only [Prod.mk.injEq] at h
    rw [← h.2]
    exact keeps.unchanged _
  · split at h
    · simp only [Prod.mk.injEq] at h
      rw [← h.2]
      exact keeps.unchanged _
    · split at h
      · rename_i err d0 ha
        simp only [Prod.mk.injEq] at h
        rw [← h.2]
        exact ActiveBranch_keeps ha
      · rename_i active d0 ha
        have k0 := ActiveBranch_keeps ha
        split at h
        · simp only [Prod.mk.injEq] at h
          rw [← h.2]
          exact k0
        · rename_i d2 hc
          have k2 := k0.andThen (CreateBranch_keeps hc)
          have k3 : keeps d (if switchNow = true then
              setHeadCellMeta (d2.SetMeta "active_branch" (TrimSpace name))
                ((branchHeadCell d0 active).map Cell.ID)
            else d2) := by
            split
            · exact k2.andThen ((SetMeta_keeps d2 _ _).andThen (setHeadCellMeta_keeps _ _))
            · exact k2
          split at h
          · simp only [Prod.mk.injEq] at h
            rw [← h.2]
            exact k3
          · simp only [Prod.mk.injEq] at h
            rw [← h.2]
            exact k3


theorem SwitchBranch_keeps {svc : Service} {now name : String} {w w1 : World}
    {r : Except String (Option Cell × Cell)} (h : SwitchBranch svc now name w = (r, w1)) :
    keeps w.db w1.db := by
  unfold SwitchBranch at h
  dsimp only at h
  split at h
  · simp only [Prod.mk.injEq] at h
    rw [← h.2]
    exact keeps.unchanged _
  · split at h
    · simp only [Prod.mk.injEq] at h
      rw [← h.2]
      exact keeps.unchanged _
    · simp only [Prod.mk.injEq] at h
      rw [← h.2]
      exact keeps.unchanged _
    · split at h
      · simp only [Prod.mk.injEq] at h
        rw [← h.2]
        exact keeps.unchanged _
      · split at h
        · simp only [Prod.mk.injEq] at h
          rw [← h.2]
          exact keeps.unchanged _
        · split at h
          · rename_i err d1 ha
            simp only [Prod.mk.injEq] at h
            rw [← h.2]
            exact ActiveBranch_keeps ha
          · rename_i active d1 ha
            have k1 : keeps w.db d1 := ActiveBranch_keeps ha
            split at h
            · split at h
              · simp only [Prod.mk.injEq] at h
                rw [← h.2]
                exact k1
              · simp only [Prod.mk.injEq] at h
                rw [← h.2]
                exact k1
            · split at h
              · rename_i err w2 hc
                simp only [Prod.mk.injEq] at h
                rw [← h.2]
                exact k1.andThen (CreateCell_keeps hc)
              · rename_i safety w2 hc
                have k2 : keeps w.db w2.db := k1.andThen (CreateCell_keeps hc)
                split at h
                · simp only [Prod.mk.injEq] at h
                  rw [← h.2]
                  exact k2
                · split at h
                  · simp only [Prod.mk.injEq] at h
                    rw [← h.2]
                    exact k2
                  · have k3 : ∀ x, keeps w.db (setHeadCellMeta
                        (w2.db.SetMeta "active_branch" (TrimSpace name)) x) := fun x =>
                      k2.andThen ((SetMeta_keeps w2.db "active_branch" (TrimSpace name)).andThen
                        (setHeadCellMeta_keeps _ x))
                    split at h
                    · simp only [Prod.mk.injEq] at h
                      rw [← h.2]
                      exact k3 _
                    · simp only [Prod.mk.injEq] at h
                      rw [← h.2]
                      exact k3 _


theorem RestoreCell_keeps {svc : Service} {now targetID : String} {w w1 : World}
    {r : Except String Cell} (h : RestoreCell svc now targetID w = (r, w1)) :
    keeps w.db w1.db := by
  unfold RestoreCell at h
  split at h
  · simp only [Prod.mk.injEq] at h
    rw [← h.2]
    exact keeps.unchanged _
  · simp only [Prod.mk.injEq] at h
    rw [← h.2]
    exact keeps.unchanged _
  · split at h
    · rename_i err d1 ha
      simp only [Prod.mk.injEq] at h
      rw [← h.2]
      exact ActiveBranch_keeps ha
    · rename_i active d1 ha
      have k1 : keeps w.db d1 := ActiveBranch_keeps ha
      dsimp only at h
      split at h
      · rename_i err w2 hc
        simp only [Prod.mk.injEq] at h
        rw [← h.2]
        exact k1.andThen (CreateCell_keeps hc)
      · rename_i safety w2 hc
        have k2 : keeps w.db w2.db := k1.andThen (CreateCell_keeps hc)
        split at h
        · simp only [Prod.mk.injEq] at h
          rw [← h.2]
          exact k2
        · split at h
          · simp only [Prod.mk.injEq] at h
            rw [← h.2]
            exact k2
          · split at h
            · simp only [Prod.mk.injEq] at h
              rw [← h.2]
              exact k2
            · rename_i d2 hup
              simp only [Prod.mk.injEq] at h
              rw [← h.2]
              have kd2 : keeps w2.db d2 := by
                split at hup
                · rename_i d3 hu
                  simp only [Except.ok.injEq] at hup
                  rw [← hup]
                  exact UpdateBranchHead_keeps hu
                · split at hup
                  · rename_i d3 hcb
                    simp only [Except.ok.injEq] at hup
                    rw [← hup]
                    exact CreateBranch_keeps hcb
                  · cases hup
                · cases hup
              exact k2.andThen (kd2.andThen (setHeadCellMeta_keeps _ _))


/-- C23: no core operation changes or deletes a stored cell or any of its
manifest rows. For every state, whatever the operation returns, the cells table
afterwards is the table before followed by the new cells, and every stored cell
has the manifest rows it had: so for `insertCell`, `AllocateSequence`,
`CreateBranch`, `UpdateBranchHead`, `SetMeta`, `ReserveAgentRun`,
`FinalizeAgentRun`, `CreateCell`, `CreateCellIfChanged`, `ForkBranch`,
`SwitchBranch` and `RestoreCell`. `UpdateCellEval` and `EvaluateCell` change
nothing but fields of the eval slot, and only in the cell of the id they are
given. -/
theorem cells_immutable (svc : Service) (now : String) (w : World) :
    (∀ cell d1, insertCell w.db cell = .ok d1 → keeps w.db d1) ∧
    (∀ n d1, w.db.AllocateSequence = .ok (n, d1) → keeps w.db d1) ∧
    (∀ name head createdAt d1,
      w.db.CreateBranch now name head createdAt = .ok d1 → keeps w.db d1) ∧
    (∀ name head d1, w.db.UpdateBranchHead name head = .ok d1 → keeps w.db d1) ∧
    (∀ key value, keeps w.db (w.db.SetMeta key value)) ∧
    (∀ run, keeps w.db (w.db.ReserveAgentRun now run).2) ∧
    (∀ runID status cellID branch source runErr d1,
      w.db.FinalizeAgentRun now runID status cellID branch source runErr = .ok d1 →
        keeps w.db d1) ∧
    (∀ opts, keeps w.db (CreateCell svc now opts w).2.db) ∧
    (∀ opts, keeps w.db (CreateCellIfChanged svc now opts w).2.db) ∧
    (∀ name switchNow, keeps w.db (ForkBranch now name switchNow w.db).2) ∧
    (∀ name, keeps w.db (SwitchBranch svc now name w).2.db) ∧
    (∀ targetID, keeps w.db (RestoreCell svc now targetID w).2.db) ∧
    (∀ id a b c e s t, evalAt id w.db (w.db.UpdateCellEval id a b c e s t)) ∧
    (∀ id, evalAt id w.db (EvaluateCell svc w.db w.fs id).2) :=
  ⟨fun _ _ h => (insertCell_keeps h).1,
   fun _ _ h => AllocateSequence_keeps h,
   fun _ _ _ _ h => CreateBranch_keeps h,
   fun _ _ _ h => UpdateBranchHead_keeps h,
   fun key value => SetMeta_keeps w.db key value,
   fun run => ReserveAgentRun_keeps now w.db run,
   fun _ _ _ _ _ _ _ h => FinalizeAgentRun_keeps h,
   fun _ => CreateCell_keeps rfl,
   fun _ => CreateCellIfChanged_keeps rfl,
   fun _ _ => ForkBranch_keeps rfl,
   fun _ => SwitchBranch_keeps rfl,
   fun _ => RestoreCell_keeps rfl,
   fun id a b c e s t => UpdateCellEval_evalAt w.db id a b c e s t,
   fun id => EvaluateCell_evalAt svc w.db w.fs id⟩

set_option maxRecDepth 100000 in
theorem cells_immutable_witness :
    keeps world1.db
      { world1.db with cells := world1.db.cells ++ [plainCell "c_000002" 2 "main"] } ∧
    keeps world1Edited.db
      (CreateCell exampleService "t2" (messageOnly "v2") world1Edited).2.db ∧
    world1Edited.db.cells.map Cell.ID = ["c_000001"] ∧
    (CreateCell exampleService "t2" (messageOnly "v2") world1Edited).2.db.cells.map Cell.ID =
      ["c_000001", "c_000002"] :=
  ⟨(cells_immutable exampleService "t2" world1).1 (plainCell "c_000002" 2 "main") _ (by rfl),
   (cells_immutable exampleService "t2" world1Edited).2.2.2.2.2.2.2.1 (messageOnly "v2"),
   by decide, by decide⟩

end Converge
